import Mathlib

/-!
P2Pool side chain: a shallow embedding of `src/side_chain.cpp`.

The definitions below follow `SideChain` in `side_chain.cpp` function by function.
Unsigned 64-bit quantities are natural numbers and every operation that can wrap
carries an explicit reduction modulo `2^64`.  A function that can fault (division by
zero) or fail to return (a walk along a cyclic parent chain) yields an `Option`.
-/

namespace P2Pool

/-! ## Machine arithmetic -/

/-- Wrapping 64-bit addition `a + b`. -/
def add64 (a b : Nat) : Nat := (a + b) % 2 ^ 64

/-- Wrapping 64-bit subtraction `a - b`. -/
def sub64 (a b : Nat) : Nat := (a + (2 ^ 64 - b % 2 ^ 64)) % 2 ^ 64

/-- Modelled from the spec: `umul128` lives in `common.h`, which is not part of the
sources at hand.  Full 64x64 -> 128 bit product, returned as `(lo, hi)`. -/
def umul128 (a b : Nat) : Nat × Nat := ((a * b) % 2 ^ 64, (a * b) / 2 ^ 64 % 2 ^ 64)

/-- Modelled from the spec: `udiv128` lives in `common.h`, which is not part of the
sources at hand.  Quotient of the 128-bit value `hi:lo` by a non-zero 64-bit divisor,
stored in a 64-bit word.  Callers guard the divisor; a zero divisor is a fault and is
handled at the call site. -/
def udiv128 (hi lo divisor : Nat) : Nat := ((hi * 2 ^ 64 + lo) / divisor) % 2 ^ 64

/-! ## Data model -/

/-- Modelled from the spec: `hash` is declared in `common.h`; an opaque 32-byte identifier
with equality and a total order, the all-zero value being the empty hash. -/
abbrev hash := Nat

/-- Modelled from the spec: the check `hash::empty()` of `common.h`, true for the all-zero
hash only. -/
def hash.empty (h : hash) : Bool := h == 0

/-- Modelled from the spec: `Wallet` is declared in `wallet.h`; an opaque identity with
equality and a total order. -/
abbrev Wallet := Nat

/-- Modelled from the spec: `difficulty_type` is declared in `common.h`; an unsigned
128-bit integer kept as two 64-bit words. -/
structure difficulty_type where
  lo : Nat
  hi : Nat
deriving DecidableEq, Repr

/-- The number a 128-bit difficulty stands for. -/
def difficulty_type.toNat (d : difficulty_type) : Nat := d.hi * 2 ^ 64 + d.lo

/-- Modelled from the spec: the ordering `operator<` of `difficulty_type` (`common.h`), by
high word, then by low word. -/
def difficulty_type.lt (a b : difficulty_type) : Bool :=
  decide (a.hi < b.hi) || (decide (a.hi = b.hi) && decide (a.lo < b.lo))

/-- Modelled from the spec: the 128-bit addition `operator+` of `difficulty_type`
(`common.h`), with carry into the high word. -/
def difficulty_type.add (a b : difficulty_type) : difficulty_type :=
  { lo := (a.lo + b.lo) % 2 ^ 64
    hi := (a.hi + b.hi + (a.lo + b.lo) / 2 ^ 64) % 2 ^ 64 }

/-- One weighted share: `MinerShare` of `side_chain.h`, the wallet pointer replaced by the
wallet it points to. -/
structure MinerShare where
  m_weight : Nat
  m_wallet : Wallet
deriving DecidableEq, Repr

/-! ## `SideChain::split_reward` -/

/-- The loop of `split_reward`: `w` is the running weight, `reward_given` the previous
prefix allocation.  Dividing by a zero `total_weight` is a fault (`none`). -/
def split_reward_loop (reward total_weight : Nat) :
    List MinerShare → Nat → Nat → Option (List Nat)
  | [], _, _ => some []
  | sh :: rest, w, reward_given =>
    let w1 := add64 w sh.m_weight
    let p := umul128 w1 reward
    if total_weight = 0 then none
    else
      let next_value := udiv128 p.2 p.1 total_weight
      match split_reward_loop reward total_weight rest w1 next_value with
      | none => none
      | some rewards => some (sub64 next_value reward_given :: rewards)

/-- The 64-bit `std::accumulate` of the share weights. -/
def total_weight (shares : List MinerShare) : Nat :=
  shares.foldl (fun a b => add64 a b.m_weight) 0

/-- The 64-bit `std::accumulate` of a reward vector. -/
def accumulate64 (rewards : List Nat) : Nat :=
  rewards.foldl (fun a r => add64 a r) 0

/-- `SideChain::split_reward`: the returned flag and the `rewards` vector it leaves behind;
`none` when the division faults. -/
def split_reward (reward : Nat) (shares : List MinerShare) : Option (Bool × List Nat) :=
  match split_reward_loop reward (total_weight shares) shares 0 0 with
  | none => none
  | some rewards => some (decide (accumulate64 rewards = reward), rewards)

/-- Prefix allocation `A(k) = floor((weight_0 + ... + weight_k) * reward / W_total)` of the
specification, with `prefixAlloc reward shares 0 = A(-1) = 0` and
`prefixAlloc reward shares (k+1) = A(k)`. -/
def prefixAlloc (reward : Nat) (shares : List MinerShare) : Nat → Nat
  | 0 => 0
  | k + 1 =>
    (((shares.take (k + 1)).map MinerShare.m_weight).sum * reward) /
      (shares.map MinerShare.m_weight).sum

/-- The reward vector the specification prescribes, started at running weight `w`. -/
def allocs (reward Wt : Nat) : Nat → List MinerShare → List Nat
  | _, [] => []
  | w, sh :: rest =>
    ((w + sh.m_weight) * reward / Wt - w * reward / Wt) ::
      allocs reward Wt (w + sh.m_weight) rest

/-! ## Blocks, configuration and the block store -/

/-- Modelled from the spec: `PoolBlock::TxOutput` is declared in `pool_block.h`; one
`(reward, eph_pubkey)` pair. -/
structure TxOutput where
  m_reward : Nat
  m_ephPublicKey : hash
deriving DecidableEq, Repr

/-- Modelled from the spec: `PoolBlock` is declared in `pool_block.h`; the fields are the
ones `side_chain.cpp` reads and writes. -/
structure PoolBlock where
  m_sidechainId : hash
  m_parent : hash
  m_uncles : List hash
  m_sidechainHeight : Nat
  m_difficulty : difficulty_type
  m_cumulativeDifficulty : difficulty_type
  m_timestamp : Nat
  m_minerWallet : Wallet
  m_txkeySec : hash
  m_outputs : List TxOutput
  m_prevId : hash
  m_txinGenHeight : Nat
  m_verified : Bool
  m_invalid : Bool
  m_depth : Nat
  m_broadcasted : Bool
  m_wantBroadcast : Bool
deriving DecidableEq, Repr

/-- Configuration members of `SideChain` together with the wallet collaborator
`Wallet::get_eph_public_key`, which is external to the side chain. -/
structure Config where
  m_targetBlockTime : Nat
  m_minDifficulty : difficulty_type
  m_chainWindowSize : Nat
  m_unclePenalty : Nat
  get_eph_public_key : Wallet → hash → Nat → hash

/-- The constant `UNCLE_BLOCK_DEPTH`. -/
def UNCLE_BLOCK_DEPTH : Nat := 3

/-- The index `m_blocksById`, kept as the list of stored blocks in insertion order and
searched by `m_sidechainId`. -/
abbrev Store := List PoolBlock

/-- The lookup `m_blocksById.find(id)`. -/
def find (s : Store) (id : hash) : Option PoolBlock :=
  s.find? (fun b => decide (b.m_sidechainId = id))

/-- `SideChain::get_parent` on a non-null block. -/
def get_parent (s : Store) (block : PoolBlock) : Option PoolBlock :=
  find s block.m_parent

/-! ## `SideChain::get_shares` -/

/-- The uncle penalty computed in `get_shares`: `umul128` by `m_unclePenalty`, then
`udiv128` by 100. -/
def uncle_penalty (cfg : Config) (uncle : PoolBlock) : Nat :=
  let product := umul128 uncle.m_difficulty.lo cfg.m_unclePenalty
  udiv128 product.2 product.1 100

/-- The uncle loop of `get_shares` for one visited block: the penalties are added to
`cur_share` and one share per in-window uncle is emitted, in list order.  A missing uncle
makes `get_shares` return false (`none`). -/
def get_shares_uncles (cfg : Config) (s : Store) (tip : PoolBlock) :
    List hash → MinerShare → Option (MinerShare × List MinerShare)
  | [], cur_share => some (cur_share, [])
  | uncle_id :: rest, cur_share =>
    match find s uncle_id with
    | none => none
    | some uncle =>
      if cfg.m_chainWindowSize ≤ sub64 tip.m_sidechainHeight uncle.m_sidechainHeight then
        get_shares_uncles cfg s tip rest cur_share
      else
        let cur_share1 : MinerShare :=
          { cur_share with m_weight := add64 cur_share.m_weight (uncle_penalty cfg uncle) }
        match get_shares_uncles cfg s tip rest cur_share1 with
        | none => none
        | some (cur_share2, shares) =>
          some (cur_share2,
            { m_weight := sub64 uncle.m_difficulty.lo (uncle_penalty cfg uncle)
              m_wallet := uncle.m_minerWallet } :: shares)

/-- The `do ... while` walk of `get_shares`.  The first argument counts the blocks that may
still be visited after `cur` (`m_chainWindowSize - block_depth - 1`); the result lists the
shares in the order in which the source pushes them. -/
def get_shares_walk (cfg : Config) (s : Store) (tip : PoolBlock) :
    Nat → PoolBlock → Option (List MinerShare)
  | n, cur =>
    match get_shares_uncles cfg s tip cur.m_uncles
        { m_weight := cur.m_difficulty.lo, m_wallet := cur.m_minerWallet } with
    | none => none
    | some (cur_share, uncle_shares) =>
      match n with
      | 0 => some (uncle_shares ++ [cur_share])
      | n + 1 =>
        if cur.m_sidechainHeight = 0 then some (uncle_shares ++ [cur_share])
        else
          match find s cur.m_parent with
          | none => none
          | some parent =>
            match get_shares_walk cfg s tip n parent with
            | none => none
            | some shares => some (uncle_shares ++ [cur_share] ++ shares)

/-- The merging loop of `get_shares` over the sorted vector: `acc` is `shares[k]`; a share
with the same wallet is added to it, a different wallet starts the next slot. -/
def combine_shares : MinerShare → List MinerShare → List MinerShare
  | acc, [] => [acc]
  | acc, sh :: rest =>
    if sh.m_wallet = acc.m_wallet then
      combine_shares { acc with m_weight := add64 acc.m_weight sh.m_weight } rest
    else acc :: combine_shares sh rest

/-- The `std::sort` of `get_shares` by wallet.  Shares of one wallet may come out in any
order; the merging loop adds them up, so the result does not depend on it. -/
def sort_shares (shares : List MinerShare) : List MinerShare :=
  shares.insertionSort (fun a b => a.m_wallet ≤ b.m_wallet)

/-- `SideChain::get_shares`: `none` when it returns false, otherwise the merged shares.
The walk always pushes the share of the tip, so the sorted vector is not empty; on an empty
vector `resize(k + 1)` would leave one default-constructed share. -/
def get_shares (cfg : Config) (s : Store) (tip : PoolBlock) : Option (List MinerShare) :=
  match get_shares_walk cfg s tip (cfg.m_chainWindowSize - 1) tip with
  | none => none
  | some shares =>
    match sort_shares shares with
    | [] => some [{ m_weight := 0, m_wallet := 0 }]
    | first :: rest => some (combine_shares first rest)

/-! ## `SideChain::get_difficulty` -/

/-- Modelled from the spec: `DifficultyData` is declared outside `side_chain.cpp`; one
`(timestamp, cumulative_difficulty)` pair. -/
structure DifficultyData where
  m_timestamp : Nat
  m_cumulativeDifficulty : difficulty_type
deriving DecidableEq, Repr

/-- The uncle loop of `get_difficulty` for one visited block: one entry per in-window
uncle; a missing uncle makes `get_difficulty` return false (`none`). -/
def get_difficulty_uncles (cfg : Config) (s : Store) (tip : PoolBlock) :
    List hash → Option (List DifficultyData)
  | [] => some []
  | uncle_id :: rest =>
    match find s uncle_id with
    | none => none
    | some uncle =>
      match get_difficulty_uncles cfg s tip rest with
      | none => none
      | some entries =>
        if sub64 tip.m_sidechainHeight uncle.m_sidechainHeight < cfg.m_chainWindowSize then
          some ({ m_timestamp := uncle.m_timestamp
                  m_cumulativeDifficulty := uncle.m_cumulativeDifficulty } :: entries)
        else some entries

/-- The gathering walk of `get_difficulty`; the first argument counts the blocks that may
still be visited after `cur`. -/
def get_difficulty_walk (cfg : Config) (s : Store) (tip : PoolBlock) :
    Nat → PoolBlock → Option (List DifficultyData)
  | n, cur =>
    match get_difficulty_uncles cfg s tip cur.m_uncles with
    | none => none
    | some uncle_entries =>
      let entries : List DifficultyData :=
        { m_timestamp := cur.m_timestamp
          m_cumulativeDifficulty := cur.m_cumulativeDifficulty } :: uncle_entries
      match n with
      | 0 => some entries
      | n + 1 =>
        if cur.m_sidechainHeight = 0 then some entries
        else
          match find s cur.m_parent with
          | none => none
          | some parent =>
            match get_difficulty_walk cfg s tip n parent with
            | none => none
            | some more => some (entries ++ more)

/-- The value `std::nth_element` leaves at position `k`: the element found there once the
range is sorted. -/
def nth_element (l : List Nat) (k : Nat) : Nat :=
  (l.insertionSort (fun a b => a ≤ b)).getD k 0

/-- The running minimum `oldest_timestamp`, started at the largest 64-bit value. -/
def oldest_timestamp (data : List DifficultyData) : Nat :=
  data.foldl (fun m d => min m d.m_timestamp) (2 ^ 64 - 1)

/-- The pair `(diff1, diff2)` after the filtering loop of `get_difficulty`. -/
def diff_range (timestamp1 timestamp2 : Nat) (data : List DifficultyData) :
    difficulty_type × difficulty_type :=
  data.foldl
    (fun (acc : difficulty_type × difficulty_type) d =>
      if timestamp1 ≤ d.m_timestamp ∧ d.m_timestamp ≤ timestamp2 then
        (if d.m_cumulativeDifficulty.lt acc.1 then d.m_cumulativeDifficulty else acc.1,
         if acc.2.lt d.m_cumulativeDifficulty then d.m_cumulativeDifficulty else acc.2)
      else acc)
    ({ lo := 2 ^ 64 - 1, hi := 2 ^ 64 - 1 }, { lo := 0, hi := 0 })

/-- The two trimming timestamps of `get_difficulty`: the 32-bit offsets from the oldest
timestamp are selected at `index1` and `index2` and added back to it.  The vector is never
empty, so `cut_size` is at least 1 and at most its size and the index computations do not
wrap. -/
def trim_timestamps (data : List DifficultyData) : Nat × Nat :=
  let oldest := oldest_timestamp data
  let tmpTimestamps := data.map (fun d => sub64 d.m_timestamp oldest % 2 ^ 32)
  let cut_size := (data.length + 9) / 10
  let index1 := cut_size - 1
  let index2 := data.length - cut_size
  (add64 oldest (nth_element tmpTimestamps index1),
   add64 oldest (nth_element tmpTimestamps index2))

/-- The end of `get_difficulty`: the product `delta_diff * m_targetBlockTime`, the overflow
guard, the division by `delta_t` and the clamp to `m_minDifficulty`. -/
def retarget (cfg : Config) (delta_diff delta_t : Nat) : Option difficulty_type :=
  let product := umul128 delta_diff cfg.m_targetBlockTime
  if delta_t ≤ product.2 then none
  else
    let curDifficulty : difficulty_type :=
      { lo := udiv128 product.2 product.1 delta_t, hi := 0 }
    if curDifficulty.lt cfg.m_minDifficulty then some cfg.m_minDifficulty
    else some curDifficulty

/-- The part of `get_difficulty` that follows the gathering walk, on the gathered
`difficultyData`. -/
def difficulty_from_data (cfg : Config) (data : List DifficultyData) :
    Option difficulty_type :=
  let t := trim_timestamps data
  let delta_t := if t.1 < t.2 then t.2 - t.1 else 1
  let d := diff_range t.1 t.2 data
  retarget cfg (sub64 d.2.lo d.1.lo) delta_t

/-- `SideChain::get_difficulty`: `none` when it returns false, otherwise `curDifficulty`. -/
def get_difficulty (cfg : Config) (s : Store) (tip : PoolBlock) : Option difficulty_type :=
  match get_difficulty_walk cfg s tip (cfg.m_chainWindowSize - 1) tip with
  | none => none
  | some data => difficulty_from_data cfg data

/-! ## `SideChain::verify` -/

/-- The assignments a return path of `verify` makes to `m_verified` and `m_invalid`;
`none` means the flag is left as it was. -/
structure FlagWrite where
  verified : Option Bool
  invalid : Option Bool
deriving DecidableEq, Repr

/-- Carry out the assignments on a block. -/
def FlagWrite.apply (w : FlagWrite) (block : PoolBlock) : PoolBlock :=
  { block with
    m_verified := w.verified.getD block.m_verified
    m_invalid := w.invalid.getD block.m_invalid }

/-- The path `m_verified = true; m_invalid = true; return`. -/
def write_invalid : FlagWrite := { verified := some true, invalid := some true }

/-- The path `m_verified = false; return`. -/
def write_pending : FlagWrite := { verified := some false, invalid := none }

/-- The uncle order loop of `verify`: every entry is strictly above the one before it. -/
def uncles_ascending : List hash → Bool
  | a :: b :: rest => decide (a < b) && uncles_ascending (b :: rest)
  | _ => true

/-- The loop of `verify` that collects `mined_blocks`: up to `n` blocks starting at `tmp`,
each with its uncles. -/
def mined_blocks_walk (s : Store) : Nat → Option PoolBlock → List hash
  | 0, _ => []
  | _ + 1, none => []
  | n + 1, some tmp =>
    tmp.m_sidechainId :: tmp.m_uncles ++ mined_blocks_walk s n (get_parent s tmp)

/-- The vector `mined_blocks` of `verify`. -/
def mined_blocks (s : Store) (block parent : PoolBlock) : List hash :=
  if block.m_uncles.isEmpty then []
  else mined_blocks_walk s (min UNCLE_BLOCK_DEPTH (add64 block.m_sidechainHeight 1)) (some parent)

/-- The loop `while (tmp->m_sidechainHeight > uncle->m_sidechainHeight) tmp = get_parent(tmp)`.
The outer `none` says that the loop does not return: along a parent chain that never
leaves the store and never comes down to `height`, some block repeats after at most as
many steps as there are stored blocks, so running out of the step budget (the size of the
store) is a true cycle.  The inner `none` is the null pointer of "check 1". -/
def walk_to_height (s : Store) (height : Nat) : Nat → PoolBlock → Option (Option PoolBlock)
  | fuel, tmp =>
    if height < tmp.m_sidechainHeight then
      match fuel with
      | 0 => none
      | fuel + 1 =>
        match get_parent s tmp with
        | none => some none
        | some p => walk_to_height s height fuel p
    else some (some tmp)

/-- The lock-step loop of `verify` that looks for a common parent of `tmp` and `tmp2`. -/
def same_chain (s : Store) (block_height : Nat) :
    Nat → Option PoolBlock → Option PoolBlock → Bool
  | j + 1, some tmp, some tmp2 =>
    if block_height ≤ add64 tmp.m_sidechainHeight UNCLE_BLOCK_DEPTH then
      if tmp.m_parent = tmp2.m_parent then true
      else same_chain s block_height j (get_parent s tmp) (get_parent s tmp2)
    else false
  | _, _, _ => false

/-- What the body of the uncle loop of `verify` decides for one uncle. -/
inductive UncleVerdict where
  | invalid
  | pending
  | ok (d : difficulty_type)
deriving DecidableEq, Repr

/-- The body of the uncle loop of `verify` for `uncle_id`; `ok d` carries the uncle's
difficulty, which the loop adds to `expectedCumulativeDifficulty`. -/
def verify_uncle (s : Store) (block parent : PoolBlock) (mined : List hash)
    (uncle_id : hash) : Option UncleVerdict :=
  if uncle_id.empty then some .invalid
  else if uncle_id ∈ mined then some .invalid
  else
    match find s uncle_id with
    | none => some .pending
    | some uncle =>
      if !uncle.m_verified then some .pending
      else if uncle.m_invalid then some .invalid
      else if block.m_sidechainHeight ≤ uncle.m_sidechainHeight ∨
          add64 uncle.m_sidechainHeight UNCLE_BLOCK_DEPTH < block.m_sidechainHeight then
        some .invalid
      else
        match walk_to_height s uncle.m_sidechainHeight s.length parent with
        | none => none
        | some none => some .invalid
        | some (some tmp) =>
          if tmp.m_sidechainHeight < uncle.m_sidechainHeight then some .invalid
          else if same_chain s block.m_sidechainHeight UNCLE_BLOCK_DEPTH (some tmp) (some uncle)
          then some (.ok uncle.m_difficulty)
          else some .invalid

/-- The uncle loop of `verify`, started with `expectedCumulativeDifficulty = expected`. -/
def verify_uncles (s : Store) (block parent : PoolBlock) (mined : List hash) :
    List hash → difficulty_type → Option UncleVerdict
  | [], expected => some (.ok expected)
  | uncle_id :: rest, expected =>
    match verify_uncle s block parent mined uncle_id with
    | none => none
    | some .invalid => some .invalid
    | some .pending => some .pending
    | some (.ok d) => verify_uncles s block parent mined rest (expected.add d)

/-- The final loop of `verify` over the outputs, from index `i` on: reward and ephemeral
public key of every output are the ones computed from the shares. -/
def check_outputs (cfg : Config) (txkeySec : hash) :
    Nat → List Nat → List MinerShare → List TxOutput → Bool
  | i, r :: rewards, sh :: shares, out :: outputs =>
    if r ≠ out.m_reward then false
    else if cfg.get_eph_public_key sh.m_wallet txkeySec i ≠ out.m_ephPublicKey then false
    else check_outputs cfg txkeySec (i + 1) rewards shares outputs
  | _, _, _, _ => true

/-- The part of `verify` after the uncle loop (`m_verified = true` is already due). -/
def verify_rewards (cfg : Config) (s : Store) (block parent : PoolBlock)
    (expected : difficulty_type) : Option FlagWrite :=
  if block.m_cumulativeDifficulty ≠ expected then some write_invalid
  else if cfg.m_chainWindowSize ≤ block.m_depth then
    some { verified := some true, invalid := some false }
  else
    match get_difficulty cfg s parent with
    | none => some write_invalid
    | some diff =>
      if diff ≠ block.m_difficulty then some write_invalid
      else
        match get_shares cfg s block with
        | none => some write_invalid
        | some shares =>
          if shares.length ≠ block.m_outputs.length then some write_invalid
          else
            let total_reward := accumulate64 (block.m_outputs.map TxOutput.m_reward)
            match split_reward total_reward shares with
            | none => none
            | some (_, rewards) =>
              if rewards.length ≠ block.m_outputs.length then some write_invalid
              else if check_outputs cfg block.m_txkeySec 0 rewards shares block.m_outputs then
                some { verified := some true, invalid := some false }
              else some write_invalid

/-- The part of `verify` that follows a successful parent lookup. -/
def verify_with_parent (cfg : Config) (s : Store) (block parent : PoolBlock) :
    Option FlagWrite :=
  if !parent.m_verified then some write_pending
  else if parent.m_invalid then some write_invalid
  else if block.m_sidechainHeight ≠ add64 parent.m_sidechainHeight 1 then
    some { verified := none, invalid := some true }
  else if !uncles_ascending block.m_uncles then some write_invalid
  else
    match verify_uncles s block parent (mined_blocks s block parent) block.m_uncles
        (parent.m_cumulativeDifficulty.add block.m_difficulty) with
    | none => none
    | some .invalid => some write_invalid
    | some .pending => some write_pending
    | some (.ok expected) => verify_rewards cfg s block parent expected

/-- The flag assignments made by `SideChain::verify(block)`; `none` when the call does not
return (a fault in `split_reward` or an endless ancestor walk). -/
def verify_writes (cfg : Config) (s : Store) (block : PoolBlock) : Option FlagWrite :=
  if block.m_sidechainHeight = 0 then
    if !block.m_parent.empty ∨ !block.m_uncles.isEmpty ∨
        block.m_difficulty ≠ cfg.m_minDifficulty ∨
        block.m_cumulativeDifficulty ≠ cfg.m_minDifficulty then
      some { verified := some true, invalid := some true }
    else some { verified := some true, invalid := none }
  else if (cfg.m_chainWindowSize * 2) % 2 ^ 64 ≤ block.m_depth then
    some { verified := some true, invalid := some false }
  else if block.m_parent.empty then some write_invalid
  else
    match find s block.m_parent with
    | none => some write_pending
    | some parent => verify_with_parent cfg s block parent

/-- `SideChain::verify(block)`: the block as `verify` leaves it. -/
def verify (cfg : Config) (s : Store) (block : PoolBlock) : Option PoolBlock :=
  (verify_writes cfg s block).map (fun w => w.apply block)

/-- Overwrite the two flags of `b` if it is the block `id`. -/
def set_flags_of (id : hash) (verified invalid : Bool) (b : PoolBlock) : PoolBlock :=
  if b.m_sidechainId = id then { b with m_verified := verified, m_invalid := invalid } else b

/-- Overwrite the two flags of the stored block `id`. -/
def set_flags (s : Store) (id : hash) (verified invalid : Bool) : Store :=
  s.map (set_flags_of id verified invalid)

/-- `verify` run on the block stored under `id`, as a transition of the store. -/
def verify_stored (cfg : Config) (s : Store) (id : hash) : Option Store :=
  match find s id with
  | none => some s
  | some block =>
    match verify cfg s block with
    | none => none
    | some block1 => some (set_flags s id block1.m_verified block1.m_invalid)

/-! ## Concrete inputs -/

/-- The constructor defaults of `SideChain` (block time 1, minimum difficulty 1000, window
2160, uncle penalty 20), with a stand-in for the wallet collaborator. -/
def default_config : Config :=
  { m_targetBlockTime := 1
    m_minDifficulty := { lo := 1000, hi := 0 }
    m_chainWindowSize := 2160
    m_unclePenalty := 20
    get_eph_public_key := fun wallet txkeySec i => wallet + txkeySec + i + 1 }

/-- A block with the given identity, links, height, difficulties, timestamp, wallet and
flags; no outputs, depth 0. -/
def mk_block (id parent : hash) (uncles : List hash) (height : Nat)
    (difficulty cumulative : difficulty_type) (timestamp : Nat) (wallet : Wallet)
    (verified invalid : Bool) : PoolBlock :=
  { m_sidechainId := id
    m_parent := parent
    m_uncles := uncles
    m_sidechainHeight := height
    m_difficulty := difficulty
    m_cumulativeDifficulty := cumulative
    m_timestamp := timestamp
    m_minerWallet := wallet
    m_txkeySec := 7
    m_outputs := []
    m_prevId := 0
    m_txinGenHeight := 0
    m_verified := verified
    m_invalid := invalid
    m_depth := 0
    m_broadcasted := false
    m_wantBroadcast := false }

/-- A verified, valid genesis block with id 1. -/
def genesis_block : PoolBlock :=
  mk_block 1 0 [] 0 { lo := 1000, hi := 0 } { lo := 1000, hi := 0 } 100 11 true false

/-- A genesis block as it arrives: the same block, not yet verified. -/
def new_genesis : PoolBlock :=
  mk_block 1 0 [] 0 { lo := 1000, hi := 0 } { lo := 1000, hi := 0 } 100 11 false false

/-- An unverified block on top of the genesis block that claims height 2 instead of 1. -/
def wrong_height_block : PoolBlock :=
  mk_block 2 1 [] 2 { lo := 1000, hi := 0 } { lo := 2000, hi := 0 } 101 12 false false

/-- A block at height 1 whose parent (id 9) is not stored and whose depth has reached twice
the default window. -/
def deep_orphan : PoolBlock :=
  { mk_block 5 9 [] 1 { lo := 1000, hi := 0 } { lo := 2000, hi := 0 } 101 12 false false with
    m_depth := 4320 }

/-- An unverified block on top of the genesis block whose two uncles (ids 9 and 8) are not
stored and are listed in descending order. -/
def unordered_block : PoolBlock :=
  mk_block 6 1 [9, 8] 1 { lo := 1000, hi := 0 } { lo := 2000, hi := 0 } 101 12 false false

/-- A verified, valid block at height 1 on top of the genesis block. -/
def block_1a : PoolBlock :=
  mk_block 2 1 [] 1 { lo := 1000, hi := 0 } { lo := 2000, hi := 0 } 101 12 true false

/-- A verified, valid block on top of the genesis block whose cumulative difficulty is 5000
above it, two seconds later. -/
def steep_block : PoolBlock :=
  mk_block 2 1 [] 1 { lo := 1000, hi := 0 } { lo := 6000, hi := 0 } 102 12 true false

/-- A verified, valid sibling of `block_1a`. -/
def block_1b : PoolBlock :=
  mk_block 3 1 [] 1 { lo := 1000, hi := 0 } { lo := 2000, hi := 0 } 102 13 true false

/-- An unverified block at height 2 on top of `block_1a` that lists `block_1b` as uncle. -/
def block_2 : PoolBlock :=
  mk_block 4 2 [3] 2 { lo := 1000, hi := 0 } { lo := 4000, hi := 0 } 103 14 false false

/-! ## The retarget formula of the specification -/

/-- Largest value of a list (0 for the empty list). -/
def list_max (l : List Nat) : Nat := l.foldl max 0

/-- Smallest value of a list of 128-bit numbers (the largest 128-bit value for the empty
list). -/
def list_min (l : List Nat) : Nat := l.foldl min (2 ^ 128 - 1)

/-- The timestamps `t1` and `t2` of the specification: with `cut = ceil(N / 10)`, the
`(cut - 1)`-th and the `(N - cut)`-th smallest timestamp of the gathered entries. -/
def spec_trim (data : List DifficultyData) : Nat × Nat :=
  let ts := data.map DifficultyData.m_timestamp
  let cut := (data.length + 9) / 10
  (nth_element ts (cut - 1), nth_element ts (data.length - cut))

/-- The time span of the specification, `max(t2 - t1, 1)`. -/
def spec_delta_t (data : List DifficultyData) : Nat :=
  max ((spec_trim data).2 - (spec_trim data).1) 1

/-- The cumulative difficulties of the entries with `t1 ≤ timestamp ≤ t2`. -/
def spec_kept (data : List DifficultyData) : List Nat :=
  (data.filter (fun d =>
    decide ((spec_trim data).1 ≤ d.m_timestamp ∧ d.m_timestamp ≤ (spec_trim data).2))).map
    (fun d => d.m_cumulativeDifficulty.toNat)

/-- The difficulty span of the specification, `diff_max - diff_min` as a full difference. -/
def spec_delta_d (data : List DifficultyData) : Nat :=
  list_max (spec_kept data) - list_min (spec_kept data)

/-- The next difficulty of the specification,
`max(min_difficulty, floor(Δd * target_block_time / Δt))`. -/
def spec_difficulty (cfg : Config) (data : List DifficultyData) : Nat :=
  max cfg.m_minDifficulty.toNat
    (spec_delta_d data * cfg.m_targetBlockTime / spec_delta_t data)

/-- A block on top of the genesis block whose cumulative difficulty is `2^64` above it. -/
def far_block : PoolBlock :=
  mk_block 2 1 [] 1 { lo := 1000, hi := 0 } { lo := 1000, hi := 1 } 110 12 true false

/-- A block on top of the genesis block whose timestamp is `2^32` seconds after it. -/
def late_block : PoolBlock :=
  mk_block 2 1 [] 1 { lo := 1000, hi := 0 } { lo := 1000 + 5000 * 2 ^ 32, hi := 0 }
    (100 + 2 ^ 32) 12 true false

/-! ## The share weights of the specification -/

/-- The blocks visited from `cur` through parents: at most `n + 1` blocks, stopping at the
genesis block (or where the parent is not stored). -/
def visited (s : Store) : Nat → PoolBlock → List PoolBlock
  | 0, cur => [cur]
  | n + 1, cur =>
    if cur.m_sidechainHeight = 0 then [cur]
    else
      match find s cur.m_parent with
      | none => [cur]
      | some parent => cur :: visited s n parent

/-- The stored blocks `u` among the ids `us` with `tip.height - u.height < W`, the
difference being the unsigned 64-bit one. -/
def window_of (cfg : Config) (s : Store) (tip : PoolBlock) (us : List hash) : List PoolBlock :=
  (us.filterMap (find s)).filter
    (fun u => decide (sub64 tip.m_sidechainHeight u.m_sidechainHeight < cfg.m_chainWindowSize))

/-- The in-window uncles of a block `b`. -/
def window_uncles (cfg : Config) (s : Store) (tip b : PoolBlock) : List PoolBlock :=
  window_of cfg s tip b.m_uncles

/-- The uncle penalty of the specification, `floor(u.difficulty.lo * U / 100)`. -/
def spec_penalty (cfg : Config) (u : PoolBlock) : Nat :=
  u.m_difficulty.lo * cfg.m_unclePenalty / 100

/-- The share of an in-window uncle: its difficulty less the penalty, for its miner. -/
def uncle_share (cfg : Config) (u : PoolBlock) : MinerShare :=
  { m_weight := u.m_difficulty.lo - spec_penalty cfg u, m_wallet := u.m_minerWallet }

/-- What one visited block `b` contributes to wallet `w`: its own difficulty plus the
penalties of its in-window uncles if `w` mined `b`, and the remainder of every in-window
uncle of `b` that `w` mined. -/
def spec_block_weight (cfg : Config) (s : Store) (tip : PoolBlock) (w : Wallet)
    (b : PoolBlock) : Nat :=
  (if b.m_minerWallet = w then
      b.m_difficulty.lo + ((window_uncles cfg s tip b).map (spec_penalty cfg)).sum
    else 0) +
  (((window_uncles cfg s tip b).filter (fun u => decide (u.m_minerWallet = w))).map
    (fun u => u.m_difficulty.lo - spec_penalty cfg u)).sum

/-- The weight of wallet `w` according to the specification: the sum of its contributions
over the visited blocks. -/
def spec_weight (cfg : Config) (s : Store) (tip : PoolBlock) (w : Wallet) : Nat :=
  ((visited s (cfg.m_chainWindowSize - 1) tip).map (spec_block_weight cfg s tip w)).sum

/-- Wallet `w` mined a visited block or an in-window uncle of a visited block. -/
def spec_contributes (cfg : Config) (s : Store) (tip : PoolBlock) (w : Wallet) : Bool :=
  (visited s (cfg.m_chainWindowSize - 1) tip).any (fun b =>
    decide (b.m_minerWallet = w) ||
      (window_uncles cfg s tip b).any (fun u => decide (u.m_minerWallet = w)))

/-- Total weight of the entries of a share list that belong to wallet `w`. -/
def wallet_sum (w : Wallet) (l : List MinerShare) : Nat :=
  ((l.filter (fun sh => decide (sh.m_wallet = w))).map MinerShare.m_weight).sum

/-- A block with its mutable members (`m_verified`, `m_invalid`, `m_depth`, `m_broadcasted`,
`m_wantBroadcast`) reset: what is left is fixed when the block is created. -/
def PoolBlock.immutable (b : PoolBlock) : PoolBlock :=
  { b with
    m_verified := false
    m_invalid := false
    m_depth := 0
    m_broadcasted := false
    m_wantBroadcast := false }

/-- A genesis block of difficulty `2^63` mined by wallet 11. -/
def heavy_genesis : PoolBlock :=
  mk_block 1 0 [] 0 { lo := 2 ^ 63, hi := 0 } { lo := 2 ^ 63, hi := 0 } 100 11 true false

/-- A block of difficulty `2^63` on top of `heavy_genesis`, mined by the same wallet. -/
def heavy_block : PoolBlock :=
  mk_block 2 1 [] 1 { lo := 2 ^ 63, hi := 0 } { lo := 0, hi := 1 } 101 11 true false

/-- Two stores hold, under every id, blocks that agree in everything but their mutable
members. -/
def store_agree (s1 s2 : Store) : Prop :=
  ∀ id, (find s1 id).map PoolBlock.immutable = (find s2 id).map PoolBlock.immutable

/-! ## The state of `SideChain` and its collaborators -/

/-- What `side_chain.cpp` asks of `m_pool`: the base-chain headers by hash
(`chainmain_get_by_hash`, giving the height), the height of `miner_data()`, the seed of a
base-chain height (`get_seed`) and the proof-of-work hash of a block under a seed
(`PoolBlock::get_pow_hash` with the pool's hasher).  All of them are external. -/
structure Pool where
  chainmain_get_by_hash : hash → Option Nat
  miner_data_height : Nat
  get_seed : Nat → Option hash
  get_pow_hash : PoolBlock → hash → Option hash

/-- The mutable members of `SideChain`.  Blocks live in `m_blocksById`; a `PoolBlock*` held
elsewhere (`m_chainTip`, the vectors of `m_blocksByHeight`, the work lists) is kept as the
id of the block it points to and is followed by a lookup in `m_blocksById`.  The ordered
map `m_blocksByHeight` is kept as a list of `(height, vector)` entries with distinct keys;
a missing entry and an empty vector are not told apart by any reader. -/
structure SideChain where
  m_blocksById : Store
  m_blocksByHeight : List (Nat × List hash)
  m_chainTip : Option hash
  m_seenBlocks : List hash
  m_curDifficulty : difficulty_type
deriving DecidableEq

/-- The state the constructor leaves: no blocks, no tip, `m_curDifficulty = m_minDifficulty`. -/
def empty_sidechain (cfg : Config) : SideChain :=
  { m_blocksById := []
    m_blocksByHeight := []
    m_chainTip := none
    m_seenBlocks := []
    m_curDifficulty := cfg.m_minDifficulty }

/-- The vector `m_blocksByHeight[height]` (empty when there is no entry). -/
def bucket (m : List (Nat × List hash)) (height : Nat) : List hash :=
  match m.find? (fun e => decide (e.1 = height)) with
  | some e => e.2
  | none => []

/-- The statement `m_blocksByHeight[height].push_back(block)`. -/
def bucket_push (m : List (Nat × List hash)) (height : Nat) (id : hash) :
    List (Nat × List hash) :=
  if m.any (fun e => decide (e.1 = height)) then
    m.map (fun e => if e.1 = height then (e.1, e.2 ++ [id]) else e)
  else m ++ [(height, [id])]

/-- Overwrite `m_depth` of the stored block `id`. -/
def set_depth (s : Store) (id : hash) (depth : Nat) : Store :=
  s.map (fun b => if b.m_sidechainId = id then { b with m_depth := depth } else b)

/-- Set `m_wantBroadcast` of the stored block `id`. -/
def set_want_broadcast (s : Store) (id : hash) : Store :=
  s.map (fun b => if b.m_sidechainId = id then { b with m_wantBroadcast := true } else b)

/-- Set `m_broadcasted` of the stored block `id`. -/
def set_broadcasted (s : Store) (id : hash) : Store :=
  s.map (fun b => if b.m_sidechainId = id then { b with m_broadcasted := true } else b)

/-- The statement `m_blocksById.erase(it2)` for the block `id`. -/
def erase_block (s : Store) (id : hash) : Store :=
  s.filter (fun b => !decide (b.m_sidechainId = id))

/-! ## `SideChain::block_seen` -/

/-- `SideChain::block_seen`: the id is inserted into `m_seenBlocks`; the result is
`!insert(...).second`. -/
def block_seen (sc : SideChain) (block : PoolBlock) : SideChain × Bool :=
  if block.m_sidechainId ∈ sc.m_seenBlocks then (sc, true)
  else ({ sc with m_seenBlocks := block.m_sidechainId :: sc.m_seenBlocks }, false)

/-! ## `SideChain::update_depths` -/

/-- The body of the first loop of `update_depths` for one `child` found `i` heights above
`block`.  Every read goes through the pointer, so the store is consulted again after the
first assignment.  A pointer that leads nowhere is a fault (`none`). -/
def update_depths_child (s : Store) (block_id : hash) (i : Nat) (child_id : hash) :
    Option Store :=
  match find s block_id, find s child_id with
  | some block, some child =>
    let s1 :=
      if child.m_parent = block.m_sidechainId ∧ i = 1 then
        set_depth s block_id (max block.m_depth (add64 child.m_depth 1))
      else s
    match find s1 block_id, find s1 child_id with
    | some block1, some child1 =>
      if block1.m_sidechainId ∈ child1.m_uncles then
        some (set_depth s1 block_id (max block1.m_depth (add64 child1.m_depth i)))
      else some s1
    | _, _ => none
  | _, _ => none

/-- The inner `for (PoolBlock* child : m_blocksByHeight[...])` of `update_depths`. -/
def update_depths_children (s : Store) (block_id : hash) (i : Nat) :
    List hash → Option Store
  | [] => some s
  | child_id :: rest =>
    match update_depths_child s block_id i child_id with
    | none => none
    | some s1 => update_depths_children s1 block_id i rest

/-- The first loop of `update_depths`, `i = 1 .. UNCLE_BLOCK_DEPTH`. -/
def update_depths_init (m : List (Nat × List hash)) (s : Store) (block_id : hash) :
    Option Store :=
  match find s block_id with
  | none => none
  | some block =>
    match update_depths_children s block_id 1 (bucket m (add64 block.m_sidechainHeight 1)) with
    | none => none
    | some s1 =>
      match update_depths_children s1 block_id 2
          (bucket m (add64 block.m_sidechainHeight 2)) with
      | none => none
      | some s2 =>
        update_depths_children s2 block_id 3 (bucket m (add64 block.m_sidechainHeight 3))

/-- The parent part of the body of the work-list loop of `update_depths`: the store and the
work list (top first) after it. -/
def update_depths_parent (s : Store) (block : PoolBlock) (stack : List hash) :
    Store × List hash :=
  match find s block.m_parent with
  | none => (s, stack)
  | some parent =>
    if parent.m_depth < add64 block.m_depth 1 then
      (set_depth s block.m_parent (add64 block.m_depth 1), block.m_parent :: stack)
    else (s, stack)

/-- The uncle part of the body of the work-list loop of `update_depths`, over the remaining
uncle ids; `block->m_depth` is read through the pointer each time. -/
def update_depths_uncles (s : Store) (block_id : hash) :
    List hash → List hash → Option (Store × List hash)
  | [], stack => some (s, stack)
  | uncle_id :: rest, stack =>
    match find s block_id with
    | none => none
    | some block =>
      match find s uncle_id with
      | none => update_depths_uncles s block_id rest stack
      | some uncle =>
        let d := sub64 block.m_sidechainHeight uncle.m_sidechainHeight
        if uncle.m_depth < add64 block.m_depth d then
          update_depths_uncles (set_depth s uncle_id (add64 block.m_depth d)) block_id rest
            (uncle_id :: stack)
        else update_depths_uncles s block_id rest stack

/-- The work-list loop of `update_depths`; the list is the vector `blocks_to_update` with
its back first.  The first argument bounds the number of iterations; `none` when it is
used up or a pointer leads nowhere. -/
def update_depths_loop : Nat → Store → List hash → Option Store
  | _, s, [] => some s
  | 0, _, _ :: _ => none
  | fuel + 1, s, block_id :: stack =>
    match find s block_id with
    | none => none
    | some block =>
      let r := update_depths_parent s block stack
      match update_depths_uncles r.1 block_id block.m_uncles r.2 with
      | none => none
      | some r2 => update_depths_loop fuel r2.1 r2.2

/-- `SideChain::update_depths(block)` as a function of `m_blocksById`. -/
def update_depths (fuel : Nat) (m : List (Nat × List hash)) (s : Store) (block_id : hash) :
    Option Store :=
  match update_depths_init m s block_id with
  | none => none
  | some s1 => update_depths_loop fuel s1 [block_id]

/-! ## `SideChain::is_longer_chain` -/

/-- The lock-step loop `while (block_ancestor && candidate_ancestor)` of `is_longer_chain`:
`some true` when two ancestors with equal `m_parent` are met, `some false` when a pointer
becomes null first.  A run that has not ended after as many steps as there are pairs of
stored blocks repeats a pair and never ends (`none`). -/
def common_parent_walk (s : Store) :
    Nat → Option PoolBlock → Option PoolBlock → Option Bool
  | _, none, _ => some false
  | _, some _, none => some false
  | 0, some _, some _ => none
  | fuel + 1, some block_ancestor, some candidate_ancestor =>
    if block_ancestor.m_parent = candidate_ancestor.m_parent then some true
    else
      common_parent_walk s fuel (get_parent s block_ancestor) (get_parent s candidate_ancestor)

/-- The search for a common ancestor in `is_longer_chain` (the two `while` loops that level
the heights, then the lock-step loop): `some true` when the function returns from inside
the lock-step loop, `some false` when it falls through to the comparison of total
difficulties, `none` when a loop does not end. -/
def same_chain_search (s : Store) (block candidate : PoolBlock) : Option Bool :=
  match walk_to_height s candidate.m_sidechainHeight (s.length + 1) block with
  | none => none
  | some none => some false
  | some (some block_ancestor) =>
    match walk_to_height s block_ancestor.m_sidechainHeight (s.length + 1) candidate with
    | none => none
    | some candidate_ancestor =>
      common_parent_walk s ((s.length + 1) * (s.length + 1)) (some block_ancestor)
        candidate_ancestor

/-- The state of the `for` loop of `is_longer_chain` that adds up the difficulties. -/
structure ChainTotals where
  block_total_diff : difficulty_type
  candidate_total_diff : difficulty_type
  old_chain : Option PoolBlock
  new_chain : Option PoolBlock
  candidate_mainchain_height : Nat
  mainchain_prev_id : hash

/-- One iteration of the `for` loop of `is_longer_chain`. -/
def chain_totals_step (pool : Pool) (s : Store) (t : ChainTotals) : ChainTotals :=
  let t1 : ChainTotals :=
    match t.old_chain with
    | none => t
    | some old_chain =>
      { t with
        block_total_diff := t.block_total_diff.add old_chain.m_difficulty
        old_chain := get_parent s old_chain }
  match t1.new_chain with
  | none => t1
  | some new_chain =>
    let total := t1.candidate_total_diff.add new_chain.m_difficulty
    let resolved :=
      if new_chain.m_prevId ≠ t1.mainchain_prev_id then
        pool.chainmain_get_by_hash new_chain.m_prevId
      else none
    match resolved with
    | some height =>
      { t1 with
        candidate_total_diff := total
        mainchain_prev_id := new_chain.m_prevId
        candidate_mainchain_height := max t1.candidate_mainchain_height height
        new_chain := get_parent s new_chain }
    | none =>
      { t1 with
        candidate_total_diff := total
        new_chain := get_parent s new_chain }

/-- The `for (i = 0; i < m_chainWindowSize && (old_chain || new_chain); ++i)` loop of
`is_longer_chain`, with `n` iterations left. -/
def chain_totals_loop (pool : Pool) (s : Store) : Nat → ChainTotals → ChainTotals
  | 0, t => t
  | n + 1, t =>
    if t.old_chain.isSome || t.new_chain.isSome then
      chain_totals_loop pool s n (chain_totals_step pool s t)
    else t

/-- The end of `is_longer_chain`, taken when the two blocks are "on totally different
chains": total difficulties over the window, then the check that the candidate is built on
recent base-chain blocks. -/
def longer_by_total (cfg : Config) (pool : Pool) (s : Store) (block candidate : PoolBlock) :
    Bool :=
  let t := chain_totals_loop pool s cfg.m_chainWindowSize
    { block_total_diff := { lo := 0, hi := 0 }
      candidate_total_diff := { lo := 0, hi := 0 }
      old_chain := some block
      new_chain := some candidate
      candidate_mainchain_height := 0
      mainchain_prev_id := 0 }
  if !t.block_total_diff.lt t.candidate_total_diff then false
  else if add64 t.candidate_mainchain_height 10 < pool.miner_data_height then false
  else true

/-- `SideChain::is_longer_chain(block, candidate)`; `none` when a loop does not end. -/
def is_longer_chain (cfg : Config) (pool : Pool) (s : Store)
    (block candidate : Option PoolBlock) : Option Bool :=
  match candidate with
  | none => some false
  | some candidate =>
    if !candidate.m_verified || candidate.m_invalid then some false
    else
      match block with
      | none => some true
      | some block =>
        match same_chain_search s block candidate with
        | none => none
        | some true =>
          some (block.m_cumulativeDifficulty.lt candidate.m_cumulativeDifficulty)
        | some false => some (longer_by_total cfg pool s block candidate)

/-! ## `SideChain::prune_old_blocks` -/

/-- The body of the inner loop of `prune_old_blocks` for one pointer of a vector: a block
of depth at least `prune_distance` is erased from `m_blocksById`; a block that is not
found there is passed over. -/
def prune_block (prune_distance : Nat) (s : Store) (id : hash) : Store :=
  match find s id with
  | none => s
  | some block => if block.m_depth < prune_distance then s else erase_block s id

/-- `SideChain::prune_old_blocks`: every entry of `m_blocksByHeight` with key at most
`h = tip.height - prune_distance` is visited and erased.  `none` when `m_targetBlockTime`
is 0 (division fault) or there is no tip to look at. -/
def prune_old_blocks (cfg : Config) (sc : SideChain) : Option SideChain :=
  if cfg.m_targetBlockTime = 0 then none
  else
    let prune_distance := add64 ((cfg.m_chainWindowSize * 2) % 2 ^ 64) (120 / cfg.m_targetBlockTime)
    match sc.m_chainTip with
    | none => none
    | some tip_id =>
      match find sc.m_blocksById tip_id with
      | none => none
      | some tip =>
        if tip.m_sidechainHeight < prune_distance then some sc
        else
          let h := tip.m_sidechainHeight - prune_distance
          let visited := (sc.m_blocksByHeight.filter (fun e => decide (e.1 ≤ h))).flatMap (fun e => e.2)
          some { sc with
            m_blocksById := visited.foldl (prune_block prune_distance) sc.m_blocksById
            m_blocksByHeight := sc.m_blocksByHeight.filter (fun e => !decide (e.1 ≤ h)) }

/-! ## `SideChain::update_chain_tip` -/

/-- `SideChain::update_chain_tip(block)`; `none` when a call inside does not return or a
pointer leads nowhere. -/
def update_chain_tip (cfg : Config) (pool : Pool) (sc : SideChain) (id : hash) :
    Option SideChain :=
  match find sc.m_blocksById id with
  | none => none
  | some block =>
    if !block.m_verified || block.m_invalid then some sc
    else if cfg.m_chainWindowSize ≤ block.m_depth then some sc
    else
      let tip : Option (Option PoolBlock) :=
        match sc.m_chainTip with
        | none => some none
        | some tip_id =>
          match find sc.m_blocksById tip_id with
          | none => none
          | some t => some (some t)
      match tip with
      | none => none
      | some tip =>
        match is_longer_chain cfg pool sc.m_blocksById tip (some block) with
        | none => none
        | some longer =>
          let sc1 : Option SideChain :=
            if longer then
              match get_difficulty cfg sc.m_blocksById block with
              | none => some sc
              | some diff =>
                prune_old_blocks cfg
                  { sc with
                    m_chainTip := some id
                    m_curDifficulty := diff
                    m_blocksById := set_want_broadcast sc.m_blocksById id }
            else some sc
          match sc1 with
          | none => none
          | some sc1 =>
            match find sc1.m_blocksById id with
            | none => none
            | some block1 =>
              if block1.m_wantBroadcast && !block1.m_broadcasted then
                some { sc1 with m_blocksById := set_broadcasted sc1.m_blocksById id }
              else some sc1

/-! ## `SideChain::verify_loop` -/

/-- The blocks `verify_loop` pushes after a block at `height` was found valid: the vectors
of the three next heights, appended in that order. -/
def next_blocks (m : List (Nat × List hash)) (height : Nat) : List hash :=
  bucket m (add64 height 1) ++ bucket m (add64 height 2) ++ bucket m (add64 height 3)

/-- Follow an optional pointer into the store; `none` when it leads nowhere. -/
def deref (s : Store) : Option hash → Option (Option PoolBlock)
  | none => some none
  | some id =>
    match find s id with
    | none => none
    | some b => some (some b)

/-- The `while (!blocks_to_verify.empty())` loop of `verify_loop`; the list is the vector
with its back first, `highest_block` is kept as an id.  The result is the state at the end
of the loop and `highest_block`.  The first argument bounds the number of iterations;
`none` when it is used up, a call inside does not return, or a pointer leads nowhere. -/
def verify_loop_go (cfg : Config) (pool : Pool) :
    Nat → SideChain → List hash → Option hash → Option (SideChain × Option hash)
  | _, sc, [], highest_block => some (sc, highest_block)
  | 0, _, _ :: _, _ => none
  | fuel + 1, sc, id :: stack, highest_block =>
    match find sc.m_blocksById id with
    | none => none
    | some block =>
      if block.m_verified then verify_loop_go cfg pool fuel sc stack highest_block
      else
        match verify cfg sc.m_blocksById block with
        | none => none
        | some block1 =>
          let s1 := set_flags sc.m_blocksById id block1.m_verified block1.m_invalid
          let sc1 : SideChain := { sc with m_blocksById := s1 }
          if !block1.m_verified then verify_loop_go cfg pool fuel sc1 stack highest_block
          else if block1.m_invalid then verify_loop_go cfg pool fuel sc1 stack highest_block
          else
            match deref s1 highest_block with
            | none => none
            | some highest =>
              match is_longer_chain cfg pool s1 highest (some block1) with
              | none => none
              | some longer =>
                let highest1 := if longer then some id else highest_block
                let s2 :=
                  if block1.m_wantBroadcast && !block1.m_broadcasted then set_broadcasted s1 id
                  else s1
                verify_loop_go cfg pool fuel { sc1 with m_blocksById := s2 }
                  ((next_blocks sc.m_blocksByHeight block1.m_sidechainHeight).reverse ++ stack)
                  highest1

/-- `SideChain::verify_loop(block)`. -/
def verify_loop (cfg : Config) (pool : Pool) (fuel : Nat) (sc : SideChain) (id : hash) :
    Option SideChain :=
  match verify_loop_go cfg pool fuel sc [id] none with
  | none => none
  | some (sc1, none) => some sc1
  | some (sc1, some highest_block) => update_chain_tip cfg pool sc1 highest_block

/-! ## `SideChain::add_block` and `SideChain::add_external_block` -/

/-- `SideChain::add_block(block)`.  `fuel` bounds the iterations of each of the two
work-list loops (`update_depths`, `verify_loop`); the call returns the state `sc1` exactly
when some `fuel` gives `some sc1`. -/
def add_block (cfg : Config) (pool : Pool) (fuel : Nat) (sc : SideChain) (block : PoolBlock) :
    Option SideChain :=
  match find sc.m_blocksById block.m_sidechainId with
  | some _ => some sc
  | none =>
    let m := bucket_push sc.m_blocksByHeight block.m_sidechainHeight block.m_sidechainId
    match update_depths fuel m (sc.m_blocksById ++ [block]) block.m_sidechainId with
    | none => none
    | some s1 =>
      let sc1 : SideChain := { sc with m_blocksById := s1, m_blocksByHeight := m }
      if block.m_verified then
        if !block.m_invalid then update_chain_tip cfg pool sc1 block.m_sidechainId
        else some sc1
      else verify_loop cfg pool fuel sc1 block.m_sidechainId

/-- Modelled from the spec: `difficulty_type::check_pow`, "hash_as_256 · difficulty ≤
2^256 − 1". -/
def check_pow (d : difficulty_type) (pow_hash : hash) : Bool :=
  decide (pow_hash * d.toNat ≤ 2 ^ 256 - 1)

/-- The loop of `add_external_block` that finds the least difficulty in the window below
the tip, started at `tmp` with the least value so far; `none` when it does not end. -/
def min_window_diff (cfg : Config) (s : Store) (tip : PoolBlock) :
    Nat → Option PoolBlock → difficulty_type → Option difficulty_type
  | _, none, acc => some acc
  | 0, some _, _ => none
  | fuel + 1, some tmp, acc =>
    if tip.m_sidechainHeight < add64 tmp.m_sidechainHeight cfg.m_chainWindowSize then
      min_window_diff cfg s tip fuel (get_parent s tmp)
        (if tmp.m_difficulty.lt acc then tmp.m_difficulty else acc)
    else some acc

/-- The block of `add_external_block` that computes `min_accepted_diff` before it is
halved: `m_curDifficulty`, lowered to the least difficulty met from the tip down the
window. -/
def window_min_difficulty (cfg : Config) (sc : SideChain) :
    Option PoolBlock → Option difficulty_type
  | none => some sc.m_curDifficulty
  | some tip =>
    min_window_diff cfg sc.m_blocksById tip (sc.m_blocksById.length + 1) (some tip)
      sc.m_curDifficulty

/-- The two statements of `add_external_block` that halve `min_accepted_diff`. -/
def halve (d : difficulty_type) : difficulty_type :=
  { lo := (d.lo / 2 + (d.hi % 2) * 2 ^ 63) % 2 ^ 64, hi := d.hi / 2 }

/-- The ids `add_external_block` reports as missing: the parent, then the uncles, when
non-empty and absent from `m_blocksById`. -/
def missing_of (s : Store) (block : PoolBlock) : List hash :=
  (if !block.m_parent.empty && (find s block.m_parent).isNone then [block.m_parent] else []) ++
    block.m_uncles.filter (fun h => !h.empty && (find s h).isNone)

/-- `SideChain::add_external_block(block, missing_blocks)`: the state, the result and the
contents of `missing_blocks` after the call; `none` when the call does not return. -/
def add_external_block (cfg : Config) (pool : Pool) (fuel : Nat) (sc : SideChain)
    (block : PoolBlock) (missing_blocks : List hash) :
    Option (SideChain × Bool × List hash) :=
  if block.m_difficulty.lt cfg.m_minDifficulty then some (sc, false, missing_blocks)
  else if (find sc.m_blocksById block.m_sidechainId).isSome then some (sc, true, missing_blocks)
  else
    match deref sc.m_blocksById sc.m_chainTip with
    | none => none
    | some tip =>
      match window_min_difficulty cfg sc tip with
      | none => none
      | some least =>
        if block.m_difficulty.lt (halve least) then some (sc, true, missing_blocks)
        else if (match pool.chainmain_get_by_hash block.m_prevId with
            | some height => decide (add64 height 1 ≠ block.m_txinGenHeight)
            | none => false) then some (sc, false, missing_blocks)
        else
          match pool.get_seed block.m_txinGenHeight with
          | none => some (sc, false, missing_blocks)
          | some seed =>
            match pool.get_pow_hash block seed with
            | none => some (sc, false, missing_blocks)
            | some pow_hash =>
              if !check_pow block.m_difficulty pow_hash then some (sc, false, missing_blocks)
              else
                match add_block cfg pool fuel sc block with
                | none => none
                | some sc1 => some (sc1, true, missing_of sc.m_blocksById block)

/-! ## Concrete inputs for `add_block` -/

/-- A pool collaborator that resolves no base-chain block and gives no seed. -/
def idle_pool : Pool :=
  { chainmain_get_by_hash := fun _ => none
    miner_data_height := 0
    get_seed := fun _ => none
    get_pow_hash := fun _ _ => none }

/-- The state after the first block `b` was stored and made the tip. -/
def first_tip (b : PoolBlock) (d : difficulty_type) : SideChain :=
  { m_blocksById := [{ b with m_wantBroadcast := true, m_broadcasted := true }]
    m_blocksByHeight := [(0, [b.m_sidechainId])]
    m_chainTip := some b.m_sidechainId
    m_seenBlocks := []
    m_curDifficulty := d }

/-! ## Chains, as the specification speaks of them -/

/-- The block reached from `b` by following `k` parent links through stored blocks. -/
def nth_parent (s : Store) : Nat → PoolBlock → Option PoolBlock
  | 0, b => some b
  | k + 1, b =>
    match get_parent s b with
    | none => none
    | some p => nth_parent s k p

/-- The chain of a block: the block, its parent, and so on while the parent is stored, up
to `n` blocks. -/
def chain_window (s : Store) : Nat → Option PoolBlock → List PoolBlock
  | 0, _ => []
  | _ + 1, none => []
  | n + 1, some b => b :: chain_window s n (get_parent s b)

/-- The sum of `difficulty` over a list of blocks, as a 128-bit number. -/
def chain_difficulty (blocks : List PoolBlock) : difficulty_type :=
  blocks.foldl (fun acc b => acc.add b.m_difficulty) { lo := 0, hi := 0 }

/-- The highest base-chain height the pool resolves among the `prev_id` anchors of a list
of blocks (0 when none resolves). -/
def highest_anchor (pool : Pool) (blocks : List PoolBlock) : Nat :=
  list_max (blocks.filterMap (fun b => pool.chainmain_get_by_hash b.m_prevId))

/-- A pool collaborator whose base-chain head is at height 100 and which knows the
base-chain blocks with hashes 50 and 95, at the heights 50 and 95. -/
def busy_pool : Pool :=
  { chainmain_get_by_hash := fun h => if h = 50 then some 50 else if h = 95 then some 95 else none
    miner_data_height := 100
    get_seed := fun _ => none
    get_pow_hash := fun _ _ => none }

/-- A verified, valid block that names the genesis block as parent and claims height 0. -/
def flat_child : PoolBlock :=
  mk_block 2 1 [] 0 { lo := 1000, hi := 0 } { lo := 2000, hi := 0 } 101 12 true false

/-- A verified, valid block at height 1 without stored parent, heavier than `block_1a`,
anchored at the base-chain block 50. -/
def stale_rival : PoolBlock :=
  { mk_block 7 9 [] 1 { lo := 5000, hi := 0 } { lo := 6000, hi := 0 } 101 15 true false with
    m_prevId := 50 }

/-- The same block as `stale_rival`, anchored at the base-chain block 95. -/
def fresh_rival : PoolBlock :=
  { mk_block 7 9 [] 1 { lo := 5000, hi := 0 } { lo := 6000, hi := 0 } 101 15 true false with
    m_prevId := 95 }

/-- The invariant of the summing loop of `is_longer_chain`: the anchor resolved last is
accounted for in `candidate_mainchain_height`. -/
def anchor_inv (pool : Pool) (t : ChainTotals) : Prop :=
  ∀ h, pool.chainmain_get_by_hash t.mainchain_prev_id = some h →
    h ≤ t.candidate_mainchain_height

/-! ## Concrete inputs for pruning -/

/-- A configuration accepted by `check_config` with the smallest window: block time 120,
minimum difficulty 1000, window 60, uncle penalty 20.  Its prune distance is 121. -/
def small_config : Config :=
  { m_targetBlockTime := 120
    m_minDifficulty := { lo := 1000, hi := 0 }
    m_chainWindowSize := 60
    m_unclePenalty := 20
    get_eph_public_key := fun wallet txkeySec i => wallet + txkeySec + i + 1 }

/-- The vectors of `m_blocksByHeight` agree with the heights of the stored blocks: a block
found under an id listed at key `k` has height `k`. -/
def buckets_by_height (sc : SideChain) : Prop :=
  ∀ e ∈ sc.m_blocksByHeight, ∀ id ∈ e.2, ∀ b ∈ find sc.m_blocksById id,
    b.m_sidechainHeight = e.1

/-- A state under `small_config`: the genesis block with depth 150, a block at height 1
without descendants, and the tip at height 150. -/
def aged_state : SideChain :=
  { m_blocksById :=
      [{ genesis_block with m_depth := 150 }, block_1b,
        mk_block 9 8 [] 150 { lo := 1000, hi := 0 } { lo := 151000, hi := 0 } 18100 11 true false]
    m_blocksByHeight := [(0, [1]), (1, [3]), (150, [9])]
    m_chainTip := some 9
    m_seenBlocks := []
    m_curDifficulty := { lo := 1000, hi := 0 } }

instance (sc : SideChain) : Decidable (buckets_by_height sc) := by
  unfold buckets_by_height; infer_instance

/-- The two indices agree: every stored block is listed in the vector of
`m_blocksByHeight` keyed by its height and in no other, and every listed id is stored. -/
def indices_consistent (sc : SideChain) : Prop :=
  (∀ b ∈ sc.m_blocksById,
    b.m_sidechainId ∈ bucket sc.m_blocksByHeight b.m_sidechainHeight ∧
    ∀ e ∈ sc.m_blocksByHeight, b.m_sidechainId ∈ e.2 → e.1 = b.m_sidechainHeight) ∧
  ∀ e ∈ sc.m_blocksByHeight, ∀ id ∈ e.2, (find sc.m_blocksById id).isSome = true

instance (sc : SideChain) : Decidable (indices_consistent sc) := by
  unfold indices_consistent; infer_instance

/-- A block handed to `add_block` as verified and valid that names the genesis block as
parent and claims height 200. -/
def leap_block : PoolBlock :=
  mk_block 8 1 [] 200 { lo := 5000, hi := 0 } { lo := 6000, hi := 0 } 24100 16 true false

/-- The state after `genesis_block` and `leap_block` were added under `small_config`. -/
def leap_state : SideChain :=
  { m_blocksById :=
      [{ genesis_block with m_depth := 1, m_wantBroadcast := true, m_broadcasted := true },
        { leap_block with m_wantBroadcast := true, m_broadcasted := true }]
    m_blocksByHeight := [(200, [8])]
    m_chainTip := some 8
    m_seenBlocks := []
    m_curDifficulty := { lo := 1000, hi := 0 } }

/-! ## The changes `add_block` makes to stored blocks -/

/-- One elementary change of `m_blocksById` made after a block was inserted: a depth is
raised (`update_depths`), a broadcast flag is set (`update_chain_tip`, `verify_loop`), a
block is erased (`prune_old_blocks`), or the flags of a block that is not yet verified are
written by `verify` (`verify_loop`). -/
inductive StoreStep (cfg : Config) : Store → Store → Prop
  | depth (s : Store) (id : hash) (d : Nat) (b : PoolBlock) :
      find s id = some b → b.m_depth ≤ d → StoreStep cfg s (set_depth s id d)
  | want (s : Store) (id : hash) : StoreStep cfg s (set_want_broadcast s id)
  | broadcasted (s : Store) (id : hash) : StoreStep cfg s (set_broadcasted s id)
  | erase (s : Store) (id : hash) : StoreStep cfg s (erase_block s id)
  | verify (s : Store) (id : hash) (b b1 : PoolBlock) :
      find s id = some b → b.m_verified = false → verify cfg s b = some b1 →
      StoreStep cfg s (set_flags s id b1.m_verified b1.m_invalid)

/-- A sequence of elementary changes. -/
def Mutates (cfg : Config) : Store → Store → Prop :=
  Relation.ReflTransGen (StoreStep cfg)

/-- The block `y` is a later version of the block `x`: the same block, no less deep, and if
`x` was verified then `y` is verified with the same `m_invalid`. -/
def block_le (x y : PoolBlock) : Prop :=
  x.immutable = y.immutable ∧ x.m_depth ≤ y.m_depth ∧
    (x.m_verified = true → y.m_verified = true ∧ y.m_invalid = x.m_invalid)

/-- Every block of `s1` is a later version of the block `s` holds under the same id. -/
def store_le (s s1 : Store) : Prop :=
  ∀ id y, find s1 id = some y → ∃ x, find s id = some x ∧ block_le x y

/-- One call that adds a block: `add_block`, or `add_external_block` with any contents of
`missing_blocks`, that returns. -/
def Step (cfg : Config) (pool : Pool) (sc sc1 : SideChain) : Prop :=
  (∃ fuel block, add_block cfg pool fuel sc block = some sc1) ∨
  (∃ fuel block missing result missing1,
    add_external_block cfg pool fuel sc block missing = some (sc1, result, missing1))

/-- The states reachable from the state the constructor leaves through calls of
`add_block` and `add_external_block`. -/
def Reachable (cfg : Config) (pool : Pool) (sc : SideChain) : Prop :=
  Relation.ReflTransGen (Step cfg pool) (empty_sidechain cfg) sc

/-! ## The cumulative difficulty identity -/

/-- The sum `acc + Σ difficulty` over the blocks a lookup gives for the ids of an uncle
list, as a 128-bit number; `none` when an id is not found. -/
def uncle_sum (look : hash → Option PoolBlock) :
    List hash → difficulty_type → Option difficulty_type
  | [], acc => some acc
  | u :: rest, acc =>
    match look u with
    | none => none
    | some uncle => uncle_sum look rest (acc.add uncle.m_difficulty)

/-- The identity `cumulative_difficulty = parent.cumulative_difficulty + difficulty +
Σ uncle difficulty` (128-bit sums) for a block whose parent and uncles the lookup gives. -/
def cumulative_identity (look : hash → Option PoolBlock) (b : PoolBlock) : Prop :=
  ∃ parent, look b.m_parent = some parent ∧
    uncle_sum look b.m_uncles (parent.m_cumulativeDifficulty.add b.m_difficulty) =
      some b.m_cumulativeDifficulty

instance (look : hash → Option PoolBlock) (b : PoolBlock) :
    Decidable (cumulative_identity look b) :=
  match h : look b.m_parent with
  | none => isFalse (fun ⟨p, hp, _⟩ => by rw [h] at hp; cases hp)
  | some parent =>
    if h2 : uncle_sum look b.m_uncles (parent.m_cumulativeDifficulty.add b.m_difficulty) =
        some b.m_cumulativeDifficulty then isTrue ⟨parent, h, h2⟩
    else isFalse (fun ⟨p, hp, hs⟩ => by rw [h] at hp; cases hp; exact h2 hs)

/-- A block as it is handed to `add_block` when ids stand for contents: its contents are
the ones `content` gives for its id, and if it is handed over as verified and is not of
height 0 it satisfies the cumulative difficulty identity. -/
def arrives (content : hash → PoolBlock) (b : PoolBlock) : Prop :=
  b.immutable = (content b.m_sidechainId).immutable ∧
    (b.m_verified = true → b.m_sidechainHeight ≠ 0 →
      cumulative_identity (fun id => some (content id)) b)

instance (content : hash → PoolBlock) (b : PoolBlock) : Decidable (arrives content b) := by
  unfold arrives; infer_instance

/-- One call that adds a block that `arrives`. -/
def SoundStep (cfg : Config) (pool : Pool) (content : hash → PoolBlock)
    (sc sc1 : SideChain) : Prop :=
  ∃ fuel block, arrives content block ∧
    (add_block cfg pool fuel sc block = some sc1 ∨
      ∃ missing result missing1,
        add_external_block cfg pool fuel sc block missing = some (sc1, result, missing1))

/-- Every stored block has the contents `content` gives for its id, and those that are
verified, valid, of non-zero height and less deep than `m_chainWindowSize * 2` satisfy the
cumulative difficulty identity. -/
def store_sound (cfg : Config) (content : hash → PoolBlock) (s : Store) : Prop :=
  ∀ id b, find s id = some b →
    b.immutable = (content id).immutable ∧
    (b.m_verified = true → b.m_invalid = false → b.m_sidechainHeight ≠ 0 →
      b.m_depth < (cfg.m_chainWindowSize * 2) % 2 ^ 64 →
      cumulative_identity (fun id => some (content id)) b)

/-! ## Concrete inputs: blocks that arrive unverified -/

/-- An unverified block on top of the genesis block with the two outputs `verify` computes
for it under `default_config` (total reward 100). -/
def paid_block : PoolBlock :=
  { mk_block 2 1 [] 1 { lo := 1000, hi := 0 } { lo := 2000, hi := 0 } 101 12 false false with
    m_outputs := [⟨50, 19⟩, ⟨50, 21⟩] }

/-- The ids 1 and 2 stand for `new_genesis` and `paid_block`. -/
def paid_content (id : hash) : PoolBlock :=
  if id = 2 then paid_block else new_genesis

/-- The state after `new_genesis` and `paid_block` were added under `default_config`. -/
def paid_state : SideChain :=
  { m_blocksById :=
      [{ new_genesis with
          m_verified := true, m_depth := 1, m_wantBroadcast := true, m_broadcasted := true },
        { paid_block with
          m_verified := true, m_wantBroadcast := true, m_broadcasted := true }]
    m_blocksByHeight := [(0, [1]), (1, [2])]
    m_chainTip := some 2
    m_seenBlocks := []
    m_curDifficulty := { lo := 1000, hi := 0 } }

/-- The block `block_2` with the four outputs `verify` computes for it under
`default_config` (total reward 4000). -/
def paid_block_2 : PoolBlock :=
  { block_2 with m_outputs := [⟨1000, 19⟩, ⟨1000, 21⟩, ⟨800, 23⟩, ⟨1200, 25⟩] }

/-- An unverified block at height 2 whose parent (id 20) arrives later and which lists the
genesis block twice as uncle. -/
def deep_child : PoolBlock :=
  mk_block 21 20 [1, 1] 2 { lo := 1000, hi := 0 } { lo := 3000, hi := 0 } 102 13 false false

/-- An unverified block that claims height 202 and lists `deep_child` as uncle. -/
def deep_anchor : PoolBlock :=
  mk_block 22 99 [21] 202 { lo := 1000, hi := 0 } { lo := 4000, hi := 0 } 103 14 false false

/-- An unverified block on top of the genesis block, the parent of `deep_child`, whose
cumulative difficulty is 777000 instead of 2000. -/
def forged_block : PoolBlock :=
  mk_block 20 1 [] 1 { lo := 1000, hi := 0 } { lo := 777000, hi := 0 } 101 12 false false

/-- The state after `new_genesis` was added under `small_config`. -/
def forged_state_1 : SideChain :=
  first_tip { new_genesis with m_verified := true } { lo := 1000, hi := 0 }

/-- The state after `deep_child` was added to `forged_state_1`. -/
def forged_state_2 : SideChain :=
  { m_blocksById :=
      [{ new_genesis with
          m_verified := true, m_depth := 2, m_wantBroadcast := true, m_broadcasted := true },
        deep_child]
    m_blocksByHeight := [(0, [1]), (2, [21])]
    m_chainTip := some 1
    m_seenBlocks := []
    m_curDifficulty := { lo := 1000, hi := 0 } }

/-- The state after `deep_anchor` was added to `forged_state_2`. -/
def forged_state_3 : SideChain :=
  { m_blocksById :=
      [{ new_genesis with
          m_verified := true, m_depth := 202, m_wantBroadcast := true, m_broadcasted := true },
        { deep_child with m_depth := 200 }, deep_anchor]
    m_blocksByHeight := [(0, [1]), (2, [21]), (202, [22])]
    m_chainTip := some 1
    m_seenBlocks := []
    m_curDifficulty := { lo := 1000, hi := 0 } }

/-- The state after `forged_block` was added to `forged_state_3`. -/
def forged_state : SideChain :=
  { m_blocksById :=
      [{ new_genesis with
          m_verified := true, m_depth := 202, m_wantBroadcast := true, m_broadcasted := true },
        { deep_child with m_verified := true, m_depth := 200 }, deep_anchor,
        { forged_block with m_verified := true, m_depth := 201 }]
    m_blocksByHeight := [(0, [1]), (2, [21]), (202, [22]), (1, [20])]
    m_chainTip := some 1
    m_seenBlocks := []
    m_curDifficulty := { lo := 1000, hi := 0 } }

/-! ## The missing dependencies, as the specification lists them -/

/-- The referenced ids of a block, parent first, that are non-empty and absent from a
store. -/
def spec_missing (s : Store) (block : PoolBlock) : List hash :=
  (block.m_parent :: block.m_uncles).filter (fun h => decide (h ≠ 0 ∧ find s h = none))

/-- A pool collaborator that knows the base-chain block 50 at height 50, gives the seed 1
for every height and the hash 5 as proof of work of every block. -/
def easy_pool : Pool :=
  { chainmain_get_by_hash := fun h => if h = 50 then some 50 else none
    miner_data_height := 51
    get_seed := fun _ => some 1
    get_pow_hash := fun _ _ => some 5 }

/-- A pool collaborator like `easy_pool` whose proof-of-work hashes are `2^255`. -/
def hard_pool : Pool :=
  { chainmain_get_by_hash := fun h => if h = 50 then some 50 else none
    miner_data_height := 51
    get_seed := fun _ => some 1
    get_pow_hash := fun _ _ => some (2 ^ 255) }

/-- A block of height 5 whose parent 77 and uncle 88 are not stored, and that lists the
genesis block and the empty hash as uncles too. -/
def orphan_block : PoolBlock :=
  mk_block 9 77 [1, 0, 88] 5 { lo := 1000, hi := 0 } { lo := 6000, hi := 0 } 0 12 false false

/-- The state after `orphan_block` was added to the state that holds the genesis block. -/
def orphan_state : SideChain :=
  { m_blocksById :=
      [{ genesis_block with m_wantBroadcast := true, m_broadcasted := true, m_depth := 5 },
        orphan_block]
    m_blocksByHeight := [(0, [1]), (5, [9])]
    m_chainTip := some 1
    m_seenBlocks := []
    m_curDifficulty := { lo := 1000, hi := 0 } }

/-! ## `check_config` -/

/-- The constant `MIN_DIFFICULTY`. -/
def MIN_DIFFICULTY : Nat := 1000

/-- `SideChain::check_config`, with the strings `m_poolName` and `m_poolPassword` given as
their lists of characters; the log lines are left out. -/
def check_config (m_poolName m_poolPassword : List Nat) (cfg : Config) : Bool :=
  if m_poolName.isEmpty then false
  else if m_poolName.length > 128 then false
  else if m_poolPassword.length > 128 then false
  else if cfg.m_targetBlockTime < 1 || cfg.m_targetBlockTime > 120 then false
  else
    let min_diff : difficulty_type := { lo := MIN_DIFFICULTY, hi := 0 }
    let max_diff : difficulty_type := { lo := 1000000000, hi := 0 }
    if cfg.m_minDifficulty.lt min_diff || max_diff.lt cfg.m_minDifficulty then false
    else if cfg.m_chainWindowSize < 60 || cfg.m_chainWindowSize > 2160 then false
    else if cfg.m_unclePenalty < 1 || cfg.m_unclePenalty > 99 then false
    else true

/-- The characters of the string "default", the pool name the constructor sets. -/
def default_pool_name : List Nat := [100, 101, 102, 97, 117, 108, 116]

/-- The empty string, the pool password the constructor leaves. -/
def default_pool_password : List Nat := []

/-! ## The common-ancestor test, as the specification describes it -/

/-- The test of an uncle against the parent of a block: walking back from the parent there
is a block `tmp` at the height of the uncle, and within `UNCLE_BLOCK_DEPTH` lock-step
moves to the parents of `tmp` and of the uncle the two blocks reached name the same
parent. -/
def common_ancestor_test (s : Store) (parent uncle : PoolBlock) : Prop :=
  ∃ k tmp, nth_parent s k parent = some tmp ∧
    tmp.m_sidechainHeight = uncle.m_sidechainHeight ∧
    ∃ j, j < UNCLE_BLOCK_DEPTH ∧ ∃ a b, nth_parent s j tmp = some a ∧
      nth_parent s j uncle = some b ∧ a.m_parent = b.m_parent

/-! ## `SideChain::get_outputs_blob` -/

/-- Modelled from the spec: the constant `TXOUT_TO_KEY`, declared outside `side_chain.cpp`,
"the byte 0x02". -/
def TXOUT_TO_KEY : Nat := 2

/-- The output loop of `get_outputs_blob` from index `i` on, with the blob and the outputs
written so far.  `writeVarint` gives the bytes that the helper of that name appends for a
number and `hash_bytes` the `HASH_SIZE` bytes of a hash; both are declared outside
`side_chain.cpp`. -/
def outputs_loop (cfg : Config) (writeVarint : Nat → List Nat) (hash_bytes : hash → List Nat)
    (txkeySec : hash) :
    Nat → List Nat → List MinerShare → List Nat → List TxOutput → List Nat × List TxOutput
  | i, r :: rewards, sh :: shares, blob, outputs =>
    let eph_public_key := cfg.get_eph_public_key sh.m_wallet txkeySec i
    outputs_loop cfg writeVarint hash_bytes txkeySec (i + 1) rewards shares
      (blob ++ writeVarint r ++ [TXOUT_TO_KEY] ++ hash_bytes eph_public_key)
      (outputs ++ [{ m_reward := r, m_ephPublicKey := eph_public_key }])
  | _, _, _, blob, outputs => (blob, outputs)

/-- `SideChain::get_outputs_blob(block, total_reward, blob)`: the returned flag, the block
and the blob as the call leaves them; `none` when the division in `split_reward` faults. -/
def get_outputs_blob (cfg : Config) (writeVarint : Nat → List Nat)
    (hash_bytes : hash → List Nat) (s : Store) (block : PoolBlock) (total_reward : Nat)
    (blob : List Nat) : Option (Bool × PoolBlock × List Nat) :=
  match get_shares cfg s block with
  | none => some (false, block, blob)
  | some shares =>
    match split_reward total_reward shares with
    | none => none
    | some (ok, rewards) =>
      if !ok || rewards.length ≠ shares.length then some (false, block, blob)
      else
        let n := shares.length
        let r := outputs_loop cfg writeVarint hash_bytes block.m_txkeySec 0 rewards shares
          (writeVarint n) []
        some (true, { block with m_outputs := r.2 }, r.1)

/-- The outputs the specification asks for: reward `i` of the split for share `i`, with
the ephemeral public key derived from the wallet of share `i`, the block's transaction key
and the index. -/
def spec_outputs (cfg : Config) (txkeySec : hash) :
    Nat → List Nat → List MinerShare → List TxOutput
  | i, r :: rewards, sh :: shares =>
    { m_reward := r, m_ephPublicKey := cfg.get_eph_public_key sh.m_wallet txkeySec i } ::
      spec_outputs cfg txkeySec (i + 1) rewards shares
  | _, _, _ => []

/-- A genesis block of difficulty `2^63` mined by wallet 1. -/
def wrap_genesis : PoolBlock :=
  mk_block 1 0 [] 0 { lo := 2 ^ 63, hi := 0 } { lo := 2 ^ 63, hi := 0 } 100 1 true false

/-- A block of difficulty `2^63 + 1` on top of `wrap_genesis`, mined by wallet 2. -/
def wrap_block : PoolBlock :=
  mk_block 2 1 [] 1 { lo := 2 ^ 63 + 1, hi := 0 } { lo := 1, hi := 1 } 101 2 false false

/-- A stand-in for `writeVarint`: one byte below 128, else two. -/
def toy_varint (n : Nat) : List Nat :=
  if n < 128 then [n] else [n % 128 + 128, n / 128 % 128]

/-- A stand-in for the bytes of a hash: the single byte of a small number. -/
def toy_hash_bytes (h : hash) : List Nat := [h % 256]

/-! ## Changes of the store that erase nothing -/

/-- One elementary change of `m_blocksById` other than an erasure: a depth is raised, one
of the two broadcast flags is set, or `verify` is run on a block that is not yet verified
and its two flags are written back. -/
inductive TouchStep (cfg : Config) : Store → Store → Prop
  | depth (s : Store) (id : hash) (d : Nat) (b : PoolBlock) :
      find s id = some b → b.m_depth ≤ d → TouchStep cfg s (set_depth s id d)
  | want (s : Store) (id : hash) : TouchStep cfg s (set_want_broadcast s id)
  | broadcasted (s : Store) (id : hash) : TouchStep cfg s (set_broadcasted s id)
  | verify (s : Store) (id : hash) (b b1 : PoolBlock) :
      find s id = some b → b.m_verified = false → verify cfg s b = some b1 →
      TouchStep cfg s (set_flags s id b1.m_verified b1.m_invalid)

/-- A sequence of elementary changes none of which erases a block. -/
def Touches (cfg : Config) : Store → Store → Prop :=
  Relation.ReflTransGen (TouchStep cfg)

/-- The prune distance `m_chainWindowSize * 2 + 120 / m_targetBlockTime` of
`prune_old_blocks`, in 64-bit arithmetic. -/
def prune_distance (cfg : Config) : Nat :=
  add64 ((cfg.m_chainWindowSize * 2) % 2 ^ 64) (120 / cfg.m_targetBlockTime)

/-- The chain tip of a state is unset, or it is a stored block that is verified and not
invalid. -/
def tip_ok (sc : SideChain) : Prop :=
  ∀ id, sc.m_chainTip = some id →
    ∃ b, find sc.m_blocksById id = some b ∧ b.m_verified = true ∧ b.m_invalid = false

/-- A sibling of `paid_block`: a block on top of the genesis block with the same difficulty
and cumulative difficulty, by another miner, with the outputs `verify` computes for it. -/
def paid_sibling : PoolBlock :=
  { mk_block 3 1 [] 1 { lo := 1000, hi := 0 } { lo := 2000, hi := 0 } 101 13 false false with
    m_outputs := [⟨50, 19⟩, ⟨50, 22⟩] }

/-- The state after `new_genesis`, `paid_block`, `paid_sibling` were added in this order
under `default_config`. -/
def sibling_state_a : SideChain :=
  { m_blocksById :=
      [{ new_genesis with
          m_verified := true, m_depth := 1, m_wantBroadcast := true, m_broadcasted := true },
        { paid_block with
          m_verified := true, m_wantBroadcast := true, m_broadcasted := true },
        { paid_sibling with m_verified := true }]
    m_blocksByHeight := [(0, [1]), (1, [2, 3])]
    m_chainTip := some 2
    m_seenBlocks := []
    m_curDifficulty := { lo := 1000, hi := 0 } }

/-- The same-chain test of `fill_sidechain_data` for a candidate `uncle` (the
`do ... while (0)` block): the walk from the tip down to the height of the uncle, then the
lock-step loop.  `none` when the walk does not end. -/
def fill_same_chain (s : Store) (block_height : Nat) (tip uncle : PoolBlock) : Option Bool :=
  match walk_to_height s uncle.m_sidechainHeight s.length tip with
  | none => none
  | some none => some false
  | some (some tmp) =>
    if tmp.m_sidechainHeight < uncle.m_sidechainHeight then some false
    else some (same_chain s block_height UNCLE_BLOCK_DEPTH (some tmp) (some uncle))

/-- The body of the inner loop of `fill_sidechain_data` for one pointer of a vector of
`m_blocksByHeight`: `block.m_uncles` after it.  A pointer that leads nowhere is a fault
(`none`). -/
def fill_candidate (s : Store) (block_height : Nat) (tip : PoolBlock) (mined : List hash)
    (uncles : List hash) (uncle_id : hash) : Option (List hash) :=
  match find s uncle_id with
  | none => none
  | some uncle =>
    if !uncle.m_verified || uncle.m_invalid then some uncles
    else if uncle.m_sidechainId ∈ mined then some uncles
    else
      match fill_same_chain s block_height tip uncle with
      | none => none
      | some true => some (uncles ++ [uncle.m_sidechainId])
      | some false => some uncles

/-- The inner loop of `fill_sidechain_data` over one vector of `m_blocksByHeight`. -/
def fill_bucket (s : Store) (block_height : Nat) (tip : PoolBlock) (mined : List hash) :
    List hash → List hash → Option (List hash)
  | [], uncles => some uncles
  | uncle_id :: rest, uncles =>
    match fill_candidate s block_height tip mined uncles uncle_id with
    | none => none
    | some uncles1 => fill_bucket s block_height tip mined rest uncles1

/-- The outer loop of `fill_sidechain_data` over the heights `tip.height - i`, for the
values of `i` that are left. -/
def fill_heights (m : List (Nat × List hash)) (s : Store) (block_height : Nat)
    (tip : PoolBlock) (mined : List hash) : List Nat → List hash → Option (List hash)
  | [], uncles => some uncles
  | i :: rest, uncles =>
    match fill_bucket s block_height tip mined
        (bucket m (sub64 tip.m_sidechainHeight i)) uncles with
    | none => none
    | some uncles1 => fill_heights m s block_height tip mined rest uncles1

/-- The algorithm `std::unique` on a vector of hashes: of each run of equal neighbours the
first is kept. -/
def unique : List hash → List hash
  | a :: b :: rest => if a = b then unique (b :: rest) else a :: unique (b :: rest)
  | l => l

/-- The statement "sort uncles and remove duplicates" of `fill_sidechain_data`. -/
def sort_unique (uncles : List hash) : List hash :=
  if uncles.length > 1 then unique (uncles.insertionSort (fun a b => a ≤ b)) else uncles

/-- The last loop of `fill_sidechain_data`: the difficulty of every uncle that is found is
added to the cumulative difficulty; an uncle that is not found is passed over. -/
def fill_cumulative (s : Store) : List hash → difficulty_type → difficulty_type
  | [], acc => acc
  | uncle_id :: rest, acc =>
    match find s uncle_id with
    | none => fill_cumulative s rest acc
    | some uncle => fill_cumulative s rest (acc.add uncle.m_difficulty)

/-- `SideChain::fill_sidechain_data(block, w, txkeySec, shares)`: the block as the call
leaves it and what `get_shares` gives for it (`none` when `get_shares` returns false).
The array `parent_blocks` is filled and never read.  `m_blocksByHeight[...]` is read
through `bucket`: an entry that is absent and an empty vector are not told apart.  The
outer `none` is a call that does not return or follows a pointer that leads nowhere. -/
def fill_sidechain_data (cfg : Config) (sc : SideChain) (block : PoolBlock) (w : Wallet)
    (txkeySec : hash) : Option (PoolBlock × Option (List MinerShare)) :=
  let block0 : PoolBlock :=
    { block with m_minerWallet := w, m_txkeySec := txkeySec, m_uncles := [] }
  match sc.m_chainTip with
  | none =>
    let block1 : PoolBlock :=
      { block0 with
        m_parent := 0
        m_sidechainHeight := 0
        m_difficulty := cfg.m_minDifficulty
        m_cumulativeDifficulty := cfg.m_minDifficulty }
    some (block1, get_shares cfg sc.m_blocksById block1)
  | some tip_id =>
    match find sc.m_blocksById tip_id with
    | none => none
    | some tip =>
      let height := add64 tip.m_sidechainHeight 1
      let n := min UNCLE_BLOCK_DEPTH (add64 tip.m_sidechainHeight 1)
      let mined := mined_blocks_walk sc.m_blocksById n (some tip)
      match fill_heights sc.m_blocksByHeight sc.m_blocksById height tip mined
          (List.range n) [] with
      | none => none
      | some uncles =>
        let uncles1 := sort_unique uncles
        let block1 : PoolBlock :=
          { block0 with
            m_parent := tip.m_sidechainId
            m_sidechainHeight := height
            m_uncles := uncles1
            m_difficulty := sc.m_curDifficulty
            m_cumulativeDifficulty :=
              fill_cumulative sc.m_blocksById uncles1
                (tip.m_cumulativeDifficulty.add sc.m_curDifficulty) }
        some (block1, get_shares cfg sc.m_blocksById block1)

/-- Every id listed in a vector of `m_blocksByHeight` is the id of a stored block whose
height is the key of the vector. -/
def listed_stored (sc : SideChain) : Prop :=
  ∀ e ∈ sc.m_blocksByHeight, ∀ id ∈ e.2,
    (find sc.m_blocksById id).map PoolBlock.m_sidechainHeight = some e.1

instance (sc : SideChain) : Decidable (listed_stored sc) := by
  unfold listed_stored; infer_instance

/-- Heights fall along the chain of `tip`: every stored parent met on the way back from
`tip` is lower than its child. -/
def chain_descending (s : Store) (tip : PoolBlock) : Prop :=
  ∀ k c p, nth_parent s k tip = some c → get_parent s c = some p →
    p.m_sidechainHeight < c.m_sidechainHeight

/-- What `fill_sidechain_data` asks of an uncle `u`: a stored block that is verified and
not invalid, at a height from `low` to `high`, not among the mined blocks, that passes the
same-chain test against the tip. -/
def eligible_uncle (s : Store) (tip : PoolBlock) (mined : List hash) (low high : Nat)
    (u : hash) : Prop :=
  ∃ uncle, find s u = some uncle ∧ uncle.m_verified = true ∧ uncle.m_invalid = false ∧
    low ≤ uncle.m_sidechainHeight ∧ uncle.m_sidechainHeight ≤ high ∧ u ∉ mined ∧
    common_ancestor_test s tip uncle

/-! ## The selection indices of `get_difficulty` -/

/-- The 64-bit `cut_size = (difficultyData.size() + 9) / 10` of `get_difficulty`. -/
def cut_size (size : Nat) : Nat := add64 size 9 / 10

/-- The 64-bit `index1 = cut_size - 1` of `get_difficulty`. -/
def index1 (size : Nat) : Nat := sub64 (cut_size size) 1

/-- The 64-bit `index2 = difficultyData.size() - cut_size` of `get_difficulty`. -/
def index2 (size : Nat) : Nat := sub64 size (cut_size size)


/-! ## Inputs for the overflow guard of `get_difficulty` -/

/-- A block on top of the genesis block, 10 seconds later, whose cumulative difficulty is
`2^63` above it. -/
def sharp_block : PoolBlock :=
  mk_block 2 1 [] 1 { lo := 1000, hi := 0 } { lo := 1000 + 2 ^ 63, hi := 0 } 110 12 true false

/-- A block on top of the genesis block, 10 seconds later, whose cumulative difficulty is
`2^126` above it. -/
def vast_block : PoolBlock :=
  mk_block 2 1 [] 1 { lo := 1000, hi := 0 } { lo := 1000, hi := 2 ^ 62 } 110 12 true false


/-! ## Inputs for `prune_old_blocks`: a block of depth exactly `2·W` -/

/-- A block at height 120 whose parent is not stored and which lists the genesis block as
uncle. -/
def side_block : PoolBlock :=
  mk_block 5 4 [1] 120 { lo := 1000, hi := 0 } { lo := 121000, hi := 0 } 14500 13 false false

/-- A block handed to `add_block` as verified and valid that names the genesis block as
parent and claims height 150. -/
def high_block : PoolBlock :=
  mk_block 8 1 [] 150 { lo := 5000, hi := 0 } { lo := 6000, hi := 0 } 18100 16 true false

/-- The state after `genesis_block` and `side_block` were added under `small_config`: the
genesis block has depth 120. -/
def side_state : SideChain :=
  { m_blocksById :=
      [{ genesis_block with m_depth := 120, m_wantBroadcast := true, m_broadcasted := true },
        side_block]
    m_blocksByHeight := [(0, [1]), (120, [5])]
    m_chainTip := some 1
    m_seenBlocks := []
    m_curDifficulty := { lo := 1000, hi := 0 } }

/-- The state `update_chain_tip` hands to `prune_old_blocks` when `high_block` is added to
`side_state`. -/
def ripe_state : SideChain :=
  { m_blocksById :=
      [{ genesis_block with m_depth := 120, m_wantBroadcast := true, m_broadcasted := true },
        side_block, { high_block with m_wantBroadcast := true }]
    m_blocksByHeight := [(0, [1]), (120, [5]), (150, [8])]
    m_chainTip := some 8
    m_seenBlocks := []
    m_curDifficulty := { lo := 1000, hi := 0 } }

/-- The state `prune_old_blocks` leaves from `ripe_state`. -/
def ripe_pruned : SideChain :=
  { ripe_state with m_blocksByHeight := [(120, [5]), (150, [8])] }


/-! ## The total weight of the specification -/

/-- The sum of `difficulty.lo` over the visited blocks plus the sum of `difficulty.lo` over
their in-window uncles, as exact natural numbers. -/
def spec_total_weight (cfg : Config) (s : Store) (tip : PoolBlock) : Nat :=
  ((visited s (cfg.m_chainWindowSize - 1) tip).map (fun b => b.m_difficulty.lo)).sum +
  (((visited s (cfg.m_chainWindowSize - 1) tip).flatMap (window_uncles cfg s tip)).map
    (fun u => u.m_difficulty.lo)).sum


/-! ## Height-consistent parent links -/

/-- Every stored block whose parent is stored sits one height above it. -/
def parents_consistent (s : Store) : Prop :=
  ∀ b ∈ s, ∀ p ∈ get_parent s b, p.m_sidechainHeight + 1 = b.m_sidechainHeight

instance (s : Store) : Decidable (parents_consistent s) := by
  unfold parents_consistent; infer_instance


/-! ## Inputs: a chain of one window below a tip at height 200 -/

/-- One iteration of the work-list loop of `update_depths`: the store and the work list
after the body has run for the block popped from the back. -/
def update_depths_body (s : Store) (block_id : hash) (stack : List hash) :
    Option (Store × List hash) :=
  match find s block_id with
  | none => none
  | some block =>
    let r := update_depths_parent s block stack
    update_depths_uncles r.1 block_id block.m_uncles r.2

/-- An unverified block at height 1 whose parent is not stored. -/
def deep_uncle : PoolBlock :=
  mk_block 9 8 [] 1 { lo := 1000, hi := 0 } { lo := 2000, hi := 0 } 220 13 false false

/-- An unverified block at height 5 whose parent (id 50) is not stored. -/
def shallow_child : PoolBlock :=
  mk_block 7 50 [] 5 { lo := 1000, hi := 0 } { lo := 6000, hi := 0 } 700 14 false false

/-- The unverified block of a chain at height `h`: id `1000 + h`, parent `999 + h`,
difficulty 1000, one block every 120 seconds; the block at height 141 lists `deep_uncle`
as uncle. -/
def chain_block (h : Nat) : PoolBlock :=
  mk_block (1000 + h) (999 + h) (if h = 141 then [9] else []) h { lo := 1000, hi := 0 }
    { lo := 1000 * (h + 1), hi := 0 } (100 + 120 * h) 12 false false

/-- The state under `small_config` after `deep_uncle`, `shallow_child` and the chain blocks
of heights 199 down to `200 - k` were added in this order: every chain block waits for its
parent, and the block of height `199 - i` has depth `i`. -/
def ladder (k : Nat) : SideChain :=
  { m_blocksById :=
      [{ deep_uncle with m_depth := if k = 59 then 198 else 0 }, shallow_child] ++
        (List.range k).map (fun i => { chain_block (199 - i) with m_depth := i })
    m_blocksByHeight :=
      [(1, [9]), (5, [7])] ++ (List.range k).map (fun i => (199 - i, [1199 - i]))
    m_chainTip := none
    m_seenBlocks := []
    m_curDifficulty := { lo := 1000, hi := 0 } }

/-- A block at height 200 on top of the chain that is handed to `add_block` as verified
and valid. -/
def ladder_top : PoolBlock :=
  mk_block 1200 1199 [] 200 { lo := 1000, hi := 0 } { lo := 201000, hi := 0 } 24100 15 true false

/-- The store while `update_depths` runs for `ladder_top`: the depths of the first `j`
chain blocks are raised by one, and at the end that of `deep_uncle`. -/
def climb (j : Nat) : Store :=
  [{ deep_uncle with m_depth := if j = 60 then 199 else 198 }, shallow_child] ++
    (List.range 59).map (fun i =>
      { chain_block (199 - i) with m_depth := if i < j then i + 1 else i }) ++
    [ladder_top]

/-- The vectors of `m_blocksByHeight` after `ladder_top` is filed. -/
def ladder_heights : List (Nat × List hash) :=
  [(1, [9]), (5, [7])] ++ (List.range 59).map (fun i => (199 - i, [1199 - i])) ++
    [(200, [1200])]

/-- The state after `ladder_top` was added to `ladder 59`: it is the tip, and
`prune_old_blocks` (cutoff height 79) has erased `deep_uncle`, whose depth had reached
199, and the vectors of the heights 1 and 5. -/
def ladder_pruned : SideChain :=
  { m_blocksById :=
      [shallow_child] ++
        (List.range 59).map (fun i => { chain_block (199 - i) with m_depth := i + 1 }) ++
        [{ ladder_top with m_wantBroadcast := true, m_broadcasted := true }]
    m_blocksByHeight :=
      (List.range 59).map (fun i => (199 - i, [1199 - i])) ++ [(200, [1200])]
    m_chainTip := some 1200
    m_seenBlocks := []
    m_curDifficulty := { lo := 1000, hi := 0 } }

/-- A block at height 4, the parent that `shallow_child` names, arriving last. -/
def late_parent : PoolBlock :=
  mk_block 50 49 [] 4 { lo := 1000, hi := 0 } { lo := 5000, hi := 0 } 580 17 false false

/-- The state after `late_parent` was added to `ladder_pruned`. -/
def ladder_final : SideChain :=
  { ladder_pruned with
    m_blocksById := ladder_pruned.m_blocksById ++ [late_parent]
    m_blocksByHeight := ladder_pruned.m_blocksByHeight ++ [(4, [50])] }

/-- One call of `add_block` with a block whose depth is 0, as a new block has it. -/
def FreshStep (cfg : Config) (pool : Pool) (sc sc1 : SideChain) : Prop :=
  ∃ fuel block, block.m_depth = 0 ∧ add_block cfg pool fuel sc block = some sc1

/-- The states reachable from the state the constructor leaves through calls of `add_block`
with blocks of depth 0. -/
def FreshReachable (cfg : Config) (pool : Pool) (sc : SideChain) : Prop :=
  Relation.ReflTransGen (FreshStep cfg pool) (empty_sidechain cfg) sc


/-! ## Inputs: a block template on the chain of one window -/

/-- A block as it is handed to `fill_sidechain_data`: nothing is filled in yet. -/
def template_block : PoolBlock :=
  mk_block 2000 0 [] 0 { lo := 0, hi := 0 } { lo := 0, hi := 0 } 24300 0 false false

/-- The template `fill_sidechain_data` builds on the tip of `ladder_pruned` for wallet 16
and transaction key 5. -/
def ladder_template : PoolBlock :=
  { mk_block 2000 1200 [] 201 { lo := 1000, hi := 0 } { lo := 202000, hi := 0 } 24300 16 false
      false with m_txkeySec := 5 }

/-- The template with the outputs `get_outputs_blob` writes for a total reward of 6000. -/
def ladder_template_paid : PoolBlock :=
  { ladder_template with m_outputs := [⟨5800, 18⟩, ⟨100, 22⟩, ⟨100, 24⟩] }

/-- What `fill_sidechain_data` has found out about an uncle `u` it returns: it is a stored
block that is verified and not invalid, not among the mined blocks, and has passed the
same-chain test of `fill_same_chain`. -/
def fill_pick (s : Store) (block_height : Nat) (tip : PoolBlock) (mined : List hash)
    (u : hash) : Prop :=
  ∃ uncle, find s u = some uncle ∧ uncle.m_verified = true ∧ uncle.m_invalid = false ∧
    u ∉ mined ∧ fill_same_chain s block_height tip uncle = some true


/-! ## Depth, as the specification speaks of it -/

/-- Every stored uncle of a stored block lies one to three heights below it. -/
def uncles_consistent (s : Store) : Prop :=
  ∀ b ∈ s, ∀ u ∈ b.m_uncles, ∀ ub ∈ find s u,
    ub.m_sidechainHeight < b.m_sidechainHeight ∧
      b.m_sidechainHeight ≤ ub.m_sidechainHeight + UNCLE_BLOCK_DEPTH

instance (s : Store) : Decidable (uncles_consistent s) := by
  unfold uncles_consistent; infer_instance

/-- The block `c` names the block `a` as its parent or as one of its uncles. -/
def refers (c a : PoolBlock) : Prop :=
  c.m_parent = a.m_sidechainId ∨ a.m_sidechainId ∈ c.m_uncles

instance (c a : PoolBlock) : Decidable (refers c a) := by
  unfold refers; infer_instance

/-- The block `c` is stored and names `a` as its parent or as one of its uncles. -/
def child_of (s : Store) (a c : PoolBlock) : Prop :=
  find s c.m_sidechainId = some c ∧ refers c a

/-- The block `d` is `a` or a descendant of `a` in the store: it is reached from `a`
through stored blocks each of which names the one before as parent or uncle. -/
def Descends (s : Store) (a d : PoolBlock) : Prop :=
  Relation.ReflTransGen (child_of s) a d

/-- The depth of a block is the longest distance of the specification: no descendant in
the store is more than `depth` heights above the block, and one (the block itself when the
depth is 0) is exactly `depth` heights above it. -/
def depth_exact (s : Store) (b : PoolBlock) : Prop :=
  (∀ d, Descends s b d → d.m_sidechainHeight ≤ b.m_sidechainHeight + b.m_depth) ∧
  ∃ d, Descends s b d ∧ d.m_sidechainHeight = b.m_sidechainHeight + b.m_depth


/-! ## Inputs: shares whose 64-bit total weight is zero -/

/-- A genesis block of difficulty `2^64 - 1000` mined by wallet 11, handed to `add_block` as
verified and valid. -/
def zero_genesis : PoolBlock :=
  mk_block 1 0 [] 0 { lo := 2 ^ 64 - 1000, hi := 0 } { lo := 2 ^ 64 - 1000, hi := 0 } 100 11
    true false

/-- An unverified block of difficulty 1000 on top of `zero_genesis`, mined by wallet 12,
with two outputs. -/
def zero_block : PoolBlock :=
  { mk_block 2 1 [] 1 { lo := 1000, hi := 0 } { lo := 0, hi := 1 } 101 12 false false with
    m_outputs := [⟨50, 19⟩, ⟨50, 21⟩] }

/-- The state after `zero_genesis` was added under `default_config`. -/
def zero_state : SideChain := first_tip zero_genesis { lo := 1000, hi := 0 }


/-! ## Measures for the two work-list loops -/

/-- A quantity `f` of the stored blocks, added up over the ids of the store; every id counts
with the block that is found under it. -/
def store_measure (f : PoolBlock → Nat) (s : Store) : Nat :=
  ((s.map PoolBlock.m_sidechainId).map (fun x => ((find s x).map f).getD 0)).sum

/-- The room that is left above the 64-bit depth of a block. -/
def depth_room (b : PoolBlock) : Nat := 2 ^ 64 - b.m_depth

/-- 1 for a block that is not yet verified, 0 for a verified one. -/
def unverified (b : PoolBlock) : Nat := if b.m_verified then 0 else 1

/-- Every parent reference between stored blocks goes down in height. -/
def parents_descending (s : Store) : Prop :=
  ∀ b ∈ s, ∀ p ∈ get_parent s b, p.m_sidechainHeight < b.m_sidechainHeight

instance (s : Store) : Decidable (parents_descending s) := by
  unfold parents_descending; infer_instance

/-- No stored block has shares whose 64-bit total weight is zero. -/
def weights_nonzero (cfg : Config) (s : Store) : Prop :=
  ∀ b ∈ s, ∀ shares ∈ get_shares cfg s b, total_weight shares ≠ 0

instance (cfg : Config) (s : Store) : Decidable (weights_nonzero cfg s) := by
  unfold weights_nonzero; infer_instance

/-- Three times the number of listed ids: `verify_loop` pushes no more ids than that when it
finds a block valid. -/
def listed_bound (m : List (Nat × List hash)) : Nat :=
  3 * (m.map (fun e => e.2.length)).sum

/-- A number of iterations that is enough for both work-list loops of `add_block`: twice
the room above the depths of all blocks for `update_depths`, and `listed_bound + 1` for
every block for `verify_loop`. -/
def add_block_fuel (sc : SideChain) (block : PoolBlock) : Nat :=
  1 + 2 * (2 ^ 64 * (sc.m_blocksById.length + 1)) +
    (sc.m_blocksById.length + 1) *
      (listed_bound
        (bucket_push sc.m_blocksByHeight block.m_sidechainHeight block.m_sidechainId) + 1)


/-! ## Depth in states from which nothing was pruned -/

/-- The height up to which the descendants of a block reach according to its depth. -/
def reach (b : PoolBlock) : Nat := b.m_sidechainHeight + b.m_depth

/-- The stored block of id `y` names the stored block of id `x` as its parent or as one of
its uncles. -/
def names (s : Store) (x y : hash) : Prop :=
  ∃ a c, find s x = some a ∧ find s y = some c ∧ refers c a

/-- The block of id `y` is the block of id `x` or one of its descendants in the store. -/
def reaches (s : Store) (x y : hash) : Prop := Relation.ReflTransGen (names s) x y

/-- Every reference between stored blocks is settled: the block that is named reaches at
least as high as the block that names it, or the latter is still on the work list. -/
def closed_edges (s : Store) (stack : List hash) : Prop :=
  ∀ x y a c, find s x = some a → find s y = some c → refers c a →
    reach c ≤ reach a ∨ y ∈ stack

/-- The depth of every stored block is attained: some descendant (or the block itself) sits
at the height the depth points to. -/
def sound_depths (s : Store) : Prop :=
  ∀ x a, find s x = some a →
    ∃ y d, reaches s x y ∧ find s y = some d ∧ d.m_sidechainHeight = reach a

/-- Every stored block is listed in the vector of its height. -/
def heights_listed (sc : SideChain) : Prop :=
  ∀ x b, find sc.m_blocksById x = some b →
    x ∈ bucket sc.m_blocksByHeight b.m_sidechainHeight

/-- A block without its flags: what the depth bookkeeping reads. -/
def PoolBlock.core (b : PoolBlock) : PoolBlock :=
  { b with
    m_verified := false
    m_invalid := false
    m_broadcasted := false
    m_wantBroadcast := false }

/-- No stored block is as high as the prune distance, so `prune_old_blocks` has nothing to
do. -/
def unpruned (cfg : Config) (s : Store) : Prop :=
  ∀ b ∈ s, b.m_sidechainHeight < prune_distance cfg

instance (cfg : Config) (s : Store) : Decidable (unpruned cfg s) := by
  unfold unpruned; infer_instance

/-- What the depth bookkeeping relies on while it runs: height-consistent references,
64-bit heights, and depths that are attained. -/
def settled (s : Store) : Prop :=
  parents_consistent s ∧ uncles_consistent s ∧
  (∀ x b, find s x = some b → b.m_sidechainHeight < 2 ^ 64) ∧ sound_depths s


/-! ## Theorems: `split_reward` -/

theorem add64_of_lt {a b : Nat} (h : a + b < 2 ^ 64) : add64 a b = a + b := by
  unfold add64; exact Nat.mod_eq_of_lt h

theorem add64_lt (a b : Nat) : add64 a b < 2 ^ 64 := by
  unfold add64; exact Nat.mod_lt _ (by norm_num)

theorem sub64_of_le {a b : Nat} (hb : b ≤ a) (ha : a < 2 ^ 64) : sub64 a b = a - b := by
  unfold sub64
  have hb' : b % 2 ^ 64 = b := Nat.mod_eq_of_lt (lt_of_le_of_lt hb ha)
  rw [hb']
  have : a + (2 ^ 64 - b) = (a - b) + 2 ^ 64 := by omega
  rw [this, Nat.add_mod_right]
  exact Nat.mod_eq_of_lt (by omega)

theorem foldl_add64 {α : Type} (f : α → Nat) (l : List α) :
    ∀ a, a < 2 ^ 64 → l.foldl (fun a b => add64 a (f b)) a = (a + (l.map f).sum) % 2 ^ 64 := by
  induction l with
  | nil => intro a ha; simpa using (Nat.mod_eq_of_lt ha).symm
  | cons x xs ih =>
    intro a _
    simp only [List.foldl_cons, List.map_cons, List.sum_cons]
    rw [ih _ (add64_lt _ _)]
    unfold add64
    rw [Nat.mod_add_mod, Nat.add_assoc]

theorem total_weight_eq (shares : List MinerShare) :
    total_weight shares = (shares.map MinerShare.m_weight).sum % 2 ^ 64 := by
  unfold total_weight
  rw [foldl_add64 MinerShare.m_weight shares 0 (by norm_num), Nat.zero_add]

theorem accumulate64_eq (rewards : List Nat) : accumulate64 rewards = rewards.sum % 2 ^ 64 := by
  unfold accumulate64
  have := foldl_add64 (fun r : Nat => r) rewards 0 (by norm_num)
  simpa using this

/-- exact quotient of the product -/
theorem udiv128_umul128 {w r d : Nat} (hd : 0 < d) (hw : w ≤ d) (hr : r < 2 ^ 64)
    (hd64 : d < 2 ^ 64) :
    udiv128 (umul128 w r).2 (umul128 w r).1 d = w * r / d := by
  unfold udiv128 umul128
  simp only
  have hprod : w * r < 2 ^ 64 * 2 ^ 64 := by
    have : w < 2 ^ 64 := lt_of_le_of_lt hw hd64
    exact Nat.mul_lt_mul'' this hr
  have hhi : w * r / 2 ^ 64 < 2 ^ 64 := Nat.div_lt_of_lt_mul hprod
  rw [Nat.mod_eq_of_lt hhi, Nat.div_add_mod']
  apply Nat.mod_eq_of_lt
  calc w * r / d ≤ d * r / d := Nat.div_le_div_right (Nat.mul_le_mul_right r hw)
    _ = r := Nat.mul_div_cancel_left r hd
    _ < 2 ^ 64 := hr

theorem quot_le_reward {w r d : Nat} (hd : 0 < d) (hw : w ≤ d) : w * r / d ≤ r :=
  calc w * r / d ≤ d * r / d := Nat.div_le_div_right (Nat.mul_le_mul_right r hw)
    _ = r := Nat.mul_div_cancel_left r hd

theorem split_reward_loop_eq {reward Wt : Nat} (hW : 0 < Wt) (hW64 : Wt < 2 ^ 64)
    (hr : reward < 2 ^ 64) :
    ∀ (rest : List MinerShare) (w : Nat), w + (rest.map MinerShare.m_weight).sum ≤ Wt →
      split_reward_loop reward Wt rest w (w * reward / Wt) = some (allocs reward Wt w rest) := by
  intro rest
  induction rest with
  | nil => intro w _; rfl
  | cons sh rest ih =>
    intro w hw
    simp only [List.map_cons, List.sum_cons] at hw
    have hw1 : w + sh.m_weight ≤ Wt := by omega
    have hadd : add64 w sh.m_weight = w + sh.m_weight := add64_of_lt (by omega)
    simp only [split_reward_loop, allocs, hadd, Nat.ne_of_gt hW, if_false]
    rw [udiv128_umul128 hW hw1 hr hW64, ih (w + sh.m_weight) (by omega)]
    simp only [Option.some.injEq, List.cons.injEq, and_true]
    apply sub64_of_le
    · exact Nat.div_le_div_right (Nat.mul_le_mul_right _ (by omega))
    · exact lt_of_le_of_lt (quot_le_reward hW hw1) hr

theorem allocs_length (reward Wt : Nat) : ∀ (rest : List MinerShare) (w : Nat),
    (allocs reward Wt w rest).length = rest.length := by
  intro rest
  induction rest with
  | nil => intro w; rfl
  | cons sh rest ih => intro w; simp [allocs, ih]

theorem allocs_sum (reward Wt : Nat) : ∀ (rest : List MinerShare) (w : Nat),
    (allocs reward Wt w rest).sum =
      (w + (rest.map MinerShare.m_weight).sum) * reward / Wt - w * reward / Wt := by
  intro rest
  induction rest with
  | nil => intro w; simp [allocs]
  | cons sh rest ih =>
    intro w
    simp only [allocs, List.sum_cons, List.map_cons, ih]
    have h1 : w * reward / Wt ≤ (w + sh.m_weight) * reward / Wt :=
      Nat.div_le_div_right (Nat.mul_le_mul_right _ (by omega))
    have h2 : (w + sh.m_weight) * reward / Wt ≤
        (w + sh.m_weight + (rest.map MinerShare.m_weight).sum) * reward / Wt :=
      Nat.div_le_div_right (Nat.mul_le_mul_right _ (by omega))
    rw [← Nat.add_assoc]
    omega

theorem allocs_getElem (reward Wt : Nat) : ∀ (rest : List MinerShare) (w k : Nat),
    k < rest.length →
    (allocs reward Wt w rest)[k]? =
      some ((w + ((rest.take (k + 1)).map MinerShare.m_weight).sum) * reward / Wt -
        (w + ((rest.take k).map MinerShare.m_weight).sum) * reward / Wt) := by
  intro rest
  induction rest with
  | nil => intro w k hk; simp at hk
  | cons sh rest ih =>
    intro w k hk
    cases k with
    | zero => simp [allocs]
    | succ k =>
      simp only [List.length_cons, Nat.add_lt_add_iff_right] at hk
      simp only [allocs, List.getElem?_cons_succ, ih (w + sh.m_weight) k hk, List.take_succ_cons,
        List.map_cons, List.sum_cons, Nat.add_assoc]


theorem prefixAlloc_eq (reward : Nat) (shares : List MinerShare) (k : Nat) :
    prefixAlloc reward shares k =
      ((shares.take k).map MinerShare.m_weight).sum * reward /
        (shares.map MinerShare.m_weight).sum := by
  cases k with
  | zero => simp [prefixAlloc]
  | succ k => rfl

theorem split_reward_eq_allocs {reward : Nat} {shares : List MinerShare}
    (hr : reward < 2 ^ 64) (hpos : 0 < (shares.map MinerShare.m_weight).sum)
    (hfit : (shares.map MinerShare.m_weight).sum < 2 ^ 64) :
    split_reward reward shares =
      some (true, allocs reward (shares.map MinerShare.m_weight).sum 0 shares) := by
  have htw : total_weight shares = (shares.map MinerShare.m_weight).sum := by
    rw [total_weight_eq, Nat.mod_eq_of_lt hfit]
  have hloop := split_reward_loop_eq hpos hfit hr shares 0 (by omega)
  simp only [Nat.zero_mul, Nat.zero_div] at hloop
  unfold split_reward
  rw [htw, hloop]
  simp only [Option.some.injEq, Prod.mk.injEq, and_true, decide_eq_true_eq]
  rw [accumulate64_eq, allocs_sum]
  simp only [Nat.zero_add, Nat.zero_mul, Nat.zero_div, Nat.sub_zero]
  rw [Nat.mul_div_cancel_left reward hpos]
  exact Nat.mod_eq_of_lt hr

/-- C2: for a 64-bit reward and shares whose total weight is positive and fits in 64 bits,
`split_reward` succeeds with one reward per share, the `k`-th being `A(k) - A(k-1)` for the
prefix allocation `A` (here `prefixAlloc _ _ (k+1) = A(k)` and `prefixAlloc _ _ 0 = A(-1) = 0`). -/
theorem split_reward_prefix_allocation (reward : Nat) (shares : List MinerShare)
    (hr : reward < 2 ^ 64) (hne : shares ≠ [])
    (hpos : 0 < (shares.map MinerShare.m_weight).sum)
    (hfit : (shares.map MinerShare.m_weight).sum < 2 ^ 64) :
    ∃ rewards, split_reward reward shares = some (true, rewards) ∧
      rewards.length = shares.length ∧
      ∀ k, k < shares.length →
        prefixAlloc reward shares k ≤ prefixAlloc reward shares (k + 1) ∧
        rewards[k]? =
          some (prefixAlloc reward shares (k + 1) - prefixAlloc reward shares k) := by
  have _ := hne
  refine ⟨_, split_reward_eq_allocs hr hpos hfit, allocs_length _ _ _ _, ?_⟩
  intro k hk
  constructor
  · rw [prefixAlloc_eq, prefixAlloc_eq]
    apply Nat.div_le_div_right
    apply Nat.mul_le_mul_right
    rw [List.take_succ]
    simp
  · rw [allocs_getElem _ _ _ _ _ hk, prefixAlloc_eq, prefixAlloc_eq]
    simp

theorem split_reward_prefix_allocation_witness :
    (100 < 2 ^ 64 ∧ ([⟨1, 1⟩, ⟨1, 2⟩, ⟨1, 3⟩] : List MinerShare) ≠ []) ∧
    ∃ rewards, split_reward 100 [⟨1, 1⟩, ⟨1, 2⟩, ⟨1, 3⟩] = some (true, rewards) ∧
      rewards.length = ([⟨1, 1⟩, ⟨1, 2⟩, ⟨1, 3⟩] : List MinerShare).length ∧
      ∀ k, k < ([⟨1, 1⟩, ⟨1, 2⟩, ⟨1, 3⟩] : List MinerShare).length →
        prefixAlloc 100 [⟨1, 1⟩, ⟨1, 2⟩, ⟨1, 3⟩] k ≤
          prefixAlloc 100 [⟨1, 1⟩, ⟨1, 2⟩, ⟨1, 3⟩] (k + 1) ∧
        rewards[k]? =
          some (prefixAlloc 100 [⟨1, 1⟩, ⟨1, 2⟩, ⟨1, 3⟩] (k + 1) -
            prefixAlloc 100 [⟨1, 1⟩, ⟨1, 2⟩, ⟨1, 3⟩] k) :=
  ⟨⟨by decide, by decide⟩,
    split_reward_prefix_allocation 100 [⟨1, 1⟩, ⟨1, 2⟩, ⟨1, 3⟩] (by decide) (by decide)
      (by decide) (by decide)⟩

/-- C1 (as stated) fails: on the empty share list `split_reward 1 []` returns false with no
rewards, and on weights `2^63, 2^63 + 1` (total wraps to 1) the rewards returned for
reward 1 add up to `2^64 + 1`. -/
theorem split_reward_sum_counterexample :
    (split_reward 1 [] = some (false, []) ∧ ([] : List Nat).sum ≠ 1) ∧
    ((∀ sh ∈ ([⟨2 ^ 63, 1⟩, ⟨2 ^ 63 + 1, 2⟩] : List MinerShare), 0 < sh.m_weight) ∧
      split_reward 1 [⟨2 ^ 63, 1⟩, ⟨2 ^ 63 + 1, 2⟩] = some (true, [2 ^ 63, 2 ^ 63 + 1]) ∧
      ([2 ^ 63, 2 ^ 63 + 1] : List Nat).sum ≠ 1) := by
  refine ⟨⟨by decide, by decide⟩, ?_, by decide, by decide⟩
  intro sh hsh
  simp only [List.mem_cons, List.mem_singleton, List.not_mem_nil, or_false] at hsh
  rcases hsh with h | h <;> subst h <;> decide

/-- C1 (amended): for a 64-bit reward and a non-empty share list with weights > 0 whose
total weight fits in 64 bits, `split_reward` returns true and the rewards add up to the
reward exactly. -/
theorem split_reward_sum_eq_reward (reward : Nat) (shares : List MinerShare)
    (hr : reward < 2 ^ 64) (hne : shares ≠ [])
    (hw : ∀ sh ∈ shares, 0 < sh.m_weight)
    (hfit : (shares.map MinerShare.m_weight).sum < 2 ^ 64) :
    ∃ rewards, split_reward reward shares = some (true, rewards) ∧ rewards.sum = reward := by
  have hpos : 0 < (shares.map MinerShare.m_weight).sum := by
    cases shares with
    | nil => exact absurd rfl hne
    | cons sh rest =>
      have := hw sh (List.mem_cons_self _ _)
      simp only [List.map_cons, List.sum_cons]
      omega
  refine ⟨_, split_reward_eq_allocs hr hpos hfit, ?_⟩
  rw [allocs_sum]
  simp only [Nat.zero_add, Nat.zero_mul, Nat.zero_div, Nat.sub_zero]
  exact Nat.mul_div_cancel_left reward hpos

theorem split_reward_sum_eq_reward_witness :
    (100 < 2 ^ 64 ∧ ([⟨1, 1⟩, ⟨1, 2⟩, ⟨1, 3⟩] : List MinerShare) ≠ []) ∧
    ∃ rewards, split_reward 100 [⟨1, 1⟩, ⟨1, 2⟩, ⟨1, 3⟩] = some (true, rewards) ∧
      rewards.sum = 100 :=
  ⟨⟨by decide, by decide⟩,
    split_reward_sum_eq_reward 100 [⟨1, 1⟩, ⟨1, 2⟩, ⟨1, 3⟩] (by decide) (by decide)
      (by decide) (by decide)⟩

/-! ## Theorems: `verify`, single-path facts -/

/-- C10: a block of height 0 that enters `verify` with `m_invalid = false` leaves it with
`m_verified = true`, and with `m_invalid = true` exactly when its parent hash is non-empty,
or it lists an uncle, or its difficulty or its cumulative difficulty differs from
`m_minDifficulty`. -/
theorem verify_genesis (cfg : Config) (s : Store) (block : PoolBlock)
    (hh : block.m_sidechainHeight = 0) (hi : block.m_invalid = false) :
    ∃ b, verify cfg s block = some b ∧ b.m_verified = true ∧
      (b.m_invalid = true ↔
        (block.m_parent.empty = false ∨ block.m_uncles ≠ [] ∨
          block.m_difficulty ≠ cfg.m_minDifficulty ∨
          block.m_cumulativeDifficulty ≠ cfg.m_minDifficulty)) := by
  unfold verify verify_writes
  rw [if_pos hh]
  by_cases hc : (!block.m_parent.empty) = true ∨ (!block.m_uncles.isEmpty) = true ∨
      block.m_difficulty ≠ cfg.m_minDifficulty ∨
      block.m_cumulativeDifficulty ≠ cfg.m_minDifficulty
  · rw [if_pos hc]
    refine ⟨_, rfl, rfl, ?_⟩
    simp only [FlagWrite.apply, Option.getD_some, true_iff]
    simpa [List.isEmpty_iff] using hc
  · rw [if_neg hc]
    refine ⟨_, rfl, rfl, ?_⟩
    simp only [FlagWrite.apply, Option.getD_none, hi, Bool.false_eq_true, false_iff]
    simpa [List.isEmpty_iff] using hc

theorem verify_genesis_witness :
    (new_genesis.m_sidechainHeight = 0 ∧ new_genesis.m_invalid = false) ∧
    ∃ b, verify default_config [new_genesis] new_genesis = some b ∧ b.m_verified = true ∧
      (b.m_invalid = true ↔
        (new_genesis.m_parent.empty = false ∨ new_genesis.m_uncles ≠ [] ∨
          new_genesis.m_difficulty ≠ default_config.m_minDifficulty ∨
          new_genesis.m_cumulativeDifficulty ≠ default_config.m_minDifficulty)) :=
  ⟨⟨by decide, by decide⟩,
    verify_genesis default_config [new_genesis] new_genesis (by decide) (by decide)⟩

/-- C7 (failing input): the parent of `wrong_height_block` (the genesis block) is stored,
verified and valid and the block lists no uncle, yet `verify` returns through the height
rule with `m_invalid = true` and `m_verified` still false. -/
theorem verify_wrong_height_stays_unverified :
    find [genesis_block, wrong_height_block] wrong_height_block.m_parent = some genesis_block ∧
    genesis_block.m_verified = true ∧ genesis_block.m_invalid = false ∧
    wrong_height_block.m_uncles = [] ∧
    verify default_config [genesis_block, wrong_height_block] wrong_height_block =
      some { wrong_height_block with m_verified := false, m_invalid := true } := by
  decide

theorem retarget_ge_min (cfg : Config) (delta_diff delta_t : Nat)
    (d : difficulty_type) (h : retarget cfg delta_diff delta_t = some d) :
    cfg.m_minDifficulty.toNat ≤ d.toNat := by
  unfold retarget at h
  simp only at h
  split at h
  · exact absurd h (by simp)
  · split at h
    · cases h; exact Nat.le_refl _
    · rename_i hlt
      cases h
      simp only [difficulty_type.lt, Bool.or_eq_true, Bool.and_eq_true, decide_eq_true_eq,
        not_or, not_and, not_lt] at hlt
      obtain ⟨h1, h2⟩ := hlt
      have hhi : cfg.m_minDifficulty.hi = 0 := by omega
      have hlo := h2 hhi.symm
      simp only [difficulty_type.toNat, hhi]
      omega

/-- C6: whenever `get_difficulty` succeeds, the difficulty it outputs is at least
`m_minDifficulty` (as 128-bit numbers). -/
theorem get_difficulty_ge_min (cfg : Config) (s : Store) (tip : PoolBlock)
    (d : difficulty_type) (h : get_difficulty cfg s tip = some d) :
    cfg.m_minDifficulty.toNat ≤ d.toNat := by
  unfold get_difficulty at h
  split at h
  · exact absurd h (by simp)
  · exact retarget_ge_min cfg _ _ d h

theorem get_difficulty_ge_min_witness :
    get_difficulty default_config [genesis_block] genesis_block = some { lo := 1000, hi := 0 } ∧
    default_config.m_minDifficulty.toNat ≤ ({ lo := 1000, hi := 0 } : difficulty_type).toNat :=
  ⟨by decide,
    get_difficulty_ge_min default_config [genesis_block] genesis_block { lo := 1000, hi := 0 }
      (by decide)⟩

/-! ## Theorems: `verify`, pending blocks -/

theorem verify_uncles_pending (s : Store) (block parent : PoolBlock) (mined : List hash)
    (u : hash) (post : List hash)
    (hu : verify_uncle s block parent mined u = some .pending) :
    ∀ (pre : List hash) (expected : difficulty_type),
      (∀ x ∈ pre, ∃ d, verify_uncle s block parent mined x = some (.ok d)) →
      verify_uncles s block parent mined (pre ++ u :: post) expected = some .pending := by
  intro pre
  induction pre with
  | nil => intro expected _; simp [verify_uncles, hu]
  | cons x pre ih =>
    intro expected hpre
    obtain ⟨d, hd⟩ := hpre x (List.mem_cons_self _ _)
    simp only [List.cons_append, verify_uncles, hd]
    exact ih _ (fun y hy => hpre y (List.mem_cons_of_mem _ hy))

theorem verify_uncle_missing (s : Store) (block parent : PoolBlock) (mined : List hash)
    (u : hash) (he : u.empty = false) (hm : u ∉ mined)
    (hmiss : find s u = none ∨ ∃ ub, find s u = some ub ∧ ub.m_verified = false) :
    verify_uncle s block parent mined u = some .pending := by
  unfold verify_uncle
  rw [if_neg (by simp [he]), if_neg hm]
  rcases hmiss with h | ⟨ub, h, hv⟩
  · simp [h]
  · simp [h, hv]

/-- C8 (as stated) fails: `deep_orphan` is a non-genesis block whose parent is absent from
the store, yet `verify` (deep-block rule) leaves it verified; and `unordered_block` lists
two uncles that are absent from the store, yet `verify` (uncle order rule) marks it
invalid. -/
theorem verify_missing_parent_counterexample :
    (deep_orphan.m_sidechainHeight ≠ 0 ∧
      find [deep_orphan] deep_orphan.m_parent = none ∧
      verify default_config [deep_orphan] deep_orphan =
        some { deep_orphan with m_verified := true, m_invalid := false }) ∧
    (unordered_block.m_sidechainHeight ≠ 0 ∧
      find [genesis_block, unordered_block] 9 = none ∧
      9 ∈ unordered_block.m_uncles ∧
      verify default_config [genesis_block, unordered_block] unordered_block =
        some { unordered_block with m_verified := true, m_invalid := true }) := by
  decide

/-- C8 (amended): for a non-genesis block with depth < 2·W and a non-empty parent hash,
`verify` leaves `m_verified = false` and does not touch `m_invalid` when the parent is
absent from the store or not yet verified; and also when the parent is stored, verified
and valid, the height is `parent.height + 1`, the uncle list is strictly ascending, and an
uncle that is non-empty and not already mined is absent or not yet verified while every
uncle listed before it passes the per-uncle checks. -/
theorem verify_pending (cfg : Config) (s : Store) (block : PoolBlock)
    (hW : cfg.m_chainWindowSize * 2 < 2 ^ 64)
    (hh : block.m_sidechainHeight ≠ 0)
    (hd : block.m_depth < cfg.m_chainWindowSize * 2)
    (hp : block.m_parent.empty = false)
    (hmiss :
      (find s block.m_parent = none ∨
        ∃ parent, find s block.m_parent = some parent ∧ parent.m_verified = false) ∨
      (∃ parent, find s block.m_parent = some parent ∧
        parent.m_verified = true ∧ parent.m_invalid = false ∧
        block.m_sidechainHeight = add64 parent.m_sidechainHeight 1 ∧
        uncles_ascending block.m_uncles = true ∧
        ∃ pre u post, block.m_uncles = pre ++ u :: post ∧
          (∀ x ∈ pre, ∃ d,
            verify_uncle s block parent (mined_blocks s block parent) x = some (.ok d)) ∧
          u.empty = false ∧ u ∉ mined_blocks s block parent ∧
          (find s u = none ∨ ∃ ub, find s u = some ub ∧ ub.m_verified = false))) :
    verify cfg s block = some { block with m_verified := false } := by
  have hdeep : ¬ ((cfg.m_chainWindowSize * 2) % 2 ^ 64 ≤ block.m_depth) := by
    rw [Nat.mod_eq_of_lt hW]; omega
  unfold verify verify_writes
  rw [if_neg hh, if_neg hdeep, if_neg (by simp [hp])]
  rcases hmiss with (hnone | ⟨parent, hf, hv⟩) | ⟨parent, hf, hv, hi, hht, hasc, pre, u, post, hun, hpre, hue, hum, humiss⟩
  · rw [hnone]; rfl
  · rw [hf]
    simp only [verify_with_parent, hv, Bool.not_false, if_true]
    rfl
  · rw [hf]
    have hloop := verify_uncles_pending s block parent (mined_blocks s block parent) u post
      (verify_uncle_missing s block parent _ u hue hum humiss) pre
      (parent.m_cumulativeDifficulty.add block.m_difficulty) hpre
    rw [← hun] at hloop
    have hne : ¬ (block.m_sidechainHeight ≠ add64 parent.m_sidechainHeight 1) :=
      fun h => h hht
    show Option.map _ (verify_with_parent cfg s block parent) = _
    unfold verify_with_parent
    rw [if_neg (by simp [hv]), if_neg (by simp [hi]), if_neg hne, if_neg (by simp [hasc]), hloop]
    rfl

theorem verify_pending_witness :
    verify default_config [genesis_block, block_1a, block_2] block_2 =
      some { block_2 with m_verified := false } :=
  verify_pending default_config [genesis_block, block_1a, block_2] block_2 (by decide)
    (by decide) (by decide) (by decide)
    (Or.inr ⟨block_1a, by decide, by decide, by decide, by decide, by decide,
      [], 3, [], by decide, by simp, by decide, by decide, Or.inl (by decide)⟩)

/-! ## Theorems: `get_difficulty` against the retarget formula -/

theorem foldl_min_le_init (l : List Nat) : ∀ a, l.foldl min a ≤ a := by
  induction l with
  | nil => intro a; exact Nat.le_refl _
  | cons x xs ih => intro a; exact Nat.le_trans (ih _) (Nat.min_le_left _ _)

theorem foldl_min_le_mem (l : List Nat) : ∀ a, ∀ x ∈ l, l.foldl min a ≤ x := by
  induction l with
  | nil => intro a x hx; simp at hx
  | cons y ys ih =>
    intro a x hx
    rcases List.mem_cons.1 hx with h | h
    · subst h; exact Nat.le_trans (foldl_min_le_init ys _) (Nat.min_le_right _ _)
    · exact ih _ x h

theorem foldl_min_mem (l : List Nat) : ∀ a, l.foldl min a = a ∨ l.foldl min a ∈ l := by
  induction l with
  | nil => intro a; left; rfl
  | cons y ys ih =>
    intro a
    rcases ih (min a y) with h | h
    · rcases Nat.le_total a y with hay | hay
      · left; simp only [List.foldl_cons]; rw [h]; exact Nat.min_eq_left hay
      · right; simp only [List.foldl_cons]; rw [h, Nat.min_eq_right hay]
        exact List.mem_cons_self _ _
    · right; exact List.mem_cons_of_mem _ h

theorem foldl_max_ge_init (l : List Nat) : ∀ a, a ≤ l.foldl max a := by
  induction l with
  | nil => intro a; exact Nat.le_refl _
  | cons x xs ih => intro a; exact Nat.le_trans (Nat.le_max_left _ _) (ih _)

theorem foldl_max_ge_mem (l : List Nat) : ∀ a, ∀ x ∈ l, x ≤ l.foldl max a := by
  induction l with
  | nil => intro a x hx; simp at hx
  | cons y ys ih =>
    intro a x hx
    rcases List.mem_cons.1 hx with h | h
    · subst h; exact Nat.le_trans (Nat.le_max_right _ _) (foldl_max_ge_init ys _)
    · exact ih _ x h

theorem oldest_timestamp_eq (data : List DifficultyData) :
    oldest_timestamp data = (data.map DifficultyData.m_timestamp).foldl min (2 ^ 64 - 1) := by
  unfold oldest_timestamp
  rw [List.foldl_map]

theorem oldest_timestamp_le (data : List DifficultyData) (d : DifficultyData) (hd : d ∈ data) :
    oldest_timestamp data ≤ d.m_timestamp := by
  rw [oldest_timestamp_eq]
  exact foldl_min_le_mem _ _ _ (List.mem_map_of_mem _ hd)

theorem oldest_timestamp_mem (data : List DifficultyData) (hne : data ≠ [])
    (hwf : ∀ d ∈ data, d.m_timestamp < 2 ^ 64) :
    ∃ d ∈ data, oldest_timestamp data = d.m_timestamp := by
  rw [oldest_timestamp_eq]
  rcases foldl_min_mem (data.map DifficultyData.m_timestamp) (2 ^ 64 - 1) with h | h
  · cases data with
    | nil => exact absurd rfl hne
    | cons d ds =>
      have h1 := foldl_min_le_mem ((d :: ds).map DifficultyData.m_timestamp) (2 ^ 64 - 1)
        d.m_timestamp (List.mem_map_of_mem _ (List.mem_cons_self _ _))
      have h2 := hwf d (List.mem_cons_self _ _)
      refine ⟨d, List.mem_cons_self _ _, ?_⟩
      omega
  · obtain ⟨d, hd, hdt⟩ := List.mem_map.1 h
    exact ⟨d, hd, hdt.symm⟩

theorem nth_element_mem (l : List Nat) (k : Nat) (hk : k < l.length) : nth_element l k ∈ l := by
  unfold nth_element
  have hk' : k < (l.insertionSort (fun a b => a ≤ b)).length := by
    rw [List.length_insertionSort]; exact hk
  rw [List.getD_eq_getElem _ _ hk']
  exact (List.mem_insertionSort _).1 (List.getElem_mem _)

theorem nth_element_mono (l : List Nat) (i j : Nat) (hij : i ≤ j) (hj : j < l.length) :
    nth_element l i ≤ nth_element l j := by
  unfold nth_element
  have hj' : j < (l.insertionSort (fun a b => a ≤ b)).length := by
    rw [List.length_insertionSort]; exact hj
  have hi' : i < (l.insertionSort (fun a b => a ≤ b)).length := lt_of_le_of_lt hij hj'
  rw [List.getD_eq_getElem _ _ hj', List.getD_eq_getElem _ _ hi']
  have hs : (l.insertionSort (fun a b => a ≤ b)).Sorted (fun a b => a ≤ b) :=
    List.sorted_insertionSort _ l
  have := List.Sorted.rel_get_of_le hs (a := ⟨i, hi'⟩) (b := ⟨j, hj'⟩) hij
  simpa using this

theorem nth_element_map_sub (l : List Nat) (c k : Nat) (hc : ∀ x ∈ l, c ≤ x) :
    nth_element (l.map (fun x => x - c)) k = nth_element l k - c := by
  unfold nth_element
  have h := List.map_insertionSort (r := fun a b : Nat => a ≤ b) (s := fun a b : Nat => a ≤ b)
    (fun x => x - c) l (by
      intro a ha b hb
      have := hc a ha
      have := hc b hb
      show a ≤ b ↔ a - c ≤ b - c
      omega)
  rw [← h]
  by_cases hk : k < (l.insertionSort (fun a b => a ≤ b)).length
  · rw [List.getD_eq_getElem _ _ hk, List.getD_eq_getElem _ _ (by simpa using hk)]
    simp
  · have hk1 : (l.insertionSort (fun a b => a ≤ b)).length ≤ k := Nat.le_of_not_lt hk
    rw [List.getD_eq_default _ _ (by simpa using hk1), List.getD_eq_default _ _ hk1]
    simp


theorem trim_timestamps_eq_spec (data : List DifficultyData) (hne : data ≠ [])
    (hwf : ∀ d ∈ data, d.m_timestamp < 2 ^ 64)
    (hspan : ∀ d ∈ data, ∀ e ∈ data, d.m_timestamp < e.m_timestamp + 2 ^ 32) :
    trim_timestamps data = spec_trim data := by
  obtain ⟨m, hm, hmo⟩ := oldest_timestamp_mem data hne hwf
  have hlen : 0 < data.length := List.length_pos.2 hne
  have htmp : data.map (fun d => sub64 d.m_timestamp (oldest_timestamp data) % 2 ^ 32) =
      (data.map DifficultyData.m_timestamp).map (fun x => x - oldest_timestamp data) := by
    rw [List.map_map]
    apply List.map_congr_left
    intro d hd
    have h1 := oldest_timestamp_le data d hd
    have h2 := hwf d hd
    have h3 := hspan d hd m hm
    rw [← hmo] at h3
    simp only [Function.comp]
    rw [sub64_of_le h1 h2]
    exact Nat.mod_eq_of_lt (by omega)
  have hge : ∀ x ∈ data.map DifficultyData.m_timestamp, oldest_timestamp data ≤ x := by
    intro x hx
    obtain ⟨d, hd, rfl⟩ := List.mem_map.1 hx
    exact oldest_timestamp_le data d hd
  have hback : ∀ k, k < data.length →
      add64 (oldest_timestamp data)
        (nth_element (data.map (fun d => sub64 d.m_timestamp (oldest_timestamp data) % 2 ^ 32)) k)
        = nth_element (data.map DifficultyData.m_timestamp) k := by
    intro k hk
    rw [htmp, nth_element_map_sub _ _ _ hge]
    have hmem := nth_element_mem (data.map DifficultyData.m_timestamp) k (by simpa using hk)
    have h1 := hge _ hmem
    obtain ⟨d, hd, hdt⟩ := List.mem_map.1 hmem
    have h2 := hwf d hd
    rw [hdt] at h2
    rw [add64_of_lt (by omega)]
    omega
  unfold trim_timestamps spec_trim
  simp only
  rw [hback _ (by omega), hback _ (by omega)]

theorem lt_iff_toNat_lt (a b : difficulty_type) (ha : a.lo < 2 ^ 64) (hb : b.lo < 2 ^ 64) :
    a.lt b = true ↔ a.toNat < b.toNat := by
  simp only [difficulty_type.lt, difficulty_type.toNat, Bool.or_eq_true, Bool.and_eq_true,
    decide_eq_true_eq]
  constructor
  · rintro (h | ⟨h1, h2⟩)
    · have : (a.hi + 1) * 2 ^ 64 ≤ b.hi * 2 ^ 64 := Nat.mul_le_mul_right _ h
      omega
    · rw [h1]; omega
  · intro h
    by_cases h1 : a.hi < b.hi
    · left; exact h1
    · right
      have h2 : b.hi ≤ a.hi := Nat.le_of_not_lt h1
      have h3 : b.hi * 2 ^ 64 ≤ a.hi * 2 ^ 64 := Nat.mul_le_mul_right _ h2
      by_cases h4 : a.hi = b.hi
      · refine ⟨h4, ?_⟩
        rw [h4] at h
        omega
      · have h5 : b.hi + 1 ≤ a.hi := by omega
        have h6 : (b.hi + 1) * 2 ^ 64 ≤ a.hi * 2 ^ 64 := Nat.mul_le_mul_right _ h5
        omega

/-- The pair folded by `diff_range`, from a given start. -/
theorem diff_range_fold (t1 t2 : Nat) (data : List DifficultyData)
    (hwf : ∀ d ∈ data, d.m_cumulativeDifficulty.lo < 2 ^ 64) :
    ∀ acc : difficulty_type × difficulty_type, acc.1.lo < 2 ^ 64 → acc.2.lo < 2 ^ 64 →
      let r := data.foldl
        (fun (acc : difficulty_type × difficulty_type) d =>
          if t1 ≤ d.m_timestamp ∧ d.m_timestamp ≤ t2 then
            (if d.m_cumulativeDifficulty.lt acc.1 then d.m_cumulativeDifficulty else acc.1,
             if acc.2.lt d.m_cumulativeDifficulty then d.m_cumulativeDifficulty else acc.2)
          else acc) acc
      r.1.lo < 2 ^ 64 ∧ r.2.lo < 2 ^ 64 ∧
      r.1.toNat = ((data.filter (fun d => decide (t1 ≤ d.m_timestamp ∧ d.m_timestamp ≤ t2))).map
        (fun d => d.m_cumulativeDifficulty.toNat)).foldl min acc.1.toNat ∧
      r.2.toNat = ((data.filter (fun d => decide (t1 ≤ d.m_timestamp ∧ d.m_timestamp ≤ t2))).map
        (fun d => d.m_cumulativeDifficulty.toNat)).foldl max acc.2.toNat := by
  induction data with
  | nil => intro acc h1 h2; exact ⟨h1, h2, rfl, rfl⟩
  | cons d ds ih =>
    intro acc h1 h2
    have hd := hwf d (List.mem_cons_self _ _)
    have ih' := ih (fun x hx => hwf x (List.mem_cons_of_mem _ hx))
    simp only [List.foldl_cons]
    by_cases hc : t1 ≤ d.m_timestamp ∧ d.m_timestamp ≤ t2
    · rw [if_pos hc, List.filter_cons_of_pos (by simpa using hc)]
      simp only [List.map_cons, List.foldl_cons]
      have hmin : (if d.m_cumulativeDifficulty.lt acc.1 then d.m_cumulativeDifficulty
          else acc.1).toNat = min acc.1.toNat d.m_cumulativeDifficulty.toNat := by
        by_cases hlt : d.m_cumulativeDifficulty.lt acc.1 = true
        · rw [if_pos hlt]
          have := (lt_iff_toNat_lt _ _ hd h1).1 hlt
          omega
        · rw [if_neg hlt]
          have := mt (lt_iff_toNat_lt _ _ hd h1).2 hlt
          omega
      have hmax : (if acc.2.lt d.m_cumulativeDifficulty then d.m_cumulativeDifficulty
          else acc.2).toNat = max acc.2.toNat d.m_cumulativeDifficulty.toNat := by
        by_cases hlt : acc.2.lt d.m_cumulativeDifficulty = true
        · rw [if_pos hlt]
          have := (lt_iff_toNat_lt _ _ h2 hd).1 hlt
          omega
        · rw [if_neg hlt]
          have := mt (lt_iff_toNat_lt _ _ h2 hd).2 hlt
          omega
      have := ih' (if d.m_cumulativeDifficulty.lt acc.1 then d.m_cumulativeDifficulty else acc.1,
        if acc.2.lt d.m_cumulativeDifficulty then d.m_cumulativeDifficulty else acc.2)
        (by simp only; split <;> assumption) (by simp only; split <;> assumption)
      simp only [hmin, hmax] at this
      exact this
    · rw [if_neg hc, List.filter_cons_of_neg (by simpa using hc)]
      exact ih' acc h1 h2

theorem diff_range_spec (t1 t2 : Nat) (data : List DifficultyData)
    (hwf : ∀ d ∈ data, d.m_cumulativeDifficulty.lo < 2 ^ 64) :
    (diff_range t1 t2 data).1.lo < 2 ^ 64 ∧ (diff_range t1 t2 data).2.lo < 2 ^ 64 ∧
    (diff_range t1 t2 data).1.toNat =
      list_min ((data.filter (fun d => decide (t1 ≤ d.m_timestamp ∧ d.m_timestamp ≤ t2))).map
        (fun d => d.m_cumulativeDifficulty.toNat)) ∧
    (diff_range t1 t2 data).2.toNat =
      list_max ((data.filter (fun d => decide (t1 ≤ d.m_timestamp ∧ d.m_timestamp ≤ t2))).map
        (fun d => d.m_cumulativeDifficulty.toNat)) := by
  have h := diff_range_fold t1 t2 data hwf
    ({ lo := 2 ^ 64 - 1, hi := 2 ^ 64 - 1 }, { lo := 0, hi := 0 }) (by norm_num) (by norm_num)
  have e1 : ({ lo := 2 ^ 64 - 1, hi := 2 ^ 64 - 1 } : difficulty_type).toNat = 2 ^ 128 - 1 := by
    decide
  have e2 : ({ lo := 0, hi := 0 } : difficulty_type).toNat = 0 := by decide
  simp only [e1, e2] at h
  exact h

theorem sub64_lo_eq (a b : difficulty_type)
    (hle : a.toNat ≤ b.toNat) (hd : b.toNat - a.toNat < 2 ^ 64) :
    sub64 b.lo a.lo = b.toNat - a.toNat := by
  unfold sub64
  unfold difficulty_type.toNat at *
  omega

theorem retarget_eq (cfg : Config) (D dt : Nat) (hD : D < 2 ^ 64)
    (hT : cfg.m_targetBlockTime < 2 ^ 64)
    (hfit : D * cfg.m_targetBlockTime / 2 ^ 64 < dt) :
    ∃ d, retarget cfg D dt = some d ∧
      d.toNat = max cfg.m_minDifficulty.toNat (D * cfg.m_targetBlockTime / dt) := by
  have hprod : D * cfg.m_targetBlockTime < 2 ^ 64 * 2 ^ 64 := Nat.mul_lt_mul'' hD hT
  have hhi : D * cfg.m_targetBlockTime / 2 ^ 64 < 2 ^ 64 := Nat.div_lt_of_lt_mul hprod
  have hdt : 0 < dt := by omega
  have hq : D * cfg.m_targetBlockTime / dt < 2 ^ 64 := by
    apply Nat.div_lt_of_lt_mul
    have h1 : D * cfg.m_targetBlockTime < (D * cfg.m_targetBlockTime / 2 ^ 64 + 1) * 2 ^ 64 := by
      have := Nat.div_add_mod (D * cfg.m_targetBlockTime) (2 ^ 64)
      have := Nat.mod_lt (D * cfg.m_targetBlockTime) (show 0 < 2 ^ 64 by norm_num)
      omega
    have h2 : (D * cfg.m_targetBlockTime / 2 ^ 64 + 1) * 2 ^ 64 ≤ dt * 2 ^ 64 :=
      Nat.mul_le_mul_right _ hfit
    omega
  have hdiv : udiv128 (umul128 D cfg.m_targetBlockTime).2 (umul128 D cfg.m_targetBlockTime).1 dt
      = D * cfg.m_targetBlockTime / dt := by
    unfold udiv128 umul128
    simp only
    rw [Nat.mod_eq_of_lt hhi, Nat.div_add_mod', Nat.mod_eq_of_lt hq]
  have hp2 : (umul128 D cfg.m_targetBlockTime).2 = D * cfg.m_targetBlockTime / 2 ^ 64 := by
    unfold umul128
    simp only
    exact Nat.mod_eq_of_lt hhi
  unfold retarget
  simp only
  rw [if_neg (by rw [hp2]; omega), hdiv]
  by_cases hlt : (({ lo := D * cfg.m_targetBlockTime / dt, hi := 0 } : difficulty_type).lt
      cfg.m_minDifficulty) = true
  · rw [if_pos hlt]
    refine ⟨_, rfl, ?_⟩
    simp only [difficulty_type.lt, Bool.or_eq_true, Bool.and_eq_true, decide_eq_true_eq] at hlt
    unfold difficulty_type.toNat
    rcases hlt with h | ⟨h1, h2⟩
    · have : 1 * 2 ^ 64 ≤ cfg.m_minDifficulty.hi * 2 ^ 64 := Nat.mul_le_mul_right _ h
      omega
    · rw [← h1]; omega
  · rw [if_neg hlt]
    refine ⟨_, rfl, ?_⟩
    simp only [difficulty_type.lt, Bool.or_eq_true, Bool.and_eq_true, decide_eq_true_eq,
      not_or, not_and, not_lt] at hlt
    obtain ⟨h1, h2⟩ := hlt
    have hhi0 : cfg.m_minDifficulty.hi = 0 := by omega
    have := h2 hhi0.symm
    unfold difficulty_type.toNat
    simp only [hhi0]
    omega


theorem get_difficulty_walk_ne_nil (cfg : Config) (s : Store) (tip : PoolBlock) (n : Nat)
    (cur : PoolBlock) (data : List DifficultyData)
    (h : get_difficulty_walk cfg s tip n cur = some data) : data ≠ [] := by
  unfold get_difficulty_walk at h
  split at h
  · exact absurd h (by simp)
  · split at h
    · cases h; simp
    · split at h
      · cases h; simp
      · split at h
        · exact absurd h (by simp)
        · split at h
          · exact absurd h (by simp)
          · cases h; simp

theorem spec_kept_span (data : List DifficultyData) (hne : data ≠ []) :
    list_min (spec_kept data) ≤ list_max (spec_kept data) := by
  have hlen : 0 < data.length := List.length_pos.2 hne
  have hmem := nth_element_mem (data.map DifficultyData.m_timestamp)
    ((data.length + 9) / 10 - 1) (by simp; omega)
  obtain ⟨d, hd, hdt⟩ := List.mem_map.1 hmem
  have hmono := nth_element_mono (data.map DifficultyData.m_timestamp)
    ((data.length + 9) / 10 - 1) (data.length - (data.length + 9) / 10) (by omega)
    (by simp; omega)
  have hk : d.m_cumulativeDifficulty.toNat ∈ spec_kept data := by
    unfold spec_kept
    apply List.mem_map_of_mem
    rw [List.mem_filter]
    refine ⟨hd, ?_⟩
    simp only [spec_trim, decide_eq_true_eq]
    rw [hdt]
    exact ⟨Nat.le_refl _, hmono⟩
  exact Nat.le_trans (foldl_min_le_mem _ _ _ hk) (foldl_max_ge_mem _ _ _ hk)

/-- C5 (amended): when the gathering walk of `get_difficulty` succeeds with entries `data`
whose timestamps lie within `2^32` seconds of each other and whose largest and smallest
kept cumulative difficulty differ by less than `2^64`, and the product
`Δd * target_block_time` stays below `Δt * 2^64`, then `get_difficulty` succeeds and
outputs `max(min_difficulty, floor(Δd * target_block_time / Δt))` with `cut`, `t1`, `t2`,
`Δt` and the full difference `Δd` as in the specification. -/
theorem get_difficulty_eq_spec (cfg : Config) (s : Store) (tip : PoolBlock)
    (data : List DifficultyData)
    (hwalk : get_difficulty_walk cfg s tip (cfg.m_chainWindowSize - 1) tip = some data)
    (hT : cfg.m_targetBlockTime < 2 ^ 64)
    (hwf : ∀ d ∈ data, d.m_timestamp < 2 ^ 64 ∧ d.m_cumulativeDifficulty.lo < 2 ^ 64)
    (hspan : ∀ d ∈ data, ∀ e ∈ data, d.m_timestamp < e.m_timestamp + 2 ^ 32)
    (hdiff : spec_delta_d data < 2 ^ 64)
    (hfit : spec_delta_d data * cfg.m_targetBlockTime / 2 ^ 64 < spec_delta_t data) :
    ∃ d, get_difficulty cfg s tip = some d ∧ d.toNat = spec_difficulty cfg data := by
  have hne := get_difficulty_walk_ne_nil cfg s tip _ tip data hwalk
  have htrim := trim_timestamps_eq_spec data hne (fun d hd => (hwf d hd).1) hspan
  obtain ⟨_, _, hmin, hmax⟩ := diff_range_spec (spec_trim data).1 (spec_trim data).2 data
    (fun d hd => (hwf d hd).2)
  have hle := spec_kept_span data hne
  have hdd : sub64 (diff_range (spec_trim data).1 (spec_trim data).2 data).2.lo
      (diff_range (spec_trim data).1 (spec_trim data).2 data).1.lo = spec_delta_d data := by
    rw [sub64_lo_eq _ _ (by rw [hmin, hmax]; exact hle) (by rw [hmin, hmax]; exact hdiff),
      hmin, hmax]
    rfl
  have hdt : (if (spec_trim data).1 < (spec_trim data).2
      then (spec_trim data).2 - (spec_trim data).1 else 1) = spec_delta_t data := by
    unfold spec_delta_t
    split <;> omega
  unfold get_difficulty
  rw [hwalk]
  simp only [difficulty_from_data, htrim, hdd, hdt]
  exact retarget_eq cfg _ _ hdiff hT hfit

theorem get_difficulty_eq_spec_witness :
    get_difficulty_walk default_config [genesis_block, steep_block] steep_block
      (default_config.m_chainWindowSize - 1) steep_block =
      some [⟨102, ⟨6000, 0⟩⟩, ⟨100, ⟨1000, 0⟩⟩] ∧
    spec_difficulty default_config [⟨102, ⟨6000, 0⟩⟩, ⟨100, ⟨1000, 0⟩⟩] = 2500 ∧
    ∃ d, get_difficulty default_config [genesis_block, steep_block] steep_block = some d ∧
      d.toNat = spec_difficulty default_config [⟨102, ⟨6000, 0⟩⟩, ⟨100, ⟨1000, 0⟩⟩] :=
  ⟨by decide, by decide,
    get_difficulty_eq_spec default_config [genesis_block, steep_block] steep_block
      [⟨102, ⟨6000, 0⟩⟩, ⟨100, ⟨1000, 0⟩⟩] (by decide) (by decide) (by decide) (by decide)
      (by decide) (by decide)⟩

/-- C5 (as stated) fails: on `far_block` (cumulative difficulty `2^64` above the genesis
block) and on `late_block` (timestamp `2^32` seconds after the genesis block)
`get_difficulty` outputs 1000, where the formula of the specification on the gathered
entries gives 1844674407370955161 and 5000. -/
theorem get_difficulty_counterexample :
    (get_difficulty_walk default_config [genesis_block, far_block] far_block
        (default_config.m_chainWindowSize - 1) far_block =
        some [⟨110, ⟨1000, 1⟩⟩, ⟨100, ⟨1000, 0⟩⟩] ∧
      get_difficulty default_config [genesis_block, far_block] far_block = some ⟨1000, 0⟩ ∧
      spec_difficulty default_config [⟨110, ⟨1000, 1⟩⟩, ⟨100, ⟨1000, 0⟩⟩] =
        1844674407370955161) ∧
    (get_difficulty_walk default_config [genesis_block, late_block] late_block
        (default_config.m_chainWindowSize - 1) late_block =
        some [⟨100 + 2 ^ 32, ⟨1000 + 5000 * 2 ^ 32, 0⟩⟩, ⟨100, ⟨1000, 0⟩⟩] ∧
      get_difficulty default_config [genesis_block, late_block] late_block = some ⟨1000, 0⟩ ∧
      spec_difficulty default_config
        [⟨100 + 2 ^ 32, ⟨1000 + 5000 * 2 ^ 32, 0⟩⟩, ⟨100, ⟨1000, 0⟩⟩] = 5000) := by
  decide

/-! ## Theorems: `get_shares` -/

theorem find_some_mem {s : Store} {id : hash} {b : PoolBlock} (h : find s id = some b) :
    b ∈ s := List.mem_of_find?_eq_some h

theorem find_some_id {s : Store} {id : hash} {b : PoolBlock} (h : find s id = some b) :
    b.m_sidechainId = id := by
  have := List.find?_some h
  simpa using this

theorem uncle_penalty_eq (cfg : Config) (u : PoolBlock) (hU : cfg.m_unclePenalty ≤ 100)
    (hu : u.m_difficulty.lo < 2 ^ 64) :
    uncle_penalty cfg u = spec_penalty cfg u ∧ spec_penalty cfg u ≤ u.m_difficulty.lo := by
  have hle : u.m_difficulty.lo * cfg.m_unclePenalty / 100 ≤ u.m_difficulty.lo := by
    calc u.m_difficulty.lo * cfg.m_unclePenalty / 100
        ≤ u.m_difficulty.lo * 100 / 100 := Nat.div_le_div_right (Nat.mul_le_mul_left _ hU)
      _ = u.m_difficulty.lo := Nat.mul_div_cancel _ (by norm_num)
  refine ⟨?_, hle⟩
  have hprod : u.m_difficulty.lo * cfg.m_unclePenalty < 2 ^ 64 * 2 ^ 64 :=
    Nat.mul_lt_mul'' hu (by omega)
  have hhi : u.m_difficulty.lo * cfg.m_unclePenalty / 2 ^ 64 < 2 ^ 64 :=
    Nat.div_lt_of_lt_mul hprod
  unfold uncle_penalty udiv128 umul128 spec_penalty
  simp only
  rw [Nat.mod_eq_of_lt hhi, Nat.div_add_mod']
  exact Nat.mod_eq_of_lt (lt_of_le_of_lt hle hu)

theorem get_shares_uncles_spec (cfg : Config) (s : Store) (tip : PoolBlock)
    (hU : cfg.m_unclePenalty ≤ 100) (hs : ∀ b ∈ s, b.m_difficulty.lo < 2 ^ 64) :
    ∀ (us : List hash) (cs cs1 : MinerShare) (ush : List MinerShare),
      get_shares_uncles cfg s tip us cs = some (cs1, ush) →
      cs1.m_wallet = cs.m_wallet ∧
      cs1.m_weight % 2 ^ 64 =
        (cs.m_weight + ((window_of cfg s tip us).map (spec_penalty cfg)).sum) % 2 ^ 64 ∧
      (cs.m_weight < 2 ^ 64 → cs1.m_weight < 2 ^ 64) ∧
      ush = (window_of cfg s tip us).map (uncle_share cfg) := by
  intro us
  induction us with
  | nil =>
    intro cs cs1 ush h
    simp only [get_shares_uncles, Option.some.injEq, Prod.mk.injEq] at h
    obtain ⟨rfl, rfl⟩ := h
    simp [window_of]
  | cons u us ih =>
    intro cs cs1 ush h
    unfold get_shares_uncles at h
    cases hf : find s u with
    | none => rw [hf] at h; exact absurd h (by simp)
    | some ub =>
      rw [hf] at h
      simp only at h
      have hub := hs ub (find_some_mem hf)
      obtain ⟨hpen, hple⟩ := uncle_penalty_eq cfg ub hU hub
      by_cases hw : cfg.m_chainWindowSize ≤ sub64 tip.m_sidechainHeight ub.m_sidechainHeight
      · rw [if_pos hw] at h
        have := ih cs cs1 ush h
        have hwin : window_of cfg s tip (u :: us) = window_of cfg s tip us := by
          unfold window_of
          rw [List.filterMap_cons, hf]
          simp only
          rw [List.filter_cons_of_neg (by simpa using hw)]
        rw [hwin]
        exact this
      · rw [if_neg hw] at h
        have hwin : window_of cfg s tip (u :: us) = ub :: window_of cfg s tip us := by
          unfold window_of
          rw [List.filterMap_cons, hf]
          simp only
          rw [List.filter_cons_of_pos (by simpa using hw)]
        cases hrec : get_shares_uncles cfg s tip us
            { cs with m_weight := add64 cs.m_weight (uncle_penalty cfg ub) } with
        | none => rw [hrec] at h; exact absurd h (by simp)
        | some r =>
          obtain ⟨cs2, shares⟩ := r
          rw [hrec] at h
          simp only [Option.some.injEq, Prod.mk.injEq] at h
          obtain ⟨rfl, rfl⟩ := h
          obtain ⟨h1, h2, h3, h4⟩ := ih _ _ _ hrec
          simp only at h1 h2 h3
          rw [hwin]
          refine ⟨h1, ?_, fun _ => h3 (add64_lt _ _), ?_⟩
          · rw [h2, hpen]
            simp only [List.map_cons, List.sum_cons, add64]
            rw [Nat.mod_add_mod, Nat.add_assoc]
          · rw [h4, hpen, sub64_of_le hple hub]
            rfl


theorem wallet_sum_append (w : Wallet) (l1 l2 : List MinerShare) :
    wallet_sum w (l1 ++ l2) = wallet_sum w l1 + wallet_sum w l2 := by
  simp [wallet_sum, List.filter_append]

theorem wallet_sum_cons (w : Wallet) (sh : MinerShare) (l : List MinerShare) :
    wallet_sum w (sh :: l) = (if sh.m_wallet = w then sh.m_weight else 0) + wallet_sum w l := by
  unfold wallet_sum
  by_cases h : sh.m_wallet = w
  · rw [List.filter_cons_of_pos (by simpa using h), if_pos h]; simp
  · rw [List.filter_cons_of_neg (by simpa using h), if_neg h]; simp

theorem wallet_sum_uncle_shares (cfg : Config) (w : Wallet) (l : List PoolBlock) :
    wallet_sum w (l.map (uncle_share cfg)) =
      ((l.filter (fun u => decide (u.m_minerWallet = w))).map
        (fun u => u.m_difficulty.lo - spec_penalty cfg u)).sum := by
  induction l with
  | nil => rfl
  | cons u l ih =>
    rw [List.map_cons, wallet_sum_cons, ih]
    by_cases h : u.m_minerWallet = w
    · rw [List.filter_cons_of_pos (by simpa using h)]
      simp [uncle_share, h]
    · rw [List.filter_cons_of_neg (by simpa using h)]
      simp [uncle_share, h]

/-- One visited block: the shares pushed for it and what they add up to per wallet. -/
theorem block_shares_spec (cfg : Config) (s : Store) (tip cur : PoolBlock)
    (hU : cfg.m_unclePenalty ≤ 100) (hs : ∀ b ∈ s, b.m_difficulty.lo < 2 ^ 64)
    (hcur : cur.m_difficulty.lo < 2 ^ 64) (cs1 : MinerShare) (ush : List MinerShare)
    (h : get_shares_uncles cfg s tip cur.m_uncles
      { m_weight := cur.m_difficulty.lo, m_wallet := cur.m_minerWallet } = some (cs1, ush)) :
    (∀ w, wallet_sum w (ush ++ [cs1]) % 2 ^ 64 = spec_block_weight cfg s tip w cur % 2 ^ 64) ∧
    (∀ w, (∃ sh ∈ ush ++ [cs1], sh.m_wallet = w) ↔
      (cur.m_minerWallet = w ∨ ∃ u ∈ window_uncles cfg s tip cur, u.m_minerWallet = w)) ∧
    (∀ sh ∈ ush ++ [cs1], sh.m_weight < 2 ^ 64) := by
  obtain ⟨h1, h2, h3, h4⟩ := get_shares_uncles_spec cfg s tip hU hs _ _ _ _ h
  simp only at h1 h2 h3
  have hwin : window_of cfg s tip cur.m_uncles = window_uncles cfg s tip cur := rfl
  rw [hwin] at h2 h4
  refine ⟨?_, ?_, ?_⟩
  · intro w
    rw [wallet_sum_append, wallet_sum_cons, h4, wallet_sum_uncle_shares]
    unfold spec_block_weight
    simp only [wallet_sum, List.filter_nil, List.map_nil, List.sum_nil, Nat.add_zero, h1]
    by_cases hw : cur.m_minerWallet = w
    · rw [if_pos hw, if_pos hw]
      omega
    · rw [if_neg hw, if_neg hw]
      omega
  · intro w
    rw [h4]
    constructor
    · rintro ⟨sh, hsh, rfl⟩
      rcases List.mem_append.1 hsh with hm | hm
      · obtain ⟨u, hu, rfl⟩ := List.mem_map.1 hm
        exact Or.inr ⟨u, hu, rfl⟩
      · simp only [List.mem_singleton] at hm
        subst hm
        exact Or.inl h1.symm
    · rintro (hw | ⟨u, hu, hw⟩)
      · exact ⟨cs1, by simp, by rw [h1]; exact hw⟩
      · exact ⟨uncle_share cfg u, List.mem_append_left _ (List.mem_map_of_mem _ hu), hw⟩
  · intro sh hsh
    rcases List.mem_append.1 hsh with hm | hm
    · rw [h4] at hm
      obtain ⟨u, hu, rfl⟩ := List.mem_map.1 hm
      have hus : u ∈ s := by
        have := (List.mem_filter.1 hu).1
        obtain ⟨id, _, hid⟩ := List.mem_filterMap.1 this
        exact find_some_mem hid
      have := hs u hus
      simp only [uncle_share]
      omega
    · simp only [List.mem_singleton] at hm
      subst hm
      exact h3 hcur

theorem get_shares_walk_spec (cfg : Config) (s : Store) (tip : PoolBlock)
    (hU : cfg.m_unclePenalty ≤ 100) (hs : ∀ b ∈ s, b.m_difficulty.lo < 2 ^ 64) :
    ∀ (n : Nat) (cur : PoolBlock) (raw : List MinerShare), cur.m_difficulty.lo < 2 ^ 64 →
      get_shares_walk cfg s tip n cur = some raw →
      (∀ w, wallet_sum w raw % 2 ^ 64 =
        ((visited s n cur).map (spec_block_weight cfg s tip w)).sum % 2 ^ 64) ∧
      (∀ w, (∃ sh ∈ raw, sh.m_wallet = w) ↔
        ∃ b ∈ visited s n cur,
          b.m_minerWallet = w ∨ ∃ u ∈ window_uncles cfg s tip b, u.m_minerWallet = w) ∧
      (∀ sh ∈ raw, sh.m_weight < 2 ^ 64) ∧ raw ≠ [] := by
  intro n
  induction n with
  | zero =>
    intro cur raw hcur h
    unfold get_shares_walk at h
    cases hu : get_shares_uncles cfg s tip cur.m_uncles
        { m_weight := cur.m_difficulty.lo, m_wallet := cur.m_minerWallet } with
    | none => rw [hu] at h; exact absurd h (by simp)
    | some r =>
      obtain ⟨cs1, ush⟩ := r
      rw [hu] at h
      simp only [Option.some.injEq] at h
      subst h
      obtain ⟨b1, b2, b3⟩ := block_shares_spec cfg s tip cur hU hs hcur cs1 ush hu
      refine ⟨?_, ?_, b3, by simp⟩
      · intro w; simp only [visited, List.map_cons, List.map_nil, List.sum_cons, List.sum_nil,
          Nat.add_zero]; exact b1 w
      · intro w; simp only [visited, List.mem_singleton, exists_eq_left]; exact b2 w
  | succ n ih =>
    intro cur raw hcur h
    unfold get_shares_walk at h
    cases hu : get_shares_uncles cfg s tip cur.m_uncles
        { m_weight := cur.m_difficulty.lo, m_wallet := cur.m_minerWallet } with
    | none => rw [hu] at h; exact absurd h (by simp)
    | some r =>
      obtain ⟨cs1, ush⟩ := r
      rw [hu] at h
      simp only at h
      obtain ⟨b1, b2, b3⟩ := block_shares_spec cfg s tip cur hU hs hcur cs1 ush hu
      by_cases hg : cur.m_sidechainHeight = 0
      · rw [if_pos hg] at h
        simp only [Option.some.injEq] at h
        subst h
        refine ⟨?_, ?_, b3, by simp⟩
        · intro w; simp only [visited, hg, if_true, List.map_cons, List.map_nil, List.sum_cons,
            List.sum_nil, Nat.add_zero]; exact b1 w
        · intro w; simp only [visited, hg, if_true, List.mem_singleton, exists_eq_left]
          exact b2 w
      · rw [if_neg hg] at h
        cases hp : find s cur.m_parent with
        | none => rw [hp] at h; exact absurd h (by simp)
        | some parent =>
          rw [hp] at h
          simp only at h
          cases hr : get_shares_walk cfg s tip n parent with
          | none => rw [hr] at h; exact absurd h (by simp)
          | some rest =>
            rw [hr] at h
            simp only [Option.some.injEq] at h
            subst h
            obtain ⟨r1, r2, r3, _⟩ := ih parent rest (hs parent (find_some_mem hp)) hr
            have hv : visited s (n + 1) cur = cur :: visited s n parent := by
              simp only [visited, hg, if_false, hp]
            rw [hv]
            refine ⟨?_, ?_, ?_, by simp⟩
            · intro w
              rw [wallet_sum_append, List.map_cons, List.sum_cons, Nat.add_mod, b1 w, r1 w,
                ← Nat.add_mod]
            · intro w
              constructor
              · rintro ⟨sh, hsh, hw⟩
                rcases List.mem_append.1 hsh with hm | hm
                · exact ⟨cur, List.mem_cons_self _ _, (b2 w).1 ⟨sh, hm, hw⟩⟩
                · obtain ⟨b, hb, hbw⟩ := (r2 w).1 ⟨sh, hm, hw⟩
                  exact ⟨b, List.mem_cons_of_mem _ hb, hbw⟩
              · rintro ⟨b, hb, hbw⟩
                rcases List.mem_cons.1 hb with rfl | hb
                · obtain ⟨sh, hsh, hw⟩ := (b2 w).2 hbw
                  exact ⟨sh, List.mem_append_left _ hsh, hw⟩
                · obtain ⟨sh, hsh, hw⟩ := (r2 w).2 ⟨b, hb, hbw⟩
                  exact ⟨sh, List.mem_append_right _ hsh, hw⟩
            · intro sh hsh
              rcases List.mem_append.1 hsh with hm | hm
              · exact b3 sh hm
              · exact r3 sh hm


theorem wallet_sum_eq_zero (w : Wallet) (l : List MinerShare)
    (h : ∀ sh ∈ l, sh.m_wallet ≠ w) : wallet_sum w l = 0 := by
  unfold wallet_sum
  rw [List.filter_eq_nil_iff.2 (by simpa using h)]
  rfl

theorem wallet_sum_perm (w : Wallet) {l1 l2 : List MinerShare} (h : l1.Perm l2) :
    wallet_sum w l1 = wallet_sum w l2 := by
  unfold wallet_sum
  exact ((h.filter _).map _).sum_eq

theorem combine_shares_spec : ∀ (rest : List MinerShare) (acc : MinerShare),
    (acc :: rest).Sorted (fun a b => a.m_wallet ≤ b.m_wallet) →
    (∀ sh ∈ acc :: rest, sh.m_weight < 2 ^ 64) →
    (combine_shares acc rest).Pairwise (fun a b => a.m_wallet < b.m_wallet) ∧
    (∀ sh ∈ combine_shares acc rest, acc.m_wallet ≤ sh.m_wallet) ∧
    (∀ sh ∈ combine_shares acc rest,
      sh.m_weight = wallet_sum sh.m_wallet (acc :: rest) % 2 ^ 64) ∧
    (∀ w, (∃ sh ∈ combine_shares acc rest, sh.m_wallet = w) ↔
      ∃ sh ∈ acc :: rest, sh.m_wallet = w) := by
  intro rest
  induction rest with
  | nil =>
    intro acc _ hw
    have := hw acc (List.mem_cons_self _ _)
    refine ⟨by simp [combine_shares], by simp [combine_shares], ?_, by simp [combine_shares]⟩
    intro sh hsh
    simp only [combine_shares, List.mem_singleton] at hsh
    subst hsh
    rw [wallet_sum_cons, if_pos rfl, wallet_sum_eq_zero _ _ (by simp), Nat.add_zero,
      Nat.mod_eq_of_lt this]
  | cons x rest ih =>
    intro acc hsorted hw
    have hax : acc.m_wallet ≤ x.m_wallet :=
      List.rel_of_sorted_cons hsorted x (List.mem_cons_self _ _)
    have hxs : (x :: rest).Sorted (fun a b => a.m_wallet ≤ b.m_wallet) := hsorted.of_cons
    have hxle : ∀ sh ∈ rest, x.m_wallet ≤ sh.m_wallet := List.rel_of_sorted_cons hxs
    unfold combine_shares
    by_cases he : x.m_wallet = acc.m_wallet
    · rw [if_pos he]
      have hs1 : (({ acc with m_weight := add64 acc.m_weight x.m_weight } : MinerShare) ::
          rest).Sorted (fun a b => a.m_wallet ≤ b.m_wallet) := by
        refine List.sorted_cons.2 ⟨?_, hxs.of_cons⟩
        intro b hb
        exact Nat.le_trans hax (hxle b hb)
      have hw1 : ∀ sh ∈ ({ acc with m_weight := add64 acc.m_weight x.m_weight } : MinerShare) ::
          rest, sh.m_weight < 2 ^ 64 := by
        intro sh hsh
        rcases List.mem_cons.1 hsh with rfl | h
        · exact add64_lt _ _
        · exact hw sh (List.mem_cons_of_mem _ (List.mem_cons_of_mem _ h))
      obtain ⟨i1, i2, i3, i4⟩ := ih _ hs1 hw1
      refine ⟨i1, i2, ?_, ?_⟩
      · intro sh hsh
        rw [i3 sh hsh, wallet_sum_cons, wallet_sum_cons, wallet_sum_cons]
        simp only [he]
        by_cases hc : acc.m_wallet = sh.m_wallet
        · simp only [hc, if_true, add64]; omega
        · simp only [hc, if_false, Nat.zero_add]
      · intro w
        rw [i4 w]
        constructor
        · rintro ⟨sh, hsh, hsw⟩
          rcases List.mem_cons.1 hsh with rfl | h
          · exact ⟨acc, List.mem_cons_self _ _, hsw⟩
          · exact ⟨sh, List.mem_cons_of_mem _ (List.mem_cons_of_mem _ h), hsw⟩
        · rintro ⟨sh, hsh, hsw⟩
          rcases List.mem_cons.1 hsh with rfl | h
          · exact ⟨_, List.mem_cons_self _ _, hsw⟩
          · rcases List.mem_cons.1 h with rfl | h
            · exact ⟨_, List.mem_cons_self _ _, by simpa [he] using hsw⟩
            · exact ⟨sh, List.mem_cons_of_mem _ h, hsw⟩
    · rw [if_neg he]
      have hlt : acc.m_wallet < x.m_wallet := Nat.lt_of_le_of_ne hax (fun h => he h.symm)
      obtain ⟨i1, i2, i3, i4⟩ := ih x hxs (fun sh hsh => hw sh (List.mem_cons_of_mem _ hsh))
      refine ⟨?_, ?_, ?_, ?_⟩
      · refine List.pairwise_cons.2 ⟨?_, i1⟩
        intro b hb
        exact lt_of_lt_of_le hlt (i2 b hb)
      · intro sh hsh
        rcases List.mem_cons.1 hsh with rfl | h
        · exact Nat.le_refl _
        · exact Nat.le_trans hax (i2 sh h)
      · intro sh hsh
        rcases List.mem_cons.1 hsh with rfl | h
        · have h0 : wallet_sum sh.m_wallet (x :: rest) = 0 := by
            apply wallet_sum_eq_zero
            intro y hy
            rcases List.mem_cons.1 hy with rfl | hy
            · exact Nat.ne_of_gt hlt
            · exact Nat.ne_of_gt (lt_of_lt_of_le hlt (hxle y hy))
          rw [wallet_sum_cons, if_pos rfl, h0, Nat.add_zero,
            Nat.mod_eq_of_lt (hw sh (List.mem_cons_self _ _))]
        · have := i2 sh h
          rw [i3 sh h, wallet_sum_cons (l := x :: rest),
            if_neg (Nat.ne_of_lt (lt_of_lt_of_le hlt this)), Nat.zero_add]
      · intro w
        constructor
        · rintro ⟨sh, hsh, hsw⟩
          rcases List.mem_cons.1 hsh with rfl | h
          · exact ⟨sh, List.mem_cons_self _ _, hsw⟩
          · obtain ⟨y, hy, hyw⟩ := (i4 w).1 ⟨sh, h, hsw⟩
            exact ⟨y, List.mem_cons_of_mem _ hy, hyw⟩
        · rintro ⟨sh, hsh, hsw⟩
          rcases List.mem_cons.1 hsh with rfl | h
          · exact ⟨sh, List.mem_cons_self _ _, hsw⟩
          · obtain ⟨y, hy, hyw⟩ := (i4 w).2 ⟨sh, h, hsw⟩
            exact ⟨y, List.mem_cons_of_mem _ hy, hyw⟩

theorem sort_shares_sorted (l : List MinerShare) :
    (sort_shares l).Sorted (fun a b => a.m_wallet ≤ b.m_wallet) := by
  haveI : IsTotal MinerShare (fun a b => a.m_wallet ≤ b.m_wallet) :=
    ⟨fun a b => Nat.le_total a.m_wallet b.m_wallet⟩
  haveI : IsTrans MinerShare (fun a b => a.m_wallet ≤ b.m_wallet) :=
    ⟨fun _ _ _ h1 h2 => Nat.le_trans h1 h2⟩
  exact List.sorted_insertionSort _ l

theorem sort_shares_perm (l : List MinerShare) : (sort_shares l).Perm l :=
  List.perm_insertionSort _ l


theorem spec_contributes_iff (cfg : Config) (s : Store) (tip : PoolBlock) (w : Wallet) :
    spec_contributes cfg s tip w = true ↔
      ∃ b ∈ visited s (cfg.m_chainWindowSize - 1) tip,
        b.m_minerWallet = w ∨ ∃ u ∈ window_uncles cfg s tip b, u.m_minerWallet = w := by
  unfold spec_contributes
  simp only [List.any_eq_true, Bool.or_eq_true, decide_eq_true_eq]

theorem get_shares_eq (cfg : Config) (s : Store) (tip : PoolBlock) (shares : List MinerShare)
    (h : get_shares cfg s tip = some shares) :
    ∃ raw first rest, get_shares_walk cfg s tip (cfg.m_chainWindowSize - 1) tip = some raw ∧
      sort_shares raw = first :: rest ∧ shares = combine_shares first rest := by
  unfold get_shares at h
  cases hw : get_shares_walk cfg s tip (cfg.m_chainWindowSize - 1) tip with
  | none => rw [hw] at h; exact absurd h (by simp)
  | some raw =>
    rw [hw] at h
    simp only at h
    cases hs : sort_shares raw with
    | nil =>
      exfalso
      have hp := sort_shares_perm raw
      rw [hs] at hp
      have hraw : raw = [] := List.Perm.eq_nil hp.symm
      subst hraw
      unfold get_shares_walk at hw
      split at hw
      · exact absurd hw (by simp)
      · split at hw
        · simp at hw
        · split at hw
          · simp at hw
          · split at hw
            · exact absurd hw (by simp)
            · split at hw
              · exact absurd hw (by simp)
              · simp at hw
    | cons first rest =>
      rw [hs] at h
      simp only [Option.some.injEq] at h
      exact ⟨raw, first, rest, rfl, hs, h.symm⟩

/-- C3 (as stated) fails: two blocks of difficulty `2^63` mined by wallet 11 give wallet 11
the weight 0, while the sum described by the claim is `2^64`. -/
theorem get_shares_weight_counterexample :
    get_shares default_config [heavy_genesis, heavy_block] heavy_block = some [⟨0, 11⟩] ∧
    spec_weight default_config [heavy_genesis, heavy_block] heavy_block 11 = 2 ^ 64 := by
  decide

/-- C3 (amended): with an uncle penalty of at most 100 percent and 64-bit difficulty words,
when `get_shares(tip)` succeeds the weight it returns for a wallet is the sum described by
the claim reduced modulo `2^64` (the 64-bit accumulation wraps), every returned wallet
mined a visited block or an in-window uncle of one, and every such wallet is returned. -/
theorem get_shares_weights (cfg : Config) (s : Store) (tip : PoolBlock)
    (shares : List MinerShare)
    (hU : cfg.m_unclePenalty ≤ 100)
    (hs : ∀ b ∈ s, b.m_difficulty.lo < 2 ^ 64) (htip : tip.m_difficulty.lo < 2 ^ 64)
    (h : get_shares cfg s tip = some shares) :
    (∀ sh ∈ shares, sh.m_weight = spec_weight cfg s tip sh.m_wallet % 2 ^ 64 ∧
      spec_contributes cfg s tip sh.m_wallet = true) ∧
    (∀ w, spec_contributes cfg s tip w = true → ∃ sh ∈ shares, sh.m_wallet = w) := by
  obtain ⟨raw, first, rest, hwalk, hsort, rfl⟩ := get_shares_eq cfg s tip shares h
  obtain ⟨w1, w2, w3, _⟩ := get_shares_walk_spec cfg s tip hU hs _ tip raw htip hwalk
  have hperm : (first :: rest).Perm raw := by rw [← hsort]; exact sort_shares_perm raw
  have hsorted : (first :: rest).Sorted (fun a b => a.m_wallet ≤ b.m_wallet) := by
    rw [← hsort]; exact sort_shares_sorted raw
  obtain ⟨_, _, c3, c4⟩ := combine_shares_spec rest first hsorted
    (fun sh hsh => w3 sh (hperm.mem_iff.1 hsh))
  have hmem : ∀ w, (∃ sh ∈ combine_shares first rest, sh.m_wallet = w) ↔
      spec_contributes cfg s tip w = true := by
    intro w
    rw [c4 w, spec_contributes_iff, ← w2 w]
    constructor
    · rintro ⟨sh, hsh, hw⟩; exact ⟨sh, hperm.mem_iff.1 hsh, hw⟩
    · rintro ⟨sh, hsh, hw⟩; exact ⟨sh, hperm.mem_iff.2 hsh, hw⟩
  refine ⟨?_, fun w hw => (hmem w).2 hw⟩
  intro sh hsh
  refine ⟨?_, (hmem sh.m_wallet).1 ⟨sh, hsh, rfl⟩⟩
  rw [c3 sh hsh, wallet_sum_perm _ hperm, w1]
  rfl

theorem get_shares_weights_witness :
    get_shares default_config [genesis_block, block_1a, block_1b, block_2] block_2 =
      some [⟨1000, 11⟩, ⟨1000, 12⟩, ⟨800, 13⟩, ⟨1200, 14⟩] ∧
    ((∀ sh ∈ ([⟨1000, 11⟩, ⟨1000, 12⟩, ⟨800, 13⟩, ⟨1200, 14⟩] : List MinerShare),
      sh.m_weight =
        spec_weight default_config [genesis_block, block_1a, block_1b, block_2] block_2
          sh.m_wallet % 2 ^ 64 ∧
      spec_contributes default_config [genesis_block, block_1a, block_1b, block_2] block_2
        sh.m_wallet = true) ∧
    (∀ w,
      spec_contributes default_config [genesis_block, block_1a, block_1b, block_2] block_2 w =
        true →
      ∃ sh ∈ ([⟨1000, 11⟩, ⟨1000, 12⟩, ⟨800, 13⟩, ⟨1200, 14⟩] : List MinerShare),
        sh.m_wallet = w)) :=
  ⟨by decide,
    get_shares_weights default_config [genesis_block, block_1a, block_1b, block_2] block_2
      [⟨1000, 11⟩, ⟨1000, 12⟩, ⟨800, 13⟩, ⟨1200, 14⟩] (by decide) (by decide) (by decide)
      (by decide)⟩

/-! ## Theorems: stores that differ in insertion order or in mutable members -/

theorem find_map_immutable (s : Store) (id : hash) :
    find (s.map PoolBlock.immutable) id = (find s id).map PoolBlock.immutable := by
  unfold find
  rw [List.find?_map]
  rfl

theorem find_eq_some_iff (s : Store) (hnd : (s.map PoolBlock.m_sidechainId).Nodup)
    (id : hash) (b : PoolBlock) :
    find s id = some b ↔ b ∈ s ∧ b.m_sidechainId = id := by
  constructor
  · intro h; exact ⟨find_some_mem h, find_some_id h⟩
  · rintro ⟨hb, hid⟩
    induction s with
    | nil => simp at hb
    | cons x xs ih =>
      simp only [List.map_cons, List.nodup_cons] at hnd
      unfold find
      rw [List.find?_cons]
      by_cases hx : x.m_sidechainId = id
      · simp only [hx, decide_True]
        rcases List.mem_cons.1 hb with rfl | hb
        · rfl
        · exfalso
          apply hnd.1
          rw [hx, ← hid]
          exact List.mem_map_of_mem _ hb
      · simp only [hx, decide_False]
        rcases List.mem_cons.1 hb with rfl | hb
        · exact absurd hid hx
        · exact ih hnd.2 hb

theorem find_perm (s1 s2 : Store) (hp : s1.Perm s2)
    (hnd : (s1.map PoolBlock.m_sidechainId).Nodup) (id : hash) : find s1 id = find s2 id := by
  have hnd2 : (s2.map PoolBlock.m_sidechainId).Nodup := (hp.map _).nodup_iff.1 hnd
  cases h1 : find s1 id with
  | some b =>
    have := (find_eq_some_iff s1 hnd id b).1 h1
    exact ((find_eq_some_iff s2 hnd2 id b).2 ⟨hp.mem_iff.1 this.1, this.2⟩).symm
  | none =>
    cases h2 : find s2 id with
    | none => rfl
    | some b =>
      have := (find_eq_some_iff s2 hnd2 id b).1 h2
      have := (find_eq_some_iff s1 hnd id b).2 ⟨hp.mem_iff.2 this.1, this.2⟩
      rw [h1] at this
      exact absurd this (by simp)

theorem store_agree_of_perm (s1 s2 : Store)
    (hp : (s1.map PoolBlock.immutable).Perm (s2.map PoolBlock.immutable))
    (hnd : (s1.map PoolBlock.m_sidechainId).Nodup) : store_agree s1 s2 := by
  intro id
  rw [← find_map_immutable, ← find_map_immutable]
  apply find_perm _ _ hp
  rw [List.map_map]
  exact hnd

theorem store_agree_cases {s1 s2 : Store} (h : store_agree s1 s2) (id : hash) :
    (find s1 id = none ∧ find s2 id = none) ∨
    ∃ b1 b2, find s1 id = some b1 ∧ find s2 id = some b2 ∧ b1.immutable = b2.immutable := by
  have := h id
  cases h1 : find s1 id with
  | none =>
    cases h2 : find s2 id with
    | none => exact Or.inl ⟨rfl, rfl⟩
    | some b2 => rw [h1, h2] at this; exact absurd this (by simp)
  | some b1 =>
    cases h2 : find s2 id with
    | none => rw [h1, h2] at this; exact absurd this (by simp)
    | some b2 =>
      rw [h1, h2] at this
      exact Or.inr ⟨b1, b2, rfl, rfl, by simpa using this⟩

theorem immutable_fields {b1 b2 : PoolBlock} (h : b1.immutable = b2.immutable) :
    b1.m_sidechainId = b2.m_sidechainId ∧ b1.m_parent = b2.m_parent ∧
    b1.m_uncles = b2.m_uncles ∧ b1.m_sidechainHeight = b2.m_sidechainHeight ∧
    b1.m_difficulty = b2.m_difficulty ∧
    b1.m_cumulativeDifficulty = b2.m_cumulativeDifficulty ∧
    b1.m_timestamp = b2.m_timestamp ∧ b1.m_minerWallet = b2.m_minerWallet ∧
    b1.m_txkeySec = b2.m_txkeySec ∧ b1.m_outputs = b2.m_outputs := by
  have e1 : b1.immutable.m_sidechainId = b2.immutable.m_sidechainId := by rw [h]
  have e2 : b1.immutable.m_parent = b2.immutable.m_parent := by rw [h]
  have e3 : b1.immutable.m_uncles = b2.immutable.m_uncles := by rw [h]
  have e4 : b1.immutable.m_sidechainHeight = b2.immutable.m_sidechainHeight := by rw [h]
  have e5 : b1.immutable.m_difficulty = b2.immutable.m_difficulty := by rw [h]
  have e6 : b1.immutable.m_cumulativeDifficulty = b2.immutable.m_cumulativeDifficulty := by
    rw [h]
  have e7 : b1.immutable.m_timestamp = b2.immutable.m_timestamp := by rw [h]
  have e8 : b1.immutable.m_minerWallet = b2.immutable.m_minerWallet := by rw [h]
  have e9 : b1.immutable.m_txkeySec = b2.immutable.m_txkeySec := by rw [h]
  have e10 : b1.immutable.m_outputs = b2.immutable.m_outputs := by rw [h]
  exact ⟨e1, e2, e3, e4, e5, e6, e7, e8, e9, e10⟩

theorem get_shares_uncles_agree (cfg : Config) {s1 s2 : Store} (h : store_agree s1 s2)
    (tip1 tip2 : PoolBlock) (ht : tip1.m_sidechainHeight = tip2.m_sidechainHeight) :
    ∀ (us : List hash) (cs : MinerShare),
      get_shares_uncles cfg s1 tip1 us cs = get_shares_uncles cfg s2 tip2 us cs := by
  intro us
  induction us with
  | nil => intro cs; rfl
  | cons u us ih =>
    intro cs
    unfold get_shares_uncles
    rcases store_agree_cases h u with ⟨h1, h2⟩ | ⟨b1, b2, h1, h2, hb⟩
    · rw [h1, h2]
    · rw [h1, h2]
      obtain ⟨_, _, _, hh, hd, _, _, hw, _, _⟩ := immutable_fields hb
      have hpen : uncle_penalty cfg b1 = uncle_penalty cfg b2 := by
        unfold uncle_penalty; rw [hd]
      simp only [ht, hh, hd, hw, hpen, ih]

theorem get_shares_walk_agree (cfg : Config) {s1 s2 : Store} (h : store_agree s1 s2)
    (tip1 tip2 : PoolBlock) (ht : tip1.m_sidechainHeight = tip2.m_sidechainHeight) :
    ∀ (n : Nat) (cur1 cur2 : PoolBlock), cur1.immutable = cur2.immutable →
      get_shares_walk cfg s1 tip1 n cur1 = get_shares_walk cfg s2 tip2 n cur2 := by
  intro n
  induction n with
  | zero =>
    intro cur1 cur2 hc
    obtain ⟨_, _, hu, _, hd, _, _, hw, _, _⟩ := immutable_fields hc
    unfold get_shares_walk
    rw [get_shares_uncles_agree cfg h tip1 tip2 ht, hu, hd, hw]
  | succ n ih =>
    intro cur1 cur2 hc
    obtain ⟨_, hp, hu, hh, hd, _, _, hw, _, _⟩ := immutable_fields hc
    unfold get_shares_walk
    rw [get_shares_uncles_agree cfg h tip1 tip2 ht, hu, hd, hw, hh, hp]
    rcases store_agree_cases h cur2.m_parent with ⟨h1, h2⟩ | ⟨b1, b2, h1, h2, hb⟩
    · rw [h1, h2]
    · rw [h1, h2]
      simp only [ih b1 b2 hb]

theorem get_shares_agree (cfg : Config) {s1 s2 : Store} (h : store_agree s1 s2)
    (tip1 tip2 : PoolBlock) (ht : tip1.immutable = tip2.immutable) :
    get_shares cfg s1 tip1 = get_shares cfg s2 tip2 := by
  unfold get_shares
  rw [get_shares_walk_agree cfg h tip1 tip2 (immutable_fields ht).2.2.2.1 _ tip1 tip2 ht]

theorem combine_shares_sorted : ∀ (rest : List MinerShare) (acc : MinerShare),
    (acc :: rest).Sorted (fun a b => a.m_wallet ≤ b.m_wallet) →
    (combine_shares acc rest).Pairwise (fun a b => a.m_wallet < b.m_wallet) ∧
    (∀ sh ∈ combine_shares acc rest, acc.m_wallet ≤ sh.m_wallet) := by
  intro rest
  induction rest with
  | nil => intro acc _; simp [combine_shares]
  | cons x rest ih =>
    intro acc hsorted
    have hax : acc.m_wallet ≤ x.m_wallet :=
      List.rel_of_sorted_cons hsorted x (List.mem_cons_self _ _)
    have hxs : (x :: rest).Sorted (fun a b => a.m_wallet ≤ b.m_wallet) := hsorted.of_cons
    have hxle : ∀ sh ∈ rest, x.m_wallet ≤ sh.m_wallet := List.rel_of_sorted_cons hxs
    unfold combine_shares
    by_cases he : x.m_wallet = acc.m_wallet
    · rw [if_pos he]
      apply ih
      refine List.sorted_cons.2 ⟨?_, hxs.of_cons⟩
      intro b hb
      exact Nat.le_trans hax (hxle b hb)
    · rw [if_neg he]
      have hlt : acc.m_wallet < x.m_wallet := Nat.lt_of_le_of_ne hax (fun h => he h.symm)
      obtain ⟨i1, i2⟩ := ih x hxs
      refine ⟨List.pairwise_cons.2 ⟨fun b hb => lt_of_lt_of_le hlt (i2 b hb), i1⟩, ?_⟩
      intro sh hsh
      rcases List.mem_cons.1 hsh with rfl | h
      · exact Nat.le_refl _
      · exact Nat.le_trans hax (i2 sh h)

/-- C4: the sequence returned by `get_shares(tip)` is strictly ascending in the wallet order
(sorted, every wallet at most once), and it is the same for two stores that hold the same
blocks inserted in a different order (whatever their mutable members are at the time). -/
theorem get_shares_sorted_order_independent (cfg : Config) (s1 s2 : Store) (tip : PoolBlock)
    (hp : (s1.map PoolBlock.immutable).Perm (s2.map PoolBlock.immutable))
    (hnd : (s1.map PoolBlock.m_sidechainId).Nodup) :
    get_shares cfg s2 tip = get_shares cfg s1 tip ∧
    ∀ shares, get_shares cfg s1 tip = some shares →
      shares.Pairwise (fun a b => a.m_wallet < b.m_wallet) := by
  refine ⟨(get_shares_agree cfg (store_agree_of_perm s1 s2 hp hnd) tip tip rfl).symm, ?_⟩
  intro shares h
  obtain ⟨raw, first, rest, _, hsort, rfl⟩ := get_shares_eq cfg s1 tip shares h
  have hsorted : (first :: rest).Sorted (fun a b => a.m_wallet ≤ b.m_wallet) := by
    rw [← hsort]; exact sort_shares_sorted raw
  exact (combine_shares_sorted rest first hsorted).1

theorem get_shares_sorted_order_independent_witness :
    get_shares default_config [block_2, block_1b, genesis_block, block_1a] block_2 =
      get_shares default_config [genesis_block, block_1a, block_1b, block_2] block_2 ∧
    ∀ shares,
      get_shares default_config [genesis_block, block_1a, block_1b, block_2] block_2 =
        some shares →
      shares.Pairwise (fun a b => a.m_wallet < b.m_wallet) :=
  get_shares_sorted_order_independent default_config
    [genesis_block, block_1a, block_1b, block_2]
    [block_2, block_1b, genesis_block, block_1a] block_2 (by decide) (by decide)

/-! ## Theorems: `verify` reads the mutable members of the parent and the uncles only -/

theorem get_difficulty_uncles_agree (cfg : Config) {s1 s2 : Store} (h : store_agree s1 s2)
    (tip1 tip2 : PoolBlock) (ht : tip1.m_sidechainHeight = tip2.m_sidechainHeight) :
    ∀ (us : List hash),
      get_difficulty_uncles cfg s1 tip1 us = get_difficulty_uncles cfg s2 tip2 us := by
  intro us
  induction us with
  | nil => rfl
  | cons u us ih =>
    unfold get_difficulty_uncles
    rcases store_agree_cases h u with ⟨h1, h2⟩ | ⟨b1, b2, h1, h2, hb⟩
    · rw [h1, h2]
    · rw [h1, h2]
      obtain ⟨_, _, _, hh, _, hc, hts, _, _, _⟩ := immutable_fields hb
      simp only [ht, hh, hc, hts, ih]

theorem get_difficulty_walk_agree (cfg : Config) {s1 s2 : Store} (h : store_agree s1 s2)
    (tip1 tip2 : PoolBlock) (ht : tip1.m_sidechainHeight = tip2.m_sidechainHeight) :
    ∀ (n : Nat) (cur1 cur2 : PoolBlock), cur1.immutable = cur2.immutable →
      get_difficulty_walk cfg s1 tip1 n cur1 = get_difficulty_walk cfg s2 tip2 n cur2 := by
  intro n
  induction n with
  | zero =>
    intro cur1 cur2 hc
    obtain ⟨_, _, hu, _, _, hcd, hts, _, _, _⟩ := immutable_fields hc
    unfold get_difficulty_walk
    rw [get_difficulty_uncles_agree cfg h tip1 tip2 ht, hu, hcd, hts]
  | succ n ih =>
    intro cur1 cur2 hc
    obtain ⟨_, hp, hu, hh, _, hcd, hts, _, _, _⟩ := immutable_fields hc
    unfold get_difficulty_walk
    rw [get_difficulty_uncles_agree cfg h tip1 tip2 ht, hu, hcd, hts, hh, hp]
    rcases store_agree_cases h cur2.m_parent with ⟨h1, h2⟩ | ⟨b1, b2, h1, h2, hb⟩
    · rw [h1, h2]
    · rw [h1, h2]
      simp only [ih b1 b2 hb]

theorem get_difficulty_agree (cfg : Config) {s1 s2 : Store} (h : store_agree s1 s2)
    (tip1 tip2 : PoolBlock) (ht : tip1.immutable = tip2.immutable) :
    get_difficulty cfg s1 tip1 = get_difficulty cfg s2 tip2 := by
  unfold get_difficulty
  rw [get_difficulty_walk_agree cfg h tip1 tip2 (immutable_fields ht).2.2.2.1 _ tip1 tip2 ht]

theorem get_parent_agree {s1 s2 : Store} (h : store_agree s1 s2) (b1 b2 : PoolBlock)
    (hb : b1.immutable = b2.immutable) :
    (get_parent s1 b1).map PoolBlock.immutable = (get_parent s2 b2).map PoolBlock.immutable := by
  unfold get_parent
  rw [(immutable_fields hb).2.1]
  exact h _

theorem mined_blocks_walk_agree {s1 s2 : Store} (h : store_agree s1 s2) :
    ∀ (n : Nat) (o1 o2 : Option PoolBlock),
      o1.map PoolBlock.immutable = o2.map PoolBlock.immutable →
      mined_blocks_walk s1 n o1 = mined_blocks_walk s2 n o2 := by
  intro n
  induction n with
  | zero => intro o1 o2 _; simp [mined_blocks_walk]
  | succ n ih =>
    intro o1 o2 ho
    cases o1 with
    | none =>
      cases o2 with
      | none => simp [mined_blocks_walk]
      | some t2 => exact absurd ho (by simp)
    | some t1 =>
      cases o2 with
      | none => exact absurd ho (by simp)
      | some t2 =>
        have hb : t1.immutable = t2.immutable := by simpa using ho
        obtain ⟨hid, _, hu, _, _, _, _, _, _, _⟩ := immutable_fields hb
        simp only [mined_blocks_walk, hid, hu, ih _ _ (get_parent_agree h t1 t2 hb)]

theorem walk_to_height_agree {s1 s2 : Store} (h : store_agree s1 s2) (height : Nat) :
    ∀ (fuel : Nat) (t1 t2 : PoolBlock), t1.immutable = t2.immutable →
      (walk_to_height s1 height fuel t1).map (Option.map PoolBlock.immutable) =
        (walk_to_height s2 height fuel t2).map (Option.map PoolBlock.immutable) := by
  intro fuel
  induction fuel with
  | zero =>
    intro t1 t2 ht
    unfold walk_to_height
    rw [(immutable_fields ht).2.2.2.1]
    split
    · rfl
    · simp [ht]
  | succ fuel ih =>
    intro t1 t2 ht
    unfold walk_to_height
    rw [(immutable_fields ht).2.2.2.1]
    split
    · have hp := get_parent_agree h t1 t2 ht
      cases h1 : get_parent s1 t1 with
      | none =>
        cases h2 : get_parent s2 t2 with
        | none => rfl
        | some p2 => rw [h1, h2] at hp; exact absurd hp (by simp)
      | some p1 =>
        cases h2 : get_parent s2 t2 with
        | none => rw [h1, h2] at hp; exact absurd hp (by simp)
        | some p2 =>
          rw [h1, h2] at hp
          exact ih p1 p2 (by simpa using hp)
    · simp [ht]

theorem same_chain_agree {s1 s2 : Store} (h : store_agree s1 s2) (bh : Nat) :
    ∀ (j : Nat) (o1 o2 q1 q2 : Option PoolBlock),
      o1.map PoolBlock.immutable = o2.map PoolBlock.immutable →
      q1.map PoolBlock.immutable = q2.map PoolBlock.immutable →
      same_chain s1 bh j o1 q1 = same_chain s2 bh j o2 q2 := by
  intro j
  induction j with
  | zero => intro o1 o2 q1 q2 _ _; simp [same_chain]
  | succ j ih =>
    intro o1 o2 q1 q2 ho hq
    cases o1 with
    | none =>
      cases o2 with
      | none => simp [same_chain]
      | some _ => exact absurd ho (by simp)
    | some t1 =>
      cases o2 with
      | none => exact absurd ho (by simp)
      | some t2 =>
        cases q1 with
        | none =>
          cases q2 with
          | none => simp [same_chain]
          | some _ => exact absurd hq (by simp)
        | some u1 =>
          cases q2 with
          | none => exact absurd hq (by simp)
          | some u2 =>
            have ht : t1.immutable = t2.immutable := by simpa using ho
            have hu : u1.immutable = u2.immutable := by simpa using hq
            simp only [same_chain, (immutable_fields ht).2.2.2.1, (immutable_fields ht).2.1,
              (immutable_fields hu).2.1,
              ih _ _ _ _ (get_parent_agree h t1 t2 ht) (get_parent_agree h u1 u2 hu)]

theorem verify_rewards_agree (cfg : Config) {s1 s2 : Store} (h : store_agree s1 s2)
    (b1 b2 p1 p2 : PoolBlock) (hb : b1.immutable = b2.immutable)
    (hd : b1.m_depth = b2.m_depth) (hp : p1.immutable = p2.immutable)
    (e : difficulty_type) :
    verify_rewards cfg s1 b1 p1 e = verify_rewards cfg s2 b2 p2 e := by
  obtain ⟨_, _, _, _, hdf, hcd, _, _, hk, ho⟩ := immutable_fields hb
  unfold verify_rewards
  rw [get_difficulty_agree cfg h p1 p2 hp, get_shares_agree cfg h b1 b2 hb, hdf, hcd, hk, ho, hd]


theorem verify_uncle_agree {s1 s2 : Store} (h : store_agree s1 s2)
    (hl : s1.length = s2.length) (b1 b2 p1 p2 : PoolBlock)
    (hb : b1.m_sidechainHeight = b2.m_sidechainHeight) (hp : p1.immutable = p2.immutable)
    (mined : List hash) (u : hash) (hf : find s1 u = find s2 u) :
    verify_uncle s1 b1 p1 mined u = verify_uncle s2 b2 p2 mined u := by
  unfold verify_uncle
  rw [hf, hb, hl]
  split
  · rfl
  · split
    · rfl
    · cases find s2 u with
      | none => rfl
      | some uncle =>
        simp only
        split
        · rfl
        · split
          · rfl
          · split
            · rfl
            · have hw := walk_to_height_agree h uncle.m_sidechainHeight s2.length p1 p2 hp
              cases w1 : walk_to_height s1 uncle.m_sidechainHeight s2.length p1 with
              | none =>
                cases w2 : walk_to_height s2 uncle.m_sidechainHeight s2.length p2 with
                | none => rfl
                | some r2 => rw [w1, w2] at hw; exact absurd hw (by simp)
              | some r1 =>
                cases w2 : walk_to_height s2 uncle.m_sidechainHeight s2.length p2 with
                | none => rw [w1, w2] at hw; exact absurd hw (by simp)
                | some r2 =>
                  rw [w1, w2] at hw
                  simp only [Option.map_some', Option.some.injEq] at hw
                  cases r1 with
                  | none =>
                    cases r2 with
                    | none => rfl
                    | some t2 => exact absurd hw (by simp)
                  | some t1 =>
                    cases r2 with
                    | none => exact absurd hw (by simp)
                    | some t2 =>
                      have ht : t1.immutable = t2.immutable := by simpa using hw
                      simp only [(immutable_fields ht).2.2.2.1,
                        same_chain_agree h b2.m_sidechainHeight UNCLE_BLOCK_DEPTH (some t1)
                          (some t2) (some uncle) (some uncle) (by simp [ht]) rfl]

theorem set_flags_of_id (id : hash) (v i : Bool) (b : PoolBlock) :
    (set_flags_of id v i b).m_sidechainId = b.m_sidechainId := by
  unfold set_flags_of
  split <;> rfl

theorem set_flags_of_immutable (id : hash) (v i : Bool) (b : PoolBlock) :
    (set_flags_of id v i b).immutable = b.immutable := by
  unfold set_flags_of
  split <;> rfl

theorem find_set_flags (s : Store) (id : hash) (v i : Bool) (x : hash) :
    find (set_flags s id v i) x = (find s x).map (set_flags_of id v i) := by
  unfold find set_flags
  rw [List.find?_map]
  have : ((fun b => decide (b.m_sidechainId = x)) ∘ set_flags_of id v i) =
      (fun b : PoolBlock => decide (b.m_sidechainId = x)) := by
    funext b
    simp only [Function.comp, set_flags_of_id]
  rw [this]

theorem find_set_flags_ne (s : Store) (id : hash) (v i : Bool) (x : hash) (hx : x ≠ id) :
    find (set_flags s id v i) x = find s x := by
  rw [find_set_flags]
  cases hf : find s x with
  | none => rfl
  | some b =>
    have := find_some_id hf
    simp only [Option.map_some', Option.some.injEq]
    unfold set_flags_of
    rw [if_neg (by rw [this]; exact hx)]

theorem find_set_flags_self (s : Store) (id : hash) (v i : Bool) (b : PoolBlock)
    (hf : find s id = some b) :
    find (set_flags s id v i) id = some { b with m_verified := v, m_invalid := i } := by
  rw [find_set_flags, hf]
  simp only [Option.map_some', Option.some.injEq]
  unfold set_flags_of
  rw [if_pos (find_some_id hf)]

theorem store_agree_set_flags (s : Store) (id : hash) (v i : Bool) :
    store_agree s (set_flags s id v i) := by
  intro x
  rw [find_set_flags]
  cases find s x with
  | none => rfl
  | some b =>
    simp only [Option.map_some', Option.some.injEq]
    exact (set_flags_of_immutable id v i b).symm

theorem set_flags_length (s : Store) (id : hash) (v i : Bool) :
    (set_flags s id v i).length = s.length := by
  simp [set_flags]

theorem set_flags_idem (s : Store) (id : hash) (v i : Bool) :
    set_flags (set_flags s id v i) id v i = set_flags s id v i := by
  unfold set_flags
  rw [List.map_map]
  apply List.map_congr_left
  intro b _
  simp only [Function.comp]
  unfold set_flags_of
  by_cases hb : b.m_sidechainId = id
  · simp [hb]
  · simp [hb]

/-! ## Theorems: running `verify` twice -/

theorem apply_apply (w : FlagWrite) (b : PoolBlock) : w.apply (w.apply b) = w.apply b := by
  obtain ⟨v, i⟩ := w
  cases v <;> cases i <;> rfl

/-- The body of the uncle loop on the block's own id: it never passes, and what it decides
is decided again once the block's flags have been overwritten accordingly. -/
theorem verify_uncle_self (s : Store) (b blk blk1 p : PoolBlock) (mined : List hash)
    (hf : find s b.m_sidechainId = some b)
    (hb : blk.m_sidechainHeight = b.m_sidechainHeight)
    (hb1 : blk1.m_sidechainHeight = b.m_sidechainHeight) (v1 i1 : Bool) :
    (verify_uncle s blk p mined b.m_sidechainId = some .invalid ∨
      verify_uncle s blk p mined b.m_sidechainId = some .pending) ∧
    (verify_uncle s blk p mined b.m_sidechainId = some .invalid → v1 = true → i1 = true →
      verify_uncle (set_flags s b.m_sidechainId v1 i1) blk1 p mined b.m_sidechainId =
        some .invalid) ∧
    (verify_uncle s blk p mined b.m_sidechainId = some .pending → v1 = false →
      verify_uncle (set_flags s b.m_sidechainId v1 i1) blk1 p mined b.m_sidechainId =
        some .pending) := by
  have hf1 := find_set_flags_self s b.m_sidechainId v1 i1 b hf
  unfold verify_uncle
  rw [hf, hf1, hb, hb1]
  by_cases he : hash.empty b.m_sidechainId = true
  · simp [he]
  · by_cases hm : b.m_sidechainId ∈ mined
    · simp [he, hm]
    · simp only [he, hm, if_false, Bool.false_eq_true]
      cases hv : b.m_verified <;> cases hi : b.m_invalid <;> cases v1 <;> cases i1 <;> simp

theorem verify_uncles_rerun (s : Store) (b blk blk1 p : PoolBlock) (mined : List hash)
    (hf : find s b.m_sidechainId = some b)
    (hb : blk.m_sidechainHeight = b.m_sidechainHeight)
    (hb1 : blk1.m_sidechainHeight = b.m_sidechainHeight) (v1 i1 : Bool) :
    ∀ (us : List hash) (acc : difficulty_type),
      (∀ e, verify_uncles s blk p mined us acc = some (.ok e) →
        verify_uncles (set_flags s b.m_sidechainId v1 i1) blk1 p mined us acc = some (.ok e)) ∧
      (verify_uncles s blk p mined us acc = some .invalid → v1 = true → i1 = true →
        verify_uncles (set_flags s b.m_sidechainId v1 i1) blk1 p mined us acc = some .invalid) ∧
      (verify_uncles s blk p mined us acc = some .pending → v1 = false →
        verify_uncles (set_flags s b.m_sidechainId v1 i1) blk1 p mined us acc =
          some .pending) := by
  intro us
  induction us with
  | nil =>
    intro acc
    simp [verify_uncles]
  | cons u us ih =>
    intro acc
    by_cases hu : u = b.m_sidechainId
    · subst hu
      obtain ⟨h1, h2, h3⟩ := verify_uncle_self s b blk blk1 p mined hf hb hb1 v1 i1
      unfold verify_uncles
      rcases h1 with h1 | h1
      · rw [h1]
        refine ⟨fun e he => absurd he (by simp), fun _ hv hi => ?_, fun he => absurd he (by simp)⟩
        rw [h2 h1 hv hi]
      · rw [h1]
        refine ⟨fun e he => absurd he (by simp), fun he => absurd he (by simp), fun _ hv => ?_⟩
        rw [h3 h1 hv]
    · have hr : verify_uncle (set_flags s b.m_sidechainId v1 i1) blk1 p mined u =
          verify_uncle s blk p mined u :=
        (verify_uncle_agree (store_agree_set_flags s b.m_sidechainId v1 i1)
          (set_flags_length s b.m_sidechainId v1 i1).symm blk blk1 p p (hb.trans hb1.symm) rfl
          mined u (find_set_flags_ne s b.m_sidechainId v1 i1 u hu).symm).symm
      unfold verify_uncles
      rw [hr]
      cases hc : verify_uncle s blk p mined u with
      | none => simp
      | some r =>
        cases r with
        | invalid => simp
        | pending => simp
        | ok d => exact ih (acc.add d)


theorem mined_blocks_agree {s1 s2 : Store} (h : store_agree s1 s2) (b1 b2 p : PoolBlock)
    (hb : b1.immutable = b2.immutable) : mined_blocks s1 b1 p = mined_blocks s2 b2 p := by
  unfold mined_blocks
  rw [(immutable_fields hb).2.2.1, (immutable_fields hb).2.2.2.1,
    mined_blocks_walk_agree h _ (some p) (some p) rfl]

theorem height_ne_succ (h : Nat) : h ≠ add64 h 1 := by
  unfold add64
  omega

/-- The second run of `verify` after a successful parent lookup, the parent not being the
block itself. -/
theorem verify_with_parent_rerun (cfg : Config) (s : Store) (b p : PoolBlock) (w : FlagWrite)
    (hf : find s b.m_sidechainId = some b)
    (hw : verify_with_parent cfg s b p = some w) :
    verify_with_parent cfg
      (set_flags s b.m_sidechainId (w.apply b).m_verified (w.apply b).m_invalid)
      (w.apply b) p = some w := by
  have hag := store_agree_set_flags s b.m_sidechainId (w.apply b).m_verified
    (w.apply b).m_invalid
  have hmined : mined_blocks
      (set_flags s b.m_sidechainId (w.apply b).m_verified (w.apply b).m_invalid) (w.apply b) p =
      mined_blocks s b p :=
    (mined_blocks_agree hag b (w.apply b) p rfl).symm
  unfold verify_with_parent at hw ⊢
  rw [hmined]
  show (if (!p.m_verified) = true then some write_pending
    else if p.m_invalid = true then some write_invalid
    else if b.m_sidechainHeight ≠ add64 p.m_sidechainHeight 1 then
      some { verified := none, invalid := some true }
    else if (!uncles_ascending b.m_uncles) = true then some write_invalid
    else
      match verify_uncles
          (set_flags s b.m_sidechainId (w.apply b).m_verified (w.apply b).m_invalid)
          (w.apply b) p (mined_blocks s b p) b.m_uncles
          (p.m_cumulativeDifficulty.add b.m_difficulty) with
      | none => none
      | some .invalid => some write_invalid
      | some .pending => some write_pending
      | some (.ok expected) =>
        verify_rewards cfg
          (set_flags s b.m_sidechainId (w.apply b).m_verified (w.apply b).m_invalid)
          (w.apply b) p expected) = some w
  split at hw
  · rename_i c1; rw [if_pos c1]; exact hw
  · rename_i c1
    rw [if_neg c1]
    split at hw
    · rename_i c2; rw [if_pos c2]; exact hw
    · rename_i c2
      rw [if_neg c2]
      split at hw
      · rename_i c3; rw [if_pos c3]; exact hw
      · rename_i c3
        rw [if_neg c3]
        split at hw
        · rename_i c4; rw [if_pos c4]; exact hw
        · rename_i c4
          rw [if_neg c4]
          obtain ⟨u1, u2, u3⟩ := verify_uncles_rerun s b b (w.apply b) p (mined_blocks s b p) hf
            rfl rfl (w.apply b).m_verified (w.apply b).m_invalid b.m_uncles
            (p.m_cumulativeDifficulty.add b.m_difficulty)
          cases hR : verify_uncles s b p (mined_blocks s b p) b.m_uncles
              (p.m_cumulativeDifficulty.add b.m_difficulty) with
          | none => rw [hR] at hw; exact absurd hw (by simp)
          | some r =>
            rw [hR] at hw
            cases r with
            | invalid =>
              simp only [Option.some.injEq] at hw
              subst hw
              rw [u2 hR rfl rfl]
            | pending =>
              simp only [Option.some.injEq] at hw
              subst hw
              rw [u3 hR rfl]
            | ok e =>
              simp only at hw
              rw [u1 e hR]
              simp only
              rw [← verify_rewards_agree cfg hag b (w.apply b) p p rfl rfl rfl e]
              exact hw


/-- A block that is its own parent: the second run keeps the flags of the first. -/
theorem verify_self_parent_rerun (cfg : Config) (s s1 : Store) (b : PoolBlock) (w : FlagWrite)
    (hw : verify_with_parent cfg s b b = some w) :
    ∃ w1, verify_with_parent cfg s1 (w.apply b) (w.apply b) = some w1 ∧
      w1.apply (w.apply b) = w.apply b := by
  unfold verify_with_parent at hw
  cases hv : b.m_verified with
  | false =>
    rw [hv] at hw
    simp only [Bool.not_false, if_true, Option.some.injEq] at hw
    subst hw
    refine ⟨write_pending, ?_, apply_apply _ _⟩
    unfold verify_with_parent
    rw [if_pos (by simp [FlagWrite.apply, write_pending])]
  | true =>
    rw [hv] at hw
    cases hi : b.m_invalid with
    | true =>
      rw [hi] at hw
      simp only [Bool.not_true, Bool.false_eq_true, if_false, if_true, Option.some.injEq] at hw
      subst hw
      refine ⟨write_invalid, ?_, apply_apply _ _⟩
      unfold verify_with_parent
      rw [if_neg (by simp [FlagWrite.apply, write_invalid]),
        if_pos (by simp [FlagWrite.apply, write_invalid])]
    | false =>
      rw [hi] at hw
      simp only [Bool.not_true, Bool.false_eq_true, if_false] at hw
      rw [if_pos (height_ne_succ _)] at hw
      simp only [Option.some.injEq] at hw
      subst hw
      refine ⟨write_invalid, ?_, ?_⟩
      · unfold verify_with_parent
        rw [if_neg (by simp [FlagWrite.apply, hv]), if_pos (by simp [FlagWrite.apply])]
      · simp [FlagWrite.apply, write_invalid, hv]

/-- The flags written by a second run of `verify` are the ones the first run left. -/
theorem verify_writes_rerun (cfg : Config) (s : Store) (b : PoolBlock) (w : FlagWrite)
    (hf : find s b.m_sidechainId = some b) (hw : verify_writes cfg s b = some w) :
    ∃ w1, verify_writes cfg
        (set_flags s b.m_sidechainId (w.apply b).m_verified (w.apply b).m_invalid)
        (w.apply b) = some w1 ∧
      w1.apply (w.apply b) = w.apply b := by
  unfold verify_writes at hw ⊢
  show ∃ w1, (if b.m_sidechainHeight = 0 then
      if (!b.m_parent.empty) = true ∨ (!b.m_uncles.isEmpty) = true ∨
          b.m_difficulty ≠ cfg.m_minDifficulty ∨
          b.m_cumulativeDifficulty ≠ cfg.m_minDifficulty then
        some { verified := some true, invalid := some true }
      else some { verified := some true, invalid := none }
    else if (cfg.m_chainWindowSize * 2) % 2 ^ 64 ≤ b.m_depth then
      some { verified := some true, invalid := some false }
    else if b.m_parent.empty = true then some write_invalid
    else
      match find (set_flags s b.m_sidechainId (w.apply b).m_verified (w.apply b).m_invalid)
          b.m_parent with
      | none => some write_pending
      | some parent =>
        verify_with_parent cfg
          (set_flags s b.m_sidechainId (w.apply b).m_verified (w.apply b).m_invalid)
          (w.apply b) parent) = some w1 ∧ w1.apply (w.apply b) = w.apply b
  split at hw
  · rename_i c1
    rw [if_pos c1]
    exact ⟨w, hw, apply_apply _ _⟩
  · rename_i c1
    rw [if_neg c1]
    split at hw
    · rename_i c2; rw [if_pos c2]; exact ⟨w, hw, apply_apply _ _⟩
    · rename_i c2
      rw [if_neg c2]
      split at hw
      · rename_i c3; rw [if_pos c3]; exact ⟨w, hw, apply_apply _ _⟩
      · rename_i c3
        rw [if_neg c3]
        cases hp : find s b.m_parent with
        | none =>
          rw [hp] at hw
          rw [find_set_flags, hp]
          exact ⟨w, hw, apply_apply _ _⟩
        | some p =>
          rw [hp] at hw
          simp only at hw
          by_cases hself : b.m_parent = b.m_sidechainId
          · rw [hself] at hp
            have hpb : p = b := by rw [hf] at hp; exact (Option.some.inj hp).symm
            subst hpb
            rw [hself, find_set_flags_self s _ _ _ p hf]
            exact verify_self_parent_rerun cfg s _ p w hw
          · rw [find_set_flags_ne s _ _ _ _ hself, hp]
            exact ⟨w, verify_with_parent_rerun cfg s b p w hf hw, apply_apply _ _⟩

theorem verify_stored_eq (cfg : Config) (s : Store) (b : PoolBlock)
    (hf : find s b.m_sidechainId = some b) :
    verify_stored cfg s b.m_sidechainId =
      (verify_writes cfg s b).map (fun w =>
        set_flags s b.m_sidechainId (w.apply b).m_verified (w.apply b).m_invalid) := by
  unfold verify_stored verify
  rw [hf]
  dsimp only
  cases verify_writes cfg s b <;> rfl

/-- C9: `verify` is idempotent on stored blocks: when `verify` has run on the block stored
under `id` and produced the store `s1`, running it again on that block in `s1` returns and
leaves `s1` as it is, so no block's `m_verified` or `m_invalid` changes. -/
theorem verify_idempotent (cfg : Config) (s s1 : Store) (id : hash)
    (h : verify_stored cfg s id = some s1) : verify_stored cfg s1 id = some s1 := by
  cases hf : find s id with
  | none =>
    unfold verify_stored at h
    rw [hf] at h
    simp only [Option.some.injEq] at h
    subst h
    unfold verify_stored
    rw [hf]
  | some b =>
    have hid : b.m_sidechainId = id := find_some_id hf
    subst hid
    rw [verify_stored_eq cfg s b hf] at h
    cases hw : verify_writes cfg s b with
    | none => rw [hw] at h; exact absurd h (by simp)
    | some w =>
      rw [hw] at h
      simp only [Option.map_some', Option.some.injEq] at h
      subst h
      obtain ⟨w1, hw1, happ⟩ := verify_writes_rerun cfg s b w hf hw
      have hf1 : find (set_flags s b.m_sidechainId (w.apply b).m_verified (w.apply b).m_invalid)
          (w.apply b).m_sidechainId = some (w.apply b) :=
        find_set_flags_self s b.m_sidechainId _ _ b hf
      have := verify_stored_eq cfg _ (w.apply b) hf1
      rw [hw1] at this
      simp only [Option.map_some', happ] at this
      rw [show (w.apply b).m_sidechainId = b.m_sidechainId from rfl] at this
      rw [this, set_flags_idem]

theorem verify_idempotent_witness :
    verify_stored default_config [genesis_block, block_1a, block_1b, block_2] 4 =
      some [genesis_block, block_1a, block_1b,
        { block_2 with m_verified := true, m_invalid := true }] ∧
    verify_stored default_config
      [genesis_block, block_1a, block_1b, { block_2 with m_verified := true, m_invalid := true }]
      4 =
      some [genesis_block, block_1a, block_1b,
        { block_2 with m_verified := true, m_invalid := true }] :=
  ⟨by decide,
    verify_idempotent default_config [genesis_block, block_1a, block_1b, block_2] _ 4
      (by decide)⟩

/-! ## Theorems: `block_seen` -/

/-- C17 (counterexample): on the state the constructor leaves, where no id has been seen,
`block_seen` of a new block returns false, although the id is newly inserted. -/
theorem block_seen_counterexample :
    new_genesis.m_sidechainId ∉ (empty_sidechain default_config).m_seenBlocks ∧
    (block_seen (empty_sidechain default_config) new_genesis).2 = false ∧
    new_genesis.m_sidechainId ∈
      (block_seen (empty_sidechain default_config) new_genesis).1.m_seenBlocks := by
  decide

/-- C17 (amended): `block_seen(block)` returns true exactly when the id of the block was
already in `m_seenBlocks` before the call, and false when it is newly inserted; after the
call the id is in `m_seenBlocks`, and no other id has entered or left it. -/
theorem block_seen_iff_already_seen (sc : SideChain) (block : PoolBlock) :
    ((block_seen sc block).2 = true ↔ block.m_sidechainId ∈ sc.m_seenBlocks) ∧
    block.m_sidechainId ∈ (block_seen sc block).1.m_seenBlocks ∧
    ∀ id, id ≠ block.m_sidechainId →
      (id ∈ (block_seen sc block).1.m_seenBlocks ↔ id ∈ sc.m_seenBlocks) := by
  unfold block_seen
  by_cases h : block.m_sidechainId ∈ sc.m_seenBlocks
  · rw [if_pos h]
    exact ⟨by simp [h], h, fun _ _ => Iff.rfl⟩
  · rw [if_neg h]
    refine ⟨by simp [h], by simp, fun id hid => ?_⟩
    simp [hid]

/-! ## Theorems: the uncle order rule of `verify` -/

theorem uncles_ascending_iff (l : List hash) :
    uncles_ascending l = true ↔ l.Chain' (fun a b => a < b) := by
  induction l with
  | nil => simp [uncles_ascending]
  | cons a rest ih =>
    cases rest with
    | nil => simp [uncles_ascending]
    | cons b rest =>
      simp only [uncles_ascending, Bool.and_eq_true, decide_eq_true_eq, List.chain'_cons]
      rw [ih]

/-- C12: a block of non-zero height whose depth is below `m_chainWindowSize * 2`, whose
parent is stored, verified and valid and whose height is `parent.height + 1` leaves
`verify` with `m_verified = true` and `m_invalid = true` when its uncle list is not
strictly ascending (some entry is not below the entry that follows it). -/
theorem verify_unordered_uncles (cfg : Config) (s : Store) (block parent : PoolBlock)
    (hh : block.m_sidechainHeight ≠ 0)
    (hd : block.m_depth < (cfg.m_chainWindowSize * 2) % 2 ^ 64)
    (hp : find s block.m_parent = some parent)
    (hpv : parent.m_verified = true) (hpi : parent.m_invalid = false)
    (hheight : block.m_sidechainHeight = add64 parent.m_sidechainHeight 1)
    (hu : ¬ block.m_uncles.Sorted (fun a b => a < b)) :
    verify cfg s block = some { block with m_verified := true, m_invalid := true } := by
  have hasc : uncles_ascending block.m_uncles ≠ true := by
    intro h
    rw [uncles_ascending_iff, List.chain'_iff_pairwise] at h
    exact hu h
  unfold verify verify_writes
  rw [if_neg hh, if_neg (Nat.not_le.mpr hd)]
  by_cases he : block.m_parent.empty = true
  · rw [if_pos he]; rfl
  · rw [if_neg he, hp]
    show Option.map _ (verify_with_parent cfg s block parent) = _
    unfold verify_with_parent
    rw [if_neg (by simp [hpv]), if_neg (by simp [hpi]), if_neg (not_not.mpr hheight),
      if_pos (by simpa using hasc)]
    rfl

theorem verify_unordered_uncles_witness :
    (unordered_block.m_sidechainHeight ≠ 0 ∧
      unordered_block.m_depth < (default_config.m_chainWindowSize * 2) % 2 ^ 64 ∧
      find [genesis_block, unordered_block] unordered_block.m_parent = some genesis_block ∧
      genesis_block.m_verified = true ∧ genesis_block.m_invalid = false ∧
      unordered_block.m_sidechainHeight = add64 genesis_block.m_sidechainHeight 1 ∧
      ¬ unordered_block.m_uncles.Sorted (fun a b => a < b)) ∧
    verify default_config [genesis_block, unordered_block] unordered_block =
      some { unordered_block with m_verified := true, m_invalid := true } :=
  ⟨⟨by decide, by decide, by decide, by decide, by decide, by decide, by decide⟩,
    verify_unordered_uncles default_config [genesis_block, unordered_block] unordered_block
      genesis_block (by decide) (by decide) (by decide) (by decide) (by decide) (by decide)
      (by decide)⟩

/-! ## Theorems: the first block -/

theorem sub64_lt (a b : Nat) : sub64 a b < 2 ^ 64 := by
  unfold sub64; exact Nat.mod_lt _ (by norm_num)

/-- With a product `delta_diff * m_targetBlockTime` below `2^64` the overflow guard of
`get_difficulty` never trips. -/
theorem retarget_isSome (cfg : Config) (delta_diff delta_t : Nat)
    (hp : delta_diff * cfg.m_targetBlockTime < 2 ^ 64) (ht : 0 < delta_t) :
    ∃ d, retarget cfg delta_diff delta_t = some d := by
  unfold retarget umul128
  have h0 : delta_diff * cfg.m_targetBlockTime / 2 ^ 64 % 2 ^ 64 = 0 := by
    rw [Nat.div_eq_of_lt hp, Nat.zero_mod]
  simp only [h0]
  rw [if_neg (by omega)]
  split <;> exact ⟨_, rfl⟩

/-- On a block of height 0 without uncles `get_difficulty` gathers one entry and, the
target block time being 1, returns a value. -/
theorem get_difficulty_genesis (cfg : Config) (s : Store) (block : PoolBlock)
    (hT : cfg.m_targetBlockTime = 1)
    (hh : block.m_sidechainHeight = 0) (hu : block.m_uncles = []) :
    ∃ d, get_difficulty cfg s block = some d := by
  unfold get_difficulty
  have hw : get_difficulty_walk cfg s block (cfg.m_chainWindowSize - 1) block =
      some [{ m_timestamp := block.m_timestamp
              m_cumulativeDifficulty := block.m_cumulativeDifficulty }] := by
    unfold get_difficulty_walk
    rw [hu]
    simp only [get_difficulty_uncles]
    cases cfg.m_chainWindowSize - 1 with
    | zero => rfl
    | succ n => simp [hh]
  rw [hw]
  show ∃ d, difficulty_from_data cfg _ = some d
  unfold difficulty_from_data
  apply retarget_isSome
  · rw [hT, Nat.mul_one]; exact sub64_lt _ _
  · dsimp only; split <;> omega

theorem bucket_lone (id : hash) (h : Nat) (hne : h ≠ 0) : bucket [(0, [id])] h = [] := by
  simp [bucket, Ne.symm hne]

theorem update_depths_lone (fuel : Nat) (b : PoolBlock)
    (hid : b.m_sidechainId.empty = false) (hp : b.m_parent.empty = true)
    (hh : b.m_sidechainHeight = 0) (hu : b.m_uncles = []) :
    update_depths (fuel + 1) [(0, [b.m_sidechainId])] [b] b.m_sidechainId = some [b] := by
  have hfind : find [b] b.m_sidechainId = some b := by simp [find]
  have hp0 : b.m_parent = 0 := by simpa [hash.empty] using hp
  have hid0 : b.m_sidechainId ≠ 0 := by simpa [hash.empty] using hid
  have hfind0 : find [b] b.m_parent = none := by rw [hp0]; simp [find, hid0]
  unfold update_depths update_depths_init
  rw [hfind]
  simp only [hh, bucket_lone _ _ (show add64 0 1 ≠ 0 by decide),
    bucket_lone _ _ (show add64 0 2 ≠ 0 by decide),
    bucket_lone _ _ (show add64 0 3 ≠ 0 by decide), update_depths_children]
  unfold update_depths_loop
  rw [hfind]
  simp only [update_depths_parent, hfind0, hu, update_depths_uncles]
  cases fuel <;> rfl

/-- While the tip is lower than the prune distance `prune_old_blocks` changes nothing. -/
theorem prune_old_blocks_young (cfg : Config) (sc : SideChain) (tip_id : hash)
    (tip : PoolBlock) (hT : cfg.m_targetBlockTime ≠ 0) (ht : sc.m_chainTip = some tip_id)
    (hf : find sc.m_blocksById tip_id = some tip)
    (hlow : tip.m_sidechainHeight <
      add64 ((cfg.m_chainWindowSize * 2) % 2 ^ 64) (120 / cfg.m_targetBlockTime)) :
    prune_old_blocks cfg sc = some sc := by
  unfold prune_old_blocks
  rw [if_neg hT]
  simp only [ht, hf]
  rw [if_pos hlow]

theorem find_first_tip (b : PoolBlock) (d : difficulty_type) :
    find (first_tip b d).m_blocksById b.m_sidechainId =
      some { b with m_wantBroadcast := true, m_broadcasted := true } := by
  simp [first_tip, find]

theorem update_chain_tip_lone (pool : Pool) (b : PoolBlock)
    (hv : b.m_verified = true) (hi : b.m_invalid = false)
    (hdepth : b.m_depth < default_config.m_chainWindowSize)
    (hh : b.m_sidechainHeight = 0) (hu : b.m_uncles = []) :
    ∃ d, update_chain_tip default_config pool
      { m_blocksById := [b], m_blocksByHeight := [(0, [b.m_sidechainId])], m_chainTip := none,
        m_seenBlocks := [], m_curDifficulty := default_config.m_minDifficulty }
      b.m_sidechainId = some (first_tip b d) := by
  obtain ⟨d, hd⟩ := get_difficulty_genesis default_config [b] b rfl hh hu
  refine ⟨d, ?_⟩
  have hfind : find [b] b.m_sidechainId = some b := by simp [find]
  unfold update_chain_tip
  simp only [hfind, hv, hi, Bool.not_true, Bool.or_self, Bool.false_eq_true, if_false,
    if_neg (Nat.not_le.mpr hdepth), is_longer_chain, Bool.or_false, if_true, hd]
  have hs : set_want_broadcast [b] b.m_sidechainId = [{ b with m_wantBroadcast := true }] := by
    simp [set_want_broadcast]
  have hfind1 : find [{ b with m_wantBroadcast := true }] b.m_sidechainId =
      some { b with m_wantBroadcast := true } := by simp [find]
  rw [hs, prune_old_blocks_young default_config _ _ _ (by decide) rfl hfind1
    (by rw [hh]; decide)]
  simp only [hfind1]
  cases hb : b.m_broadcasted <;> simp [first_tip, set_broadcasted, hb]

theorem verify_loop_go_nil (cfg : Config) (pool : Pool) (fuel : Nat) (sc : SideChain)
    (h : Option hash) : verify_loop_go cfg pool fuel sc [] h = some (sc, h) := by
  cases fuel <;> rfl

theorem next_blocks_lone (id : hash) : next_blocks [(0, [id])] 0 = [] := by
  simp [next_blocks, bucket_lone _ _ (show add64 0 1 ≠ 0 by decide),
    bucket_lone _ _ (show add64 0 2 ≠ 0 by decide),
    bucket_lone _ _ (show add64 0 3 ≠ 0 by decide)]

theorem verify_loop_lone (pool : Pool) (fuel : Nat) (b : PoolBlock)
    (hv : b.m_verified = false) (hi : b.m_invalid = false)
    (hdepth : b.m_depth < default_config.m_chainWindowSize)
    (hh : b.m_sidechainHeight = 0) (hp : b.m_parent.empty = true) (hu : b.m_uncles = [])
    (hdiff : b.m_difficulty = default_config.m_minDifficulty)
    (hcum : b.m_cumulativeDifficulty = default_config.m_minDifficulty) :
    ∃ d, verify_loop default_config pool (fuel + 1)
      { m_blocksById := [b], m_blocksByHeight := [(0, [b.m_sidechainId])], m_chainTip := none,
        m_seenBlocks := [], m_curDifficulty := default_config.m_minDifficulty }
      b.m_sidechainId = some (first_tip { b with m_verified := true } d) := by
  have hfind : find [b] b.m_sidechainId = some b := by simp [find]
  have hver : verify default_config [b] b = some { b with m_verified := true } := by
    unfold verify verify_writes
    rw [if_pos hh, if_neg (by simp [hp, hu, hdiff, hcum])]
    rfl
  obtain ⟨id, parent, uncles, height, difficulty, cumulative, timestamp, wallet, txkey,
    outputs, prevId, txinGenHeight, verified, invalid, depth, broadcasted, want⟩ := b
  simp only at hv hi hdepth hh hp hu hdiff hcum hfind hver
  subst hv hi hh hu hdiff hcum
  unfold verify_loop verify_loop_go
  simp only [hfind, hver, Bool.false_eq_true, if_false, set_flags, set_flags_of,
    List.map_cons, List.map_nil, if_true, Bool.not_true, deref, is_longer_chain,
    Bool.or_self, next_blocks_lone, List.reverse_nil, List.nil_append, verify_loop_go_nil]
  cases hw : (want && !broadcasted)
  · simp only [Bool.false_eq_true, if_false]
    exact update_chain_tip_lone pool _ rfl rfl hdepth rfl rfl
  · simp only [if_true, set_broadcasted, List.map_cons, List.map_nil]
    obtain ⟨d, hd⟩ := update_chain_tip_lone pool
      { m_sidechainId := id, m_parent := parent, m_uncles := [], m_sidechainHeight := 0,
        m_difficulty := default_config.m_minDifficulty,
        m_cumulativeDifficulty := default_config.m_minDifficulty,
        m_timestamp := timestamp, m_minerWallet := wallet, m_txkeySec := txkey,
        m_outputs := outputs, m_prevId := prevId, m_txinGenHeight := txinGenHeight,
        m_verified := true, m_invalid := false, m_depth := depth,
        m_broadcasted := true, m_wantBroadcast := want } rfl rfl hdepth rfl rfl
    exact ⟨d, hd⟩

/-- C11: on the state the constructor leaves, with the default configuration, `add_block`
of a block of height 0 with empty parent, no uncles and difficulty = cumulative difficulty
= 1000 returns (one iteration of each work-list loop is enough) and leaves that block
stored, verified and valid, and makes it the chain tip.  The block is taken as it arrives:
its id is not the empty hash, `m_invalid` is false and `m_depth` is below the window. -/
theorem add_block_genesis (pool : Pool) (fuel : Nat) (block : PoolBlock)
    (hfuel : 0 < fuel)
    (hid : block.m_sidechainId.empty = false)
    (hinv : block.m_invalid = false)
    (hdepth : block.m_depth < default_config.m_chainWindowSize)
    (hh : block.m_sidechainHeight = 0) (hp : block.m_parent.empty = true)
    (hu : block.m_uncles = [])
    (hdiff : block.m_difficulty = { lo := 1000, hi := 0 })
    (hcum : block.m_cumulativeDifficulty = { lo := 1000, hi := 0 }) :
    ∃ sc1 b, add_block default_config pool fuel (empty_sidechain default_config) block = some sc1 ∧
      find sc1.m_blocksById block.m_sidechainId = some b ∧
      b.m_verified = true ∧ b.m_invalid = false ∧
      sc1.m_chainTip = some block.m_sidechainId := by
  obtain ⟨fuel, rfl⟩ : ∃ n, fuel = n + 1 := ⟨fuel - 1, by omega⟩
  have h1 := update_depths_lone fuel block hid hp hh hu
  have h2 := fun hv => verify_loop_lone pool fuel block hv hinv hdepth hh hp hu hdiff hcum
  have h3 := fun hv => update_chain_tip_lone pool block hv hinv hdepth hh hu
  obtain ⟨id, parent, uncles, height, difficulty, cumulative, timestamp, wallet, txkey,
    outputs, prevId, txinGenHeight, verified, invalid, depth, broadcasted, want⟩ := block
  simp only at hinv hh h1 h2 h3
  subst hinv hh
  unfold add_block
  simp only [empty_sidechain, find, List.find?_nil, bucket_push, List.any_nil,
    Bool.false_eq_true, if_false, List.nil_append, h1, Bool.not_false, if_true]
  cases verified
  · obtain ⟨d, hd⟩ := h2 rfl
    simp only [Bool.false_eq_true, if_false]
    rw [hd]
    exact ⟨_, _, rfl, find_first_tip _ _, rfl, rfl, rfl⟩
  · obtain ⟨d, hd⟩ := h3 rfl
    simp only [if_true]
    rw [hd]
    exact ⟨_, _, rfl, find_first_tip _ _, rfl, rfl, rfl⟩

theorem add_block_genesis_witness :
    (0 < 1 ∧ new_genesis.m_sidechainId.empty = false ∧ new_genesis.m_invalid = false ∧
      new_genesis.m_depth < default_config.m_chainWindowSize ∧
      new_genesis.m_sidechainHeight = 0 ∧ new_genesis.m_parent.empty = true ∧
      new_genesis.m_uncles = [] ∧ new_genesis.m_difficulty = { lo := 1000, hi := 0 } ∧
      new_genesis.m_cumulativeDifficulty = { lo := 1000, hi := 0 }) ∧
    ∃ sc1 b, add_block default_config idle_pool 1 (empty_sidechain default_config)
        new_genesis = some sc1 ∧
      find sc1.m_blocksById new_genesis.m_sidechainId = some b ∧
      b.m_verified = true ∧ b.m_invalid = false ∧
      sc1.m_chainTip = some new_genesis.m_sidechainId :=
  ⟨⟨by decide, by decide, by decide, by decide, by decide, by decide, by decide, by decide,
      by decide⟩,
    add_block_genesis idle_pool 1 new_genesis (by decide) (by decide) (by decide) (by decide)
      (by decide) (by decide) (by decide) (by decide) (by decide)⟩

/-! ## Theorems: `is_longer_chain` on one chain -/

theorem nth_parent_add (s : Store) : ∀ (i m : Nat) (b : PoolBlock),
    nth_parent s (i + m) b = (nth_parent s i b).bind (nth_parent s m)
  | 0, m, b => by simp [nth_parent]
  | i + 1, m, b => by
    rw [Nat.add_right_comm]
    simp only [nth_parent]
    cases get_parent s b with
    | none => rfl
    | some p => exact nth_parent_add s i m p

/-- A block reached through at least one parent link is the stored block of its id. -/
theorem nth_parent_stored (s : Store) : ∀ (k : Nat) (b c : PoolBlock),
    nth_parent s (k + 1) b = some c → find s c.m_sidechainId = some c
  | 0, b, c, h => by
    simp only [nth_parent, get_parent] at h
    cases hf : find s b.m_parent with
    | none => rw [hf] at h; cases h
    | some p =>
      rw [hf] at h
      cases h
      rw [find_some_id hf]; exact hf
  | k + 1, b, c, h => by
    rw [nth_parent] at h
    cases hf : get_parent s b with
    | none => rw [hf] at h; cases h
    | some p => rw [hf] at h; exact nth_parent_stored s k p c h

theorem nth_parent_prefix (s : Store) (k : Nat) (B A : PoolBlock)
    (hpath : nth_parent s k B = some A) (j : Nat) (hj : j ≤ k) :
    ∃ c, nth_parent s j B = some c ∧ nth_parent s (k - j) c = some A := by
  have h := nth_parent_add s j (k - j) B
  rw [Nat.add_sub_cancel' hj, hpath] at h
  cases hc : nth_parent s j B with
  | none => rw [hc] at h; cases h
  | some c => rw [hc] at h; exact ⟨c, rfl, h.symm⟩

/-- A parent path that stays above the height of its last block never meets a block
twice. -/
theorem nth_parent_no_repeat (s : Store) (k : Nat) (B A : PoolBlock)
    (hpath : nth_parent s k B = some A)
    (hhigh : ∀ j, j < k → ∀ c, nth_parent s j B = some c →
      A.m_sidechainHeight < c.m_sidechainHeight)
    (j1 j2 : Nat) (h12 : j1 < j2) (h2 : j2 ≤ k) (c : PoolBlock)
    (hc1 : nth_parent s j1 B = some c) (hc2 : nth_parent s j2 B = some c) : False := by
  obtain ⟨c2, hc2', hrest⟩ := nth_parent_prefix s k B A hpath j2 h2
  rw [hc2] at hc2'
  cases hc2'
  have h := nth_parent_add s j1 (k - j2) B
  rw [hc1] at h
  change _ = nth_parent s (k - j2) c at h
  rw [hrest] at h
  have hlt : j1 + (k - j2) < k := by omega
  have := hhigh _ hlt A h
  omega

theorem path_length_le (s : Store) (k : Nat) (B A : PoolBlock)
    (hpath : nth_parent s k B = some A)
    (hhigh : ∀ j, j < k → ∀ c, nth_parent s j B = some c →
      A.m_sidechainHeight < c.m_sidechainHeight) : k ≤ s.length := by
  let f : Nat → hash := fun j => ((nth_parent s (j + 1) B).map PoolBlock.m_sidechainId).getD 0
  have hnd : ((List.range k).map f).Nodup := by
    apply List.Nodup.map_on _ (List.nodup_range k)
    intro x hx y hy hxy
    rw [List.mem_range] at hx hy
    obtain ⟨cx, hcx, _⟩ := nth_parent_prefix s k B A hpath (x + 1) hx
    obtain ⟨cy, hcy, _⟩ := nth_parent_prefix s k B A hpath (y + 1) hy
    have hid : cx.m_sidechainId = cy.m_sidechainId := by
      simpa [f, hcx, hcy] using hxy
    have hsx := nth_parent_stored s x B cx hcx
    have hsy := nth_parent_stored s y B cy hcy
    have hcc : cx = cy := by
      rw [hid, hsy] at hsx
      exact (Option.some.inj hsx).symm
    rw [hcc] at hcx
    by_contra hne
    rcases Nat.lt_or_gt_of_ne hne with h | h
    · exact nth_parent_no_repeat s k B A hpath hhigh (x + 1) (y + 1) (by omega) hy cy hcx hcy
    · exact nth_parent_no_repeat s k B A hpath hhigh (y + 1) (x + 1) (by omega) hx cy hcy hcx
  have hsub : (List.range k).map f ⊆ s.map PoolBlock.m_sidechainId := by
    intro id hid
    rw [List.mem_map] at hid
    obtain ⟨j, hj, rfl⟩ := hid
    rw [List.mem_range] at hj
    obtain ⟨c, hc, _⟩ := nth_parent_prefix s k B A hpath (j + 1) hj
    have hs := nth_parent_stored s j B c hc
    rw [List.mem_map]
    exact ⟨c, find_some_mem hs, by simp [f, hc]⟩
  have := (List.subperm_of_subset hnd hsub).length_le
  simpa using this

theorem walk_to_height_path (s : Store) (A : PoolBlock) : ∀ (k fuel : Nat) (B : PoolBlock),
    k ≤ fuel → nth_parent s k B = some A →
    (∀ j, j < k → ∀ c, nth_parent s j B = some c →
      A.m_sidechainHeight < c.m_sidechainHeight) →
    walk_to_height s A.m_sidechainHeight fuel B = some (some A)
  | 0, fuel, B, _, hpath, _ => by
    simp only [nth_parent, Option.some.injEq] at hpath
    subst hpath
    unfold walk_to_height
    rw [if_neg (Nat.lt_irrefl _)]
  | k + 1, fuel, B, hk, hpath, hhigh => by
    obtain ⟨fuel, rfl⟩ : ∃ n, fuel = n + 1 := ⟨fuel - 1, by omega⟩
    unfold walk_to_height
    rw [if_pos (hhigh 0 (Nat.succ_pos k) B rfl)]
    rw [nth_parent] at hpath
    cases hp : get_parent s B with
    | none => rw [hp] at hpath; cases hpath
    | some p =>
      rw [hp] at hpath
      refine walk_to_height_path s A k fuel p (by omega) hpath ?_
      intro j hj c hc
      refine hhigh (j + 1) (by omega) c ?_
      rw [nth_parent, hp]; exact hc

/-- Along a parent path that stays above the height of its last block `A`, the search of
`is_longer_chain` ends in the lock-step loop at once and the result is the comparison of
the cumulative difficulties. -/
theorem is_longer_chain_on_path (cfg : Config) (pool : Pool) (s : Store) (A B : PoolBlock)
    (k : Nat)
    (hvB : B.m_verified = true) (hiB : B.m_invalid = false)
    (hpath : nth_parent s k B = some A)
    (hhigh : ∀ j, j < k → ∀ c, nth_parent s j B = some c →
      A.m_sidechainHeight < c.m_sidechainHeight) :
    is_longer_chain cfg pool s (some A) (some B) =
      some (A.m_cumulativeDifficulty.lt B.m_cumulativeDifficulty) := by
  have hAB : A.m_sidechainHeight ≤ B.m_sidechainHeight := by
    cases k with
    | zero =>
      simp only [nth_parent, Option.some.injEq] at hpath
      rw [hpath]
    | succ k => exact Nat.le_of_lt (hhigh 0 (Nat.succ_pos k) B rfl)
  have hw1 : walk_to_height s B.m_sidechainHeight (s.length + 1) A = some (some A) := by
    unfold walk_to_height
    rw [if_neg (Nat.not_lt.mpr hAB)]
  have hw2 : walk_to_height s A.m_sidechainHeight (s.length + 1) B = some (some A) :=
    walk_to_height_path s A k _ B
      (Nat.le_succ_of_le (path_length_le s k B A hpath hhigh)) hpath hhigh
  have hsearch : same_chain_search s A B = some true := by
    unfold same_chain_search
    rw [hw1]
    simp only [hw2]
    have : (s.length + 1) * (s.length + 1) = s.length * (s.length + 1) + s.length + 1 := by
      ring
    rw [this, common_parent_walk, if_pos rfl]
  unfold is_longer_chain
  simp only [hvB, hiB, Bool.not_true, Bool.or_self, Bool.false_eq_true, if_false, hsearch]

/-- C15 (counterexample): the genesis block is the stored parent of `flat_child`, both are
verified and valid, and the cumulative difficulty of the genesis block is the smaller one;
but `flat_child` is not higher than its parent, the search for a common ancestor fails, and
`is_longer_chain` answers false because the chain of `flat_child` has no recent base-chain
anchor. -/
theorem is_longer_chain_ancestor_counterexample :
    find [genesis_block, flat_child] genesis_block.m_sidechainId = some genesis_block ∧
    find [genesis_block, flat_child] flat_child.m_sidechainId = some flat_child ∧
    (genesis_block.m_verified = true ∧ genesis_block.m_invalid = false) ∧
    (flat_child.m_verified = true ∧ flat_child.m_invalid = false) ∧
    nth_parent [genesis_block, flat_child] 1 flat_child = some genesis_block ∧
    genesis_block.m_cumulativeDifficulty.lt flat_child.m_cumulativeDifficulty = true ∧
    is_longer_chain default_config busy_pool [genesis_block, flat_child]
      (some genesis_block) (some flat_child) = some false := by
  decide

/-- C15 (amended): if `A` is reached from a verified, valid block `B` by following `k`
parent links through stored blocks, and every block of that path other than `A` is higher
than `A` (as it is when each parent is one below its child), then `is_longer_chain(A, B)`
returns, and returns the 128-bit comparison
`A.cumulative_difficulty < B.cumulative_difficulty`. -/
theorem is_longer_chain_ancestor (cfg : Config) (pool : Pool) (s : Store) (A B : PoolBlock)
    (k : Nat)
    (hvB : B.m_verified = true) (hiB : B.m_invalid = false)
    (hpath : nth_parent s k B = some A)
    (hhigh : ∀ j, j < k → ∀ c, nth_parent s j B = some c →
      A.m_sidechainHeight < c.m_sidechainHeight) :
    ∃ r, is_longer_chain cfg pool s (some A) (some B) = some r ∧
      (r = true ↔ A.m_cumulativeDifficulty.lt B.m_cumulativeDifficulty = true) :=
  ⟨_, is_longer_chain_on_path cfg pool s A B k hvB hiB hpath hhigh, Iff.rfl⟩

theorem is_longer_chain_ancestor_witness :
    (block_1a.m_verified = true ∧ block_1a.m_invalid = false ∧
      nth_parent [genesis_block, block_1a] 1 block_1a = some genesis_block ∧
      ∀ j, j < 1 → ∀ c, nth_parent [genesis_block, block_1a] j block_1a = some c →
        genesis_block.m_sidechainHeight < c.m_sidechainHeight) ∧
    ∃ r, is_longer_chain default_config busy_pool [genesis_block, block_1a]
        (some genesis_block) (some block_1a) = some r ∧
      (r = true ↔
        genesis_block.m_cumulativeDifficulty.lt block_1a.m_cumulativeDifficulty = true) :=
  have hhigh : ∀ j, j < 1 → ∀ c, nth_parent [genesis_block, block_1a] j block_1a = some c →
      genesis_block.m_sidechainHeight < c.m_sidechainHeight := by
    intro j hj c hc
    obtain rfl : j = 0 := by omega
    cases hc
    decide
  ⟨⟨by decide, by decide, by decide, hhigh⟩,
    is_longer_chain_ancestor default_config busy_pool [genesis_block, block_1a] genesis_block
      block_1a 1 (by decide) (by decide) (by decide) hhigh⟩

/-! ## Theorems: `is_longer_chain` across chains -/

theorem chain_window_none (s : Store) (n : Nat) : chain_window s n none = [] := by
  cases n <;> rfl

theorem chain_window_succ (s : Store) (n : Nat) (o : Option PoolBlock) :
    chain_window s (n + 1) o = o.toList ++ chain_window s n (o.bind (get_parent s)) := by
  cases o with
  | none => simp [chain_window, chain_window_none]
  | some b => simp [chain_window]

theorem chain_totals_step_spec (pool : Pool) (s : Store) (t : ChainTotals)
    (hinv : anchor_inv pool t) :
    (chain_totals_step pool s t).block_total_diff =
        t.old_chain.toList.foldl (fun acc b => acc.add b.m_difficulty) t.block_total_diff ∧
      (chain_totals_step pool s t).old_chain = t.old_chain.bind (get_parent s) ∧
      (chain_totals_step pool s t).candidate_total_diff =
        t.new_chain.toList.foldl (fun acc b => acc.add b.m_difficulty)
          t.candidate_total_diff ∧
      (chain_totals_step pool s t).new_chain = t.new_chain.bind (get_parent s) ∧
      (chain_totals_step pool s t).candidate_mainchain_height =
        (t.new_chain.toList.filterMap (fun b => pool.chainmain_get_by_hash b.m_prevId)).foldl
          max t.candidate_mainchain_height ∧
      anchor_inv pool (chain_totals_step pool s t) := by
  obtain ⟨bt, ct, old, new, cmh, mpid⟩ := t
  unfold anchor_inv at hinv ⊢
  simp only at hinv
  cases new with
  | none => cases old <;> simp [chain_totals_step] <;> exact hinv
  | some nb =>
    by_cases hne : nb.m_prevId = mpid
    · subst hne
      cases hr : pool.chainmain_get_by_hash nb.m_prevId with
      | none => cases old <;> simp [chain_totals_step, hr]
      | some h =>
        have hle : h ≤ cmh := hinv h hr
        cases old <;> simp [chain_totals_step, hr, hle]
    · cases hr : pool.chainmain_get_by_hash nb.m_prevId with
      | none => cases old <;> simp [chain_totals_step, hne, hr] <;> exact hinv
      | some h => cases old <;> simp [chain_totals_step, hne, hr]

theorem chain_totals_loop_spec (pool : Pool) (s : Store) : ∀ (n : Nat) (t : ChainTotals),
    anchor_inv pool t →
    (chain_totals_loop pool s n t).block_total_diff =
        (chain_window s n t.old_chain).foldl (fun acc b => acc.add b.m_difficulty)
          t.block_total_diff ∧
      (chain_totals_loop pool s n t).candidate_total_diff =
        (chain_window s n t.new_chain).foldl (fun acc b => acc.add b.m_difficulty)
          t.candidate_total_diff ∧
      (chain_totals_loop pool s n t).candidate_mainchain_height =
        ((chain_window s n t.new_chain).filterMap
          (fun b => pool.chainmain_get_by_hash b.m_prevId)).foldl max
          t.candidate_mainchain_height
  | 0, t, _ => by simp [chain_totals_loop, chain_window]
  | n + 1, t, hinv => by
    unfold chain_totals_loop
    by_cases hc : (t.old_chain.isSome || t.new_chain.isSome) = true
    · rw [if_pos hc]
      obtain ⟨h1, h2, h3, h4, h5, h6⟩ := chain_totals_step_spec pool s t hinv
      obtain ⟨g1, g2, g3⟩ := chain_totals_loop_spec pool s n (chain_totals_step pool s t) h6
      rw [g1, g2, g3, h1, h2, h3, h4, h5, chain_window_succ, chain_window_succ,
        List.foldl_append, List.foldl_append, List.filterMap_append, List.foldl_append]
      exact ⟨rfl, rfl, rfl⟩
    · rw [if_neg hc]
      have ho : t.old_chain = none := by
        cases h : t.old_chain with
        | none => rfl
        | some b => rw [h] at hc; simp at hc
      have hn : t.new_chain = none := by
        cases h : t.new_chain with
        | none => rfl
        | some b => rw [h] at hc; simp at hc
      rw [ho, hn]
      simp [chain_window]

theorem longer_by_total_spec (cfg : Config) (pool : Pool) (s : Store)
    (block candidate : PoolBlock)
    (hzero : pool.chainmain_get_by_hash 0 = none) :
    longer_by_total cfg pool s block candidate =
      ((chain_difficulty (chain_window s cfg.m_chainWindowSize (some block))).lt
          (chain_difficulty (chain_window s cfg.m_chainWindowSize (some candidate))) &&
        !decide (add64 (highest_anchor pool
            (chain_window s cfg.m_chainWindowSize (some candidate))) 10 <
          pool.miner_data_height)) := by
  unfold longer_by_total
  obtain ⟨g1, g2, g3⟩ := chain_totals_loop_spec pool s cfg.m_chainWindowSize
    { block_total_diff := { lo := 0, hi := 0 }
      candidate_total_diff := { lo := 0, hi := 0 }
      old_chain := some block
      new_chain := some candidate
      candidate_mainchain_height := 0
      mainchain_prev_id := 0 }
    (by intro h hh; simp only at hh; rw [hzero] at hh; cases hh)
  simp only [g1, g2, g3, chain_difficulty, highest_anchor, list_max]
  split_ifs <;> simp_all

/-- C16: when the search for a common ancestor of `current` and a verified, valid
`candidate` ends without a pair of ancestors with equal parent, `is_longer_chain` returns,
and returns true exactly when the 128-bit sum of `difficulty` over the first `W` blocks of
the chain of `candidate` is greater than that of the chain of `current` and the base-chain
head is at most 10 above the highest height the pool resolves among the `prev_id` anchors
of those blocks of the candidate; so a candidate whose highest anchor is 50 below the head
is rejected.  The pool is taken not to know a base-chain block under the empty hash, and
the resolved heights stay 10 below `2^64`. -/
theorem is_longer_chain_fallback (cfg : Config) (pool : Pool) (s : Store)
    (current candidate : PoolBlock)
    (hv : candidate.m_verified = true) (hi : candidate.m_invalid = false)
    (hsearch : same_chain_search s current candidate = some false)
    (hzero : pool.chainmain_get_by_hash 0 = none)
    (hrange : highest_anchor pool (chain_window s cfg.m_chainWindowSize (some candidate)) + 10 <
      2 ^ 64) :
    ∃ r, is_longer_chain cfg pool s (some current) (some candidate) = some r ∧
      (r = true ↔
        ((chain_difficulty (chain_window s cfg.m_chainWindowSize (some current))).lt
            (chain_difficulty (chain_window s cfg.m_chainWindowSize (some candidate))) = true ∧
          pool.miner_data_height ≤
            highest_anchor pool (chain_window s cfg.m_chainWindowSize (some candidate)) + 10)) ∧
      (highest_anchor pool (chain_window s cfg.m_chainWindowSize (some candidate)) + 50 =
          pool.miner_data_height → r = false) := by
  have h : is_longer_chain cfg pool s (some current) (some candidate) =
      some ((chain_difficulty (chain_window s cfg.m_chainWindowSize (some current))).lt
          (chain_difficulty (chain_window s cfg.m_chainWindowSize (some candidate))) &&
        !decide (highest_anchor pool
            (chain_window s cfg.m_chainWindowSize (some candidate)) + 10 <
          pool.miner_data_height)) := by
    unfold is_longer_chain
    simp only [hv, hi, Bool.not_true, Bool.or_self, Bool.false_eq_true, if_false, hsearch]
    rw [longer_by_total_spec cfg pool s current candidate hzero, add64_of_lt hrange]
  refine ⟨_, h, ?_, ?_⟩
  · simp
  · intro h50
    have : highest_anchor pool (chain_window s cfg.m_chainWindowSize (some candidate)) + 10 <
        pool.miner_data_height := by omega
    simp [this]

theorem is_longer_chain_fallback_witness :
    (stale_rival.m_verified = true ∧ stale_rival.m_invalid = false ∧
      same_chain_search [genesis_block, block_1a, stale_rival] block_1a stale_rival =
        some false ∧
      busy_pool.chainmain_get_by_hash 0 = none ∧
      highest_anchor busy_pool (chain_window [genesis_block, block_1a, stale_rival]
        default_config.m_chainWindowSize (some stale_rival)) + 10 < 2 ^ 64) ∧
    ∃ r, is_longer_chain default_config busy_pool [genesis_block, block_1a, stale_rival]
        (some block_1a) (some stale_rival) = some r ∧
      (r = true ↔
        ((chain_difficulty (chain_window [genesis_block, block_1a, stale_rival]
              default_config.m_chainWindowSize (some block_1a))).lt
            (chain_difficulty (chain_window [genesis_block, block_1a, stale_rival]
              default_config.m_chainWindowSize (some stale_rival))) = true ∧
          busy_pool.miner_data_height ≤
            highest_anchor busy_pool (chain_window [genesis_block, block_1a, stale_rival]
              default_config.m_chainWindowSize (some stale_rival)) + 10)) ∧
      (highest_anchor busy_pool (chain_window [genesis_block, block_1a, stale_rival]
          default_config.m_chainWindowSize (some stale_rival)) + 50 =
          busy_pool.miner_data_height → r = false) :=
  ⟨⟨by decide, by decide, by decide, by decide, by decide⟩,
    is_longer_chain_fallback default_config busy_pool [genesis_block, block_1a, stale_rival]
      block_1a stale_rival (by decide) (by decide) (by decide) (by decide) (by decide)⟩

/-! ## Theorems: `prune_old_blocks` -/

theorem find_erase_block (s : Store) (x id : hash) :
    find (erase_block s x) id = if id = x then none else find s id := by
  induction s with
  | nil => simp [erase_block, find]
  | cons b rest ih =>
    unfold erase_block find at ih ⊢
    by_cases hb : b.m_sidechainId = x
    · rw [List.filter_cons_of_neg (by simp [hb]), ih]
      by_cases hid : id = x
      · rw [if_pos hid, if_pos hid]
      · rw [if_neg hid, if_neg hid, List.find?_cons_of_neg]
        simp only [decide_eq_true_eq]
        rw [hb]; exact fun h => hid h.symm
    · rw [List.filter_cons_of_pos (by simp [hb])]
      by_cases hbi : b.m_sidechainId = id
      · rw [List.find?_cons_of_pos _ (by simp [hbi]), List.find?_cons_of_pos _ (by simp [hbi]),
          if_neg (by rw [← hbi]; exact hb)]
      · rw [List.find?_cons_of_neg _ (by simp [hbi]), List.find?_cons_of_neg _ (by simp [hbi])]
        exact ih

theorem find_prune_block (pd : Nat) (s : Store) (x id : hash) :
    find (prune_block pd s x) id = find s id ∨
      (find (prune_block pd s x) id = none ∧ id = x ∧
        ∃ b, find s id = some b ∧ pd ≤ b.m_depth) := by
  unfold prune_block
  cases hx : find s x with
  | none => exact Or.inl rfl
  | some blk =>
    dsimp only
    by_cases hd : blk.m_depth < pd
    · rw [if_pos hd]; exact Or.inl rfl
    · rw [if_neg hd, find_erase_block]
      by_cases hid : id = x
      · rw [if_pos hid]
        exact Or.inr ⟨rfl, hid, blk, by rw [hid]; exact hx, Nat.not_lt.mp hd⟩
      · rw [if_neg hid]; exact Or.inl rfl

/-- What the inner loops of `prune_old_blocks` do to one id: the block stays as it is, or it
is gone, and then it was visited and its depth had reached the prune distance. -/
theorem find_prune_fold (pd : Nat) (id : hash) : ∀ (ids : List hash) (s : Store),
    find (ids.foldl (prune_block pd) s) id = find s id ∨
      (find (ids.foldl (prune_block pd) s) id = none ∧ id ∈ ids ∧
        ∃ b, find s id = some b ∧ pd ≤ b.m_depth)
  | [], s => Or.inl rfl
  | x :: rest, s => by
    rw [List.foldl_cons]
    rcases find_prune_fold pd id rest (prune_block pd s x) with h | ⟨h1, h2, b, h3, h4⟩
    · rcases find_prune_block pd s x id with g | ⟨g1, g2, g3⟩
      · left; rw [h, g]
      · right; exact ⟨by rw [h, g1], by rw [g2]; exact List.mem_cons_self _ _, g3⟩
    · rcases find_prune_block pd s x id with g | ⟨g1, _, _⟩
      · right; exact ⟨h1, List.mem_cons_of_mem _ h2, b, by rw [← g]; exact h3, h4⟩
      · rw [g1] at h3; cases h3

/-- C19: when `prune_old_blocks` returns, every block it has removed from `m_blocksById`
was at a height of at most `tip.height - (2·W + 120/T)` and had a depth of at least `2·W`
(indeed of at least `2·W + 120/T`); every other block is still stored unchanged, so no
block with depth below `2·W` and no block within `2·W + 120/T` heights of the tip is
removed.  `2·W + 120/T` is taken to fit in 64 bits, and the vectors of `m_blocksByHeight`
to agree with the heights of the stored blocks. -/
theorem prune_old_blocks_removed (cfg : Config) (sc sc1 : SideChain) (tip_id : hash)
    (tip : PoolBlock) (id : hash) (b : PoolBlock)
    (hW : cfg.m_chainWindowSize * 2 + 120 / cfg.m_targetBlockTime < 2 ^ 64)
    (hcons : buckets_by_height sc)
    (htip : sc.m_chainTip = some tip_id) (hfind : find sc.m_blocksById tip_id = some tip)
    (hrun : prune_old_blocks cfg sc = some sc1)
    (hb : find sc.m_blocksById id = some b) :
    (find sc1.m_blocksById id = some b ∨ find sc1.m_blocksById id = none) ∧
    (find sc1.m_blocksById id = none →
      (cfg.m_chainWindowSize * 2 + 120 / cfg.m_targetBlockTime ≤ tip.m_sidechainHeight ∧
        b.m_sidechainHeight ≤
          tip.m_sidechainHeight - (cfg.m_chainWindowSize * 2 + 120 / cfg.m_targetBlockTime)) ∧
      cfg.m_chainWindowSize * 2 ≤ b.m_depth) ∧
    (b.m_depth < cfg.m_chainWindowSize * 2 → find sc1.m_blocksById id = some b) ∧
    (tip.m_sidechainHeight <
        b.m_sidechainHeight + (cfg.m_chainWindowSize * 2 + 120 / cfg.m_targetBlockTime) →
      find sc1.m_blocksById id = some b) := by
  obtain ⟨q, hq⟩ : ∃ q, 120 / cfg.m_targetBlockTime = q := ⟨_, rfl⟩
  have hpd : add64 ((cfg.m_chainWindowSize * 2) % 2 ^ 64) (120 / cfg.m_targetBlockTime) =
      cfg.m_chainWindowSize * 2 + q := by
    rw [hq] at hW ⊢
    rw [Nat.mod_eq_of_lt (by omega), add64_of_lt hW]
  rw [hq] at hW ⊢
  have key : find sc1.m_blocksById id = some b ∨
      (find sc1.m_blocksById id = none ∧
        (cfg.m_chainWindowSize * 2 + q ≤ tip.m_sidechainHeight ∧
          b.m_sidechainHeight ≤ tip.m_sidechainHeight -
            (cfg.m_chainWindowSize * 2 + q)) ∧
        cfg.m_chainWindowSize * 2 + q ≤ b.m_depth) := by
    unfold prune_old_blocks at hrun
    by_cases hT : cfg.m_targetBlockTime = 0
    · rw [if_pos hT] at hrun; cases hrun
    · rw [if_neg hT] at hrun
      simp only [htip, hfind, hpd] at hrun
      by_cases hlow : tip.m_sidechainHeight <
          cfg.m_chainWindowSize * 2 + q
      · rw [if_pos hlow] at hrun
        cases hrun
        exact Or.inl hb
      · rw [if_neg hlow] at hrun
        cases hrun
        dsimp only
        rcases find_prune_fold (cfg.m_chainWindowSize * 2 + q) id _
          sc.m_blocksById with h | ⟨h1, h2, b2, h3, h4⟩
        · left; rw [h]; exact hb
        · right
          rw [hb] at h3
          cases h3
          refine ⟨h1, ⟨Nat.not_lt.mp hlow, ?_⟩, h4⟩
          rw [List.mem_flatMap] at h2
          obtain ⟨e, he, hide⟩ := h2
          rw [List.mem_filter] at he
          have hk := hcons e he.1 id hide b hb
          rw [hk]
          simpa using he.2
  refine ⟨?_, ?_, ?_, ?_⟩
  · rcases key with h | ⟨h, _⟩
    · exact Or.inl h
    · exact Or.inr h
  · intro hnone
    rcases key with h | ⟨_, h2, h3⟩
    · rw [h] at hnone; cases hnone
    · exact ⟨h2, by omega⟩
  · intro hd
    rcases key with h | ⟨_, _, h3⟩
    · exact h
    · omega
  · intro hh
    rcases key with h | ⟨_, h2, _⟩
    · exact h
    · omega

theorem prune_old_blocks_removed_witness :
    (small_config.m_chainWindowSize * 2 + 120 / small_config.m_targetBlockTime < 2 ^ 64 ∧
      buckets_by_height aged_state ∧ aged_state.m_chainTip = some 9 ∧
      (find aged_state.m_blocksById 9).isSome = true ∧
      (prune_old_blocks small_config aged_state).isSome = true ∧
      find aged_state.m_blocksById 1 = some { genesis_block with m_depth := 150 }) ∧
    ∀ sc1, prune_old_blocks small_config aged_state = some sc1 →
      find sc1.m_blocksById 1 = none ∧
      ((small_config.m_chainWindowSize * 2 + 120 / small_config.m_targetBlockTime ≤ 150 ∧
        genesis_block.m_sidechainHeight ≤
          150 - (small_config.m_chainWindowSize * 2 + 120 / small_config.m_targetBlockTime)) ∧
      small_config.m_chainWindowSize * 2 ≤ 150) :=
  ⟨⟨by decide, by decide, by decide, by decide, by decide, by decide⟩,
    fun sc1 h =>
      have hnone : find sc1.m_blocksById 1 = none := by
        have h2 : prune_old_blocks small_config aged_state =
            some { aged_state with
              m_blocksById := aged_state.m_blocksById.tail
              m_blocksByHeight := [(150, [9])] } := by decide
        rw [h2] at h
        cases h
        decide
      ⟨hnone,
        (prune_old_blocks_removed small_config aged_state sc1 9
          (mk_block 9 8 [] 150 { lo := 1000, hi := 0 } { lo := 151000, hi := 0 } 18100 11 true
            false)
          1 { genesis_block with m_depth := 150 } (by decide) (by decide) (by decide)
          (by decide) h (by decide)).2.1 hnone⟩⟩

/-! ## Theorems: the two indices after pruning -/

theorem bucket_filter_out (m : List (Nat × List hash)) (h k : Nat) (hk : k ≤ h) :
    bucket (m.filter (fun e => !decide (e.1 ≤ h))) k = [] := by
  unfold bucket
  have : (m.filter (fun e => !decide (e.1 ≤ h))).find? (fun e => decide (e.1 = k)) = none := by
    rw [List.find?_eq_none]
    intro e he
    rw [List.mem_filter] at he
    have h2 := he.2
    simp only [Bool.not_eq_true', decide_eq_false_iff_not, Nat.not_le] at h2
    simp only [decide_eq_true_eq]
    omega
  rw [this]

/-- The fault of `prune_old_blocks`: a block listed at a height that is pruned, whose depth
is below the prune distance, stays in `m_blocksById` while the vector it is listed in is
erased from `m_blocksByHeight`. -/
theorem prune_old_blocks_unlists (cfg : Config) (sc sc1 : SideChain) (tip_id : hash)
    (tip : PoolBlock) (id : hash) (b : PoolBlock)
    (htip : sc.m_chainTip = some tip_id) (hfind : find sc.m_blocksById tip_id = some tip)
    (hrun : prune_old_blocks cfg sc = some sc1)
    (hb : find sc.m_blocksById id = some b)
    (hshallow : b.m_depth <
      add64 ((cfg.m_chainWindowSize * 2) % 2 ^ 64) (120 / cfg.m_targetBlockTime))
    (hold : b.m_sidechainHeight +
      add64 ((cfg.m_chainWindowSize * 2) % 2 ^ 64) (120 / cfg.m_targetBlockTime) ≤
        tip.m_sidechainHeight) :
    find sc1.m_blocksById id = some b ∧ bucket sc1.m_blocksByHeight b.m_sidechainHeight = [] := by
  unfold prune_old_blocks at hrun
  by_cases hT : cfg.m_targetBlockTime = 0
  · rw [if_pos hT] at hrun; cases hrun
  · rw [if_neg hT] at hrun
    simp only [htip, hfind] at hrun
    rw [if_neg (by omega)] at hrun
    cases hrun
    dsimp only
    constructor
    · rcases find_prune_fold _ id _ sc.m_blocksById with h | ⟨_, _, b2, h3, h4⟩
      · rw [h]; exact hb
      · rw [hb] at h3; cases h3; omega
    · exact bucket_filter_out _ _ _ (by omega)

/-- The same fault on `aged_state`: the block at height 1 has no descendants (depth 0), the
tip is at height 150 and the prune distance is 121, so the vector of height 1 is erased
while the block stays stored. -/
theorem prune_old_blocks_unlists_aged :
    ∃ sc1, prune_old_blocks small_config aged_state = some sc1 ∧
      find sc1.m_blocksById 3 = some block_1b ∧
      bucket sc1.m_blocksByHeight block_1b.m_sidechainHeight = [] :=
  ⟨{ aged_state with
      m_blocksById := aged_state.m_blocksById.tail
      m_blocksByHeight := [(150, [9])] },
    by decide,
    prune_old_blocks_unlists small_config aged_state _ 9
      (mk_block 9 8 [] 150 { lo := 1000, hi := 0 } { lo := 151000, hi := 0 } 18100 11 true false)
      3 block_1b (by decide) (by decide) (by decide) (by decide) (by decide) (by decide)⟩

/-- C18 (failing input): under a configuration accepted by `check_config`, `add_block` of
the genesis block leaves the two indices consistent; `add_block` of `leap_block` then moves
the tip to height 200 and prunes: the genesis block, whose depth 1 is below the prune
distance 121, stays in `m_blocksById`, but its vector in `m_blocksByHeight` is erased. -/
theorem add_block_breaks_indices :
    add_block small_config idle_pool 1 (empty_sidechain small_config) genesis_block =
      some (first_tip genesis_block { lo := 1000, hi := 0 }) ∧
    indices_consistent (first_tip genesis_block { lo := 1000, hi := 0 }) ∧
    add_block small_config idle_pool 2 (first_tip genesis_block { lo := 1000, hi := 0 })
      leap_block = some leap_state ∧
    (find leap_state.m_blocksById 1).isSome = true ∧
    (∀ e ∈ leap_state.m_blocksByHeight, 1 ∉ e.2) ∧
    ¬ indices_consistent leap_state := by
  refine ⟨by decide, by decide, by decide, by decide, by decide, by decide⟩

/-! ## Theorems: what `add_block` does to stored blocks -/

theorem find_map_keep_id (s : Store) (f : PoolBlock → PoolBlock)
    (hf : ∀ b, (f b).m_sidechainId = b.m_sidechainId) (x : hash) :
    find (s.map f) x = (find s x).map f := by
  unfold find
  rw [List.find?_map]
  have : ((fun b => decide (b.m_sidechainId = x)) ∘ f) =
      (fun b : PoolBlock => decide (b.m_sidechainId = x)) := by
    funext b
    simp only [Function.comp, hf]
  rw [this]

theorem find_set_depth (s : Store) (id : hash) (d : Nat) (x : hash) :
    find (set_depth s id d) x =
      (find s x).map (fun b => if b.m_sidechainId = id then { b with m_depth := d } else b) :=
  find_map_keep_id s _ (fun b => by split <;> rfl) x

theorem find_set_want_broadcast (s : Store) (id : hash) (x : hash) :
    find (set_want_broadcast s id) x =
      (find s x).map
        (fun b => if b.m_sidechainId = id then { b with m_wantBroadcast := true } else b) :=
  find_map_keep_id s _ (fun b => by split <;> rfl) x

theorem find_set_broadcasted (s : Store) (id : hash) (x : hash) :
    find (set_broadcasted s id) x =
      (find s x).map
        (fun b => if b.m_sidechainId = id then { b with m_broadcasted := true } else b) :=
  find_map_keep_id s _ (fun b => by split <;> rfl) x

theorem block_le_refl (x : PoolBlock) : block_le x x :=
  ⟨rfl, Nat.le_refl _, fun h => ⟨h, rfl⟩⟩

theorem block_le_trans {x y z : PoolBlock} (h1 : block_le x y) (h2 : block_le y z) :
    block_le x z :=
  ⟨h1.1.trans h2.1, Nat.le_trans h1.2.1 h2.2.1, fun hv =>
    ⟨(h2.2.2 (h1.2.2 hv).1).1, (h2.2.2 (h1.2.2 hv).1).2.trans (h1.2.2 hv).2⟩⟩

theorem store_le_refl (s : Store) : store_le s s :=
  fun _ y hy => ⟨y, hy, block_le_refl y⟩

theorem store_le_trans {s1 s2 s3 : Store} (h1 : store_le s1 s2) (h2 : store_le s2 s3) :
    store_le s1 s3 := by
  intro id z hz
  obtain ⟨y, hy, hyz⟩ := h2 id z hz
  obtain ⟨x, hx, hxy⟩ := h1 id y hy
  exact ⟨x, hx, block_le_trans hxy hyz⟩

/-- A change of stored blocks made by mapping a function that turns each block into a later
version of itself. -/
theorem store_le_map (s : Store) (f : PoolBlock → PoolBlock)
    (hid : ∀ b, (f b).m_sidechainId = b.m_sidechainId)
    (hle : ∀ id b, find s id = some b → block_le b (f b)) : store_le s (s.map f) := by
  intro id y hy
  rw [find_map_keep_id s f hid] at hy
  cases hx : find s id with
  | none => rw [hx] at hy; cases hy
  | some x =>
    rw [hx] at hy
    cases hy
    exact ⟨x, rfl, hle id x hx⟩

theorem storeStep_le (cfg : Config) {s s1 : Store} (h : StoreStep cfg s s1) :
    store_le s s1 := by
  cases h with
  | depth id d b hb hd =>
    refine store_le_map s _ (fun b => by split <;> rfl) ?_
    intro x c hc
    by_cases hcid : c.m_sidechainId = id
    · rw [if_pos hcid]
      have : x = id := by rw [← find_some_id hc]; exact hcid
      rw [this, hb] at hc
      cases hc
      exact ⟨rfl, hd, fun h => ⟨h, rfl⟩⟩
    · rw [if_neg hcid]; exact block_le_refl c
  | want id =>
    refine store_le_map s _ (fun b => by split <;> rfl) ?_
    intro x c _
    split
    · exact ⟨rfl, Nat.le_refl _, fun h => ⟨h, rfl⟩⟩
    · exact block_le_refl c
  | broadcasted id =>
    refine store_le_map s _ (fun b => by split <;> rfl) ?_
    intro x c _
    split
    · exact ⟨rfl, Nat.le_refl _, fun h => ⟨h, rfl⟩⟩
    · exact block_le_refl c
  | erase id =>
    intro x y hy
    rw [find_erase_block] at hy
    by_cases hx : x = id
    · rw [if_pos hx] at hy; cases hy
    · rw [if_neg hx] at hy; exact ⟨y, hy, block_le_refl y⟩
  | verify id b b1 hb hv hver =>
    refine store_le_map s _ (set_flags_of_id id _ _) ?_
    intro x c hc
    unfold set_flags_of
    by_cases hcid : c.m_sidechainId = id
    · rw [if_pos hcid]
      have : x = id := by rw [← find_some_id hc]; exact hcid
      rw [this, hb] at hc
      cases hc
      exact ⟨rfl, Nat.le_refl _, fun h => by rw [hv] at h; cases h⟩
    · rw [if_neg hcid]; exact block_le_refl c

theorem mutates_le (cfg : Config) {s s1 : Store} (h : Mutates cfg s s1) : store_le s s1 := by
  induction h with
  | refl => exact store_le_refl s
  | tail _ hstep ih => exact store_le_trans ih (storeStep_le cfg hstep)

theorem mutates_depth (cfg : Config) (s : Store) (id : hash) (d : Nat) (b : PoolBlock)
    (hb : find s id = some b) (hd : b.m_depth ≤ d) : Mutates cfg s (set_depth s id d) :=
  Relation.ReflTransGen.single (StoreStep.depth s id d b hb hd)

theorem update_depths_child_mutates (cfg : Config) (s s1 : Store) (block_id : hash) (i : Nat)
    (child_id : hash) (h : update_depths_child s block_id i child_id = some s1) :
    Mutates cfg s s1 := by
  unfold update_depths_child at h
  cases hb : find s block_id with
  | none => rw [hb] at h; cases h
  | some block =>
    cases hc : find s child_id with
    | none => rw [hb, hc] at h; cases h
    | some child =>
      rw [hb, hc] at h
      dsimp only at h
      have hm1 : Mutates cfg s
          (if child.m_parent = block.m_sidechainId ∧ i = 1 then
            set_depth s block_id (max block.m_depth (add64 child.m_depth 1)) else s) := by
        split
        · exact mutates_depth cfg s block_id _ block hb (Nat.le_max_left _ _)
        · exact Relation.ReflTransGen.refl
      generalize (if child.m_parent = block.m_sidechainId ∧ i = 1 then
            set_depth s block_id (max block.m_depth (add64 child.m_depth 1)) else s) = s2
        at h hm1
      cases hb2 : find s2 block_id with
      | none => rw [hb2] at h; cases h
      | some block1 =>
        cases hc2 : find s2 child_id with
        | none => rw [hb2, hc2] at h; cases h
        | some child1 =>
          rw [hb2, hc2] at h
          dsimp only at h
          split at h
          · cases h
            exact hm1.trans (mutates_depth cfg s2 block_id _ block1 hb2 (Nat.le_max_left _ _))
          · cases h; exact hm1

theorem update_depths_children_mutates (cfg : Config) (block_id : hash) (i : Nat) :
    ∀ (ids : List hash) (s s1 : Store),
      update_depths_children s block_id i ids = some s1 → Mutates cfg s s1
  | [], s, s1, h => by
    simp only [update_depths_children, Option.some.injEq] at h
    rw [← h]; exact Relation.ReflTransGen.refl
  | child_id :: rest, s, s1, h => by
    rw [update_depths_children] at h
    cases hc : update_depths_child s block_id i child_id with
    | none => rw [hc] at h; cases h
    | some s2 =>
      rw [hc] at h
      exact (update_depths_child_mutates cfg s s2 block_id i child_id hc).trans
        (update_depths_children_mutates cfg block_id i rest s2 s1 h)

theorem update_depths_init_mutates (cfg : Config) (m : List (Nat × List hash)) (s s1 : Store)
    (block_id : hash) (h : update_depths_init m s block_id = some s1) : Mutates cfg s s1 := by
  unfold update_depths_init at h
  cases hb : find s block_id with
  | none => rw [hb] at h; cases h
  | some block =>
    rw [hb] at h
    dsimp only at h
    cases h1 : update_depths_children s block_id 1 (bucket m (add64 block.m_sidechainHeight 1)) with
    | none => rw [h1] at h; cases h
    | some s2 =>
      rw [h1] at h
      dsimp only at h
      cases h2 : update_depths_children s2 block_id 2
          (bucket m (add64 block.m_sidechainHeight 2)) with
      | none => rw [h2] at h; cases h
      | some s3 =>
        rw [h2] at h
        exact ((update_depths_children_mutates cfg block_id 1 _ s s2 h1).trans
          (update_depths_children_mutates cfg block_id 2 _ s2 s3 h2)).trans
          (update_depths_children_mutates cfg block_id 3 _ s3 s1 h)

theorem update_depths_parent_mutates (cfg : Config) (s : Store) (block : PoolBlock)
    (stack : List hash) : Mutates cfg s (update_depths_parent s block stack).1 := by
  unfold update_depths_parent
  cases hp : find s block.m_parent with
  | none => exact Relation.ReflTransGen.refl
  | some parent =>
    dsimp only
    split
    · rename_i hlt
      exact mutates_depth cfg s _ _ parent hp (Nat.le_of_lt hlt)
    · exact Relation.ReflTransGen.refl

theorem update_depths_uncles_mutates (cfg : Config) (block_id : hash) :
    ∀ (uncles : List hash) (s : Store) (stack : List hash) (r : Store × List hash),
      update_depths_uncles s block_id uncles stack = some r → Mutates cfg s r.1
  | [], s, stack, r, h => by
    simp only [update_depths_uncles, Option.some.injEq] at h
    rw [← h]; exact Relation.ReflTransGen.refl
  | uncle_id :: rest, s, stack, r, h => by
    rw [update_depths_uncles] at h
    cases hb : find s block_id with
    | none => rw [hb] at h; cases h
    | some block =>
      rw [hb] at h
      dsimp only at h
      cases hu : find s uncle_id with
      | none =>
        rw [hu] at h
        exact update_depths_uncles_mutates cfg block_id rest s stack r h
      | some uncle =>
        rw [hu] at h
        dsimp only at h
        split at h
        · rename_i hlt
          exact (mutates_depth cfg s uncle_id _ uncle hu (Nat.le_of_lt hlt)).trans
            (update_depths_uncles_mutates cfg block_id rest _ _ r h)
        · exact update_depths_uncles_mutates cfg block_id rest s stack r h

theorem update_depths_loop_mutates (cfg : Config) :
    ∀ (fuel : Nat) (s : Store) (stack : List hash) (s1 : Store),
      update_depths_loop fuel s stack = some s1 → Mutates cfg s s1
  | fuel, s, [], s1, h => by
    have : update_depths_loop fuel s [] = some s := by cases fuel <;> rfl
    rw [this] at h
    cases h
    exact Relation.ReflTransGen.refl
  | 0, s, _ :: _, s1, h => by simp [update_depths_loop] at h
  | fuel + 1, s, block_id :: stack, s1, h => by
    rw [update_depths_loop] at h
    cases hb : find s block_id with
    | none => rw [hb] at h; cases h
    | some block =>
      rw [hb] at h
      dsimp only at h
      cases hu : update_depths_uncles (update_depths_parent s block stack).1 block_id
          block.m_uncles (update_depths_parent s block stack).2 with
      | none => rw [hu] at h; cases h
      | some r2 =>
        rw [hu] at h
        exact ((update_depths_parent_mutates cfg s block stack).trans
          (update_depths_uncles_mutates cfg block_id _ _ _ r2 hu)).trans
          (update_depths_loop_mutates cfg fuel r2.1 r2.2 s1 h)

theorem update_depths_mutates (cfg : Config) (fuel : Nat) (m : List (Nat × List hash))
    (s s1 : Store) (block_id : hash) (h : update_depths fuel m s block_id = some s1) :
    Mutates cfg s s1 := by
  unfold update_depths at h
  cases hi : update_depths_init m s block_id with
  | none => rw [hi] at h; cases h
  | some s2 =>
    rw [hi] at h
    exact (update_depths_init_mutates cfg m s s2 block_id hi).trans
      (update_depths_loop_mutates cfg fuel s2 [block_id] s1 h)

theorem prune_block_mutates (cfg : Config) (pd : Nat) (s : Store) (id : hash) :
    Mutates cfg s (prune_block pd s id) := by
  unfold prune_block
  cases find s id with
  | none => exact Relation.ReflTransGen.refl
  | some block =>
    dsimp only
    split
    · exact Relation.ReflTransGen.refl
    · exact Relation.ReflTransGen.single (StoreStep.erase s id)

theorem prune_fold_mutates (cfg : Config) (pd : Nat) :
    ∀ (ids : List hash) (s : Store), Mutates cfg s (ids.foldl (prune_block pd) s)
  | [], _ => Relation.ReflTransGen.refl
  | id :: rest, s =>
    (prune_block_mutates cfg pd s id).trans (prune_fold_mutates cfg pd rest _)

theorem prune_old_blocks_mutates (cfg : Config) (sc sc1 : SideChain)
    (h : prune_old_blocks cfg sc = some sc1) :
    Mutates cfg sc.m_blocksById sc1.m_blocksById := by
  unfold prune_old_blocks at h
  split at h
  · cases h
  · cases ht : sc.m_chainTip with
    | none => rw [ht] at h; cases h
    | some tip_id =>
      rw [ht] at h
      dsimp only at h
      cases hf : find sc.m_blocksById tip_id with
      | none => rw [hf] at h; cases h
      | some tip =>
        rw [hf] at h
        dsimp only at h
        split at h
        · cases h; exact Relation.ReflTransGen.refl
        · cases h; exact prune_fold_mutates cfg _ _ _

theorem update_chain_tip_mutates (cfg : Config) (pool : Pool) (sc sc1 : SideChain) (id : hash)
    (h : update_chain_tip cfg pool sc id = some sc1) :
    Mutates cfg sc.m_blocksById sc1.m_blocksById := by
  unfold update_chain_tip at h
  cases hf : find sc.m_blocksById id with
  | none => rw [hf] at h; cases h
  | some block =>
    rw [hf] at h
    dsimp only at h
    split at h
    · cases h; exact Relation.ReflTransGen.refl
    · split at h
      · cases h; exact Relation.ReflTransGen.refl
      · split at h
        · cases h
        · split at h
          · cases h
          · rename_i longer _
            have hmid : ∀ sc2, (if longer = true then
                match get_difficulty cfg sc.m_blocksById block with
                | none => some sc
                | some diff =>
                  prune_old_blocks cfg
                    { sc with
                      m_chainTip := some id
                      m_curDifficulty := diff
                      m_blocksById := set_want_broadcast sc.m_blocksById id }
                else some sc) = some sc2 → Mutates cfg sc.m_blocksById sc2.m_blocksById := by
              intro sc2 h2
              split at h2
              · split at h2
                · cases h2; exact Relation.ReflTransGen.refl
                · exact (Relation.ReflTransGen.single (StoreStep.want sc.m_blocksById id)).trans
                    (prune_old_blocks_mutates cfg _ sc2 h2)
              · cases h2; exact Relation.ReflTransGen.refl
            split at h
            · cases h
            · rename_i sc2 hsc2
              have hm := hmid sc2 hsc2
              split at h
              · cases h
              · split at h
                · cases h
                  exact hm.trans (Relation.ReflTransGen.single (StoreStep.broadcasted _ id))
                · cases h; exact hm

theorem verify_loop_go_mutates (cfg : Config) (pool : Pool) :
    ∀ (fuel : Nat) (sc : SideChain) (stack : List hash) (highest : Option hash)
      (r : SideChain × Option hash),
      verify_loop_go cfg pool fuel sc stack highest = some r →
      Mutates cfg sc.m_blocksById r.1.m_blocksById
  | fuel, sc, [], highest, r, h => by
    rw [verify_loop_go_nil] at h
    cases h
    exact Relation.ReflTransGen.refl
  | 0, sc, _ :: _, highest, r, h => by simp [verify_loop_go] at h
  | fuel + 1, sc, id :: stack, highest, r, h => by
    rw [verify_loop_go] at h
    cases hf : find sc.m_blocksById id with
    | none => rw [hf] at h; cases h
    | some block =>
      rw [hf] at h
      dsimp only at h
      cases hv : block.m_verified with
      | true =>
        rw [hv] at h
        simp only [if_true] at h
        exact verify_loop_go_mutates cfg pool fuel sc stack highest r h
      | false =>
        rw [hv] at h
        simp only [Bool.false_eq_true, if_false] at h
        cases hver : verify cfg sc.m_blocksById block with
        | none => rw [hver] at h; cases h
        | some block1 =>
          rw [hver] at h
          dsimp only at h
          have hstep : Mutates cfg sc.m_blocksById
              (set_flags sc.m_blocksById id block1.m_verified block1.m_invalid) :=
            Relation.ReflTransGen.single (StoreStep.verify _ id block block1 hf hv hver)
          split at h
          · exact hstep.trans (verify_loop_go_mutates cfg pool fuel _ stack highest r h)
          · split at h
            · exact hstep.trans (verify_loop_go_mutates cfg pool fuel _ stack highest r h)
            · split at h
              · cases h
              · split at h
                · cases h
                · have hrec := verify_loop_go_mutates cfg pool fuel _ _ _ r h
                  refine hstep.trans (Relation.ReflTransGen.trans ?_ hrec)
                  dsimp only
                  split
                  · exact Relation.ReflTransGen.single (StoreStep.broadcasted _ id)
                  · exact Relation.ReflTransGen.refl

theorem verify_loop_mutates (cfg : Config) (pool : Pool) (fuel : Nat) (sc sc1 : SideChain)
    (id : hash) (h : verify_loop cfg pool fuel sc id = some sc1) :
    Mutates cfg sc.m_blocksById sc1.m_blocksById := by
  unfold verify_loop at h
  cases hg : verify_loop_go cfg pool fuel sc [id] none with
  | none => rw [hg] at h; cases h
  | some r =>
    rw [hg] at h
    have hm := verify_loop_go_mutates cfg pool fuel sc [id] none r hg
    obtain ⟨sc2, highest⟩ := r
    cases highest with
    | none => cases h; exact hm
    | some hb => exact hm.trans (update_chain_tip_mutates cfg pool sc2 sc1 hb h)

/-- What `add_block` does to `m_blocksById`: nothing when the id is already stored;
otherwise the block is appended and elementary changes follow. -/
theorem add_block_mutates (cfg : Config) (pool : Pool) (fuel : Nat) (sc sc1 : SideChain)
    (block : PoolBlock) (h : add_block cfg pool fuel sc block = some sc1) :
    (sc1 = sc ∧ (find sc.m_blocksById block.m_sidechainId).isSome = true) ∨
    (find sc.m_blocksById block.m_sidechainId = none ∧
      Mutates cfg (sc.m_blocksById ++ [block]) sc1.m_blocksById) := by
  unfold add_block at h
  cases hf : find sc.m_blocksById block.m_sidechainId with
  | some b =>
    rw [hf] at h
    cases h
    exact Or.inl ⟨rfl, rfl⟩
  | none =>
    rw [hf] at h
    dsimp only at h
    right
    refine ⟨rfl, ?_⟩
    cases hu : update_depths fuel
        (bucket_push sc.m_blocksByHeight block.m_sidechainHeight block.m_sidechainId)
        (sc.m_blocksById ++ [block]) block.m_sidechainId with
    | none => rw [hu] at h; cases h
    | some s1 =>
      rw [hu] at h
      dsimp only at h
      have hm := update_depths_mutates cfg fuel _ _ s1 _ hu
      split at h
      · split at h
        · exact hm.trans (update_chain_tip_mutates cfg pool _ sc1 _ h)
        · cases h; exact hm
      · exact hm.trans (verify_loop_mutates cfg pool fuel _ sc1 _ h)

/-- The state `add_external_block` leaves is the one it was given or the one `add_block`
leaves. -/
theorem add_external_block_cases (cfg : Config) (pool : Pool) (fuel : Nat) (sc sc1 : SideChain)
    (block : PoolBlock) (missing missing1 : List hash) (result : Bool)
    (h : add_external_block cfg pool fuel sc block missing = some (sc1, result, missing1)) :
    sc1 = sc ∨ add_block cfg pool fuel sc block = some sc1 := by
  have hsame : ∀ (r : Bool) (m : List hash),
      some (sc, r, m) = some (sc1, result, missing1) → sc1 = sc := by
    intro r m e
    simp only [Option.some.injEq, Prod.mk.injEq] at e
    exact e.1.symm
  unfold add_external_block at h
  by_cases h1 : block.m_difficulty.lt cfg.m_minDifficulty = true
  · rw [if_pos h1] at h; exact Or.inl (hsame _ _ h)
  rw [if_neg h1] at h
  by_cases h2 : (find sc.m_blocksById block.m_sidechainId).isSome = true
  · rw [if_pos h2] at h; exact Or.inl (hsame _ _ h)
  rw [if_neg h2] at h
  cases hd : deref sc.m_blocksById sc.m_chainTip with
  | none => rw [hd] at h; cases h
  | some tip =>
    rw [hd] at h
    dsimp only at h
    cases hl : window_min_difficulty cfg sc tip with
    | none => rw [hl] at h; cases h
    | some least =>
      rw [hl] at h
      dsimp only at h
      by_cases h3 : block.m_difficulty.lt (halve least) = true
      · rw [if_pos h3] at h; exact Or.inl (hsame _ _ h)
      rw [if_neg h3] at h
      split at h
      · exact Or.inl (hsame _ _ h)
      cases hs : pool.get_seed block.m_txinGenHeight with
      | none => rw [hs] at h; exact Or.inl (hsame _ _ h)
      | some seed =>
        rw [hs] at h
        dsimp only at h
        cases hp : pool.get_pow_hash block seed with
        | none => rw [hp] at h; exact Or.inl (hsame _ _ h)
        | some pow_hash =>
          rw [hp] at h
          dsimp only at h
          split at h
          · exact Or.inl (hsame _ _ h)
          cases hadd : add_block cfg pool fuel sc block with
          | none => rw [hadd] at h; cases h
          | some sc2 =>
            rw [hadd] at h
            simp only [Option.some.injEq, Prod.mk.injEq] at h
            rw [h.1]
            exact Or.inr rfl

/-! ## Theorems: the flags of a verified block -/

theorem find_append_of_some (s : Store) (b x : PoolBlock) (id : hash)
    (h : find s id = some x) : find (s ++ [b]) id = some x := by
  unfold find at h ⊢
  rw [List.find?_append, h]
  rfl

/-- Across one call of `add_block`, a block that is stored before and after the call is
the same block, no less deep, and keeps its flags if it was verified. -/
theorem add_block_le (cfg : Config) (pool : Pool) (fuel : Nat) (sc sc1 : SideChain)
    (block : PoolBlock) (h : add_block cfg pool fuel sc block = some sc1)
    (id : hash) (x y : PoolBlock) (hx : find sc.m_blocksById id = some x)
    (hy : find sc1.m_blocksById id = some y) : block_le x y := by
  rcases add_block_mutates cfg pool fuel sc sc1 block h with ⟨rfl, _⟩ | ⟨_, hm⟩
  · rw [hx] at hy
    cases hy
    exact block_le_refl x
  · obtain ⟨x2, hx2, hle⟩ := mutates_le cfg hm id y hy
    rw [find_append_of_some _ _ _ _ hx] at hx2
    cases hx2
    exact hle

theorem step_le (cfg : Config) (pool : Pool) (sc sc1 : SideChain) (h : Step cfg pool sc sc1)
    (id : hash) (x y : PoolBlock) (hx : find sc.m_blocksById id = some x)
    (hy : find sc1.m_blocksById id = some y) : block_le x y := by
  rcases h with ⟨fuel, block, h⟩ | ⟨fuel, block, missing, result, missing1, h⟩
  · exact add_block_le cfg pool fuel sc sc1 block h id x y hx hy
  · rcases add_external_block_cases cfg pool fuel sc sc1 block missing missing1 result h with
      rfl | h2
    · rw [hx] at hy
      cases hy
      exact block_le_refl x
    · exact add_block_le cfg pool fuel sc sc1 block h2 id x y hx hy

/-- C20: across every sequence of `add_block` / `add_external_block` calls after each of
which the block stored under `id` is still stored, a block whose `m_verified` is true keeps
`m_verified = true` and keeps its `m_invalid`; it is the same block throughout. -/
theorem verified_flags_sticky (cfg : Config) (pool : Pool) (id : hash) (sc sc1 : SideChain)
    (hseq : Relation.ReflTransGen
      (fun a b => Step cfg pool a b ∧ (find b.m_blocksById id).isSome = true) sc sc1)
    (x : PoolBlock) (hx : find sc.m_blocksById id = some x) (hv : x.m_verified = true) :
    ∃ y, find sc1.m_blocksById id = some y ∧ y.m_verified = true ∧
      y.m_invalid = x.m_invalid ∧ y.immutable = x.immutable := by
  induction hseq with
  | refl => exact ⟨x, hx, hv, rfl, rfl⟩
  | @tail sc2 sc3 _ hstep ih =>
    obtain ⟨y, hy, hyv, hyi, hyim⟩ := ih
    cases hz : find sc3.m_blocksById id with
    | none => rw [hz] at hstep; simp at hstep
    | some z =>
      have hle := step_le cfg pool sc2 sc3 hstep.1 id y z hy hz
      exact ⟨z, rfl, (hle.2.2 hyv).1, (hle.2.2 hyv).2.trans hyi, hle.1.symm.trans hyim⟩

theorem verified_flags_sticky_witness :
    (Relation.ReflTransGen
        (fun a b => Step small_config idle_pool a b ∧ (find b.m_blocksById 1).isSome = true)
        (first_tip genesis_block { lo := 1000, hi := 0 }) leap_state ∧
      find (first_tip genesis_block { lo := 1000, hi := 0 }).m_blocksById 1 =
        some { genesis_block with m_wantBroadcast := true, m_broadcasted := true } ∧
      genesis_block.m_verified = true) ∧
    ∃ y, find leap_state.m_blocksById 1 = some y ∧ y.m_verified = true ∧
      y.m_invalid = genesis_block.m_invalid ∧ y.immutable = genesis_block.immutable :=
  have hseq : Relation.ReflTransGen
      (fun a b => Step small_config idle_pool a b ∧ (find b.m_blocksById 1).isSome = true)
      (first_tip genesis_block { lo := 1000, hi := 0 }) leap_state :=
    Relation.ReflTransGen.single ⟨Or.inl ⟨2, leap_block, by decide⟩, by decide⟩
  ⟨⟨hseq, by decide, by decide⟩,
    verified_flags_sticky small_config idle_pool 1
      (first_tip genesis_block { lo := 1000, hi := 0 }) leap_state hseq
      { genesis_block with m_wantBroadcast := true, m_broadcasted := true } (by decide)
      (by decide)⟩

/-! ## Theorems: what `verify` has checked of a block it marks valid -/

/-- The paths of `verify` that leave a block verified and valid: the genesis branch, the
rule for deep blocks, or the full run of the checks against a stored, verified, valid
parent, in which the uncle loop ends with the cumulative difficulty of the block. -/
theorem verify_marks_valid (cfg : Config) (s : Store) (block b1 : PoolBlock)
    (hver : verify cfg s block = some b1)
    (hv : b1.m_verified = true) (hi : b1.m_invalid = false) :
    block.m_sidechainHeight = 0 ∨
    (cfg.m_chainWindowSize * 2) % 2 ^ 64 ≤ block.m_depth ∨
    ∃ parent, find s block.m_parent = some parent ∧
      parent.m_verified = true ∧ parent.m_invalid = false ∧
      block.m_sidechainHeight = add64 parent.m_sidechainHeight 1 ∧
      uncles_ascending block.m_uncles = true ∧
      verify_uncles s block parent (mined_blocks s block parent) block.m_uncles
        (parent.m_cumulativeDifficulty.add block.m_difficulty) =
          some (.ok block.m_cumulativeDifficulty) := by
  by_cases hh : block.m_sidechainHeight = 0
  · exact Or.inl hh
  by_cases hd : (cfg.m_chainWindowSize * 2) % 2 ^ 64 ≤ block.m_depth
  · exact Or.inr (Or.inl hd)
  right; right
  unfold verify verify_writes at hver
  rw [if_neg hh, if_neg hd] at hver
  have hbad : ∀ w : FlagWrite, (w = write_invalid ∨ w = write_pending ∨
      w = { verified := none, invalid := some true }) → some (w.apply block) ≠ some b1 := by
    intro w hw e
    simp only [Option.some.injEq] at e
    rcases hw with rfl | rfl | rfl
    · rw [← e] at hi; simp [FlagWrite.apply, write_invalid] at hi
    · rw [← e] at hv; simp [FlagWrite.apply, write_pending] at hv
    · rw [← e] at hi; simp [FlagWrite.apply] at hi
  split at hver
  · exact absurd hver (hbad _ (Or.inl rfl))
  cases hp : find s block.m_parent with
  | none => rw [hp] at hver; exact absurd hver (hbad _ (Or.inr (Or.inl rfl)))
  | some parent =>
    rw [hp] at hver
    change Option.map _ (verify_with_parent cfg s block parent) = _ at hver
    unfold verify_with_parent at hver
    split at hver
    · exact absurd hver (hbad _ (Or.inr (Or.inl rfl)))
    rename_i hpv
    split at hver
    · exact absurd hver (hbad _ (Or.inl rfl))
    rename_i hpi
    split at hver
    · exact absurd hver (hbad _ (Or.inr (Or.inr rfl)))
    rename_i hheight
    split at hver
    · exact absurd hver (hbad _ (Or.inl rfl))
    rename_i hasc
    refine ⟨parent, rfl, by simpa using hpv, by simpa using hpi, not_not.mp hheight,
      by simpa using hasc, ?_⟩
    cases hu : verify_uncles s block parent (mined_blocks s block parent) block.m_uncles
        (parent.m_cumulativeDifficulty.add block.m_difficulty) with
    | none => rw [hu] at hver; cases hver
    | some verdict =>
      rw [hu] at hver
      cases verdict with
      | invalid => exact absurd hver (hbad _ (Or.inl rfl))
      | pending => exact absurd hver (hbad _ (Or.inr (Or.inl rfl)))
      | ok expected =>
        dsimp only at hver
        unfold verify_rewards at hver
        split at hver
        · exact absurd hver (hbad _ (Or.inl rfl))
        rename_i hcum
        rw [not_not.mp hcum]

/-- What an uncle that passes the body of the uncle loop of `verify` is: a non-empty hash,
not among the mined blocks, of a stored, verified, valid block below the block and at most
`UNCLE_BLOCK_DEPTH` below it, whose difficulty the loop adds. -/
theorem verify_uncle_ok (s : Store) (block parent : PoolBlock) (mined : List hash)
    (uncle_id : hash) (d : difficulty_type)
    (h : verify_uncle s block parent mined uncle_id = some (.ok d)) :
    uncle_id.empty = false ∧ uncle_id ∉ mined ∧
    ∃ uncle, find s uncle_id = some uncle ∧ uncle.m_verified = true ∧
      uncle.m_invalid = false ∧ uncle.m_sidechainHeight < block.m_sidechainHeight ∧
      block.m_sidechainHeight ≤ add64 uncle.m_sidechainHeight UNCLE_BLOCK_DEPTH ∧
      d = uncle.m_difficulty := by
  unfold verify_uncle at h
  split at h
  · cases h
  rename_i he
  split at h
  · cases h
  rename_i hm
  cases hf : find s uncle_id with
  | none => rw [hf] at h; cases h
  | some uncle =>
    rw [hf] at h
    dsimp only at h
    split at h
    · cases h
    rename_i huv
    split at h
    · cases h
    rename_i hui
    split at h
    · cases h
    rename_i hrange
    refine ⟨by simpa using he, hm, uncle, rfl, by simpa using huv, by simpa using hui, ?_, ?_, ?_⟩
    · omega
    · omega
    · split at h
      · cases h
      · cases h
      · split at h
        · cases h
        · split at h
          · cases h; rfl
          · cases h

theorem verify_uncles_ok (s : Store) (block parent : PoolBlock) (mined : List hash) :
    ∀ (uncles : List hash) (acc expected : difficulty_type),
      verify_uncles s block parent mined uncles acc = some (.ok expected) →
      uncle_sum (find s) uncles acc = some expected ∧
      ∀ u ∈ uncles, ∃ d, verify_uncle s block parent mined u = some (.ok d)
  | [], acc, expected, h => by
    simp only [verify_uncles, Option.some.injEq, UncleVerdict.ok.injEq] at h
    rw [h]
    exact ⟨rfl, fun u hu => by cases hu⟩
  | uncle_id :: rest, acc, expected, h => by
    rw [verify_uncles] at h
    cases hu : verify_uncle s block parent mined uncle_id with
    | none => rw [hu] at h; cases h
    | some verdict =>
      rw [hu] at h
      cases verdict with
      | invalid => cases h
      | pending => cases h
      | ok d =>
        dsimp only at h
        obtain ⟨_, _, uncle, hf, _, _, _, _, hd⟩ := verify_uncle_ok s block parent mined uncle_id d hu
        obtain ⟨h1, h2⟩ := verify_uncles_ok s block parent mined rest (acc.add d) expected h
        constructor
        · rw [uncle_sum, hf]
          dsimp only
          rw [← hd]; exact h1
        · intro u hmem
          rcases List.mem_cons.mp hmem with rfl | hmem
          · exact ⟨d, hu⟩
          · exact h2 u hmem

/-- A block of non-zero height that `verify` marks verified and valid while its depth is
below `m_chainWindowSize * 2` satisfies the cumulative difficulty identity with respect to
the store it was verified against. -/
theorem verify_cumulative_identity (cfg : Config) (s : Store) (block b1 : PoolBlock)
    (hver : verify cfg s block = some b1)
    (hv : b1.m_verified = true) (hi : b1.m_invalid = false)
    (hh : block.m_sidechainHeight ≠ 0)
    (hd : block.m_depth < (cfg.m_chainWindowSize * 2) % 2 ^ 64) :
    cumulative_identity (find s) block := by
  rcases verify_marks_valid cfg s block b1 hver hv hi with h | h | ⟨parent, hp, _, _, _, _, hu⟩
  · exact absurd h hh
  · omega
  · exact ⟨parent, hp, (verify_uncles_ok s block parent _ _ _ _ hu).1⟩

/-! ## Theorems: the cumulative difficulty identity in reachable states -/

theorem uncle_sum_congr (look1 look2 : hash → Option PoolBlock) :
    ∀ (uncles : List hash) (acc r : difficulty_type),
      (∀ id ∈ uncles, ∀ a, look1 id = some a →
        ∃ c, look2 id = some c ∧ c.immutable = a.immutable) →
      uncle_sum look1 uncles acc = some r → uncle_sum look2 uncles acc = some r
  | [], acc, r, _, h => h
  | u :: rest, acc, r, hl, h => by
    rw [uncle_sum] at h ⊢
    cases h1 : look1 u with
    | none => rw [h1] at h; cases h
    | some a =>
      rw [h1] at h
      obtain ⟨c, hc, him⟩ := hl u (List.mem_cons_self _ _) a h1
      rw [hc]
      dsimp only at h ⊢
      rw [(immutable_fields him).2.2.2.2.1]
      exact uncle_sum_congr look1 look2 rest _ r
        (fun id hid => hl id (List.mem_cons_of_mem _ hid)) h

theorem cumulative_identity_congr (look1 look2 : hash → Option PoolBlock) (b b2 : PoolBlock)
    (hb : b.immutable = b2.immutable)
    (hl : ∀ id, (id = b.m_parent ∨ id ∈ b.m_uncles) → ∀ a, look1 id = some a →
      ∃ c, look2 id = some c ∧ c.immutable = a.immutable)
    (h : cumulative_identity look1 b) : cumulative_identity look2 b2 := by
  obtain ⟨parent, hp, hs⟩ := h
  obtain ⟨c, hc, him⟩ := hl b.m_parent (Or.inl rfl) parent hp
  obtain ⟨_, hpar, hun, _, hdiff, hcum, _⟩ := immutable_fields hb
  refine ⟨c, by rw [← hpar]; exact hc, ?_⟩
  rw [← hun, ← hdiff, ← hcum, (immutable_fields him).2.2.2.2.2.1]
  exact uncle_sum_congr look1 look2 _ _ _ (fun id hid => hl id (Or.inr hid)) hs

theorem store_sound_map (cfg : Config) (content : hash → PoolBlock) (s : Store)
    (f : PoolBlock → PoolBlock)
    (hid : ∀ b, (f b).m_sidechainId = b.m_sidechainId)
    (hf : ∀ id b, find s id = some b → (f b).immutable = b.immutable ∧
      (f b).m_verified = b.m_verified ∧ (f b).m_invalid = b.m_invalid ∧
      b.m_depth ≤ (f b).m_depth)
    (hs : store_sound cfg content s) : store_sound cfg content (s.map f) := by
  intro id y hy
  rw [find_map_keep_id s f hid] at hy
  cases hx : find s id with
  | none => rw [hx] at hy; cases hy
  | some x =>
    rw [hx] at hy
    cases hy
    obtain ⟨him, hv, hi, hd⟩ := hf id x hx
    obtain ⟨h1, h2⟩ := hs id x hx
    refine ⟨him.trans h1, fun hyv hyi hyh hyd => ?_⟩
    have hheight : (f x).m_sidechainHeight = x.m_sidechainHeight :=
      (immutable_fields him).2.2.2.1
    have := h2 (hv ▸ hyv) (hi ▸ hyi) (hheight ▸ hyh) (Nat.lt_of_le_of_lt hd hyd)
    exact cumulative_identity_congr _ _ x (f x) him.symm
      (fun id _ a ha => ⟨a, ha, rfl⟩) this

theorem store_sound_step (cfg : Config) (content : hash → PoolBlock) {s s1 : Store}
    (h : StoreStep cfg s s1) (hs : store_sound cfg content s) :
    store_sound cfg content s1 := by
  cases h with
  | depth id d b hb hd =>
    refine store_sound_map cfg content s _ (fun b => by split <;> rfl) ?_ hs
    intro x c hc
    by_cases hcid : c.m_sidechainId = id
    · rw [if_pos hcid]
      have : x = id := by rw [← find_some_id hc]; exact hcid
      rw [this, hb] at hc
      cases hc
      exact ⟨rfl, rfl, rfl, hd⟩
    · rw [if_neg hcid]; exact ⟨rfl, rfl, rfl, Nat.le_refl _⟩
  | want id =>
    refine store_sound_map cfg content s _ (fun b => by split <;> rfl) ?_ hs
    intro x c _
    split <;> exact ⟨rfl, rfl, rfl, Nat.le_refl _⟩
  | broadcasted id =>
    refine store_sound_map cfg content s _ (fun b => by split <;> rfl) ?_ hs
    intro x c _
    split <;> exact ⟨rfl, rfl, rfl, Nat.le_refl _⟩
  | erase id =>
    intro x y hy
    rw [find_erase_block] at hy
    by_cases hx : x = id
    · rw [if_pos hx] at hy; cases hy
    · rw [if_neg hx] at hy; exact hs x y hy
  | verify id b b1 hb hv hver =>
    intro x y hy
    by_cases hx : x = id
    · subst hx
      rw [find_set_flags_self s x _ _ b hb] at hy
      cases hy
      obtain ⟨h1, _⟩ := hs x b hb
      refine ⟨h1, fun hyv hyi hyh hyd => ?_⟩
      have hident := verify_cumulative_identity cfg s b b1 hver hyv hyi hyh hyd
      refine cumulative_identity_congr (find s) _ b _ rfl ?_ hident
      intro id _ a ha
      exact ⟨content id, rfl, ((hs id a ha).1).symm⟩
    · rw [find_set_flags_ne s id _ _ x hx] at hy
      exact hs x y hy

theorem store_sound_mutates (cfg : Config) (content : hash → PoolBlock) {s s1 : Store}
    (h : Mutates cfg s s1) (hs : store_sound cfg content s) :
    store_sound cfg content s1 := by
  induction h with
  | refl => exact hs
  | tail _ hstep ih => exact store_sound_step cfg content hstep ih

theorem find_append_of_none (s : Store) (b : PoolBlock) (id : hash)
    (h : find s id = none) :
    find (s ++ [b]) id = if b.m_sidechainId = id then some b else none := by
  unfold find at h ⊢
  rw [List.find?_append, h]
  simp only [Option.none_or, List.find?_cons, List.find?_nil]
  by_cases hb : b.m_sidechainId = id
  · simp [hb]
  · simp [hb]

theorem store_sound_append (cfg : Config) (content : hash → PoolBlock) (s : Store)
    (b : PoolBlock) (hb : arrives content b) (hs : store_sound cfg content s) :
    store_sound cfg content (s ++ [b]) := by
  intro id y hy
  cases hf : find s id with
  | some x =>
    rw [find_append_of_some s b x id hf] at hy
    rw [← Option.some.inj hy]
    exact hs id x hf
  | none =>
    rw [find_append_of_none s b id hf] at hy
    split at hy
    · rename_i hid
      cases hy
      rw [← hid]
      exact ⟨hb.1, fun hv _ hh _ => hb.2 hv hh⟩
    · cases hy

theorem store_sound_add_block (cfg : Config) (pool : Pool) (content : hash → PoolBlock)
    (fuel : Nat) (sc sc1 : SideChain) (block : PoolBlock) (hb : arrives content block)
    (h : add_block cfg pool fuel sc block = some sc1)
    (hs : store_sound cfg content sc.m_blocksById) :
    store_sound cfg content sc1.m_blocksById := by
  rcases add_block_mutates cfg pool fuel sc sc1 block h with ⟨rfl, _⟩ | ⟨_, hm⟩
  · exact hs
  · exact store_sound_mutates cfg content hm (store_sound_append cfg content _ block hb hs)

theorem store_sound_reachable (cfg : Config) (pool : Pool) (content : hash → PoolBlock)
    (sc : SideChain)
    (h : Relation.ReflTransGen (SoundStep cfg pool content) (empty_sidechain cfg) sc) :
    store_sound cfg content sc.m_blocksById := by
  induction h with
  | refl => intro id b hb; simp [empty_sidechain, find] at hb
  | @tail sc2 sc3 _ hstep ih =>
    obtain ⟨fuel, block, harr, h | ⟨missing, result, missing1, h⟩⟩ := hstep
    · exact store_sound_add_block cfg pool content fuel sc2 sc3 block harr h ih
    · rcases add_external_block_cases cfg pool fuel sc2 sc3 block missing missing1 result h
        with rfl | h2
      · exact ih
      · exact store_sound_add_block cfg pool content fuel sc2 sc3 block harr h2 ih

/-- Four blocks that arrive unverified under `small_config` lead to `forged_state`: the
genesis block, `deep_child` (its parent is not stored yet), `deep_anchor` (it claims height
202 and lists `deep_child` as uncle, which raises the depth of `deep_child` to 200) and
`forged_block` (the parent of `deep_child`, hence of depth 201). -/
theorem forged_state_reachable : Reachable small_config idle_pool forged_state := by
  have h1 : Step small_config idle_pool (empty_sidechain small_config) forged_state_1 :=
    Or.inl ⟨3, new_genesis, by decide⟩
  have h2 : Step small_config idle_pool forged_state_1 forged_state_2 :=
    Or.inl ⟨3, deep_child, by decide⟩
  have h3 : Step small_config idle_pool forged_state_2 forged_state_3 :=
    Or.inl ⟨3, deep_anchor, by decide⟩
  have h4 : Step small_config idle_pool forged_state_3 forged_state :=
    Or.inl ⟨3, forged_block, by decide⟩
  exact (((Relation.ReflTransGen.single h1).tail h2).tail h3).tail h4

/-- C13 (counterexample): in `forged_state`, reached through four `add_block` calls of
blocks that arrive unverified, `forged_block` is stored verified and valid although its
cumulative difficulty 777000 is not the 2000 of the identity: its depth 201 had reached
`2·W = 120` when `verify` ran, so nothing was checked.  Its parent, the genesis block, is
stored, and it lists no uncle. -/
theorem cumulative_identity_counterexample :
    Reachable small_config idle_pool forged_state ∧
    find forged_state.m_blocksById 20 =
      some { forged_block with m_verified := true, m_depth := 201 } ∧
    (find forged_state.m_blocksById forged_block.m_parent).isSome = true ∧
    forged_block.m_uncles = [] ∧
    ¬ cumulative_identity (find forged_state.m_blocksById)
        { forged_block with m_verified := true, m_depth := 201 } :=
  ⟨forged_state_reachable, by decide, by decide, by decide, by decide⟩

/-- C13 (amended): in every state reached from the empty sidechain through `add_block` /
`add_external_block` calls in which an id always comes with the same contents and a block
handed over as verified (height 0 apart) satisfies the identity, every stored block that is
verified and valid, of non-zero height, less deep than `m_chainWindowSize * 2`, and whose
parent and uncles are stored, satisfies `cumulative_difficulty =
parent.cumulative_difficulty + difficulty + Σ uncle difficulty` (128-bit sums) with its
stored parent and uncles. -/
theorem cumulative_identity_reachable (cfg : Config) (pool : Pool)
    (content : hash → PoolBlock) (sc : SideChain)
    (hreach : Relation.ReflTransGen (SoundStep cfg pool content) (empty_sidechain cfg) sc)
    (id : hash) (b : PoolBlock) (hb : find sc.m_blocksById id = some b)
    (hv : b.m_verified = true) (hi : b.m_invalid = false)
    (hh : b.m_sidechainHeight ≠ 0)
    (hd : b.m_depth < (cfg.m_chainWindowSize * 2) % 2 ^ 64)
    (hp : (find sc.m_blocksById b.m_parent).isSome = true)
    (hu : ∀ u ∈ b.m_uncles, (find sc.m_blocksById u).isSome = true) :
    cumulative_identity (find sc.m_blocksById) b := by
  have hs := store_sound_reachable cfg pool content sc hreach
  have hident := (hs id b hb).2 hv hi hh hd
  refine cumulative_identity_congr _ (find sc.m_blocksById) b b rfl ?_ hident
  intro x hx a ha
  have hstored : (find sc.m_blocksById x).isSome = true := by
    rcases hx with rfl | hx
    · exact hp
    · exact hu x hx
  cases hf : find sc.m_blocksById x with
  | none => rw [hf] at hstored; cases hstored
  | some c =>
    simp only [Option.some.injEq] at ha
    rw [← ha]
    exact ⟨c, rfl, (hs x c hf).1⟩

theorem cumulative_identity_reachable_witness :
    (Relation.ReflTransGen (SoundStep default_config idle_pool paid_content)
        (empty_sidechain default_config) paid_state ∧
      find paid_state.m_blocksById 2 =
        some { paid_block with
          m_verified := true, m_wantBroadcast := true, m_broadcasted := true } ∧
      paid_block.m_sidechainHeight ≠ 0 ∧
      paid_block.m_depth < (default_config.m_chainWindowSize * 2) % 2 ^ 64 ∧
      (find paid_state.m_blocksById paid_block.m_parent).isSome = true ∧
      ∀ u ∈ paid_block.m_uncles, (find paid_state.m_blocksById u).isSome = true) ∧
    cumulative_identity (find paid_state.m_blocksById)
      { paid_block with m_verified := true, m_wantBroadcast := true, m_broadcasted := true } :=
  have h1 : SoundStep default_config idle_pool paid_content (empty_sidechain default_config)
      (first_tip { new_genesis with m_verified := true } { lo := 1000, hi := 0 }) :=
    ⟨1, new_genesis, by decide, Or.inl (by decide)⟩
  have h2 : SoundStep default_config idle_pool paid_content
      (first_tip { new_genesis with m_verified := true } { lo := 1000, hi := 0 })
      paid_state :=
    ⟨2, paid_block, by decide, Or.inl (by decide)⟩
  have hreach := (Relation.ReflTransGen.single h1).tail h2
  ⟨⟨hreach, by decide, by decide, by decide, by decide, by decide⟩,
    cumulative_identity_reachable default_config idle_pool paid_content paid_state hreach 2
      { paid_block with m_verified := true, m_wantBroadcast := true, m_broadcasted := true }
      (by decide) (by decide) (by decide) (by decide) (by decide) (by decide) (by decide)⟩

/-! ## Theorems: the uncle rules -/

theorem mined_blocks_walk_eq (s : Store) : ∀ (n : Nat) (o : Option PoolBlock),
    mined_blocks_walk s n o =
      (chain_window s n o).flatMap (fun a => a.m_sidechainId :: a.m_uncles)
  | 0, o => by cases o <;> simp [mined_blocks_walk, chain_window]
  | n + 1, none => by simp [mined_blocks_walk, chain_window]
  | n + 1, some tmp => by
    simp only [mined_blocks_walk, chain_window, List.flatMap_cons]
    rw [mined_blocks_walk_eq s n (get_parent s tmp)]

theorem add64_le (a b : Nat) : add64 a b ≤ a + b := Nat.mod_le _ _

/-- C14 (amended): a block of non-zero height that `verify` marks verified and valid while
its depth is below `m_chainWindowSize * 2` has, with respect to the store it is verified
against, a strictly ascending uncle list (so no hash is listed twice), every uncle stored
at a height in `[height - 3, height - 1]`, and no uncle that is one of its
`min(3, height + 1)` nearest stored ancestors or is listed among their uncles. -/
theorem verify_uncle_rules (cfg : Config) (s : Store) (block b1 : PoolBlock)
    (hver : verify cfg s block = some b1)
    (hv : b1.m_verified = true) (hi : b1.m_invalid = false)
    (hh : block.m_sidechainHeight ≠ 0)
    (hd : block.m_depth < (cfg.m_chainWindowSize * 2) % 2 ^ 64) :
    block.m_uncles.Sorted (fun a b => a < b) ∧ block.m_uncles.Nodup ∧
    ∀ u ∈ block.m_uncles, ∃ uncle, find s u = some uncle ∧
      uncle.m_sidechainHeight < block.m_sidechainHeight ∧
      block.m_sidechainHeight ≤ uncle.m_sidechainHeight + 3 ∧
      ∀ a ∈ chain_window s (min 3 (add64 block.m_sidechainHeight 1)) (get_parent s block),
        u ≠ a.m_sidechainId ∧ u ∉ a.m_uncles := by
  rcases verify_marks_valid cfg s block b1 hver hv hi with
    h | h | ⟨parent, hp, _, _, _, hasc, hu⟩
  · exact absurd h hh
  · omega
  · have hsorted : block.m_uncles.Sorted (fun a b => a < b) := by
      rw [uncles_ascending_iff, List.chain'_iff_pairwise] at hasc
      exact hasc
    refine ⟨hsorted, hsorted.nodup, fun u hmem => ?_⟩
    obtain ⟨d, hd⟩ := (verify_uncles_ok s block parent _ _ _ _ hu).2 u hmem
    obtain ⟨_, hmined, uncle, hf, _, _, hlow, hhigh, _⟩ :=
      verify_uncle_ok s block parent _ u d hd
    refine ⟨uncle, hf, hlow, Nat.le_trans hhigh (add64_le _ _), fun a ha => ?_⟩
    have hne : block.m_uncles.isEmpty = false := by
      cases hl : block.m_uncles with
      | nil => rw [hl] at hmem; cases hmem
      | cons _ _ => rfl
    unfold mined_blocks at hmined
    rw [hne] at hmined
    simp only [Bool.false_eq_true, if_false] at hmined
    rw [mined_blocks_walk_eq, List.mem_flatMap] at hmined
    have hgp : get_parent s block = some parent := hp
    rw [hgp] at ha
    have hnot : u ∉ a.m_sidechainId :: a.m_uncles :=
      fun hin => hmined ⟨a, ha, hin⟩
    rw [List.mem_cons, not_or] at hnot
    exact hnot

theorem verify_uncle_rules_witness :
    (verify default_config [genesis_block, block_1a, block_1b, paid_block_2] paid_block_2 =
        some { paid_block_2 with m_verified := true, m_invalid := false } ∧
      paid_block_2.m_sidechainHeight ≠ 0 ∧
      paid_block_2.m_depth < (default_config.m_chainWindowSize * 2) % 2 ^ 64) ∧
    (paid_block_2.m_uncles.Sorted (fun a b => a < b) ∧ paid_block_2.m_uncles.Nodup ∧
    ∀ u ∈ paid_block_2.m_uncles, ∃ uncle,
      find [genesis_block, block_1a, block_1b, paid_block_2] u = some uncle ∧
      uncle.m_sidechainHeight < paid_block_2.m_sidechainHeight ∧
      paid_block_2.m_sidechainHeight ≤ uncle.m_sidechainHeight + 3 ∧
      ∀ a ∈ chain_window [genesis_block, block_1a, block_1b, paid_block_2]
          (min 3 (add64 paid_block_2.m_sidechainHeight 1))
          (get_parent [genesis_block, block_1a, block_1b, paid_block_2] paid_block_2),
        u ≠ a.m_sidechainId ∧ u ∉ a.m_uncles) :=
  ⟨⟨by decide, by decide, by decide⟩,
    verify_uncle_rules default_config [genesis_block, block_1a, block_1b, paid_block_2]
      paid_block_2 { paid_block_2 with m_verified := true, m_invalid := false } (by decide)
      (by decide) (by decide) (by decide) (by decide)⟩

/-- C14 (counterexample): in `forged_state`, reached through four `add_block` calls of
blocks that arrive unverified, `deep_child` is stored verified and valid although it lists
the same uncle hash twice, and that uncle, the genesis block, is its grandparent: its depth
200 had reached `2·W = 120` when `verify` ran, so nothing was checked. -/
theorem uncle_rules_counterexample :
    Reachable small_config idle_pool forged_state ∧
    find forged_state.m_blocksById 21 =
      some { deep_child with m_verified := true, m_depth := 200 } ∧
    deep_child.m_uncles = [1, 1] ∧ ¬ deep_child.m_uncles.Nodup ∧
    (nth_parent forged_state.m_blocksById 2 deep_child).map PoolBlock.m_sidechainId =
      some 1 :=
  ⟨forged_state_reachable, by decide, by decide, by decide, by decide⟩

/-! ## Theorems: duplicates, rejections and missing dependencies -/

/-- C25: `add_block` of a block whose id is already in `m_blocksById` returns, whatever the
bound on the work-list loops, and leaves the whole state as it was. -/
theorem add_block_duplicate (cfg : Config) (pool : Pool) (fuel : Nat) (sc : SideChain)
    (block : PoolBlock)
    (h : (find sc.m_blocksById block.m_sidechainId).isSome = true) :
    add_block cfg pool fuel sc block = some sc := by
  unfold add_block
  cases hf : find sc.m_blocksById block.m_sidechainId with
  | none => rw [hf] at h; cases h
  | some b => rfl

theorem add_block_duplicate_witness :
    (find (first_tip genesis_block { lo := 1000, hi := 0 }).m_blocksById
        new_genesis.m_sidechainId).isSome = true ∧
    add_block default_config idle_pool 0 (first_tip genesis_block { lo := 1000, hi := 0 })
      new_genesis = some (first_tip genesis_block { lo := 1000, hi := 0 }) :=
  ⟨by decide,
    add_block_duplicate default_config idle_pool 0
      (first_tip genesis_block { lo := 1000, hi := 0 }) new_genesis (by decide)⟩

/-- The two ways `add_external_block` returns: with the state and `missing_blocks` as they
were, or through `add_block` after every filter was passed, with the result true and the
missing dependencies computed against the store before the insertion. -/
theorem add_external_block_outcome (cfg : Config) (pool : Pool) (fuel : Nat)
    (sc sc1 : SideChain) (block : PoolBlock) (missing missing1 : List hash) (result : Bool)
    (h : add_external_block cfg pool fuel sc block missing = some (sc1, result, missing1)) :
    (sc1 = sc ∧ missing1 = missing) ∨
    (block.m_difficulty.lt cfg.m_minDifficulty = false ∧
      find sc.m_blocksById block.m_sidechainId = none ∧
      (∃ tip least, deref sc.m_blocksById sc.m_chainTip = some tip ∧
        window_min_difficulty cfg sc tip = some least ∧
        block.m_difficulty.lt (halve least) = false) ∧
      (∀ height, pool.chainmain_get_by_hash block.m_prevId = some height →
        add64 height 1 = block.m_txinGenHeight) ∧
      (∃ seed pow_hash, pool.get_seed block.m_txinGenHeight = some seed ∧
        pool.get_pow_hash block seed = some pow_hash ∧
        check_pow block.m_difficulty pow_hash = true) ∧
      add_block cfg pool fuel sc block = some sc1 ∧ result = true ∧
      missing1 = missing_of sc.m_blocksById block) := by
  have hsame : ∀ (r : Bool),
      some (sc, r, missing) = some (sc1, result, missing1) → sc1 = sc ∧ missing1 = missing := by
    intro r e
    simp only [Option.some.injEq, Prod.mk.injEq] at e
    exact ⟨e.1.symm, e.2.2.symm⟩
  unfold add_external_block at h
  by_cases h1 : block.m_difficulty.lt cfg.m_minDifficulty = true
  · rw [if_pos h1] at h; exact Or.inl (hsame _ h)
  rw [if_neg h1] at h
  by_cases h2 : (find sc.m_blocksById block.m_sidechainId).isSome = true
  · rw [if_pos h2] at h; exact Or.inl (hsame _ h)
  rw [if_neg h2] at h
  cases hd : deref sc.m_blocksById sc.m_chainTip with
  | none => rw [hd] at h; cases h
  | some tip =>
    rw [hd] at h
    dsimp only at h
    cases hl : window_min_difficulty cfg sc tip with
    | none => rw [hl] at h; cases h
    | some least =>
      rw [hl] at h
      dsimp only at h
      by_cases h3 : block.m_difficulty.lt (halve least) = true
      · rw [if_pos h3] at h; exact Or.inl (hsame _ h)
      rw [if_neg h3] at h
      split at h
      · exact Or.inl (hsame _ h)
      rename_i h4
      cases hs : pool.get_seed block.m_txinGenHeight with
      | none => rw [hs] at h; exact Or.inl (hsame _ h)
      | some seed =>
        rw [hs] at h
        dsimp only at h
        cases hp : pool.get_pow_hash block seed with
        | none => rw [hp] at h; exact Or.inl (hsame _ h)
        | some pow_hash =>
          rw [hp] at h
          dsimp only at h
          split at h
          · exact Or.inl (hsame _ h)
          rename_i h5
          cases hadd : add_block cfg pool fuel sc block with
          | none => rw [hadd] at h; cases h
          | some sc2 =>
            rw [hadd] at h
            simp only [Option.some.injEq, Prod.mk.injEq] at h
            right
            refine ⟨by simpa using h1, by simpa using h2, ⟨tip, least, rfl, hl, by simpa using h3⟩,
              ?_, ⟨seed, pow_hash, rfl, hp, by simpa using h5⟩, by rw [h.1], h.2.1.symm,
              h.2.2.symm⟩
            intro height hh
            rw [hh] at h4
            simpa using h4

theorem spec_missing_eq (s : Store) (block : PoolBlock) :
    missing_of s block = spec_missing s block := by
  unfold missing_of spec_missing hash.empty
  rw [List.filter_cons]
  have hp : ∀ h : hash, (!(h == 0) && (find s h).isNone) =
      decide (h ≠ 0 ∧ find s h = none) := by
    intro h
    cases hf : find s h <;> by_cases h0 : h = 0 <;> simp [h0]
  rw [hp]
  have hfun : (fun h : hash => !(h == 0) && (find s h).isNone) =
      (fun h : hash => decide (h ≠ 0 ∧ find s h = none)) := funext hp
  rw [hfun]
  split <;> rfl

/-- C27: when `add_external_block` returns having inserted a block that was not stored, its
result is true and the missing dependencies it hands back are the referenced ids, parent
first and then the uncles in list order, that are non-empty and were absent from
`m_blocksById` before the insertion. -/
theorem add_external_block_missing (cfg : Config) (pool : Pool) (fuel : Nat)
    (sc sc1 : SideChain) (block : PoolBlock) (missing missing1 : List hash) (result : Bool)
    (h : add_external_block cfg pool fuel sc block missing = some (sc1, result, missing1))
    (hnew : find sc.m_blocksById block.m_sidechainId = none)
    (hins : (find sc1.m_blocksById block.m_sidechainId).isSome = true) :
    result = true ∧
    missing1 = (block.m_parent :: block.m_uncles).filter
      (fun h => decide (h ≠ 0 ∧ find sc.m_blocksById h = none)) := by
  rcases add_external_block_outcome cfg pool fuel sc sc1 block missing missing1 result h with
    h1 | h1
  · rw [h1.1, hnew] at hins; cases hins
  · refine ⟨h1.2.2.2.2.2.2.1, ?_⟩
    rw [h1.2.2.2.2.2.2.2, spec_missing_eq]
    rfl

/-- C26: when the block's difficulty is below the configured minimum, or the walk over the
window returns and the difficulty is below half of the least difficulty it met, or the
base-chain block named by the block resolves to a height whose successor is not
`m_txinGenHeight`, or the proof-of-work hash fails `check_pow`, then
`add_external_block` returns with the whole state and the list of missing blocks as they
were. -/
theorem add_external_block_rejects (cfg : Config) (pool : Pool) (fuel : Nat)
    (sc : SideChain) (block : PoolBlock) (missing : List hash)
    (hcond : block.m_difficulty.lt cfg.m_minDifficulty = true ∨
      ∃ tip least, deref sc.m_blocksById sc.m_chainTip = some tip ∧
        window_min_difficulty cfg sc tip = some least ∧
        (block.m_difficulty.lt (halve least) = true ∨
         (∃ height, pool.chainmain_get_by_hash block.m_prevId = some height ∧
            add64 height 1 ≠ block.m_txinGenHeight) ∨
         (∃ seed pow_hash, pool.get_seed block.m_txinGenHeight = some seed ∧
            pool.get_pow_hash block seed = some pow_hash ∧
            check_pow block.m_difficulty pow_hash = false))) :
    ∃ result, add_external_block cfg pool fuel sc block missing = some (sc, result, missing) := by
  unfold add_external_block
  by_cases h1 : block.m_difficulty.lt cfg.m_minDifficulty = true
  · rw [if_pos h1]; exact ⟨_, rfl⟩
  rw [if_neg h1]
  by_cases h2 : (find sc.m_blocksById block.m_sidechainId).isSome = true
  · rw [if_pos h2]; exact ⟨_, rfl⟩
  rw [if_neg h2]
  rcases hcond with hc | ⟨tip, least, hd, hl, hc⟩
  · exact absurd hc h1
  rw [hd]
  dsimp only
  rw [hl]
  dsimp only
  by_cases h3 : block.m_difficulty.lt (halve least) = true
  · rw [if_pos h3]; exact ⟨_, rfl⟩
  rw [if_neg h3]
  split
  · exact ⟨_, rfl⟩
  rename_i h4
  rcases hc with hc | ⟨height, hh, hne⟩ | ⟨seed, pow_hash, hs, hp, hc⟩
  · exact absurd hc h3
  · rw [hh] at h4
    exact absurd (by simpa using hne) h4
  · rw [hs]
    dsimp only
    rw [hp]
    dsimp only
    rw [hc]
    exact ⟨_, rfl⟩

theorem add_external_block_missing_witness :
    add_external_block default_config easy_pool 5
      (first_tip genesis_block { lo := 1000, hi := 0 }) orphan_block [] =
      some (orphan_state, true, [77, 88]) ∧
    (true = true ∧
      [77, 88] = (orphan_block.m_parent :: orphan_block.m_uncles).filter
        (fun h => decide (h ≠ 0 ∧
          find (first_tip genesis_block { lo := 1000, hi := 0 }).m_blocksById h = none))) :=
  ⟨by decide,
    add_external_block_missing default_config easy_pool 5
      (first_tip genesis_block { lo := 1000, hi := 0 }) orphan_state orphan_block [] [77, 88]
      true (by decide) (by decide) (by decide)⟩

theorem add_external_block_rejects_witness :
    check_pow orphan_block.m_difficulty (2 ^ 255) = false ∧
    ∃ result, add_external_block default_config hard_pool 5
      (first_tip genesis_block { lo := 1000, hi := 0 }) orphan_block [] =
      some (first_tip genesis_block { lo := 1000, hi := 0 }, result, []) :=
  ⟨by decide,
    add_external_block_rejects default_config hard_pool 5
      (first_tip genesis_block { lo := 1000, hi := 0 }) orphan_block []
      (Or.inr ⟨some { genesis_block with m_wantBroadcast := true, m_broadcasted := true },
        { lo := 1000, hi := 0 }, by decide, by decide,
        Or.inr (Or.inr ⟨1, 2 ^ 255, rfl, rfl, by decide⟩)⟩)⟩

/-! ## Theorems: `check_config` -/

/-- C28: `check_config` accepts exactly when the pool name has 1 to 128 characters, the
password at most 128, the block time is in 1..120, the minimum difficulty, as a 128-bit
number, in 1000..1000000000, the window size in 60..2160 and the uncle penalty in 1..99;
and it accepts the constructor defaults. -/
theorem check_config_iff :
    (∀ (m_poolName m_poolPassword : List Nat) (cfg : Config),
      check_config m_poolName m_poolPassword cfg = true ↔
        (1 ≤ m_poolName.length ∧ m_poolName.length ≤ 128) ∧
        m_poolPassword.length ≤ 128 ∧
        (1 ≤ cfg.m_targetBlockTime ∧ cfg.m_targetBlockTime ≤ 120) ∧
        (1000 ≤ cfg.m_minDifficulty.toNat ∧ cfg.m_minDifficulty.toNat ≤ 1000000000) ∧
        (60 ≤ cfg.m_chainWindowSize ∧ cfg.m_chainWindowSize ≤ 2160) ∧
        (1 ≤ cfg.m_unclePenalty ∧ cfg.m_unclePenalty ≤ 99)) ∧
    check_config default_pool_name default_pool_password default_config = true := by
  refine ⟨?_, by decide⟩
  intro name password cfg
  have hname : name.isEmpty = true ↔ name.length = 0 := by
    cases name <;> simp
  have hpow : (2 : Nat) ^ 64 = 18446744073709551616 := by norm_num
  unfold check_config difficulty_type.lt difficulty_type.toNat MIN_DIFFICULTY
  simp only [hpow]
  constructor
  · intro h
    split_ifs at h with h1 h2 h3 h4 h5 h6 h7
    simp only [Bool.or_eq_true, Bool.and_eq_true, decide_eq_true_eq, not_or, not_and, not_lt,
      gt_iff_lt, hname] at h1 h2 h3 h4 h5 h6 h7
    refine ⟨⟨by omega, by omega⟩, by omega, ⟨by omega, by omega⟩, ?_, ⟨by omega, by omega⟩,
      ⟨by omega, by omega⟩⟩
    have hhi : cfg.m_minDifficulty.hi = 0 := by omega
    have h5a := h5.1.2 hhi
    have h5b := h5.2.2 hhi.symm
    omega
  · rintro ⟨⟨a1, a2⟩, a3, ⟨a4, a5⟩, ⟨a6, a7⟩, ⟨a8, a9⟩, a10, a11⟩
    have hhi : cfg.m_minDifficulty.hi = 0 := by omega
    rw [if_neg (by rw [hname]; omega), if_neg (by omega), if_neg (by omega),
      if_neg (by simp; omega), if_neg (by simp [hhi]; omega),
      if_neg (by simp; omega), if_neg (by simp; omega)]

/-! ## Theorems: what `verify` has checked, in full -/

theorem walk_to_height_some (s : Store) (height : Nat) :
    ∀ (fuel : Nat) (B tmp : PoolBlock),
      walk_to_height s height fuel B = some (some tmp) →
      ∃ k, nth_parent s k B = some tmp ∧ tmp.m_sidechainHeight ≤ height
  | 0, B, tmp, h => by
    unfold walk_to_height at h
    split at h
    · cases h
    · rename_i hle
      simp only [Option.some.injEq] at h
      subst h
      exact ⟨0, rfl, Nat.le_of_not_lt hle⟩
  | fuel + 1, B, tmp, h => by
    unfold walk_to_height at h
    split at h
    · dsimp only at h
      cases hp : get_parent s B with
      | none => rw [hp] at h; cases h
      | some p =>
        rw [hp] at h
        obtain ⟨k, hk, hle⟩ := walk_to_height_some s height fuel p tmp h
        refine ⟨k + 1, ?_, hle⟩
        rw [nth_parent, hp]
        exact hk
    · rename_i hle
      simp only [Option.some.injEq] at h
      subst h
      exact ⟨0, rfl, Nat.le_of_not_lt hle⟩

theorem same_chain_some (s : Store) (block_height : Nat) :
    ∀ (n : Nat) (tmp tmp2 : PoolBlock),
      same_chain s block_height n (some tmp) (some tmp2) = true →
      ∃ j, j < n ∧ ∃ a b, nth_parent s j tmp = some a ∧ nth_parent s j tmp2 = some b ∧
        a.m_parent = b.m_parent
  | 0, tmp, tmp2, h => by simp [same_chain] at h
  | n + 1, tmp, tmp2, h => by
    rw [same_chain] at h
    split at h
    · split at h
      · rename_i heq
        exact ⟨0, Nat.succ_pos n, tmp, tmp2, rfl, rfl, heq⟩
      · cases hp : get_parent s tmp with
        | none => rw [hp] at h; simp [same_chain] at h
        | some p =>
          cases hp2 : get_parent s tmp2 with
          | none => rw [hp, hp2] at h; simp [same_chain] at h
          | some p2 =>
            rw [hp, hp2] at h
            obtain ⟨j, hj, a, b, ha, hb, hab⟩ := same_chain_some s block_height n p p2 h
            refine ⟨j + 1, Nat.succ_lt_succ hj, a, b, ?_, ?_, hab⟩
            · rw [nth_parent, hp]; exact ha
            · rw [nth_parent, hp2]; exact hb
    · cases h

/-- An uncle that passes the body of the uncle loop of `verify` passes the common-ancestor
test against the parent. -/
theorem verify_uncle_same_chain (s : Store) (block parent : PoolBlock) (mined : List hash)
    (uncle_id : hash) (d : difficulty_type) (uncle : PoolBlock)
    (hf : find s uncle_id = some uncle)
    (h : verify_uncle s block parent mined uncle_id = some (.ok d)) :
    common_ancestor_test s parent uncle := by
  unfold verify_uncle at h
  split at h
  · cases h
  split at h
  · cases h
  rw [hf] at h
  dsimp only at h
  split at h
  · cases h
  split at h
  · cases h
  split at h
  · cases h
  cases hw : walk_to_height s uncle.m_sidechainHeight s.length parent with
  | none => rw [hw] at h; cases h
  | some o =>
    rw [hw] at h
    cases o with
    | none => cases h
    | some tmp =>
      dsimp only at h
      split at h
      · cases h
      rename_i hge
      split at h
      · rename_i hsame
        obtain ⟨k, hk, hle⟩ := walk_to_height_some s _ _ _ _ hw
        obtain ⟨j, hj, a, b, ha, hb, hab⟩ := same_chain_some s _ _ _ _ hsame
        exact ⟨k, tmp, hk, by omega, j, hj, a, b, ha, hb, hab⟩
      · cases h

/-- C29: if `verify` runs on a block of height above 0 and depth below `2·W` and leaves it
verified and not invalid, then its parent is stored, verified and valid, one height below
it; its uncle hashes are non-empty and strictly ascending; every uncle is stored, verified
and valid, at a height in `[height − 3, height − 1]`, is none of the blocks of the parent's
chain nor listed among their uncles, and passes the common-ancestor test with the parent;
and the cumulative difficulty is the 128-bit sum of the parent's cumulative difficulty,
the block's difficulty and the uncles' difficulties.  The parent's chain is followed for
`min(3, height + 1)` blocks: for 3 blocks from height 2 on, and at height 1 for the parent
and its parent, where a parent that has no stored parent is the whole chain.  Heights in
the store are 64-bit values and `W` is below `2^63`, as `check_config` ensures. -/
theorem verify_postcondition (cfg : Config) (s : Store) (block b1 : PoolBlock)
    (hver : verify cfg s block = some b1)
    (hv : b1.m_verified = true) (hi : b1.m_invalid = false)
    (hh : 0 < block.m_sidechainHeight)
    (hd : block.m_depth < 2 * cfg.m_chainWindowSize)
    (hw : cfg.m_chainWindowSize < 2 ^ 63)
    (h64 : ∀ b ∈ s, b.m_sidechainHeight < 2 ^ 64) :
    ∃ parent, find s block.m_parent = some parent ∧
      parent.m_verified = true ∧ parent.m_invalid = false ∧
      block.m_sidechainHeight = parent.m_sidechainHeight + 1 ∧
      (∀ u ∈ block.m_uncles, u ≠ 0) ∧
      block.m_uncles.Sorted (fun a b => a < b) ∧
      (∀ u ∈ block.m_uncles, ∃ uncle, find s u = some uncle ∧
        uncle.m_verified = true ∧ uncle.m_invalid = false ∧
        block.m_sidechainHeight - 3 ≤ uncle.m_sidechainHeight ∧
        uncle.m_sidechainHeight < block.m_sidechainHeight ∧
        (∀ a ∈ chain_window s (min 3 (add64 block.m_sidechainHeight 1)) (some parent),
          u ≠ a.m_sidechainId ∧ u ∉ a.m_uncles) ∧
        (block.m_sidechainHeight < 2 ^ 64 - 1 →
          2 ≤ block.m_sidechainHeight ∨ get_parent s parent = none →
          ∀ a ∈ chain_window s 3 (some parent), u ≠ a.m_sidechainId ∧ u ∉ a.m_uncles) ∧
        common_ancestor_test s parent uncle) ∧
      uncle_sum (find s) block.m_uncles
        (parent.m_cumulativeDifficulty.add block.m_difficulty) =
          some block.m_cumulativeDifficulty := by
  have hpow : (2 : Nat) ^ 64 = 2 * 2 ^ 63 := by norm_num
  rcases verify_marks_valid cfg s block b1 hver hv hi with
    h | h | ⟨parent, hp, hpv, hpi, hheight, hasc, hu⟩
  · omega
  · rw [Nat.mod_eq_of_lt (by omega)] at h; omega
  · have hsorted : block.m_uncles.Sorted (fun a b => a < b) := by
      rw [uncles_ascending_iff, List.chain'_iff_pairwise] at hasc
      exact hasc
    have hp64 : parent.m_sidechainHeight < 2 ^ 64 := h64 parent (find_some_mem hp)
    have hexact : block.m_sidechainHeight = parent.m_sidechainHeight + 1 := by
      unfold add64 at hheight
      by_cases hlt : parent.m_sidechainHeight + 1 < 2 ^ 64
      · rw [Nat.mod_eq_of_lt hlt] at hheight; exact hheight
      · have : parent.m_sidechainHeight + 1 = 2 ^ 64 := by omega
        rw [this, Nat.mod_self] at hheight
        omega
    obtain ⟨hsum, hall⟩ := verify_uncles_ok s block parent _ _ _ _ hu
    have hwindow : ∀ u ∈ block.m_uncles,
        u ∉ mined_blocks s block parent →
        ∀ a ∈ chain_window s (min 3 (add64 block.m_sidechainHeight 1)) (some parent),
          u ≠ a.m_sidechainId ∧ u ∉ a.m_uncles := by
      intro u hmem hmined a ha
      have hne : block.m_uncles.isEmpty = false := by
        cases hl : block.m_uncles with
        | nil => rw [hl] at hmem; cases hmem
        | cons _ _ => rfl
      unfold mined_blocks at hmined
      rw [hne] at hmined
      simp only [Bool.false_eq_true, if_false] at hmined
      rw [mined_blocks_walk_eq, List.mem_flatMap] at hmined
      have hnot : u ∉ a.m_sidechainId :: a.m_uncles :=
        fun hin => hmined ⟨a, ha, hin⟩
      rw [List.mem_cons, not_or] at hnot
      exact hnot
    refine ⟨parent, hp, hpv, hpi, hexact, ?_, hsorted, ?_, hsum⟩
    · intro u hmem
      obtain ⟨d, hd1⟩ := hall u hmem
      have hne := (verify_uncle_ok s block parent _ u d hd1).1
      unfold hash.empty at hne
      simpa using hne
    · intro u hmem
      obtain ⟨d, hd1⟩ := hall u hmem
      obtain ⟨_, hmined, uncle, hf, huv, hui, hlow, hhigh, _⟩ :=
        verify_uncle_ok s block parent _ u d hd1
      have hhigh1 := Nat.le_trans hhigh (add64_le _ _)
      refine ⟨uncle, hf, huv, hui, by unfold UNCLE_BLOCK_DEPTH at hhigh1; omega, hlow,
        hwindow u hmem hmined, ?_, verify_uncle_same_chain s block parent _ u d uncle hf hd1⟩
      intro hlt hcase a ha
      have hadd : add64 block.m_sidechainHeight 1 = block.m_sidechainHeight + 1 := by
        unfold add64; exact Nat.mod_eq_of_lt (by omega)
      have hwin := hwindow u hmem hmined a
      rw [hadd] at hwin
      rcases hcase with h2 | hnone
      · rw [Nat.min_eq_left (by omega)] at hwin
        exact hwin ha
      · apply hwin
        have h1 : chain_window s 3 (some parent) = [parent] := by
          simp [chain_window, hnone]
        rw [h1] at ha
        have hmin : min 3 (block.m_sidechainHeight + 1) = (min 3 (block.m_sidechainHeight + 1) - 1) + 1 := by
          omega
        rw [hmin, chain_window, hnone, chain_window_none]
        exact ha

theorem verify_postcondition_witness :
    (verify default_config [genesis_block, block_1a, block_1b, paid_block_2] paid_block_2 =
        some { paid_block_2 with m_verified := true, m_invalid := false } ∧
      0 < paid_block_2.m_sidechainHeight ∧
      paid_block_2.m_depth < 2 * default_config.m_chainWindowSize) ∧
    ∃ parent, find [genesis_block, block_1a, block_1b, paid_block_2] paid_block_2.m_parent =
        some parent ∧
      parent.m_verified = true ∧ parent.m_invalid = false ∧
      paid_block_2.m_sidechainHeight = parent.m_sidechainHeight + 1 ∧
      (∀ u ∈ paid_block_2.m_uncles, u ≠ 0) ∧
      paid_block_2.m_uncles.Sorted (fun a b => a < b) ∧
      (∀ u ∈ paid_block_2.m_uncles, ∃ uncle,
        find [genesis_block, block_1a, block_1b, paid_block_2] u = some uncle ∧
        uncle.m_verified = true ∧ uncle.m_invalid = false ∧
        paid_block_2.m_sidechainHeight - 3 ≤ uncle.m_sidechainHeight ∧
        uncle.m_sidechainHeight < paid_block_2.m_sidechainHeight ∧
        (∀ a ∈ chain_window [genesis_block, block_1a, block_1b, paid_block_2]
            (min 3 (add64 paid_block_2.m_sidechainHeight 1)) (some parent),
          u ≠ a.m_sidechainId ∧ u ∉ a.m_uncles) ∧
        (paid_block_2.m_sidechainHeight < 2 ^ 64 - 1 →
          2 ≤ paid_block_2.m_sidechainHeight ∨
            get_parent [genesis_block, block_1a, block_1b, paid_block_2] parent = none →
          ∀ a ∈ chain_window [genesis_block, block_1a, block_1b, paid_block_2] 3 (some parent),
            u ≠ a.m_sidechainId ∧ u ∉ a.m_uncles) ∧
        common_ancestor_test [genesis_block, block_1a, block_1b, paid_block_2] parent uncle) ∧
      uncle_sum (find [genesis_block, block_1a, block_1b, paid_block_2]) paid_block_2.m_uncles
        (parent.m_cumulativeDifficulty.add paid_block_2.m_difficulty) =
          some paid_block_2.m_cumulativeDifficulty :=
  ⟨⟨by decide, by decide, by decide⟩,
    verify_postcondition default_config [genesis_block, block_1a, block_1b, paid_block_2]
      paid_block_2 { paid_block_2 with m_verified := true, m_invalid := false } (by decide)
      (by decide) (by decide) (by decide) (by decide) (by decide) (by decide)⟩

/-! ## Theorems: `verify` when `get_shares` fails -/

/-- The body of the uncle loop of `verify` leaves the block pending only for an uncle that
is not stored or not verified. -/
theorem verify_uncle_pending_cause (s : Store) (block parent : PoolBlock) (mined : List hash)
    (uncle_id : hash)
    (h : verify_uncle s block parent mined uncle_id = some .pending) :
    find s uncle_id = none ∨ ∃ b, find s uncle_id = some b ∧ b.m_verified = false := by
  unfold verify_uncle at h
  split at h
  · cases h
  split at h
  · cases h
  cases hf : find s uncle_id with
  | none => exact Or.inl rfl
  | some uncle =>
    rw [hf] at h
    dsimp only at h
    split at h
    · rename_i hv
      exact Or.inr ⟨uncle, rfl, by simpa using hv⟩
    split at h
    · cases h
    split at h
    · cases h
    cases hw : walk_to_height s uncle.m_sidechainHeight s.length parent with
    | none => rw [hw] at h; cases h
    | some o =>
      rw [hw] at h
      cases o with
      | none => cases h
      | some tmp =>
        dsimp only at h
        split at h
        · cases h
        split at h <;> cases h

theorem verify_uncles_pending_cause (s : Store) (block parent : PoolBlock) (mined : List hash) :
    ∀ (uncles : List hash) (acc : difficulty_type),
      verify_uncles s block parent mined uncles acc = some .pending →
      ∃ u ∈ uncles, find s u = none ∨ ∃ b, find s u = some b ∧ b.m_verified = false
  | [], acc, h => by simp [verify_uncles] at h
  | uncle_id :: rest, acc, h => by
    rw [verify_uncles] at h
    cases hu : verify_uncle s block parent mined uncle_id with
    | none => rw [hu] at h; cases h
    | some verdict =>
      rw [hu] at h
      cases verdict with
      | invalid => cases h
      | pending =>
        exact ⟨uncle_id, List.mem_cons_self _ _, verify_uncle_pending_cause s block parent mined _ hu⟩
      | ok d =>
        dsimp only at h
        obtain ⟨u, hmem, hcase⟩ := verify_uncles_pending_cause s block parent mined rest _ h
        exact ⟨u, List.mem_cons_of_mem _ hmem, hcase⟩

/-- C30 (counterexample): with the genesis block missing from the store, `get_shares` fails
for `block_2`, whose parent and uncle are stored, verified and valid and whose depth 0 is
inside the window; `verify` leaves `block_2` verified and invalid. -/
theorem verify_missing_ancestor_counterexample :
    find [block_1a, block_1b, block_2] block_1a.m_parent = none ∧
    get_shares default_config [block_1a, block_1b, block_2] block_2 = none ∧
    block_2.m_depth < default_config.m_chainWindowSize ∧
    verify default_config [block_1a, block_1b, block_2] block_2 =
      some { block_2 with m_verified := true, m_invalid := true } :=
  ⟨by decide, by decide, by decide, by decide⟩

/-! ## Theorems: `get_outputs_blob` -/

theorem outputs_loop_eq (cfg : Config) (writeVarint : Nat → List Nat)
    (hash_bytes : hash → List Nat) (txkeySec : hash) :
    ∀ (rewards : List Nat) (shares : List MinerShare) (i : Nat) (blob : List Nat)
      (outputs : List TxOutput),
      outputs_loop cfg writeVarint hash_bytes txkeySec i rewards shares blob outputs =
        (blob ++ (spec_outputs cfg txkeySec i rewards shares).flatMap
            (fun o => writeVarint o.m_reward ++ [2] ++ hash_bytes o.m_ephPublicKey),
          outputs ++ spec_outputs cfg txkeySec i rewards shares)
  | [], shares, i, blob, outputs => by
    simp [outputs_loop, spec_outputs]
  | r :: rewards, [], i, blob, outputs => by
    simp [outputs_loop, spec_outputs]
  | r :: rewards, sh :: shares, i, blob, outputs => by
    rw [outputs_loop]
    rw [outputs_loop_eq cfg writeVarint hash_bytes txkeySec rewards shares]
    simp [spec_outputs, TXOUT_TO_KEY, List.append_assoc]

theorem spec_outputs_rewards (cfg : Config) (txkeySec : hash) :
    ∀ (rewards : List Nat) (shares : List MinerShare) (i : Nat),
      rewards.length = shares.length →
      (spec_outputs cfg txkeySec i rewards shares).map TxOutput.m_reward = rewards ∧
      (spec_outputs cfg txkeySec i rewards shares).map TxOutput.m_ephPublicKey =
        (shares.enumFrom i).map (fun p => cfg.get_eph_public_key p.2.m_wallet txkeySec p.1)
  | [], [], i, _ => by simp [spec_outputs]
  | [], sh :: shares, i, h => by simp at h
  | r :: rewards, [], i, h => by simp at h
  | r :: rewards, sh :: shares, i, h => by
    have ih := spec_outputs_rewards cfg txkeySec rewards shares (i + 1)
      (by simpa using h)
    simp only [spec_outputs, List.map_cons, List.enumFrom_cons, ih.1, ih.2, and_self]

/-- C24 (counterexample): with a genesis block of difficulty `2^63` by wallet 1 under a
block of difficulty `2^63 + 1` by wallet 2, the 64-bit total weight wraps to 1 and
`get_outputs_blob` succeeds for `total_reward = 1` with two outputs whose rewards, `2^63`
and `2^63 + 1`, add up to `2^64 + 1`. -/
theorem get_outputs_blob_sum_counterexample :
    get_shares default_config [wrap_genesis, wrap_block] wrap_block =
      some [{ m_weight := 2 ^ 63, m_wallet := 1 }, { m_weight := 2 ^ 63 + 1, m_wallet := 2 }] ∧
    get_outputs_blob default_config toy_varint toy_hash_bytes [wrap_genesis, wrap_block]
        wrap_block 1 [] =
      some (true,
        { wrap_block with
          m_outputs := [{ m_reward := 2 ^ 63, m_ephPublicKey := 9 },
            { m_reward := 2 ^ 63 + 1, m_ephPublicKey := 11 }] },
        [2, 128, 0, 2, 9, 129, 0, 2, 11]) ∧
    (([{ m_reward := 2 ^ 63, m_ephPublicKey := 9 },
        { m_reward := 2 ^ 63 + 1, m_ephPublicKey := 11 }] : List TxOutput).map
      TxOutput.m_reward).sum ≠ 1 :=
  ⟨by decide, by decide, by decide⟩

/-- C24 (amended): when `get_outputs_blob(block, total_reward)` succeeds, it has changed
nothing of the block but its outputs, of which there is one per share of
`get_shares(block)`, the rewards being the rewards of `split_reward(total_reward, shares)`
in order and ephemeral public key `i` being derived from the wallet of share `i`, the
block's transaction key and `i`; the 64-bit sum of the output rewards is `total_reward`,
and their sum is `total_reward` when the total weight of the shares fits in 64 bits; the
blob is `varint(N)` followed for each output in order by `varint(reward)`, the byte 2 and
the bytes of the ephemeral public key.  When `get_shares` fails or `split_reward` returns
false, it returns false and leaves block and blob alone. -/
theorem get_outputs_blob_spec (cfg : Config) (writeVarint : Nat → List Nat)
    (hash_bytes : hash → List Nat) (s : Store) (block : PoolBlock) (total_reward : Nat)
    (blob : List Nat) :
    (∀ block1 blob1,
      get_outputs_blob cfg writeVarint hash_bytes s block total_reward blob =
        some (true, block1, blob1) →
      ∃ shares rewards, get_shares cfg s block = some shares ∧
        split_reward total_reward shares = some (true, rewards) ∧
        block1 = { block with m_outputs := block1.m_outputs } ∧
        block1.m_outputs.length = shares.length ∧
        block1.m_outputs.map TxOutput.m_reward = rewards ∧
        block1.m_outputs.map TxOutput.m_ephPublicKey =
          shares.enum.map
            (fun p => cfg.get_eph_public_key p.2.m_wallet block.m_txkeySec p.1) ∧
        accumulate64 (block1.m_outputs.map TxOutput.m_reward) = total_reward ∧
        (total_reward < 2 ^ 64 → (shares.map MinerShare.m_weight).sum < 2 ^ 64 →
          (block1.m_outputs.map TxOutput.m_reward).sum = total_reward) ∧
        blob1 = writeVarint shares.length ++ block1.m_outputs.flatMap
          (fun o => writeVarint o.m_reward ++ [2] ++ hash_bytes o.m_ephPublicKey)) ∧
    (get_shares cfg s block = none →
      get_outputs_blob cfg writeVarint hash_bytes s block total_reward blob =
        some (false, block, blob)) ∧
    (∀ shares rewards, get_shares cfg s block = some shares →
      split_reward total_reward shares = some (false, rewards) →
      get_outputs_blob cfg writeVarint hash_bytes s block total_reward blob =
        some (false, block, blob)) := by
  refine ⟨?_, ?_, ?_⟩
  · intro block1 blob1 h
    unfold get_outputs_blob at h
    cases hs : get_shares cfg s block with
    | none => rw [hs] at h; cases h
    | some shares =>
      rw [hs] at h
      dsimp only at h
      cases hr : split_reward total_reward shares with
      | none => rw [hr] at h; cases h
      | some res =>
        obtain ⟨ok, rewards⟩ := res
        rw [hr] at h
        dsimp only at h
        split at h
        · cases h
        rename_i hcond
        simp only [Bool.or_eq_true, Bool.not_eq_true', decide_eq_true_eq, not_or,
          Bool.not_eq_false, ne_eq, not_not] at hcond
        obtain ⟨hok, hlen⟩ := hcond
        subst hok
        rw [outputs_loop_eq] at h
        simp only [List.nil_append, Option.some.injEq, Prod.mk.injEq, true_and] at h
        obtain ⟨hb, hblob⟩ := h
        have hout : block1.m_outputs = spec_outputs cfg block.m_txkeySec 0 rewards shares := by
          rw [← hb]
        obtain ⟨hrew, heph⟩ := spec_outputs_rewards cfg block.m_txkeySec rewards shares 0 hlen
        have hacc : accumulate64 rewards = total_reward := by
          unfold split_reward at hr
          cases hl : split_reward_loop total_reward (total_weight shares) shares 0 0 with
          | none => rw [hl] at hr; cases hr
          | some rs =>
            rw [hl] at hr
            simp only [Option.some.injEq, Prod.mk.injEq, decide_eq_true_eq] at hr
            rw [← hr.2]; exact hr.1
        refine ⟨shares, rewards, rfl, hr, ?_, ?_, ?_, ?_, ?_, ?_, ?_⟩
        · rw [← hb]
        · rw [← hlen, ← hrew, hout, List.length_map]
        · rw [hout, hrew]
        · rw [hout, heph]; rfl
        · rw [hout, hrew]; exact hacc
        · intro htr hfit
          rw [hout, hrew]
          by_cases hz0 : (shares.map MinerShare.m_weight).sum = 0
          · have htw : total_weight shares = 0 := by
              rw [total_weight_eq, hz0]; rfl
            unfold split_reward at hr
            cases shares with
            | nil =>
              simp only [split_reward_loop, Option.some.injEq, Prod.mk.injEq,
                decide_eq_true_eq] at hr
              rw [← hr.2] at hacc ⊢
              rw [← hacc]; rfl
            | cons sh rest =>
              rw [htw] at hr
              simp [split_reward_loop] at hr
          have hpos : 0 < (shares.map MinerShare.m_weight).sum := by omega
          have heq := split_reward_eq_allocs htr hpos hfit
          rw [hr] at heq
          simp only [Option.some.injEq, Prod.mk.injEq, true_and] at heq
          rw [heq, allocs_sum]
          simp only [Nat.zero_add, Nat.zero_mul, Nat.zero_div, Nat.sub_zero]
          exact Nat.mul_div_cancel_left total_reward hpos
        · rw [← hblob, hout]
  · intro hs
    unfold get_outputs_blob
    rw [hs]
  · intro shares rewards hs hr
    unfold get_outputs_blob
    rw [hs]
    dsimp only
    rw [hr]
    rfl

theorem get_outputs_blob_spec_witness :
    get_outputs_blob default_config toy_varint toy_hash_bytes
        [genesis_block, block_1a, block_1b, block_2] block_2 4000 [9] =
      some (true, paid_block_2,
        [4, 232, 7, 2, 19, 232, 7, 2, 21, 160, 6, 2, 23, 176, 9, 2, 25]) ∧
    ∃ shares rewards,
      get_shares default_config [genesis_block, block_1a, block_1b, block_2] block_2 =
        some shares ∧
      split_reward 4000 shares = some (true, rewards) ∧
      paid_block_2 = { block_2 with m_outputs := paid_block_2.m_outputs } ∧
      paid_block_2.m_outputs.length = shares.length ∧
      paid_block_2.m_outputs.map TxOutput.m_reward = rewards ∧
      paid_block_2.m_outputs.map TxOutput.m_ephPublicKey =
        shares.enum.map
          (fun p => default_config.get_eph_public_key p.2.m_wallet block_2.m_txkeySec p.1) ∧
      accumulate64 (paid_block_2.m_outputs.map TxOutput.m_reward) = 4000 ∧
      (4000 < 2 ^ 64 → (shares.map MinerShare.m_weight).sum < 2 ^ 64 →
        (paid_block_2.m_outputs.map TxOutput.m_reward).sum = 4000) ∧
      [4, 232, 7, 2, 19, 232, 7, 2, 21, 160, 6, 2, 23, 176, 9, 2, 25] =
        toy_varint shares.length ++ paid_block_2.m_outputs.flatMap
          (fun o => toy_varint o.m_reward ++ [2] ++ toy_hash_bytes o.m_ephPublicKey) :=
  ⟨by decide,
    (get_outputs_blob_spec default_config toy_varint toy_hash_bytes
      [genesis_block, block_1a, block_1b, block_2] block_2 4000 [9]).1 paid_block_2
      [4, 232, 7, 2, 19, 232, 7, 2, 21, 160, 6, 2, 23, 176, 9, 2, 25] (by decide)⟩

/-! ## Theorems: the chain tip -/

theorem touchStep_mutates (cfg : Config) {s s1 : Store} (h : TouchStep cfg s s1) :
    StoreStep cfg s s1 := by
  cases h with
  | depth id d b hb hd => exact StoreStep.depth s id d b hb hd
  | want id => exact StoreStep.want s id
  | broadcasted id => exact StoreStep.broadcasted s id
  | verify id b b1 hb hv hver => exact StoreStep.verify s id b b1 hb hv hver

theorem touches_mutates (cfg : Config) {s s1 : Store} (h : Touches cfg s s1) :
    Mutates cfg s s1 := by
  induction h with
  | refl => exact Relation.ReflTransGen.refl
  | tail _ hstep ih => exact ih.tail (touchStep_mutates cfg hstep)

/-- An elementary change that is not an erasure maps a function over the store that keeps
the id and everything else that is fixed when a block is created. -/
theorem touchStep_map (cfg : Config) {s s1 : Store} (h : TouchStep cfg s s1) :
    ∃ f : PoolBlock → PoolBlock, s1 = s.map f ∧
      (∀ b, (f b).m_sidechainId = b.m_sidechainId) ∧ (∀ b, (f b).immutable = b.immutable) := by
  cases h with
  | depth id d b hb hd =>
    exact ⟨_, rfl, fun b => by split <;> rfl, fun b => by split <;> rfl⟩
  | want id =>
    exact ⟨_, rfl, fun b => by split <;> rfl, fun b => by split <;> rfl⟩
  | broadcasted id =>
    exact ⟨_, rfl, fun b => by split <;> rfl, fun b => by split <;> rfl⟩
  | verify id b b1 hb hv hver =>
    refine ⟨set_flags_of id b1.m_verified b1.m_invalid, rfl, set_flags_of_id id _ _, ?_⟩
    intro b
    unfold set_flags_of
    split <;> rfl

theorem touches_shape (cfg : Config) {s s1 : Store} (h : Touches cfg s s1) :
    s1.map PoolBlock.immutable = s.map PoolBlock.immutable ∧
    s1.map PoolBlock.m_sidechainId = s.map PoolBlock.m_sidechainId := by
  induction h with
  | refl => exact ⟨rfl, rfl⟩
  | tail _ hstep ih =>
    obtain ⟨f, rfl, hid, him⟩ := touchStep_map cfg hstep
    rw [← ih.1, ← ih.2]
    simp only [List.map_map]
    constructor
    · apply List.map_congr_left
      intro b _
      exact him b
    · apply List.map_congr_left
      intro b _
      exact hid b

/-- A change that erases nothing keeps every stored block, as a later version of itself. -/
theorem touches_keeps (cfg : Config) {s s1 : Store} (h : Touches cfg s s1) :
    ∀ id x, find s id = some x → ∃ y, find s1 id = some y ∧ block_le x y := by
  induction h with
  | refl => exact fun id x hx => ⟨x, hx, block_le_refl x⟩
  | @tail s2 s3 _ hstep ih =>
    intro id x hx
    obtain ⟨y, hy, hxy⟩ := ih id x hx
    obtain ⟨f, hf, hid, _⟩ := touchStep_map cfg hstep
    have hfind : find s3 id = some (f y) := by
      rw [hf, find_map_keep_id s2 f hid id, hy]; rfl
    obtain ⟨y0, hy0, hle⟩ := storeStep_le cfg (touchStep_mutates cfg hstep) id (f y) hfind
    rw [hy] at hy0
    cases hy0
    exact ⟨f y, hfind, block_le_trans hxy hle⟩

theorem touches_depth (cfg : Config) (s : Store) (id : hash) (d : Nat) (b : PoolBlock)
    (hb : find s id = some b) (hd : b.m_depth ≤ d) : Touches cfg s (set_depth s id d) :=
  Relation.ReflTransGen.single (TouchStep.depth s id d b hb hd)

theorem update_depths_child_touches (cfg : Config) (s s1 : Store) (block_id : hash) (i : Nat)
    (child_id : hash) (h : update_depths_child s block_id i child_id = some s1) :
    Touches cfg s s1 := by
  unfold update_depths_child at h
  cases hb : find s block_id with
  | none => rw [hb] at h; cases h
  | some block =>
    cases hc : find s child_id with
    | none => rw [hb, hc] at h; cases h
    | some child =>
      rw [hb, hc] at h
      dsimp only at h
      have hm1 : Touches cfg s
          (if child.m_parent = block.m_sidechainId ∧ i = 1 then
            set_depth s block_id (max block.m_depth (add64 child.m_depth 1)) else s) := by
        split
        · exact touches_depth cfg s block_id _ block hb (Nat.le_max_left _ _)
        · exact Relation.ReflTransGen.refl
      generalize (if child.m_parent = block.m_sidechainId ∧ i = 1 then
            set_depth s block_id (max block.m_depth (add64 child.m_depth 1)) else s) = s2
        at h hm1
      cases hb2 : find s2 block_id with
      | none => rw [hb2] at h; cases h
      | some block1 =>
        cases hc2 : find s2 child_id with
        | none => rw [hb2, hc2] at h; cases h
        | some child1 =>
          rw [hb2, hc2] at h
          dsimp only at h
          split at h
          · cases h
            exact hm1.trans (touches_depth cfg s2 block_id _ block1 hb2 (Nat.le_max_left _ _))
          · cases h; exact hm1

theorem update_depths_children_touches (cfg : Config) (block_id : hash) (i : Nat) :
    ∀ (ids : List hash) (s s1 : Store),
      update_depths_children s block_id i ids = some s1 → Touches cfg s s1
  | [], s, s1, h => by
    simp only [update_depths_children, Option.some.injEq] at h
    rw [← h]; exact Relation.ReflTransGen.refl
  | child_id :: rest, s, s1, h => by
    rw [update_depths_children] at h
    cases hc : update_depths_child s block_id i child_id with
    | none => rw [hc] at h; cases h
    | some s2 =>
      rw [hc] at h
      exact (update_depths_child_touches cfg s s2 block_id i child_id hc).trans
        (update_depths_children_touches cfg block_id i rest s2 s1 h)

theorem update_depths_init_touches (cfg : Config) (m : List (Nat × List hash)) (s s1 : Store)
    (block_id : hash) (h : update_depths_init m s block_id = some s1) : Touches cfg s s1 := by
  unfold update_depths_init at h
  cases hb : find s block_id with
  | none => rw [hb] at h; cases h
  | some block =>
    rw [hb] at h
    dsimp only at h
    cases h1 : update_depths_children s block_id 1 (bucket m (add64 block.m_sidechainHeight 1)) with
    | none => rw [h1] at h; cases h
    | some s2 =>
      rw [h1] at h
      dsimp only at h
      cases h2 : update_depths_children s2 block_id 2
          (bucket m (add64 block.m_sidechainHeight 2)) with
      | none => rw [h2] at h; cases h
      | some s3 =>
        rw [h2] at h
        exact ((update_depths_children_touches cfg block_id 1 _ s s2 h1).trans
          (update_depths_children_touches cfg block_id 2 _ s2 s3 h2)).trans
          (update_depths_children_touches cfg block_id 3 _ s3 s1 h)

theorem update_depths_parent_touches (cfg : Config) (s : Store) (block : PoolBlock)
    (stack : List hash) : Touches cfg s (update_depths_parent s block stack).1 := by
  unfold update_depths_parent
  cases hp : find s block.m_parent with
  | none => exact Relation.ReflTransGen.refl
  | some parent =>
    dsimp only
    split
    · rename_i hlt
      exact touches_depth cfg s _ _ parent hp (Nat.le_of_lt hlt)
    · exact Relation.ReflTransGen.refl

theorem update_depths_uncles_touches (cfg : Config) (block_id : hash) :
    ∀ (uncles : List hash) (s : Store) (stack : List hash) (r : Store × List hash),
      update_depths_uncles s block_id uncles stack = some r → Touches cfg s r.1
  | [], s, stack, r, h => by
    simp only [update_depths_uncles, Option.some.injEq] at h
    rw [← h]; exact Relation.ReflTransGen.refl
  | uncle_id :: rest, s, stack, r, h => by
    rw [update_depths_uncles] at h
    cases hb : find s block_id with
    | none => rw [hb] at h; cases h
    | some block =>
      rw [hb] at h
      dsimp only at h
      cases hu : find s uncle_id with
      | none =>
        rw [hu] at h
        exact update_depths_uncles_touches cfg block_id rest s stack r h
      | some uncle =>
        rw [hu] at h
        dsimp only at h
        split at h
        · rename_i hlt
          exact (touches_depth cfg s uncle_id _ uncle hu (Nat.le_of_lt hlt)).trans
            (update_depths_uncles_touches cfg block_id rest _ _ r h)
        · exact update_depths_uncles_touches cfg block_id rest s stack r h

theorem update_depths_loop_touches (cfg : Config) :
    ∀ (fuel : Nat) (s : Store) (stack : List hash) (s1 : Store),
      update_depths_loop fuel s stack = some s1 → Touches cfg s s1
  | fuel, s, [], s1, h => by
    have : update_depths_loop fuel s [] = some s := by cases fuel <;> rfl
    rw [this] at h
    cases h
    exact Relation.ReflTransGen.refl
  | 0, s, _ :: _, s1, h => by simp [update_depths_loop] at h
  | fuel + 1, s, block_id :: stack, s1, h => by
    rw [update_depths_loop] at h
    cases hb : find s block_id with
    | none => rw [hb] at h; cases h
    | some block =>
      rw [hb] at h
      dsimp only at h
      cases hu : update_depths_uncles (update_depths_parent s block stack).1 block_id
          block.m_uncles (update_depths_parent s block stack).2 with
      | none => rw [hu] at h; cases h
      | some r2 =>
        rw [hu] at h
        exact ((update_depths_parent_touches cfg s block stack).trans
          (update_depths_uncles_touches cfg block_id _ _ _ r2 hu)).trans
          (update_depths_loop_touches cfg fuel r2.1 r2.2 s1 h)

theorem update_depths_touches (cfg : Config) (fuel : Nat) (m : List (Nat × List hash))
    (s s1 : Store) (block_id : hash) (h : update_depths fuel m s block_id = some s1) :
    Touches cfg s s1 := by
  unfold update_depths at h
  cases hi : update_depths_init m s block_id with
  | none => rw [hi] at h; cases h
  | some s2 =>
    rw [hi] at h
    exact (update_depths_init_touches cfg m s s2 block_id hi).trans
      (update_depths_loop_touches cfg fuel s2 [block_id] s1 h)


/-- The loop of `verify_loop` changes nothing of the state but `m_blocksById`, and erases
nothing there. -/
theorem verify_loop_go_touches (cfg : Config) (pool : Pool) :
    ∀ (fuel : Nat) (sc : SideChain) (stack : List hash) (highest : Option hash)
      (r : SideChain × Option hash),
      verify_loop_go cfg pool fuel sc stack highest = some r →
      ∃ s1, Touches cfg sc.m_blocksById s1 ∧ r.1 = { sc with m_blocksById := s1 }
  | fuel, sc, [], highest, r, h => by
    rw [verify_loop_go_nil] at h
    cases h
    exact ⟨sc.m_blocksById, Relation.ReflTransGen.refl, rfl⟩
  | 0, sc, _ :: _, highest, r, h => by simp [verify_loop_go] at h
  | fuel + 1, sc, id :: stack, highest, r, h => by
    rw [verify_loop_go] at h
    cases hf : find sc.m_blocksById id with
    | none => rw [hf] at h; cases h
    | some block =>
      rw [hf] at h
      dsimp only at h
      cases hv : block.m_verified with
      | true =>
        rw [hv] at h
        simp only [if_true] at h
        exact verify_loop_go_touches cfg pool fuel sc stack highest r h
      | false =>
        rw [hv] at h
        simp only [Bool.false_eq_true, if_false] at h
        cases hver : verify cfg sc.m_blocksById block with
        | none => rw [hver] at h; cases h
        | some block1 =>
          rw [hver] at h
          dsimp only at h
          have hstep : Touches cfg sc.m_blocksById
              (set_flags sc.m_blocksById id block1.m_verified block1.m_invalid) :=
            Relation.ReflTransGen.single (TouchStep.verify _ id block block1 hf hv hver)
          split at h
          · obtain ⟨s1, hs1, hr⟩ := verify_loop_go_touches cfg pool fuel _ stack highest r h
            exact ⟨s1, hstep.trans hs1, hr⟩
          · split at h
            · obtain ⟨s1, hs1, hr⟩ := verify_loop_go_touches cfg pool fuel _ stack highest r h
              exact ⟨s1, hstep.trans hs1, hr⟩
            · split at h
              · cases h
              · split at h
                · cases h
                · obtain ⟨s1, hs1, hr⟩ := verify_loop_go_touches cfg pool fuel _ _ _ r h
                  refine ⟨s1, hstep.trans (Relation.ReflTransGen.trans ?_ hs1), hr⟩
                  dsimp only
                  split
                  · exact Relation.ReflTransGen.single (TouchStep.broadcasted _ id)
                  · exact Relation.ReflTransGen.refl

/-- What `prune_old_blocks` leaves: the same tip, difficulty and seen blocks, and every
stored block either as it was or erased; nothing changes when the tip is lower than the
prune distance. -/
theorem prune_old_blocks_cases (cfg : Config) (sc sc2 : SideChain)
    (h : prune_old_blocks cfg sc = some sc2) :
    sc2.m_chainTip = sc.m_chainTip ∧
    (∀ id, find sc2.m_blocksById id = find sc.m_blocksById id ∨
      find sc2.m_blocksById id = none) ∧
    (∀ tip_id tip, sc.m_chainTip = some tip_id → find sc.m_blocksById tip_id = some tip →
      tip.m_sidechainHeight < prune_distance cfg → sc2 = sc) := by
  unfold prune_old_blocks at h
  split at h
  · cases h
  · cases ht : sc.m_chainTip with
    | none => rw [ht] at h; cases h
    | some tip_id =>
      rw [ht] at h
      dsimp only at h
      cases hf : find sc.m_blocksById tip_id with
      | none => rw [hf] at h; cases h
      | some tip =>
        rw [hf] at h
        dsimp only at h
        split at h
        · cases h
          exact ⟨ht, fun id => Or.inl rfl, fun _ _ _ _ _ => rfl⟩
        · rename_i hge
          cases h
          refine ⟨rfl, fun id => ?_, ?_⟩
          · rcases find_prune_fold _ id _ sc.m_blocksById with h1 | ⟨h1, _, _⟩
            · exact Or.inl h1
            · exact Or.inr h1
          · intro tip_id2 tip2 ht2 hf2 hlow
            cases ht2
            rw [hf] at hf2
            cases hf2
            exact absurd hlow hge

/-- The two ways `update_chain_tip` returns: with nothing changed but the broadcast flags
of stored blocks, or with the block made the tip after `is_longer_chain(m_chainTip, block)`
returned true for it, verified and valid, then the pruning, after which the block is still
stored. -/
theorem update_chain_tip_cases (cfg : Config) (pool : Pool) (sc sc1 : SideChain) (id : hash)
    (h : update_chain_tip cfg pool sc id = some sc1) :
    (∃ s1, Touches cfg sc.m_blocksById s1 ∧ sc1 = { sc with m_blocksById := s1 }) ∨
    (∃ block old diff sc2, find sc.m_blocksById id = some block ∧
      block.m_verified = true ∧ block.m_invalid = false ∧
      deref sc.m_blocksById sc.m_chainTip = some old ∧
      is_longer_chain cfg pool sc.m_blocksById old (some block) = some true ∧
      get_difficulty cfg sc.m_blocksById block = some diff ∧
      prune_old_blocks cfg
        { sc with
          m_chainTip := some id
          m_curDifficulty := diff
          m_blocksById := set_want_broadcast sc.m_blocksById id } = some sc2 ∧
      (∃ b2, find sc2.m_blocksById id = some b2) ∧
      (sc1 = sc2 ∨ sc1 = { sc2 with m_blocksById := set_broadcasted sc2.m_blocksById id })) := by
  unfold update_chain_tip at h
  cases hf : find sc.m_blocksById id with
  | none => rw [hf] at h; cases h
  | some block =>
    rw [hf] at h
    dsimp only at h
    split at h
    · cases h; exact Or.inl ⟨_, Relation.ReflTransGen.refl, rfl⟩
    rename_i hflags
    split at h
    · cases h; exact Or.inl ⟨_, Relation.ReflTransGen.refl, rfl⟩
    split at h
    · cases h
    · rename_i old heq
      have hd : deref sc.m_blocksById sc.m_chainTip = some old := by
        unfold deref
        cases ht : sc.m_chainTip with
        | none => rw [ht] at heq; exact heq
        | some tid =>
          rw [ht] at heq
          dsimp only at heq ⊢
          cases hft : find sc.m_blocksById tid with
          | none => rw [hft] at heq; cases heq
          | some t => rw [hft] at heq; exact heq
      cases hl : is_longer_chain cfg pool sc.m_blocksById old (some block) with
      | none => rw [hl] at h; cases h
      | some longer =>
        rw [hl] at h
        dsimp only at h
        have hsame : ∀ sc2 : SideChain, sc2 = sc →
            (match find sc2.m_blocksById id with
              | none => none
              | some block1 =>
                if (block1.m_wantBroadcast && !block1.m_broadcasted) = true then
                  some { sc2 with m_blocksById := set_broadcasted sc2.m_blocksById id }
                else some sc2) = some sc1 →
            ∃ s1, Touches cfg sc.m_blocksById s1 ∧ sc1 = { sc with m_blocksById := s1 } := by
          intro sc2 h2 h3
          subst h2
          rw [hf] at h3
          dsimp only at h3
          split at h3
          · cases h3
            exact ⟨_, Relation.ReflTransGen.single (TouchStep.broadcasted _ id), rfl⟩
          · cases h3
            exact ⟨_, Relation.ReflTransGen.refl, rfl⟩
        cases longer with
        | false =>
          simp only [Bool.false_eq_true, if_false] at h
          exact Or.inl (hsame sc rfl h)
        | true =>
          simp only [if_true] at h
          cases hdiff : get_difficulty cfg sc.m_blocksById block with
          | none =>
            rw [hdiff] at h
            exact Or.inl (hsame sc rfl h)
          | some diff =>
            rw [hdiff] at h
            dsimp only at h
            cases hp : prune_old_blocks cfg
                { sc with
                  m_chainTip := some id
                  m_curDifficulty := diff
                  m_blocksById := set_want_broadcast sc.m_blocksById id } with
            | none => rw [hp] at h; cases h
            | some sc2 =>
              rw [hp] at h
              dsimp only at h
              right
              simp only [Bool.or_eq_true, Bool.not_eq_true', not_or, Bool.not_eq_false,
                Bool.not_eq_true] at hflags
              cases hf2 : find sc2.m_blocksById id with
              | none => rw [hf2] at h; cases h
              | some b2 =>
                rw [hf2] at h
                dsimp only at h
                refine ⟨block, old, diff, sc2, rfl, hflags.1, hflags.2, hd, hl, hdiff, hp,
                  ⟨b2, hf2⟩, ?_⟩
                split at h
                · cases h; exact Or.inr rfl
                · cases h; exact Or.inl rfl

/-- What `add_block` does: nothing when the id is already stored; otherwise the block is
appended and filed under its height, changes that erase nothing follow, and the call ends
there or with one call of `update_chain_tip`. -/
theorem add_block_cases (cfg : Config) (pool : Pool) (fuel : Nat) (sc sc1 : SideChain)
    (block : PoolBlock) (h : add_block cfg pool fuel sc block = some sc1) :
    (sc1 = sc ∧ (find sc.m_blocksById block.m_sidechainId).isSome = true) ∨
    (find sc.m_blocksById block.m_sidechainId = none ∧
      ∃ s1, Touches cfg (sc.m_blocksById ++ [block]) s1 ∧
        (sc1 = { sc with
            m_blocksById := s1
            m_blocksByHeight :=
              bucket_push sc.m_blocksByHeight block.m_sidechainHeight block.m_sidechainId } ∨
         ∃ id, update_chain_tip cfg pool
            { sc with
              m_blocksById := s1
              m_blocksByHeight :=
                bucket_push sc.m_blocksByHeight block.m_sidechainHeight block.m_sidechainId }
            id = some sc1)) := by
  unfold add_block at h
  cases hf : find sc.m_blocksById block.m_sidechainId with
  | some b =>
    rw [hf] at h
    cases h
    exact Or.inl ⟨rfl, rfl⟩
  | none =>
    rw [hf] at h
    dsimp only at h
    right
    refine ⟨rfl, ?_⟩
    cases hu : update_depths fuel
        (bucket_push sc.m_blocksByHeight block.m_sidechainHeight block.m_sidechainId)
        (sc.m_blocksById ++ [block]) block.m_sidechainId with
    | none => rw [hu] at h; cases h
    | some s1 =>
      rw [hu] at h
      dsimp only at h
      have hm := update_depths_touches cfg fuel _ _ s1 _ hu
      split at h
      · split at h
        · exact ⟨s1, hm, Or.inr ⟨_, h⟩⟩
        · cases h; exact ⟨s1, hm, Or.inl rfl⟩
      · unfold verify_loop at h
        cases hg : verify_loop_go cfg pool fuel
            { sc with
              m_blocksById := s1
              m_blocksByHeight :=
                bucket_push sc.m_blocksByHeight block.m_sidechainHeight block.m_sidechainId }
            [block.m_sidechainId] none with
        | none => rw [hg] at h; cases h
        | some r =>
          rw [hg] at h
          obtain ⟨s2, hs2, hr⟩ := verify_loop_go_touches cfg pool fuel _ _ _ r hg
          obtain ⟨sc2, highest⟩ := r
          dsimp only at hr
          subst hr
          cases highest with
          | none => cases h; exact ⟨s2, hm.trans hs2, Or.inl rfl⟩
          | some hb => exact ⟨s2, hm.trans hs2, Or.inr ⟨hb, h⟩⟩

theorem tip_ok_of_touches (cfg : Config) (sc sc1 : SideChain) (h : tip_ok sc)
    (ht : sc1.m_chainTip = sc.m_chainTip)
    (hm : Touches cfg sc.m_blocksById sc1.m_blocksById) : tip_ok sc1 := by
  intro id hid
  rw [ht] at hid
  obtain ⟨b, hb, hv, hi⟩ := h id hid
  obtain ⟨y, hy, hle⟩ := touches_keeps cfg hm id b hb
  exact ⟨y, hy, (hle.2.2 hv).1, by rw [(hle.2.2 hv).2]; exact hi⟩

theorem update_chain_tip_tip_ok (cfg : Config) (pool : Pool) (sc sc1 : SideChain) (id : hash)
    (hok : tip_ok sc) (h : update_chain_tip cfg pool sc id = some sc1) : tip_ok sc1 := by
  rcases update_chain_tip_cases cfg pool sc sc1 id h with
    ⟨s1, hs1, rfl⟩ | ⟨block, old, diff, sc2, hf, hv, hi, _, _, _, hp, ⟨b2, hb2⟩, hsc1⟩
  · exact tip_ok_of_touches cfg sc _ hok rfl hs1
  · obtain ⟨htip, hfind, _⟩ := prune_old_blocks_cases cfg _ sc2 hp
    have hb2eq : find sc2.m_blocksById id =
        some (if block.m_sidechainId = id then { block with m_wantBroadcast := true }
          else block) := by
      rcases hfind id with h1 | h1
      · rw [h1]
        dsimp only
        rw [find_set_want_broadcast, hf]
        rfl
      · rw [h1] at hb2; cases hb2
    have hok2 : tip_ok sc2 := by
      intro x hx
      rw [htip] at hx
      dsimp only at hx
      cases hx
      refine ⟨_, hb2eq, ?_, ?_⟩ <;> split <;> assumption
    rcases hsc1 with rfl | rfl
    · exact hok2
    · exact tip_ok_of_touches cfg sc2 _ hok2 rfl
        (Relation.ReflTransGen.single (TouchStep.broadcasted _ id))

theorem add_block_tip_ok (cfg : Config) (pool : Pool) (fuel : Nat) (sc sc1 : SideChain)
    (block : PoolBlock) (hok : tip_ok sc) (h : add_block cfg pool fuel sc block = some sc1) :
    tip_ok sc1 := by
  rcases add_block_cases cfg pool fuel sc sc1 block h with ⟨rfl, _⟩ | ⟨_, s1, hs1, hcase⟩
  · exact hok
  · have hA : tip_ok
        { sc with
          m_blocksById := s1
          m_blocksByHeight :=
            bucket_push sc.m_blocksByHeight block.m_sidechainHeight block.m_sidechainId } := by
      have h0 : tip_ok { sc with m_blocksById := sc.m_blocksById ++ [block] } := by
        intro id hid
        obtain ⟨b, hb, hv, hi⟩ := hok id hid
        exact ⟨b, find_append_of_some _ _ _ _ hb, hv, hi⟩
      exact tip_ok_of_touches cfg _ _ h0 rfl hs1
    rcases hcase with rfl | ⟨id, hu⟩
    · exact hA
    · exact update_chain_tip_tip_ok cfg pool _ sc1 id hA hu

theorem step_tip_ok (cfg : Config) (pool : Pool) (sc sc1 : SideChain) (hok : tip_ok sc)
    (h : Step cfg pool sc sc1) : tip_ok sc1 := by
  rcases h with ⟨fuel, block, h⟩ | ⟨fuel, block, missing, result, missing1, h⟩
  · exact add_block_tip_ok cfg pool fuel sc sc1 block hok h
  · rcases add_external_block_cases cfg pool fuel sc sc1 block missing missing1 result h with
      rfl | h2
    · exact hok
    · exact add_block_tip_ok cfg pool fuel sc sc1 block hok h2

/-- When `add_block` leaves another tip than it found, the new tip is a block for which
`is_longer_chain(m_chainTip, block)` returned true, in the store of that moment. -/
theorem add_block_tip_change (cfg : Config) (pool : Pool) (fuel : Nat) (sc sc1 : SideChain)
    (block : PoolBlock) (h : add_block cfg pool fuel sc block = some sc1) :
    sc1.m_chainTip = sc.m_chainTip ∨
    ∃ s old b, Touches cfg (sc.m_blocksById ++ [block]) s ∧
      deref s sc.m_chainTip = some old ∧ find s b.m_sidechainId = some b ∧
      b.m_verified = true ∧ b.m_invalid = false ∧
      is_longer_chain cfg pool s old (some b) = some true ∧
      sc1.m_chainTip = some b.m_sidechainId := by
  rcases add_block_cases cfg pool fuel sc sc1 block h with ⟨rfl, _⟩ | ⟨_, s1, hs1, hcase⟩
  · exact Or.inl rfl
  · rcases hcase with rfl | ⟨id, hu⟩
    · exact Or.inl rfl
    · rcases update_chain_tip_cases cfg pool _ sc1 id hu with
        ⟨s2, _, rfl⟩ | ⟨b, old, diff, sc2, hf, hv, hi, hd, hl, _, hp, _, hsc1⟩
      · exact Or.inl rfl
      · right
        have hid := find_some_id hf
        obtain ⟨htip, _, _⟩ := prune_old_blocks_cases cfg _ sc2 hp
        refine ⟨s1, old, b, hs1, hd, by rw [hid]; exact hf, hv, hi, hl, ?_⟩
        rw [hid]
        rcases hsc1 with rfl | rfl
        · exact htip
        · exact htip

/-- C21: in every state reachable through `add_block` and `add_external_block` the chain
tip is unset or a stored block that is verified and not invalid; and a call that leaves
another tip than it found has made a block `b` the tip for which
`is_longer_chain(m_chainTip, b)` returned true, for the old tip and the store of that
moment, `b` being stored, verified and not invalid. -/
theorem chain_tip_invariant (cfg : Config) (pool : Pool) :
    (∀ sc, Reachable cfg pool sc → tip_ok sc) ∧
    (∀ sc sc1, Step cfg pool sc sc1 →
      sc1.m_chainTip = sc.m_chainTip ∨
      ∃ block s old b, Touches cfg (sc.m_blocksById ++ [block]) s ∧
        deref s sc.m_chainTip = some old ∧ find s b.m_sidechainId = some b ∧
        b.m_verified = true ∧ b.m_invalid = false ∧
        is_longer_chain cfg pool s old (some b) = some true ∧
        sc1.m_chainTip = some b.m_sidechainId) := by
  constructor
  · intro sc hreach
    induction hreach with
    | refl => intro id hid; cases hid
    | tail _ hstep ih => exact step_tip_ok cfg pool _ _ ih hstep
  · intro sc sc1 hstep
    rcases hstep with ⟨fuel, block, h⟩ | ⟨fuel, block, missing, result, missing1, h⟩
    · rcases add_block_tip_change cfg pool fuel sc sc1 block h with h1 | ⟨s, old, b, h1⟩
      · exact Or.inl h1
      · exact Or.inr ⟨block, s, old, b, h1⟩
    · rcases add_external_block_cases cfg pool fuel sc sc1 block missing missing1 result h with
        rfl | h2
      · exact Or.inl rfl
      · rcases add_block_tip_change cfg pool fuel sc sc1 block h2 with h1 | ⟨s, old, b, h1⟩
        · exact Or.inl h1
        · exact Or.inr ⟨block, s, old, b, h1⟩

theorem chain_tip_invariant_witness :
    Reachable default_config idle_pool paid_state ∧ paid_state.m_chainTip = some 2 ∧
      tip_ok paid_state :=
  have h1 : Step default_config idle_pool (empty_sidechain default_config)
      (first_tip { new_genesis with m_verified := true } { lo := 1000, hi := 0 }) :=
    Or.inl ⟨1, new_genesis, by decide⟩
  have h2 : Step default_config idle_pool
      (first_tip { new_genesis with m_verified := true } { lo := 1000, hi := 0 })
      paid_state :=
    Or.inl ⟨2, paid_block, by decide⟩
  have hreach : Reachable default_config idle_pool paid_state :=
    (Relation.ReflTransGen.single h1).tail h2
  ⟨hreach, rfl, (chain_tip_invariant default_config idle_pool).1 paid_state hreach⟩

/-! ## Theorems: the order of arrival -/

theorem immutable_height (b : PoolBlock) :
    b.immutable.m_sidechainHeight = b.m_sidechainHeight := rfl

theorem immutable_id (b : PoolBlock) : b.immutable.m_sidechainId = b.m_sidechainId := rfl

/-- Stores of the same shape hold blocks of the same heights and ids. -/
theorem shape_heights {s s1 : Store}
    (h : s1.map PoolBlock.immutable = s.map PoolBlock.immutable) :
    s1.map PoolBlock.m_sidechainHeight = s.map PoolBlock.m_sidechainHeight ∧
    s1.map PoolBlock.m_sidechainId = s.map PoolBlock.m_sidechainId := by
  have h1 := congrArg (List.map PoolBlock.m_sidechainHeight) h
  have h2 := congrArg (List.map PoolBlock.m_sidechainId) h
  simp only [List.map_map] at h1 h2
  exact ⟨h1, h2⟩

theorem shape_low {s s1 : Store} (n : Nat)
    (h : s1.map PoolBlock.immutable = s.map PoolBlock.immutable)
    (hlow : ∀ b ∈ s, b.m_sidechainHeight < n) : ∀ b ∈ s1, b.m_sidechainHeight < n := by
  intro b hb
  have hmem : b.m_sidechainHeight ∈ s1.map PoolBlock.m_sidechainHeight :=
    List.mem_map_of_mem _ hb
  rw [(shape_heights h).1] at hmem
  obtain ⟨b0, hb0, heq⟩ := List.mem_map.mp hmem
  rw [← heq]
  exact hlow b0 hb0

theorem chain_descending_parent (s : Store) (B p : PoolBlock) (h : chain_descending s B)
    (hp : get_parent s B = some p) : chain_descending s p := by
  intro k c q hc hq
  apply h (k + 1) c q _ hq
  rw [nth_parent, hp]
  exact hc

theorem chain_descending_height (s : Store) : ∀ (k : Nat) (B c : PoolBlock),
    chain_descending s B → nth_parent s k B = some c →
    c.m_sidechainHeight + k ≤ B.m_sidechainHeight
  | 0, B, c, _, hc => by
    simp only [nth_parent, Option.some.injEq] at hc
    rw [hc]; omega
  | k + 1, B, c, h, hc => by
    rw [nth_parent] at hc
    cases hp : get_parent s B with
    | none => rw [hp] at hc; cases hc
    | some p =>
      rw [hp] at hc
      have h1 := chain_descending_height s k p c (chain_descending_parent s B p h hp) hc
      have h2 := h 0 B p rfl hp
      omega

/-- Heights fall along the chain of a stored block when every stored block is higher than
its stored parent. -/
theorem chain_descending_of_store (s : Store) (tip : PoolBlock) (htip : tip ∈ s)
    (h : ∀ b ∈ s, ∀ p ∈ get_parent s b, p.m_sidechainHeight < b.m_sidechainHeight) :
    chain_descending s tip := by
  intro k c p hc hp
  have hmem : c ∈ s := by
    cases k with
    | zero =>
      simp only [nth_parent, Option.some.injEq] at hc
      rw [← hc]; exact htip
    | succ k => exact find_some_mem (nth_parent_stored s k tip c hc)
  exact h c hmem p hp

theorem lower_blocks_lt (s : Store) (B p : PoolBlock) (hp : p ∈ s)
    (hlt : p.m_sidechainHeight < B.m_sidechainHeight) :
    (s.filter (fun b => decide (b.m_sidechainHeight < p.m_sidechainHeight))).length <
      (s.filter (fun b => decide (b.m_sidechainHeight < B.m_sidechainHeight))).length := by
  have heq : s.filter (fun b => decide (b.m_sidechainHeight < p.m_sidechainHeight)) =
      (s.filter (fun b => decide (b.m_sidechainHeight < B.m_sidechainHeight))).filter
        (fun b => decide (b.m_sidechainHeight < p.m_sidechainHeight)) := by
    rw [List.filter_filter]
    apply List.filter_congr
    intro x _
    by_cases hx : x.m_sidechainHeight < p.m_sidechainHeight
    · have : x.m_sidechainHeight < B.m_sidechainHeight := by omega
      simp [hx, this]
    · simp [hx]
  rw [heq, List.length_filter_lt_length_iff_exists]
  exact ⟨p, List.mem_filter.mpr ⟨hp, by simpa using hlt⟩, by simp⟩

/-- Along a chain on which heights fall, the walk down to a height ends within as many
steps as there are stored blocks. -/
theorem walk_to_height_total (s : Store) (height : Nat) : ∀ (fuel : Nat) (B : PoolBlock),
    chain_descending s B →
    (s.filter (fun b => decide (b.m_sidechainHeight < B.m_sidechainHeight))).length < fuel →
    ∃ r, walk_to_height s height fuel B = some r
  | 0, B, _, hm => by omega
  | fuel + 1, B, hdesc, hm => by
    unfold walk_to_height
    split
    · dsimp only
      cases hp : get_parent s B with
      | none => exact ⟨none, rfl⟩
      | some p =>
        dsimp only
        have hlt := hdesc 0 B p rfl hp
        have hmem : p ∈ s := find_some_mem hp
        have := lower_blocks_lt s B p hmem hlt
        exact walk_to_height_total s height fuel p (chain_descending_parent s B p hdesc hp)
          (by omega)
    · exact ⟨_, rfl⟩

theorem walk_from_stored (s : Store) (height : Nat) (B : PoolBlock) (hB : B ∈ s)
    (hdesc : chain_descending s B) : ∃ r, walk_to_height s height s.length B = some r := by
  apply walk_to_height_total s height s.length B hdesc
  rw [List.length_filter_lt_length_iff_exists]
  exact ⟨B, hB, by simp⟩

theorem chain_window_of_none (s : Store) : ∀ (n k : Nat) (B : PoolBlock),
    nth_parent s n B = none →
    chain_window s (n + k) (some B) = chain_window s n (some B)
  | 0, k, B, h => by simp [nth_parent] at h
  | n + 1, k, B, h => by
    rw [nth_parent] at h
    rw [Nat.add_right_comm, chain_window, chain_window]
    cases hp : get_parent s B with
    | none => rw [chain_window_none, chain_window_none]
    | some p =>
      rw [hp] at h
      rw [chain_window_of_none s n k p h]

/-- On a chain on which heights fall, the `min(3, height + 1)` blocks from the tip are the
tip and its next two ancestors, as far as they are stored. -/
theorem chain_window_three (s : Store) (tip : PoolBlock) (hdesc : chain_descending s tip)
    (h64 : tip.m_sidechainHeight + 1 < 2 ^ 64) :
    chain_window s (min UNCLE_BLOCK_DEPTH (add64 tip.m_sidechainHeight 1)) (some tip) =
      chain_window s 3 (some tip) := by
  have hadd : add64 tip.m_sidechainHeight 1 = tip.m_sidechainHeight + 1 := by
    unfold add64; exact Nat.mod_eq_of_lt h64
  rw [hadd]
  unfold UNCLE_BLOCK_DEPTH
  by_cases h2 : 2 ≤ tip.m_sidechainHeight
  · rw [Nat.min_eq_left (by omega)]
  · rw [Nat.min_eq_right (by omega)]
    have hnone : nth_parent s (tip.m_sidechainHeight + 1) tip = none := by
      cases hc : nth_parent s (tip.m_sidechainHeight + 1) tip with
      | none => rfl
      | some c =>
        have := chain_descending_height s _ tip c hdesc hc
        omega
    have := chain_window_of_none s (tip.m_sidechainHeight + 1) (2 - tip.m_sidechainHeight)
      tip hnone
    rw [← this]
    congr 1
    omega

theorem unique_subset : ∀ (l : List hash) (x : hash), x ∈ unique l → x ∈ l
  | [], x, h => by simp [unique] at h
  | [a], x, h => by simpa [unique] using h
  | a :: b :: rest, x, h => by
    rw [unique] at h
    split at h
    · exact List.mem_cons_of_mem _ (unique_subset (b :: rest) x h)
    · rcases List.mem_cons.mp h with rfl | h
      · exact List.mem_cons_self _ _
      · exact List.mem_cons_of_mem _ (unique_subset (b :: rest) x h)

theorem unique_sorted : ∀ (l : List hash), l.Sorted (fun a b => a ≤ b) →
    (unique l).Sorted (fun a b => a < b)
  | [], _ => by simp [unique]
  | [a], _ => by simp [unique]
  | a :: b :: rest, h => by
    rw [unique]
    have hrest : (b :: rest).Sorted (fun a b => a ≤ b) := h.of_cons
    have ih := unique_sorted (b :: rest) hrest
    split
    · exact ih
    · rename_i hne
      refine List.sorted_cons.mpr ⟨?_, ih⟩
      · intro x hx
        have hx2 := unique_subset (b :: rest) x hx
        have hab : a ≤ b := List.rel_of_sorted_cons h b (List.mem_cons_self _ _)
        have hbx : b ≤ x := by
          rcases List.mem_cons.mp hx2 with rfl | hx3
          · exact Nat.le_refl _
          · exact List.rel_of_sorted_cons hrest x hx3
        have : a < b := Nat.lt_of_le_of_ne hab hne
        exact Nat.lt_of_lt_of_le this hbx

theorem sort_unique_spec (l : List hash) :
    (sort_unique l).Sorted (fun a b => a < b) ∧ ∀ x ∈ sort_unique l, x ∈ l := by
  unfold sort_unique
  split
  · constructor
    · exact unique_sorted _ (List.sorted_insertionSort _ l)
    · intro x hx
      exact (List.perm_insertionSort _ l).subset (unique_subset _ x hx)
  · rename_i hlen
    constructor
    · cases l with
      | nil => exact List.sorted_nil
      | cons a rest =>
        cases rest with
        | nil => exact List.sorted_singleton a
        | cons b rest => simp at hlen
    · exact fun x hx => hx

theorem fill_cumulative_eq (s : Store) : ∀ (uncles : List hash) (acc : difficulty_type),
    (∀ u ∈ uncles, (find s u).isSome = true) →
    uncle_sum (find s) uncles acc = some (fill_cumulative s uncles acc)
  | [], acc, _ => rfl
  | u :: rest, acc, h => by
    rw [uncle_sum, fill_cumulative]
    cases hf : find s u with
    | none =>
      have := h u (List.mem_cons_self _ _)
      rw [hf] at this; cases this
    | some uncle =>
      dsimp only
      exact fill_cumulative_eq s rest _ (fun x hx => h x (List.mem_cons_of_mem _ hx))

theorem mem_bucket (m : List (Nat × List hash)) (k : Nat) (id : hash)
    (h : id ∈ bucket m k) : ∃ e ∈ m, e.1 = k ∧ id ∈ e.2 := by
  unfold bucket at h
  cases hf : m.find? (fun e => decide (e.1 = k)) with
  | none => rw [hf] at h; cases h
  | some e =>
    rw [hf] at h
    refine ⟨e, List.mem_of_find?_eq_some hf, ?_, h⟩
    have := List.find?_some hf
    simpa using this

theorem fill_same_chain_ok (s : Store) (block_height : Nat) (tip uncle : PoolBlock)
    (htip : tip ∈ s) (hdesc : chain_descending s tip) :
    ∃ r, fill_same_chain s block_height tip uncle = some r ∧
      (r = true → common_ancestor_test s tip uncle) := by
  unfold fill_same_chain
  obtain ⟨r, hr⟩ := walk_from_stored s uncle.m_sidechainHeight tip htip hdesc
  rw [hr]
  cases r with
  | none => exact ⟨false, rfl, fun h => by cases h⟩
  | some tmp =>
    dsimp only
    split
    · exact ⟨false, rfl, fun h => by cases h⟩
    · rename_i hge
      refine ⟨_, rfl, fun hsame => ?_⟩
      obtain ⟨k, hk, hle⟩ := walk_to_height_some s _ _ _ _ hr
      obtain ⟨j, hj, a, b, ha, hb, hab⟩ := same_chain_some s _ _ _ _ hsame
      exact ⟨k, tmp, hk, by omega, j, hj, a, b, ha, hb, hab⟩

theorem fill_candidate_ok (s : Store) (block_height : Nat) (tip : PoolBlock)
    (mined : List hash) (low high : Nat) (uncles : List hash) (id : hash) (uncle : PoolBlock)
    (htip : tip ∈ s) (hdesc : chain_descending s tip)
    (hf : find s id = some uncle) (hlow : low ≤ uncle.m_sidechainHeight)
    (hhigh : uncle.m_sidechainHeight ≤ high)
    (hprev : ∀ u ∈ uncles, eligible_uncle s tip mined low high u) :
    ∃ uncles1, fill_candidate s block_height tip mined uncles id = some uncles1 ∧
      ∀ u ∈ uncles1, eligible_uncle s tip mined low high u := by
  unfold fill_candidate
  rw [hf]
  dsimp only
  split
  · exact ⟨uncles, rfl, hprev⟩
  rename_i hflags
  split
  · exact ⟨uncles, rfl, hprev⟩
  rename_i hmined
  obtain ⟨r, hr, htest⟩ := fill_same_chain_ok s block_height tip uncle htip hdesc
  rw [hr]
  cases r with
  | false => exact ⟨uncles, rfl, hprev⟩
  | true =>
    refine ⟨uncles ++ [uncle.m_sidechainId], rfl, ?_⟩
    intro u hu
    rcases List.mem_append.mp hu with hu | hu
    · exact hprev u hu
    · rw [List.mem_singleton.mp hu]
      simp only [Bool.or_eq_true, Bool.not_eq_true', not_or, Bool.not_eq_false,
        Bool.not_eq_true] at hflags
      have hid := find_some_id hf
      exact ⟨uncle, by rw [hid]; exact hf, hflags.1, hflags.2, hlow, hhigh, hmined,
        htest rfl⟩

theorem fill_bucket_ok (s : Store) (block_height : Nat) (tip : PoolBlock)
    (mined : List hash) (low high : Nat) (htip : tip ∈ s) (hdesc : chain_descending s tip) :
    ∀ (ids uncles : List hash),
      (∀ id ∈ ids, ∃ uncle, find s id = some uncle ∧ low ≤ uncle.m_sidechainHeight ∧
        uncle.m_sidechainHeight ≤ high) →
      (∀ u ∈ uncles, eligible_uncle s tip mined low high u) →
      ∃ uncles1, fill_bucket s block_height tip mined ids uncles = some uncles1 ∧
        ∀ u ∈ uncles1, eligible_uncle s tip mined low high u
  | [], uncles, _, hprev => ⟨uncles, rfl, hprev⟩
  | id :: rest, uncles, hids, hprev => by
    obtain ⟨uncle, hf, hlow, hhigh⟩ := hids id (List.mem_cons_self _ _)
    obtain ⟨uncles1, h1, hok1⟩ := fill_candidate_ok s block_height tip mined low high uncles
      id uncle htip hdesc hf hlow hhigh hprev
    obtain ⟨uncles2, h2, hok2⟩ := fill_bucket_ok s block_height tip mined low high htip hdesc
      rest uncles1 (fun x hx => hids x (List.mem_cons_of_mem _ hx)) hok1
    refine ⟨uncles2, ?_, hok2⟩
    rw [fill_bucket, h1]
    exact h2

theorem fill_heights_ok (m : List (Nat × List hash)) (s : Store) (block_height : Nat)
    (tip : PoolBlock) (mined : List hash) (low high : Nat) (htip : tip ∈ s)
    (hdesc : chain_descending s tip) :
    ∀ (is : List Nat) (uncles : List hash),
      (∀ i ∈ is, ∀ id ∈ bucket m (sub64 tip.m_sidechainHeight i),
        ∃ uncle, find s id = some uncle ∧ low ≤ uncle.m_sidechainHeight ∧
          uncle.m_sidechainHeight ≤ high) →
      (∀ u ∈ uncles, eligible_uncle s tip mined low high u) →
      ∃ uncles1, fill_heights m s block_height tip mined is uncles = some uncles1 ∧
        ∀ u ∈ uncles1, eligible_uncle s tip mined low high u
  | [], uncles, _, hprev => ⟨uncles, rfl, hprev⟩
  | i :: rest, uncles, his, hprev => by
    obtain ⟨uncles1, h1, hok1⟩ := fill_bucket_ok s block_height tip mined low high htip hdesc
      (bucket m (sub64 tip.m_sidechainHeight i)) uncles (his i (List.mem_cons_self _ _)) hprev
    obtain ⟨uncles2, h2, hok2⟩ := fill_heights_ok m s block_height tip mined low high htip
      hdesc rest uncles1 (fun x hx => his x (List.mem_cons_of_mem _ hx)) hok1
    refine ⟨uncles2, ?_, hok2⟩
    rw [fill_heights, h1]
    exact h2

/-- C23: on a side chain with a tip, where every id listed in `m_blocksByHeight` is that of
a stored block of that height, heights fall along the chain of the tip and the tip is
below `2^64 - 1`, `fill_sidechain_data` returns with parent = the tip's id, height = the
tip's height + 1, difficulty = `m_curDifficulty`, and an uncle list that is strictly
ascending, in which every uncle is a stored block that is verified and not invalid, at a
height from `tip.height - 2` to `tip.height`, is neither the tip nor one of its next two
ancestors nor listed among their uncles, and passes the same-chain test against the tip;
the cumulative difficulty is the 128-bit sum of the tip's cumulative difficulty, the
difficulty and the difficulties of the uncles. -/
theorem fill_sidechain_data_spec (cfg : Config) (sc : SideChain) (block : PoolBlock)
    (w : Wallet) (txkeySec : hash) (tip_id : hash) (tip : PoolBlock)
    (htip : sc.m_chainTip = some tip_id)
    (hfind : find sc.m_blocksById tip_id = some tip)
    (hlisted : listed_stored sc)
    (hdesc : chain_descending sc.m_blocksById tip)
    (h64 : tip.m_sidechainHeight + 1 < 2 ^ 64) :
    ∃ block1 shares, fill_sidechain_data cfg sc block w txkeySec = some (block1, shares) ∧
      block1.m_parent = tip.m_sidechainId ∧
      block1.m_sidechainHeight = tip.m_sidechainHeight + 1 ∧
      block1.m_difficulty = sc.m_curDifficulty ∧
      block1.m_uncles.Sorted (fun a b => a < b) ∧
      (∀ u ∈ block1.m_uncles, ∃ uncle, find sc.m_blocksById u = some uncle ∧
        uncle.m_verified = true ∧ uncle.m_invalid = false ∧
        tip.m_sidechainHeight - 2 ≤ uncle.m_sidechainHeight ∧
        uncle.m_sidechainHeight ≤ tip.m_sidechainHeight ∧
        (∀ a ∈ chain_window sc.m_blocksById 3 (some tip),
          u ≠ a.m_sidechainId ∧ u ∉ a.m_uncles) ∧
        common_ancestor_test sc.m_blocksById tip uncle) ∧
      uncle_sum (find sc.m_blocksById) block1.m_uncles
        (tip.m_cumulativeDifficulty.add block1.m_difficulty) =
          some block1.m_cumulativeDifficulty := by
  have hpow : (2 : Nat) ^ 64 = 18446744073709551616 := by norm_num
  have hadd : add64 tip.m_sidechainHeight 1 = tip.m_sidechainHeight + 1 := by
    unfold add64; exact Nat.mod_eq_of_lt h64
  have hmem : tip ∈ sc.m_blocksById := find_some_mem hfind
  have hbuckets : ∀ i ∈ List.range (min UNCLE_BLOCK_DEPTH (add64 tip.m_sidechainHeight 1)),
      ∀ id ∈ bucket sc.m_blocksByHeight (sub64 tip.m_sidechainHeight i),
        ∃ uncle, find sc.m_blocksById id = some uncle ∧
          tip.m_sidechainHeight - 2 ≤ uncle.m_sidechainHeight ∧
          uncle.m_sidechainHeight ≤ tip.m_sidechainHeight := by
    intro i hi id hid
    rw [List.mem_range, hadd] at hi
    unfold UNCLE_BLOCK_DEPTH at hi
    obtain ⟨e, he, hkey, hide⟩ := mem_bucket _ _ _ hid
    have hl := hlisted e he id hide
    cases hf : find sc.m_blocksById id with
    | none => rw [hf] at hl; cases hl
    | some uncle =>
      rw [hf] at hl
      simp only [Option.map_some', Option.some.injEq] at hl
      have hsub : sub64 tip.m_sidechainHeight i = tip.m_sidechainHeight - i := by
        unfold sub64
        rw [hpow] at h64 ⊢
        omega
      refine ⟨uncle, rfl, ?_, ?_⟩ <;> rw [hl, hkey, hsub] <;> omega
  obtain ⟨uncles, hfill, hok⟩ := fill_heights_ok sc.m_blocksByHeight sc.m_blocksById
    (add64 tip.m_sidechainHeight 1) tip
    (mined_blocks_walk sc.m_blocksById
      (min UNCLE_BLOCK_DEPTH (add64 tip.m_sidechainHeight 1)) (some tip))
    (tip.m_sidechainHeight - 2) tip.m_sidechainHeight hmem hdesc _ [] hbuckets
    (fun u hu => by cases hu)
  obtain ⟨hsorted, hsubset⟩ := sort_unique_spec uncles
  have hall : ∀ u ∈ sort_unique uncles, eligible_uncle sc.m_blocksById tip
      (mined_blocks_walk sc.m_blocksById
        (min UNCLE_BLOCK_DEPTH (add64 tip.m_sidechainHeight 1)) (some tip))
      (tip.m_sidechainHeight - 2) tip.m_sidechainHeight u :=
    fun u hu => hok u (hsubset u hu)
  have heq : fill_sidechain_data cfg sc block w txkeySec =
      some ({ block with
          m_minerWallet := w
          m_txkeySec := txkeySec
          m_parent := tip.m_sidechainId
          m_sidechainHeight := add64 tip.m_sidechainHeight 1
          m_uncles := sort_unique uncles
          m_difficulty := sc.m_curDifficulty
          m_cumulativeDifficulty :=
            fill_cumulative sc.m_blocksById (sort_unique uncles)
              (tip.m_cumulativeDifficulty.add sc.m_curDifficulty) },
        get_shares cfg sc.m_blocksById
          { block with
            m_minerWallet := w
            m_txkeySec := txkeySec
            m_parent := tip.m_sidechainId
            m_sidechainHeight := add64 tip.m_sidechainHeight 1
            m_uncles := sort_unique uncles
            m_difficulty := sc.m_curDifficulty
            m_cumulativeDifficulty :=
              fill_cumulative sc.m_blocksById (sort_unique uncles)
                (tip.m_cumulativeDifficulty.add sc.m_curDifficulty) }) := by
    unfold fill_sidechain_data
    rw [htip]
    dsimp only
    rw [hfind]
    dsimp only
    rw [hfill]
  refine ⟨_, _, heq, ?_⟩
  · refine ⟨rfl, hadd, rfl, hsorted, ?_, ?_⟩
    · intro u hu
      obtain ⟨uncle, hf, hv, hi, hlow, hhigh, hmined, htest⟩ := hall u hu
      refine ⟨uncle, hf, hv, hi, hlow, hhigh, ?_, htest⟩
      intro a ha
      rw [mined_blocks_walk_eq, chain_window_three _ tip hdesc h64, List.mem_flatMap] at hmined
      have hnot : u ∉ a.m_sidechainId :: a.m_uncles := fun hin => hmined ⟨a, ha, hin⟩
      rw [List.mem_cons, not_or] at hnot
      exact hnot
    · apply fill_cumulative_eq
      intro u hu
      obtain ⟨uncle, hf, _⟩ := hall u hu
      rw [hf]; rfl

theorem fill_sidechain_data_spec_witness :
    (sibling_state_a.m_chainTip = some 2 ∧
      find sibling_state_a.m_blocksById 2 =
        some { paid_block with
          m_verified := true, m_wantBroadcast := true, m_broadcasted := true } ∧
      listed_stored sibling_state_a ∧
      fill_sidechain_data default_config sibling_state_a new_genesis 15 8 =
        some ({ mk_block 1 2 [3] 2 { lo := 1000, hi := 0 } { lo := 4000, hi := 0 } 100 15
            false false with m_txkeySec := 8 },
          some [⟨1000, 11⟩, ⟨1000, 12⟩, ⟨800, 13⟩, ⟨1200, 15⟩])) ∧
    ∃ block1 shares,
      fill_sidechain_data default_config sibling_state_a new_genesis 15 8 =
        some (block1, shares) ∧
      block1.m_parent =
        ({ paid_block with
          m_verified := true, m_wantBroadcast := true, m_broadcasted := true } :
          PoolBlock).m_sidechainId ∧
      block1.m_sidechainHeight =
        ({ paid_block with
          m_verified := true, m_wantBroadcast := true, m_broadcasted := true } :
          PoolBlock).m_sidechainHeight + 1 ∧
      block1.m_difficulty = sibling_state_a.m_curDifficulty ∧
      block1.m_uncles.Sorted (fun a b => a < b) ∧
      (∀ u ∈ block1.m_uncles, ∃ uncle, find sibling_state_a.m_blocksById u = some uncle ∧
        uncle.m_verified = true ∧ uncle.m_invalid = false ∧
        ({ paid_block with
          m_verified := true, m_wantBroadcast := true, m_broadcasted := true } :
          PoolBlock).m_sidechainHeight - 2 ≤ uncle.m_sidechainHeight ∧
        uncle.m_sidechainHeight ≤
          ({ paid_block with
            m_verified := true, m_wantBroadcast := true, m_broadcasted := true } :
            PoolBlock).m_sidechainHeight ∧
        (∀ a ∈ chain_window sibling_state_a.m_blocksById 3
            (some { paid_block with
              m_verified := true, m_wantBroadcast := true, m_broadcasted := true }),
          u ≠ a.m_sidechainId ∧ u ∉ a.m_uncles) ∧
        common_ancestor_test sibling_state_a.m_blocksById
          { paid_block with
            m_verified := true, m_wantBroadcast := true, m_broadcasted := true } uncle) ∧
      uncle_sum (find sibling_state_a.m_blocksById) block1.m_uncles
        (({ paid_block with
            m_verified := true, m_wantBroadcast := true, m_broadcasted := true } :
            PoolBlock).m_cumulativeDifficulty.add block1.m_difficulty) =
          some block1.m_cumulativeDifficulty :=
  ⟨⟨rfl, by decide, by decide, by decide⟩,
    fill_sidechain_data_spec default_config sibling_state_a new_genesis 15 8 2
      { paid_block with m_verified := true, m_wantBroadcast := true, m_broadcasted := true }
      rfl (by decide) (by decide)
      (chain_descending_of_store _ _ (by decide) (by decide)) (by decide)⟩

/-! ## Theorems: the vectors of `m_blocksByHeight` in reachable states -/

theorem listed_stored_touches (cfg : Config) (sc sc1 : SideChain)
    (hm : sc1.m_blocksByHeight = sc.m_blocksByHeight)
    (ht : Touches cfg sc.m_blocksById sc1.m_blocksById) (h : listed_stored sc) :
    listed_stored sc1 := by
  intro e he id hid
  rw [hm] at he
  have hl := h e he id hid
  cases hf : find sc.m_blocksById id with
  | none => rw [hf] at hl; cases hl
  | some x =>
    rw [hf] at hl
    obtain ⟨y, hy, hle⟩ := touches_keeps cfg ht id x hf
    rw [hy]
    have hh : y.m_sidechainHeight = x.m_sidechainHeight := by
      have : x.immutable.m_sidechainHeight = y.immutable.m_sidechainHeight := by rw [hle.1]
      exact this.symm
    simp only [Option.map_some', Option.some.injEq] at hl ⊢
    rw [hh]; exact hl

theorem mem_bucket_push (m : List (Nat × List hash)) (height : Nat) (id : hash)
    (e : Nat × List hash) (he : e ∈ bucket_push m height id) :
    e ∈ m ∨ (e.1 = height ∧ ∀ x ∈ e.2, x = id ∨ ∃ e0 ∈ m, e0.1 = height ∧ x ∈ e0.2) := by
  unfold bucket_push at he
  split at he
  · rw [List.mem_map] at he
    obtain ⟨e0, he0, heq⟩ := he
    split at heq
    · rename_i hk
      right
      rw [← heq]
      refine ⟨hk, fun x hx => ?_⟩
      rcases List.mem_append.mp hx with hx | hx
      · exact Or.inr ⟨e0, he0, hk, hx⟩
      · exact Or.inl (List.mem_singleton.mp hx)
    · left; rw [← heq]; exact he0
  · rcases List.mem_append.mp he with he | he
    · exact Or.inl he
    · right
      rw [List.mem_singleton.mp he]
      exact ⟨rfl, fun x hx => Or.inl (List.mem_singleton.mp hx)⟩

theorem listed_stored_push (sc : SideChain) (block : PoolBlock)
    (hnew : find sc.m_blocksById block.m_sidechainId = none) (h : listed_stored sc) :
    listed_stored
      { sc with
        m_blocksById := sc.m_blocksById ++ [block]
        m_blocksByHeight :=
          bucket_push sc.m_blocksByHeight block.m_sidechainHeight block.m_sidechainId } := by
  have hold : ∀ e ∈ sc.m_blocksByHeight, ∀ id ∈ e.2,
      (find (sc.m_blocksById ++ [block]) id).map PoolBlock.m_sidechainHeight = some e.1 := by
    intro e he id hid
    have hl := h e he id hid
    cases hf : find sc.m_blocksById id with
    | none => rw [hf] at hl; cases hl
    | some x =>
      rw [find_append_of_some _ _ _ _ hf]
      rw [hf] at hl
      exact hl
  intro e he id hid
  dsimp only at he ⊢
  rcases mem_bucket_push _ _ _ e he with he | ⟨hk, hall⟩
  · exact hold e he id hid
  · rcases hall id hid with rfl | ⟨e0, he0, hk0, hid0⟩
    · rw [find_append_of_none _ _ _ hnew, if_pos rfl, hk]
      rfl
    · rw [hk, ← hk0]
      exact hold e0 he0 id hid0

theorem listed_stored_prune (cfg : Config) (sc sc2 : SideChain)
    (hp : prune_old_blocks cfg sc = some sc2) (h : listed_stored sc) : listed_stored sc2 := by
  unfold prune_old_blocks at hp
  split at hp
  · cases hp
  · cases ht : sc.m_chainTip with
    | none => rw [ht] at hp; cases hp
    | some tip_id =>
      rw [ht] at hp
      dsimp only at hp
      cases hf : find sc.m_blocksById tip_id with
      | none => rw [hf] at hp; cases hp
      | some tip =>
        rw [hf] at hp
        dsimp only at hp
        split at hp
        · cases hp; exact h
        · cases hp
          intro e he id hid
          dsimp only at he ⊢
          rw [List.mem_filter] at he
          obtain ⟨hem, hkey⟩ := he
          have hl := h e hem id hid
          rcases find_prune_fold _ id _ sc.m_blocksById with h1 | ⟨_, hvis, _⟩
          · rw [h1]; exact hl
          · exfalso
            rw [List.mem_flatMap] at hvis
            obtain ⟨e1, he1, hid1⟩ := hvis
            rw [List.mem_filter] at he1
            have hl1 := h e1 he1.1 id hid1
            rw [hl] at hl1
            simp only [Option.some.injEq] at hl1
            have hk1 := he1.2
            simp only [Bool.not_eq_true', decide_eq_false_iff_not, decide_eq_true_eq] at hkey hk1
            rw [hl1] at hkey
            exact hkey hk1

theorem listed_stored_update_chain_tip (cfg : Config) (pool : Pool) (sc sc1 : SideChain)
    (id : hash) (h : listed_stored sc) (hu : update_chain_tip cfg pool sc id = some sc1) :
    listed_stored sc1 := by
  rcases update_chain_tip_cases cfg pool sc sc1 id hu with
    ⟨s1, hs1, rfl⟩ | ⟨block, old, diff, sc2, _, _, _, _, _, _, hp, _, hsc1⟩
  · exact listed_stored_touches cfg sc _ rfl hs1 h
  · have h1 : listed_stored
        { sc with
          m_chainTip := some id
          m_curDifficulty := diff
          m_blocksById := set_want_broadcast sc.m_blocksById id } :=
      listed_stored_touches cfg sc _ rfl
        (Relation.ReflTransGen.single (TouchStep.want _ id)) h
    have h2 := listed_stored_prune cfg _ sc2 hp h1
    rcases hsc1 with rfl | rfl
    · exact h2
    · exact listed_stored_touches cfg sc2 _ rfl
        (Relation.ReflTransGen.single (TouchStep.broadcasted _ id)) h2

theorem listed_stored_add_block (cfg : Config) (pool : Pool) (fuel : Nat) (sc sc1 : SideChain)
    (block : PoolBlock) (h : listed_stored sc)
    (hadd : add_block cfg pool fuel sc block = some sc1) : listed_stored sc1 := by
  rcases add_block_cases cfg pool fuel sc sc1 block hadd with ⟨rfl, _⟩ | ⟨hnew, s1, hs1, hcase⟩
  · exact h
  · have hA : listed_stored
        { sc with
          m_blocksById := s1
          m_blocksByHeight :=
            bucket_push sc.m_blocksByHeight block.m_sidechainHeight block.m_sidechainId } :=
      listed_stored_touches cfg
        { sc with
          m_blocksById := sc.m_blocksById ++ [block]
          m_blocksByHeight :=
            bucket_push sc.m_blocksByHeight block.m_sidechainHeight block.m_sidechainId }
        _ rfl hs1 (listed_stored_push sc block hnew h)
    rcases hcase with rfl | ⟨id, hu⟩
    · exact hA
    · exact listed_stored_update_chain_tip cfg pool _ sc1 id hA hu

/-- In every state reachable through `add_block` and `add_external_block`, every id listed
in a vector of `m_blocksByHeight` is the id of a stored block whose height is the key of
the vector. -/
theorem listed_stored_reachable (cfg : Config) (pool : Pool) (sc : SideChain)
    (h : Reachable cfg pool sc) : listed_stored sc := by
  induction h with
  | refl => intro e he; cases he
  | tail _ hstep ih =>
    rcases hstep with ⟨fuel, block, h⟩ | ⟨fuel, block, missing, result, missing1, h⟩
    · exact listed_stored_add_block cfg pool fuel _ _ block ih h
    · rcases add_external_block_cases cfg pool fuel _ _ block missing missing1 result h with
        rfl | h2
      · exact ih
      · exact listed_stored_add_block cfg pool fuel _ _ block ih h2

/-! ## Theorems: `split_reward`, rounding -/

theorem take_succ_weight_sum (shares : List MinerShare) (k : Nat) (hk : k < shares.length) :
    ((shares.take (k + 1)).map MinerShare.m_weight).sum =
      ((shares.take k).map MinerShare.m_weight).sum + (shares.get ⟨k, hk⟩).m_weight := by
  rw [List.take_succ, List.getElem?_eq_getElem hk]
  simp only [Option.toList_some, List.map_append, List.sum_append, List.map_cons, List.map_nil,
    List.sum_cons, List.sum_nil, Nat.add_zero, List.get_eq_getElem]

theorem take_weight_sum_le (shares : List MinerShare) (k : Nat) :
    ((shares.take k).map MinerShare.m_weight).sum ≤ (shares.map MinerShare.m_weight).sum := by
  have h := congrArg (fun l => (l.map MinerShare.m_weight).sum) (List.take_append_drop k shares)
  simp only [List.map_append, List.sum_append] at h
  omega

theorem add_div_step (a b c : Nat) (hc : 0 < c) :
    b / c ≤ (a + b) / c - a / c ∧ (a + b) / c - a / c ≤ b / c + 1 := by
  rw [Nat.add_div hc]
  generalize a / c = x
  generalize b / c = y
  split <;> omega

/-- C34: for a 64-bit reward and a non-empty share list whose total weight is positive and
fits in 64 bits, `split_reward` succeeds with one reward per share; the `k`-th reward is the
difference of two consecutive prefix allocations, which are non-decreasing (the subtraction
does not wrap) and at most the reward (the quotient of the 128-by-64 division fits in 64
bits), and it lies between `floor(weight_k * reward / W_total)` and that value plus one. -/
theorem split_reward_within_one (reward : Nat) (shares : List MinerShare)
    (hr : reward < 2 ^ 64) (hne : shares ≠ [])
    (hpos : 0 < (shares.map MinerShare.m_weight).sum)
    (hfit : (shares.map MinerShare.m_weight).sum < 2 ^ 64) :
    ∃ rewards, split_reward reward shares = some (true, rewards) ∧
      rewards.length = shares.length ∧
      ∀ k (hk : k < shares.length), ∃ r, rewards[k]? = some r ∧
        prefixAlloc reward shares k ≤ prefixAlloc reward shares (k + 1) ∧
        prefixAlloc reward shares (k + 1) < 2 ^ 64 ∧
        r = prefixAlloc reward shares (k + 1) - prefixAlloc reward shares k ∧
        (shares.get ⟨k, hk⟩).m_weight * reward / (shares.map MinerShare.m_weight).sum ≤ r ∧
        r ≤ (shares.get ⟨k, hk⟩).m_weight * reward / (shares.map MinerShare.m_weight).sum + 1 := by
  have _ := hne
  refine ⟨_, split_reward_eq_allocs hr hpos hfit, allocs_length _ _ _ _, ?_⟩
  intro k hk
  refine ⟨_, allocs_getElem _ _ _ _ _ hk, ?_, ?_, ?_, ?_⟩
  · rw [prefixAlloc_eq, prefixAlloc_eq]
    apply Nat.div_le_div_right
    apply Nat.mul_le_mul_right
    rw [take_succ_weight_sum shares k hk]
    omega
  · rw [prefixAlloc_eq]
    exact lt_of_le_of_lt (quot_le_reward hpos (take_weight_sum_le shares (k + 1))) hr
  · rw [prefixAlloc_eq, prefixAlloc_eq]
    simp
  · simp only [Nat.zero_add]
    rw [take_succ_weight_sum shares k hk, Nat.add_mul]
    exact add_div_step _ _ _ hpos

theorem split_reward_within_one_witness :
    (100 < 2 ^ 64 ∧ ([⟨1, 1⟩, ⟨1, 2⟩, ⟨1, 3⟩] : List MinerShare) ≠ []) ∧
    ∃ rewards, split_reward 100 [⟨1, 1⟩, ⟨1, 2⟩, ⟨1, 3⟩] = some (true, rewards) ∧
      rewards.length = ([⟨1, 1⟩, ⟨1, 2⟩, ⟨1, 3⟩] : List MinerShare).length ∧
      ∀ k (hk : k < ([⟨1, 1⟩, ⟨1, 2⟩, ⟨1, 3⟩] : List MinerShare).length), ∃ r,
        rewards[k]? = some r ∧
        prefixAlloc 100 [⟨1, 1⟩, ⟨1, 2⟩, ⟨1, 3⟩] k ≤
          prefixAlloc 100 [⟨1, 1⟩, ⟨1, 2⟩, ⟨1, 3⟩] (k + 1) ∧
        prefixAlloc 100 [⟨1, 1⟩, ⟨1, 2⟩, ⟨1, 3⟩] (k + 1) < 2 ^ 64 ∧
        r = prefixAlloc 100 [⟨1, 1⟩, ⟨1, 2⟩, ⟨1, 3⟩] (k + 1) -
          prefixAlloc 100 [⟨1, 1⟩, ⟨1, 2⟩, ⟨1, 3⟩] k ∧
        (([⟨1, 1⟩, ⟨1, 2⟩, ⟨1, 3⟩] : List MinerShare).get ⟨k, hk⟩).m_weight * 100 /
          (([⟨1, 1⟩, ⟨1, 2⟩, ⟨1, 3⟩] : List MinerShare).map MinerShare.m_weight).sum ≤ r ∧
        r ≤ (([⟨1, 1⟩, ⟨1, 2⟩, ⟨1, 3⟩] : List MinerShare).get ⟨k, hk⟩).m_weight * 100 /
          (([⟨1, 1⟩, ⟨1, 2⟩, ⟨1, 3⟩] : List MinerShare).map MinerShare.m_weight).sum + 1 :=
  ⟨⟨by decide, by decide⟩,
    split_reward_within_one 100 [⟨1, 1⟩, ⟨1, 2⟩, ⟨1, 3⟩] (by decide) (by decide)
      (by decide) (by decide)⟩


/-! ## Theorems: `get_difficulty`, selection indices -/

theorem selection_indices (n : Nat) (h1 : 1 ≤ n) (h2 : n + 9 < 2 ^ 64) :
    cut_size n = (n + 9) / 10 ∧ index1 n = (n + 9) / 10 - 1 ∧ index2 n = n - (n + 9) / 10 := by
  have hc : cut_size n = (n + 9) / 10 := by
    unfold cut_size add64
    rw [Nat.mod_eq_of_lt h2]
  refine ⟨hc, ?_, ?_⟩
  · unfold index1
    rw [hc]
    unfold sub64
    omega
  · unfold index2
    rw [hc]
    unfold sub64
    omega

theorem toNat_sub_mod (a b : difficulty_type) (ha : a.lo < 2 ^ 64) (hb : b.lo < 2 ^ 64)
    (hle : a.toNat ≤ b.toNat) :
    sub64 b.lo a.lo = (b.toNat - a.toNat) % 2 ^ 64 := by
  unfold sub64
  unfold difficulty_type.toNat at *
  have h : a.hi ≤ b.hi := by
    by_contra hlt
    have : (b.hi + 1) * 2 ^ 64 ≤ a.hi * 2 ^ 64 := Nat.mul_le_mul_right _ (by omega)
    omega
  obtain ⟨k, hk⟩ := Nat.exists_eq_add_of_le h
  rw [hk, Nat.add_mul] at hle ⊢
  generalize a.hi * 2 ^ 64 = x at hle ⊢
  rw [Nat.mod_eq_of_lt ha]
  by_cases hlo : a.lo ≤ b.lo
  · have e1 : b.lo + (2 ^ 64 - a.lo) = (b.lo - a.lo) + 2 ^ 64 := by omega
    have e2 : x + k * 2 ^ 64 + b.lo - (x + a.lo) = (b.lo - a.lo) + 2 ^ 64 * k := by
      rw [Nat.mul_comm]; omega
    rw [e1, e2, Nat.add_mod_right, Nat.add_mul_mod_self_left]
  · have hk1 : 1 ≤ k := by
      by_contra h0
      have : k = 0 := by omega
      subst this
      omega
    obtain ⟨j, hj⟩ := Nat.exists_eq_add_of_le hk1
    have e2 : x + k * 2 ^ 64 + b.lo - (x + a.lo) = (b.lo + 2 ^ 64 - a.lo) + 2 ^ 64 * j := by
      rw [hj, Nat.add_mul, Nat.mul_comm j]; omega
    have e1 : b.lo + (2 ^ 64 - a.lo) = b.lo + 2 ^ 64 - a.lo := by omega
    rw [e1, e2, Nat.add_mul_mod_self_left]

/-- C37: for a non-empty vector of gathered entries (its size, 64-bit timestamps and low
words as the machine holds them) whose timestamps lie within `2^32` seconds of the oldest,
the 64-bit index computations of `get_difficulty` do not wrap, `index1 = cut - 1` and
`index2 = N - cut` are below the size with `index1 ≤ index2`, the two selected timestamps
satisfy `timestamp1 ≤ timestamp2`, some entry lies between them, the filtering loop ends
with `diff1 ≤ diff2`, and the 64-bit `delta_diff` is the full difference `diff2 - diff1`
reduced modulo `2^64`. -/
theorem get_difficulty_selection (data : List DifficultyData) (hne : data ≠ [])
    (hsize : data.length + 9 < 2 ^ 64)
    (hwf : ∀ d ∈ data, d.m_timestamp < 2 ^ 64 ∧ d.m_cumulativeDifficulty.lo < 2 ^ 64)
    (hspan : ∀ d ∈ data, d.m_timestamp < oldest_timestamp data + 2 ^ 32) :
    (1 ≤ cut_size data.length ∧ index1 data.length = cut_size data.length - 1 ∧
      index2 data.length = data.length - cut_size data.length ∧
      index1 data.length < data.length ∧ index2 data.length < data.length ∧
      index1 data.length ≤ index2 data.length) ∧
    trim_timestamps data =
      (add64 (oldest_timestamp data)
        (nth_element (data.map (fun d => sub64 d.m_timestamp (oldest_timestamp data) % 2 ^ 32))
          (index1 data.length)),
       add64 (oldest_timestamp data)
        (nth_element (data.map (fun d => sub64 d.m_timestamp (oldest_timestamp data) % 2 ^ 32))
          (index2 data.length))) ∧
    (trim_timestamps data).1 ≤ (trim_timestamps data).2 ∧
    (∃ d ∈ data, (trim_timestamps data).1 ≤ d.m_timestamp ∧
      d.m_timestamp ≤ (trim_timestamps data).2) ∧
    (diff_range (trim_timestamps data).1 (trim_timestamps data).2 data).1.toNat ≤
      (diff_range (trim_timestamps data).1 (trim_timestamps data).2 data).2.toNat ∧
    sub64 (diff_range (trim_timestamps data).1 (trim_timestamps data).2 data).2.lo
        (diff_range (trim_timestamps data).1 (trim_timestamps data).2 data).1.lo =
      ((diff_range (trim_timestamps data).1 (trim_timestamps data).2 data).2.toNat -
        (diff_range (trim_timestamps data).1 (trim_timestamps data).2 data).1.toNat) % 2 ^ 64 := by
  have hlen : 1 ≤ data.length := List.length_pos.2 hne
  obtain ⟨hc, hi1, hi2⟩ := selection_indices data.length hlen hsize
  have hpair : ∀ d ∈ data, ∀ e ∈ data, d.m_timestamp < e.m_timestamp + 2 ^ 32 := by
    intro d hd e he
    have := hspan d hd
    have := oldest_timestamp_le data e he
    omega
  have htrim := trim_timestamps_eq_spec data hne (fun d hd => (hwf d hd).1) hpair
  have hmem := nth_element_mem (data.map DifficultyData.m_timestamp)
    ((data.length + 9) / 10 - 1) (by simp; omega)
  obtain ⟨d, hd, hdt⟩ := List.mem_map.1 hmem
  have hmono := nth_element_mono (data.map DifficultyData.m_timestamp)
    ((data.length + 9) / 10 - 1) (data.length - (data.length + 9) / 10) (by omega)
    (by simp; omega)
  obtain ⟨hlo1, hlo2, hmin, hmax⟩ := diff_range_spec (spec_trim data).1 (spec_trim data).2 data
    (fun d hd => (hwf d hd).2)
  have hle : (diff_range (spec_trim data).1 (spec_trim data).2 data).1.toNat ≤
      (diff_range (spec_trim data).1 (spec_trim data).2 data).2.toNat := by
    rw [hmin, hmax]
    exact spec_kept_span data hne
  refine ⟨⟨?_, ?_, ?_, ?_, ?_, ?_⟩, ?_, ?_, ?_, ?_, ?_⟩
  · rw [hc]; omega
  · rw [hi1, hc]
  · rw [hi2, hc]
  · rw [hi1]; omega
  · rw [hi2]; omega
  · rw [hi1, hi2]; omega
  · rw [hi1, hi2]; rfl
  · rw [htrim]; exact hmono
  · rw [htrim]
    refine ⟨d, hd, ?_, ?_⟩
    · simp only [spec_trim]; rw [hdt]
    · simp only [spec_trim]; rw [hdt]; exact hmono
  · rw [htrim]; exact hle
  · rw [htrim]; exact toNat_sub_mod _ _ hlo1 hlo2 hle

theorem get_difficulty_selection_witness :
    (([⟨102, ⟨6000, 0⟩⟩, ⟨100, ⟨1000, 0⟩⟩] : List DifficultyData) ≠ [] ∧
      trim_timestamps [⟨102, ⟨6000, 0⟩⟩, ⟨100, ⟨1000, 0⟩⟩] = (100, 102)) ∧
    ((1 ≤ cut_size ([⟨102, ⟨6000, 0⟩⟩, ⟨100, ⟨1000, 0⟩⟩] : List DifficultyData).length ∧
      index1 ([⟨102, ⟨6000, 0⟩⟩, ⟨100, ⟨1000, 0⟩⟩] : List DifficultyData).length =
        cut_size ([⟨102, ⟨6000, 0⟩⟩, ⟨100, ⟨1000, 0⟩⟩] : List DifficultyData).length - 1 ∧
      index2 ([⟨102, ⟨6000, 0⟩⟩, ⟨100, ⟨1000, 0⟩⟩] : List DifficultyData).length =
        ([⟨102, ⟨6000, 0⟩⟩, ⟨100, ⟨1000, 0⟩⟩] : List DifficultyData).length -
          cut_size ([⟨102, ⟨6000, 0⟩⟩, ⟨100, ⟨1000, 0⟩⟩] : List DifficultyData).length ∧
      index1 ([⟨102, ⟨6000, 0⟩⟩, ⟨100, ⟨1000, 0⟩⟩] : List DifficultyData).length <
        ([⟨102, ⟨6000, 0⟩⟩, ⟨100, ⟨1000, 0⟩⟩] : List DifficultyData).length ∧
      index2 ([⟨102, ⟨6000, 0⟩⟩, ⟨100, ⟨1000, 0⟩⟩] : List DifficultyData).length <
        ([⟨102, ⟨6000, 0⟩⟩, ⟨100, ⟨1000, 0⟩⟩] : List DifficultyData).length ∧
      index1 ([⟨102, ⟨6000, 0⟩⟩, ⟨100, ⟨1000, 0⟩⟩] : List DifficultyData).length ≤
        index2 ([⟨102, ⟨6000, 0⟩⟩, ⟨100, ⟨1000, 0⟩⟩] : List DifficultyData).length) ∧
    trim_timestamps [⟨102, ⟨6000, 0⟩⟩, ⟨100, ⟨1000, 0⟩⟩] =
      (add64 (oldest_timestamp [⟨102, ⟨6000, 0⟩⟩, ⟨100, ⟨1000, 0⟩⟩])
        (nth_element (([⟨102, ⟨6000, 0⟩⟩, ⟨100, ⟨1000, 0⟩⟩] : List DifficultyData).map
          (fun d => sub64 d.m_timestamp
            (oldest_timestamp [⟨102, ⟨6000, 0⟩⟩, ⟨100, ⟨1000, 0⟩⟩]) % 2 ^ 32))
          (index1 ([⟨102, ⟨6000, 0⟩⟩, ⟨100, ⟨1000, 0⟩⟩] : List DifficultyData).length)),
       add64 (oldest_timestamp [⟨102, ⟨6000, 0⟩⟩, ⟨100, ⟨1000, 0⟩⟩])
        (nth_element (([⟨102, ⟨6000, 0⟩⟩, ⟨100, ⟨1000, 0⟩⟩] : List DifficultyData).map
          (fun d => sub64 d.m_timestamp
            (oldest_timestamp [⟨102, ⟨6000, 0⟩⟩, ⟨100, ⟨1000, 0⟩⟩]) % 2 ^ 32))
          (index2 ([⟨102, ⟨6000, 0⟩⟩, ⟨100, ⟨1000, 0⟩⟩] : List DifficultyData).length))) ∧
    (trim_timestamps [⟨102, ⟨6000, 0⟩⟩, ⟨100, ⟨1000, 0⟩⟩]).1 ≤
      (trim_timestamps [⟨102, ⟨6000, 0⟩⟩, ⟨100, ⟨1000, 0⟩⟩]).2 ∧
    (∃ d ∈ ([⟨102, ⟨6000, 0⟩⟩, ⟨100, ⟨1000, 0⟩⟩] : List DifficultyData),
      (trim_timestamps [⟨102, ⟨6000, 0⟩⟩, ⟨100, ⟨1000, 0⟩⟩]).1 ≤ d.m_timestamp ∧
      d.m_timestamp ≤ (trim_timestamps [⟨102, ⟨6000, 0⟩⟩, ⟨100, ⟨1000, 0⟩⟩]).2) ∧
    (diff_range (trim_timestamps [⟨102, ⟨6000, 0⟩⟩, ⟨100, ⟨1000, 0⟩⟩]).1
        (trim_timestamps [⟨102, ⟨6000, 0⟩⟩, ⟨100, ⟨1000, 0⟩⟩]).2
        [⟨102, ⟨6000, 0⟩⟩, ⟨100, ⟨1000, 0⟩⟩]).1.toNat ≤
      (diff_range (trim_timestamps [⟨102, ⟨6000, 0⟩⟩, ⟨100, ⟨1000, 0⟩⟩]).1
        (trim_timestamps [⟨102, ⟨6000, 0⟩⟩, ⟨100, ⟨1000, 0⟩⟩]).2
        [⟨102, ⟨6000, 0⟩⟩, ⟨100, ⟨1000, 0⟩⟩]).2.toNat ∧
    sub64 (diff_range (trim_timestamps [⟨102, ⟨6000, 0⟩⟩, ⟨100, ⟨1000, 0⟩⟩]).1
        (trim_timestamps [⟨102, ⟨6000, 0⟩⟩, ⟨100, ⟨1000, 0⟩⟩]).2
        [⟨102, ⟨6000, 0⟩⟩, ⟨100, ⟨1000, 0⟩⟩]).2.lo
      (diff_range (trim_timestamps [⟨102, ⟨6000, 0⟩⟩, ⟨100, ⟨1000, 0⟩⟩]).1
        (trim_timestamps [⟨102, ⟨6000, 0⟩⟩, ⟨100, ⟨1000, 0⟩⟩]).2
        [⟨102, ⟨6000, 0⟩⟩, ⟨100, ⟨1000, 0⟩⟩]).1.lo =
      ((diff_range (trim_timestamps [⟨102, ⟨6000, 0⟩⟩, ⟨100, ⟨1000, 0⟩⟩]).1
        (trim_timestamps [⟨102, ⟨6000, 0⟩⟩, ⟨100, ⟨1000, 0⟩⟩]).2
        [⟨102, ⟨6000, 0⟩⟩, ⟨100, ⟨1000, 0⟩⟩]).2.toNat -
       (diff_range (trim_timestamps [⟨102, ⟨6000, 0⟩⟩, ⟨100, ⟨1000, 0⟩⟩]).1
        (trim_timestamps [⟨102, ⟨6000, 0⟩⟩, ⟨100, ⟨1000, 0⟩⟩]).2
        [⟨102, ⟨6000, 0⟩⟩, ⟨100, ⟨1000, 0⟩⟩]).1.toNat) % 2 ^ 64) :=
  ⟨⟨by decide, by decide⟩,
    get_difficulty_selection [⟨102, ⟨6000, 0⟩⟩, ⟨100, ⟨1000, 0⟩⟩] (by decide) (by decide)
      (by decide) (by decide)⟩


/-! ## Theorems: `get_difficulty`, the overflow guard -/

theorem retarget_none_iff (cfg : Config) (D dt : Nat) (hD : D < 2 ^ 64)
    (hT : cfg.m_targetBlockTime < 2 ^ 64) :
    retarget cfg D dt = none ↔ dt ≤ D * cfg.m_targetBlockTime / 2 ^ 64 := by
  have hprod : D * cfg.m_targetBlockTime < 2 ^ 64 * 2 ^ 64 := Nat.mul_lt_mul'' hD hT
  have hhi : D * cfg.m_targetBlockTime / 2 ^ 64 < 2 ^ 64 := Nat.div_lt_of_lt_mul hprod
  have hp2 : (umul128 D cfg.m_targetBlockTime).2 = D * cfg.m_targetBlockTime / 2 ^ 64 := by
    unfold umul128
    simp only
    exact Nat.mod_eq_of_lt hhi
  unfold retarget
  simp only
  rw [hp2]
  by_cases h : dt ≤ D * cfg.m_targetBlockTime / 2 ^ 64
  · rw [if_pos h]; exact ⟨fun _ => h, fun _ => rfl⟩
  · rw [if_neg h]
    constructor
    · intro h2
      split at h2 <;> exact absurd h2 (by simp)
    · intro h2; exact absurd h2 h

/-- C31 (as stated) fails in both directions.  On `sharp_block` every block of the window is
stored, `Δd = 2^63` and `Δd * target_block_time = 60 * 2^64` is far below `2^128`, yet
`get_difficulty` fails (the high word 60 of the product is not below `Δt = 10`).  On
`vast_block` every block of the window is stored and `Δd * target_block_time =
120 * 2^126` does not fit in 128 bits, yet `get_difficulty` succeeds with 1000. -/
theorem get_difficulty_overflow_counterexample :
    (get_difficulty_walk small_config [genesis_block, sharp_block] sharp_block
        (small_config.m_chainWindowSize - 1) sharp_block =
        some [⟨110, ⟨1000 + 2 ^ 63, 0⟩⟩, ⟨100, ⟨1000, 0⟩⟩] ∧
      spec_delta_d [⟨110, ⟨1000 + 2 ^ 63, 0⟩⟩, ⟨100, ⟨1000, 0⟩⟩] = 2 ^ 63 ∧
      spec_delta_d [⟨110, ⟨1000 + 2 ^ 63, 0⟩⟩, ⟨100, ⟨1000, 0⟩⟩] *
        small_config.m_targetBlockTime < 2 ^ 128 ∧
      get_difficulty small_config [genesis_block, sharp_block] sharp_block = none) ∧
    (get_difficulty_walk small_config [genesis_block, vast_block] vast_block
        (small_config.m_chainWindowSize - 1) vast_block =
        some [⟨110, ⟨1000, 2 ^ 62⟩⟩, ⟨100, ⟨1000, 0⟩⟩] ∧
      spec_delta_d [⟨110, ⟨1000, 2 ^ 62⟩⟩, ⟨100, ⟨1000, 0⟩⟩] = 2 ^ 126 ∧
      2 ^ 128 ≤ spec_delta_d [⟨110, ⟨1000, 2 ^ 62⟩⟩, ⟨100, ⟨1000, 0⟩⟩] *
        small_config.m_targetBlockTime ∧
      get_difficulty small_config [genesis_block, vast_block] vast_block =
        some ⟨1000, 0⟩) := by
  decide

/-- C31 (amended): when the gathering walk of `get_difficulty` finds every block and uncle of
the window, the product of the 64-bit `delta_diff = diff2.lo - diff1.lo` with the 64-bit
target block time always fits in 128 bits, and `get_difficulty` fails exactly when the high
word of that product is at least `delta_t`, that is, exactly when the quotient
`floor(delta_diff * target_block_time / delta_t)` does not fit in 64 bits; otherwise it
succeeds. -/
theorem get_difficulty_fails_iff (cfg : Config) (s : Store) (tip : PoolBlock)
    (data : List DifficultyData)
    (hwalk : get_difficulty_walk cfg s tip (cfg.m_chainWindowSize - 1) tip = some data)
    (hT : cfg.m_targetBlockTime < 2 ^ 64) :
    sub64 (diff_range (trim_timestamps data).1 (trim_timestamps data).2 data).2.lo
        (diff_range (trim_timestamps data).1 (trim_timestamps data).2 data).1.lo *
      cfg.m_targetBlockTime < 2 ^ 128 ∧
    (get_difficulty cfg s tip = none ↔
      (if (trim_timestamps data).1 < (trim_timestamps data).2
        then (trim_timestamps data).2 - (trim_timestamps data).1 else 1) ≤
      sub64 (diff_range (trim_timestamps data).1 (trim_timestamps data).2 data).2.lo
          (diff_range (trim_timestamps data).1 (trim_timestamps data).2 data).1.lo *
        cfg.m_targetBlockTime / 2 ^ 64) ∧
    (get_difficulty cfg s tip = none ↔
      2 ^ 64 ≤
      sub64 (diff_range (trim_timestamps data).1 (trim_timestamps data).2 data).2.lo
          (diff_range (trim_timestamps data).1 (trim_timestamps data).2 data).1.lo *
        cfg.m_targetBlockTime /
      (if (trim_timestamps data).1 < (trim_timestamps data).2
        then (trim_timestamps data).2 - (trim_timestamps data).1 else 1)) ∧
    (get_difficulty cfg s tip ≠ none → ∃ d, get_difficulty cfg s tip = some d) := by
  have hD := sub64_lt (diff_range (trim_timestamps data).1 (trim_timestamps data).2 data).2.lo
    (diff_range (trim_timestamps data).1 (trim_timestamps data).2 data).1.lo
  have hprod := Nat.mul_lt_mul'' hD hT
  have hiff := retarget_none_iff cfg _
    (if (trim_timestamps data).1 < (trim_timestamps data).2
        then (trim_timestamps data).2 - (trim_timestamps data).1 else 1) hD hT
  have hg : get_difficulty cfg s tip = retarget cfg
      (sub64 (diff_range (trim_timestamps data).1 (trim_timestamps data).2 data).2.lo
        (diff_range (trim_timestamps data).1 (trim_timestamps data).2 data).1.lo)
      (if (trim_timestamps data).1 < (trim_timestamps data).2
        then (trim_timestamps data).2 - (trim_timestamps data).1 else 1) := by
    unfold get_difficulty
    rw [hwalk]
    rfl
  have hdt : 0 < (if (trim_timestamps data).1 < (trim_timestamps data).2
        then (trim_timestamps data).2 - (trim_timestamps data).1 else 1) := by
    split <;> omega
  refine ⟨?_, ?_, ?_, ?_⟩
  · calc _ < 2 ^ 64 * 2 ^ 64 := hprod
      _ = 2 ^ 128 := by norm_num
  · rw [hg]; exact hiff
  · rw [hg, hiff, Nat.le_div_iff_mul_le hdt, Nat.le_div_iff_mul_le (by norm_num), Nat.mul_comm]
  · intro h
    cases hq : get_difficulty cfg s tip with
    | none => exact absurd hq h
    | some d => exact ⟨d, rfl⟩

theorem get_difficulty_fails_iff_witness :
    get_difficulty_walk small_config [genesis_block, steep_block] steep_block
      (small_config.m_chainWindowSize - 1) steep_block =
      some [⟨102, ⟨6000, 0⟩⟩, ⟨100, ⟨1000, 0⟩⟩] ∧
    get_difficulty small_config [genesis_block, steep_block] steep_block =
      some ⟨300000, 0⟩ ∧
    (sub64 (diff_range (trim_timestamps [⟨102, ⟨6000, 0⟩⟩, ⟨100, ⟨1000, 0⟩⟩]).1
          (trim_timestamps [⟨102, ⟨6000, 0⟩⟩, ⟨100, ⟨1000, 0⟩⟩]).2
          [⟨102, ⟨6000, 0⟩⟩, ⟨100, ⟨1000, 0⟩⟩]).2.lo
        (diff_range (trim_timestamps [⟨102, ⟨6000, 0⟩⟩, ⟨100, ⟨1000, 0⟩⟩]).1
          (trim_timestamps [⟨102, ⟨6000, 0⟩⟩, ⟨100, ⟨1000, 0⟩⟩]).2
          [⟨102, ⟨6000, 0⟩⟩, ⟨100, ⟨1000, 0⟩⟩]).1.lo *
      small_config.m_targetBlockTime < 2 ^ 128 ∧
    (get_difficulty small_config [genesis_block, steep_block] steep_block = none ↔
      (if (trim_timestamps [⟨102, ⟨6000, 0⟩⟩, ⟨100, ⟨1000, 0⟩⟩]).1 <
          (trim_timestamps [⟨102, ⟨6000, 0⟩⟩, ⟨100, ⟨1000, 0⟩⟩]).2
        then (trim_timestamps [⟨102, ⟨6000, 0⟩⟩, ⟨100, ⟨1000, 0⟩⟩]).2 -
          (trim_timestamps [⟨102, ⟨6000, 0⟩⟩, ⟨100, ⟨1000, 0⟩⟩]).1 else 1) ≤
      sub64 (diff_range (trim_timestamps [⟨102, ⟨6000, 0⟩⟩, ⟨100, ⟨1000, 0⟩⟩]).1
            (trim_timestamps [⟨102, ⟨6000, 0⟩⟩, ⟨100, ⟨1000, 0⟩⟩]).2
            [⟨102, ⟨6000, 0⟩⟩, ⟨100, ⟨1000, 0⟩⟩]).2.lo
          (diff_range (trim_timestamps [⟨102, ⟨6000, 0⟩⟩, ⟨100, ⟨1000, 0⟩⟩]).1
            (trim_timestamps [⟨102, ⟨6000, 0⟩⟩, ⟨100, ⟨1000, 0⟩⟩]).2
            [⟨102, ⟨6000, 0⟩⟩, ⟨100, ⟨1000, 0⟩⟩]).1.lo *
        small_config.m_targetBlockTime / 2 ^ 64) ∧
    (get_difficulty small_config [genesis_block, steep_block] steep_block = none ↔
      2 ^ 64 ≤
      sub64 (diff_range (trim_timestamps [⟨102, ⟨6000, 0⟩⟩, ⟨100, ⟨1000, 0⟩⟩]).1
            (trim_timestamps [⟨102, ⟨6000, 0⟩⟩, ⟨100, ⟨1000, 0⟩⟩]).2
            [⟨102, ⟨6000, 0⟩⟩, ⟨100, ⟨1000, 0⟩⟩]).2.lo
          (diff_range (trim_timestamps [⟨102, ⟨6000, 0⟩⟩, ⟨100, ⟨1000, 0⟩⟩]).1
            (trim_timestamps [⟨102, ⟨6000, 0⟩⟩, ⟨100, ⟨1000, 0⟩⟩]).2
            [⟨102, ⟨6000, 0⟩⟩, ⟨100, ⟨1000, 0⟩⟩]).1.lo *
        small_config.m_targetBlockTime /
      (if (trim_timestamps [⟨102, ⟨6000, 0⟩⟩, ⟨100, ⟨1000, 0⟩⟩]).1 <
          (trim_timestamps [⟨102, ⟨6000, 0⟩⟩, ⟨100, ⟨1000, 0⟩⟩]).2
        then (trim_timestamps [⟨102, ⟨6000, 0⟩⟩, ⟨100, ⟨1000, 0⟩⟩]).2 -
          (trim_timestamps [⟨102, ⟨6000, 0⟩⟩, ⟨100, ⟨1000, 0⟩⟩]).1 else 1)) ∧
    (get_difficulty small_config [genesis_block, steep_block] steep_block ≠ none →
      ∃ d, get_difficulty small_config [genesis_block, steep_block] steep_block = some d)) :=
  ⟨by decide, by decide,
    get_difficulty_fails_iff small_config [genesis_block, steep_block] steep_block
      [⟨102, ⟨6000, 0⟩⟩, ⟨100, ⟨1000, 0⟩⟩] (by decide) (by decide)⟩


/-! ## Theorems: `prune_old_blocks`, what is removed -/

theorem find_prune_fold_none (pd : Nat) (id : hash) (ids : List hash) (s : Store)
    (h : find s id = none) : find (ids.foldl (prune_block pd) s) id = none := by
  rcases find_prune_fold pd id ids s with g | ⟨g, _⟩
  · rw [g]; exact h
  · exact g

theorem find_prune_fold_deep (pd : Nat) (id : hash) (b : PoolBlock) (hd : pd ≤ b.m_depth) :
    ∀ (ids : List hash) (s : Store), id ∈ ids → find s id = some b →
      find (ids.foldl (prune_block pd) s) id = none
  | [], _, hmem, _ => by simp at hmem
  | x :: rest, s, hmem, hb => by
    rw [List.foldl_cons]
    by_cases hx : x = id
    · apply find_prune_fold_none
      subst hx
      unfold prune_block
      rw [hb]
      dsimp only
      rw [if_neg (by omega), find_erase_block, if_pos rfl]
    · have hrest : id ∈ rest := by
        rcases List.mem_cons.1 hmem with h | h
        · exact absurd h.symm hx
        · exact h
      rcases find_prune_block pd s x id with g | ⟨g, _⟩
      · exact find_prune_fold_deep pd id b hd rest _ hrest (by rw [g]; exact hb)
      · exact find_prune_fold_none pd id rest _ g

theorem bucket_mem_entry (m : List (Nat × List hash)) (k : Nat) (id : hash)
    (h : id ∈ bucket m k) : ∃ e ∈ m, e.1 = k ∧ id ∈ e.2 := by
  unfold bucket at h
  cases hf : m.find? (fun e => decide (e.1 = k)) with
  | none => rw [hf] at h; simp at h
  | some e =>
    rw [hf] at h
    refine ⟨e, List.mem_of_find?_eq_some hf, ?_, h⟩
    have := List.find?_some hf
    simpa using this

/-- C32 (as stated) fails: under `small_config` (`W = 60`, prune distance
`2·W + 120/T = 121`) three `add_block` calls give the genesis block depth 120 and move the
tip to height 150; `prune_old_blocks` then runs with cutoff `h = 29`, and the genesis block
(height 0, depth `120 = 2·W`) is still stored afterwards. -/
theorem prune_old_blocks_counterexample :
    (add_block small_config idle_pool 2 (empty_sidechain small_config) genesis_block =
        some (first_tip genesis_block { lo := 1000, hi := 0 }) ∧
      add_block small_config idle_pool 2 (first_tip genesis_block { lo := 1000, hi := 0 })
        side_block = some side_state ∧
      add_block small_config idle_pool 2 side_state high_block =
        some { ripe_pruned with
          m_blocksById := set_broadcasted ripe_pruned.m_blocksById 8 }) ∧
    (prune_old_blocks small_config ripe_state = some ripe_pruned ∧
      ripe_state.m_chainTip = some 8 ∧
      (find ripe_state.m_blocksById 8).map PoolBlock.m_sidechainHeight = some 150 ∧
      150 - (small_config.m_chainWindowSize * 2 + 120 / small_config.m_targetBlockTime) = 29) ∧
    ∃ b, find ripe_pruned.m_blocksById 1 = some b ∧ b.m_sidechainHeight ≤ 29 ∧
      small_config.m_chainWindowSize * 2 ≤ b.m_depth := by
  refine ⟨⟨by decide, by decide, by decide⟩, ⟨by decide, by decide, by decide, by decide⟩,
    _, rfl, by decide, by decide⟩

/-- C32 (amended): when `prune_old_blocks` runs with a tip at height at least the prune
distance `2·W + 120/T` (cutoff `h = tip.height - (2·W + 120/T)`), every stored block of
height at most `h` that is listed in the `m_blocksByHeight` vector of its height and whose
depth is at least the prune distance `2·W + 120/T` is removed from `m_blocksById`. -/
theorem prune_old_blocks_removes (cfg : Config) (sc sc1 : SideChain) (tip_id : hash)
    (tip : PoolBlock) (id : hash) (b : PoolBlock)
    (htip : sc.m_chainTip = some tip_id) (hfind : find sc.m_blocksById tip_id = some tip)
    (hrun : prune_old_blocks cfg sc = some sc1)
    (hge : prune_distance cfg ≤ tip.m_sidechainHeight)
    (hb : find sc.m_blocksById id = some b)
    (hlisted : id ∈ bucket sc.m_blocksByHeight b.m_sidechainHeight)
    (hlow : b.m_sidechainHeight ≤ tip.m_sidechainHeight - prune_distance cfg)
    (hdeep : prune_distance cfg ≤ b.m_depth) :
    find sc1.m_blocksById id = none := by
  unfold prune_distance at hge hlow hdeep
  unfold prune_old_blocks at hrun
  by_cases hT : cfg.m_targetBlockTime = 0
  · rw [if_pos hT] at hrun; cases hrun
  · rw [if_neg hT] at hrun
    simp only [htip, hfind] at hrun
    rw [if_neg (by omega)] at hrun
    cases hrun
    dsimp only
    apply find_prune_fold_deep _ id b hdeep _ _ _ hb
    obtain ⟨e, he, hk, hide⟩ := bucket_mem_entry _ _ _ hlisted
    rw [List.mem_flatMap]
    refine ⟨e, ?_, hide⟩
    rw [List.mem_filter]
    refine ⟨he, ?_⟩
    rw [hk]
    simpa using hlow

theorem prune_old_blocks_removes_witness :
    (aged_state.m_chainTip = some 9 ∧
      find aged_state.m_blocksById 9 = some (mk_block 9 8 [] 150 { lo := 1000, hi := 0 }
        { lo := 151000, hi := 0 } 18100 11 true false) ∧
      prune_old_blocks small_config aged_state = some { aged_state with
        m_blocksById := aged_state.m_blocksById.tail
        m_blocksByHeight := [(150, [9])] } ∧
      find aged_state.m_blocksById 1 = some { genesis_block with m_depth := 150 }) ∧
    find ({ aged_state with
        m_blocksById := aged_state.m_blocksById.tail
        m_blocksByHeight := [(150, [9])] } : SideChain).m_blocksById 1 = none :=
  ⟨⟨by decide, by decide, by decide, by decide⟩,
    prune_old_blocks_removes small_config aged_state _ 9
      (mk_block 9 8 [] 150 { lo := 1000, hi := 0 } { lo := 151000, hi := 0 } 18100 11 true false)
      1 { genesis_block with m_depth := 150 } (by decide) (by decide) (by decide) (by decide)
      (by decide) (by decide) (by decide) (by decide)⟩


/-! ## Theorems: `get_shares`, totals -/

theorem map_le_sum {α : Type} (f : α → Nat) : ∀ (l : List α) (x : α), x ∈ l →
    f x ≤ (l.map f).sum
  | [], _, h => by simp at h
  | y :: ys, x, h => by
    rw [List.map_cons, List.sum_cons]
    rcases List.mem_cons.1 h with rfl | h
    · omega
    · have := map_le_sum f ys x h
      omega

theorem sum_map_le_sum_map {α : Type} (f g : α → Nat) : ∀ (l : List α),
    (∀ x ∈ l, f x ≤ g x) → (l.map f).sum ≤ (l.map g).sum
  | [], _ => Nat.le_refl _
  | y :: ys, h => by
    rw [List.map_cons, List.sum_cons, List.map_cons, List.sum_cons]
    have := h y (List.mem_cons_self _ _)
    have := sum_map_le_sum_map f g ys (fun x hx => h x (List.mem_cons_of_mem _ hx))
    omega

theorem window_of_mem_store (cfg : Config) (s : Store) (tip : PoolBlock) (us : List hash)
    (u : PoolBlock) (hu : u ∈ window_of cfg s tip us) : u ∈ s := by
  have := (List.mem_filter.1 hu).1
  obtain ⟨id, _, hid⟩ := List.mem_filterMap.1 this
  exact find_some_mem hid

theorem spec_penalty_le (cfg : Config) (u : PoolBlock) (hU : cfg.m_unclePenalty ≤ 100) :
    spec_penalty cfg u ≤ u.m_difficulty.lo := by
  unfold spec_penalty
  calc u.m_difficulty.lo * cfg.m_unclePenalty / 100
      ≤ u.m_difficulty.lo * 100 / 100 := Nat.div_le_div_right (Nat.mul_le_mul_left _ hU)
    _ = u.m_difficulty.lo := Nat.mul_div_cancel _ (by norm_num)

theorem spec_penalty_lt (cfg : Config) (u : PoolBlock) (hU : cfg.m_unclePenalty ≤ 99)
    (hu : 1 ≤ u.m_difficulty.lo) : spec_penalty cfg u < u.m_difficulty.lo := by
  unfold spec_penalty
  apply Nat.div_lt_of_lt_mul
  have : u.m_difficulty.lo * cfg.m_unclePenalty ≤ u.m_difficulty.lo * 99 :=
    Nat.mul_le_mul_left _ hU
  omega

/-- The penalties and the remainders of a list of uncles add up to their difficulties. -/
theorem penalty_split_sum (cfg : Config) (hU : cfg.m_unclePenalty ≤ 100) :
    ∀ l : List PoolBlock,
      (l.map (spec_penalty cfg)).sum + ((l.map (uncle_share cfg)).map MinerShare.m_weight).sum =
        (l.map (fun u => u.m_difficulty.lo)).sum
  | [] => rfl
  | u :: l => by
    have := penalty_split_sum cfg hU l
    have := spec_penalty_le cfg u hU
    simp only [List.map_cons, List.sum_cons, uncle_share]
    omega

theorem filter_remainder_le (cfg : Config) (w : Wallet) : ∀ l : List PoolBlock,
    ((l.filter (fun u => decide (u.m_minerWallet = w))).map
      (fun u => u.m_difficulty.lo - spec_penalty cfg u)).sum ≤
      ((l.map (uncle_share cfg)).map MinerShare.m_weight).sum
  | [] => Nat.le_refl _
  | u :: l => by
    have ih := filter_remainder_le cfg w l
    by_cases h : u.m_minerWallet = w
    · rw [List.filter_cons_of_pos (by simpa using h)]
      simp only [List.map_cons, List.sum_cons, uncle_share]
      omega
    · rw [List.filter_cons_of_neg (by simpa using h)]
      simp only [List.map_cons, List.sum_cons, uncle_share]
      omega

/-- What one visited block contributes to any one wallet is at most its difficulty plus the
difficulties of its in-window uncles. -/
theorem spec_block_weight_le (cfg : Config) (s : Store) (tip : PoolBlock) (w : Wallet)
    (b : PoolBlock) (hU : cfg.m_unclePenalty ≤ 100) :
    spec_block_weight cfg s tip w b ≤
      b.m_difficulty.lo + ((window_uncles cfg s tip b).map (fun u => u.m_difficulty.lo)).sum := by
  unfold spec_block_weight
  have h1 := penalty_split_sum cfg hU (window_uncles cfg s tip b)
  have h2 := filter_remainder_le cfg w (window_uncles cfg s tip b)
  split <;> omega

theorem sum_flatMap_map {α β : Type} (f : α → List β) (g : β → Nat) : ∀ l : List α,
    ((l.flatMap f).map g).sum = (l.map (fun a => ((f a).map g).sum)).sum
  | [] => rfl
  | a :: l => by
    rw [List.flatMap_cons, List.map_append, List.sum_append, sum_flatMap_map f g l,
      List.map_cons, List.sum_cons]

theorem spec_total_weight_eq (cfg : Config) (s : Store) (tip : PoolBlock) :
    spec_total_weight cfg s tip =
      ((visited s (cfg.m_chainWindowSize - 1) tip).map (fun b =>
        b.m_difficulty.lo +
          ((window_uncles cfg s tip b).map (fun u => u.m_difficulty.lo)).sum)).sum := by
  unfold spec_total_weight
  rw [sum_flatMap_map, List.sum_map_add]

theorem spec_weight_le_total (cfg : Config) (s : Store) (tip : PoolBlock) (w : Wallet)
    (hU : cfg.m_unclePenalty ≤ 100) :
    spec_weight cfg s tip w ≤ spec_total_weight cfg s tip := by
  rw [spec_total_weight_eq]
  unfold spec_weight
  exact sum_map_le_sum_map _ _ _ (fun b _ => spec_block_weight_le cfg s tip w b hU)

/-- One visited block whose own 64-bit sum does not wrap: the shares pushed for it, exactly. -/
theorem block_shares_exact (cfg : Config) (s : Store) (tip cur : PoolBlock)
    (hU : cfg.m_unclePenalty ≤ 100) (hs : ∀ b ∈ s, b.m_difficulty.lo < 2 ^ 64)
    (hcur : cur.m_difficulty.lo < 2 ^ 64)
    (hfit : cur.m_difficulty.lo +
      ((window_uncles cfg s tip cur).map (spec_penalty cfg)).sum < 2 ^ 64)
    (cs1 : MinerShare) (ush : List MinerShare)
    (h : get_shares_uncles cfg s tip cur.m_uncles
      { m_weight := cur.m_difficulty.lo, m_wallet := cur.m_minerWallet } = some (cs1, ush)) :
    (∀ w, wallet_sum w (ush ++ [cs1]) = spec_block_weight cfg s tip w cur) ∧
    ((ush ++ [cs1]).map MinerShare.m_weight).sum =
      cur.m_difficulty.lo +
        ((window_uncles cfg s tip cur).map (fun u => u.m_difficulty.lo)).sum := by
  obtain ⟨h1, h2, h3, h4⟩ := get_shares_uncles_spec cfg s tip hU hs _ _ _ _ h
  simp only at h1 h2 h3
  have hwin : window_of cfg s tip cur.m_uncles = window_uncles cfg s tip cur := rfl
  rw [hwin] at h2 h4
  have h5 := h3 hcur
  rw [Nat.mod_eq_of_lt h5, Nat.mod_eq_of_lt hfit] at h2
  constructor
  · intro w
    rw [wallet_sum_append, wallet_sum_cons, h4, wallet_sum_uncle_shares]
    unfold spec_block_weight
    simp only [wallet_sum, List.filter_nil, List.map_nil, List.sum_nil, Nat.add_zero, h1]
    by_cases hw : cur.m_minerWallet = w
    · rw [if_pos hw, if_pos hw]
      omega
    · rw [if_neg hw, if_neg hw]
      omega
  · have := penalty_split_sum cfg hU (window_uncles cfg s tip cur)
    rw [List.map_append, List.sum_append, h4]
    simp only [List.map_cons, List.map_nil, List.sum_cons, List.sum_nil, Nat.add_zero]
    omega

theorem get_shares_walk_exact (cfg : Config) (s : Store) (tip : PoolBlock)
    (hU : cfg.m_unclePenalty ≤ 100) (hs : ∀ b ∈ s, b.m_difficulty.lo < 2 ^ 64) :
    ∀ (n : Nat) (cur : PoolBlock) (raw : List MinerShare), cur.m_difficulty.lo < 2 ^ 64 →
      get_shares_walk cfg s tip n cur = some raw →
      (∀ b ∈ visited s n cur, b.m_difficulty.lo +
        ((window_uncles cfg s tip b).map (spec_penalty cfg)).sum < 2 ^ 64) →
      (∀ w, wallet_sum w raw = ((visited s n cur).map (spec_block_weight cfg s tip w)).sum) ∧
      (raw.map MinerShare.m_weight).sum =
        ((visited s n cur).map (fun b => b.m_difficulty.lo +
          ((window_uncles cfg s tip b).map (fun u => u.m_difficulty.lo)).sum)).sum := by
  intro n
  induction n with
  | zero =>
    intro cur raw hcur h hfit
    unfold get_shares_walk at h
    cases hu : get_shares_uncles cfg s tip cur.m_uncles
        { m_weight := cur.m_difficulty.lo, m_wallet := cur.m_minerWallet } with
    | none => rw [hu] at h; exact absurd h (by simp)
    | some r =>
      obtain ⟨cs1, ush⟩ := r
      rw [hu] at h
      simp only [Option.some.injEq] at h
      subst h
      obtain ⟨b1, b2⟩ := block_shares_exact cfg s tip cur hU hs hcur
        (hfit cur (by simp [visited])) cs1 ush hu
      refine ⟨?_, ?_⟩
      · intro w; simp only [visited, List.map_cons, List.map_nil, List.sum_cons, List.sum_nil,
          Nat.add_zero]; exact b1 w
      · simp only [visited, List.map_cons, List.map_nil, List.sum_cons, List.sum_nil,
          Nat.add_zero]; exact b2
  | succ n ih =>
    intro cur raw hcur h hfit
    unfold get_shares_walk at h
    cases hu : get_shares_uncles cfg s tip cur.m_uncles
        { m_weight := cur.m_difficulty.lo, m_wallet := cur.m_minerWallet } with
    | none => rw [hu] at h; exact absurd h (by simp)
    | some r =>
      obtain ⟨cs1, ush⟩ := r
      rw [hu] at h
      simp only at h
      by_cases hg : cur.m_sidechainHeight = 0
      · rw [if_pos hg] at h
        simp only [Option.some.injEq] at h
        subst h
        obtain ⟨b1, b2⟩ := block_shares_exact cfg s tip cur hU hs hcur
          (hfit cur (by simp [visited, hg])) cs1 ush hu
        refine ⟨?_, ?_⟩
        · intro w; simp only [visited, hg, if_true, List.map_cons, List.map_nil, List.sum_cons,
            List.sum_nil, Nat.add_zero]; exact b1 w
        · simp only [visited, hg, if_true, List.map_cons, List.map_nil, List.sum_cons,
            List.sum_nil, Nat.add_zero]; exact b2
      · rw [if_neg hg] at h
        cases hp : find s cur.m_parent with
        | none => rw [hp] at h; exact absurd h (by simp)
        | some parent =>
          rw [hp] at h
          simp only at h
          cases hr : get_shares_walk cfg s tip n parent with
          | none => rw [hr] at h; exact absurd h (by simp)
          | some rest =>
            rw [hr] at h
            simp only [Option.some.injEq] at h
            subst h
            have hv : visited s (n + 1) cur = cur :: visited s n parent := by
              simp only [visited, hg, if_false, hp]
            rw [hv] at hfit ⊢
            obtain ⟨b1, b2⟩ := block_shares_exact cfg s tip cur hU hs hcur
              (hfit cur (List.mem_cons_self _ _)) cs1 ush hu
            obtain ⟨r1, r2⟩ := ih parent rest (hs parent (find_some_mem hp)) hr
              (fun b hb => hfit b (List.mem_cons_of_mem _ hb))
            refine ⟨?_, ?_⟩
            · intro w
              rw [wallet_sum_append, List.map_cons, List.sum_cons, b1 w, r1 w]
            · rw [List.map_append, List.sum_append, b2, r2, List.map_cons, List.sum_cons]

theorem wallet_sum_le_sum (w : Wallet) : ∀ l : List MinerShare,
    wallet_sum w l ≤ (l.map MinerShare.m_weight).sum
  | [] => Nat.le_refl _
  | sh :: l => by
    have := wallet_sum_le_sum w l
    rw [wallet_sum_cons, List.map_cons, List.sum_cons]
    split <;> omega

/-- The merging loop creates or destroys no weight when no per-wallet sum wraps. -/
theorem combine_shares_sum : ∀ (rest : List MinerShare) (acc : MinerShare),
    (∀ w, wallet_sum w (acc :: rest) < 2 ^ 64) →
    ((combine_shares acc rest).map MinerShare.m_weight).sum =
      ((acc :: rest).map MinerShare.m_weight).sum := by
  intro rest
  induction rest with
  | nil => intro acc _; rfl
  | cons x rest ih =>
    intro acc hfit
    unfold combine_shares
    by_cases he : x.m_wallet = acc.m_wallet
    · rw [if_pos he]
      have hsum : acc.m_weight + x.m_weight < 2 ^ 64 := by
        have := hfit acc.m_wallet
        rw [wallet_sum_cons, if_pos rfl, wallet_sum_cons, if_pos he] at this
        omega
      have hadd : add64 acc.m_weight x.m_weight = acc.m_weight + x.m_weight :=
        add64_of_lt hsum
      rw [ih _ (by
        intro w
        have := hfit w
        rw [wallet_sum_cons, wallet_sum_cons] at this
        rw [wallet_sum_cons]
        simp only [hadd]
        rw [he] at this
        by_cases hc : acc.m_wallet = w
        · rw [if_pos hc] at this ⊢
          rw [if_pos hc] at this
          omega
        · rw [if_neg hc] at this ⊢
          rw [if_neg hc] at this
          omega)]
      simp only [List.map_cons, List.sum_cons, hadd]
      omega
    · rw [if_neg he]
      rw [List.map_cons, List.sum_cons, ih x (by
        intro w
        have := hfit w
        rw [wallet_sum_cons] at this
        omega)]
      simp only [List.map_cons, List.sum_cons]

/-- The shares `get_shares` returns when no per-wallet weight exceeds 64 bits: merging keeps
the total of the pushed shares, and that total is the exact sum of the difficulties of the
visited blocks and their in-window uncles. -/
theorem get_shares_total_eq (cfg : Config) (s : Store) (tip : PoolBlock)
    (shares : List MinerShare)
    (hU : cfg.m_unclePenalty ≤ 100)
    (hs : ∀ b ∈ s, b.m_difficulty.lo < 2 ^ 64) (htip : tip.m_difficulty.lo < 2 ^ 64)
    (hfit : ∀ w, spec_weight cfg s tip w < 2 ^ 64)
    (h : get_shares cfg s tip = some shares) :
    ∃ raw, get_shares_walk cfg s tip (cfg.m_chainWindowSize - 1) tip = some raw ∧
      (shares.map MinerShare.m_weight).sum = (raw.map MinerShare.m_weight).sum ∧
      (raw.map MinerShare.m_weight).sum = spec_total_weight cfg s tip := by
  obtain ⟨raw, first, rest, hwalk, hsort, rfl⟩ := get_shares_eq cfg s tip shares h
  have hblock : ∀ b ∈ visited s (cfg.m_chainWindowSize - 1) tip, b.m_difficulty.lo +
      ((window_uncles cfg s tip b).map (spec_penalty cfg)).sum < 2 ^ 64 := by
    intro b hb
    have h1 : spec_block_weight cfg s tip b.m_minerWallet b ≤
        spec_weight cfg s tip b.m_minerWallet :=
      map_le_sum (spec_block_weight cfg s tip b.m_minerWallet) _ b hb
    have h2 := hfit b.m_minerWallet
    unfold spec_block_weight at h1
    rw [if_pos rfl] at h1
    omega
  obtain ⟨w1, w2⟩ := get_shares_walk_exact cfg s tip hU hs _ tip raw htip hwalk hblock
  have hperm : (first :: rest).Perm raw := by rw [← hsort]; exact sort_shares_perm raw
  refine ⟨raw, hwalk, ?_, ?_⟩
  · rw [combine_shares_sum rest first (by
      intro w
      rw [wallet_sum_perm w hperm, w1 w]
      exact hfit w)]
    exact (hperm.map _).sum_eq
  · rw [w2, spec_total_weight_eq]

/-- The weight `get_shares` returns for a wallet, modulo `2^64`, and the wallets it
returns. -/
theorem get_shares_weights_parts (cfg : Config) (s : Store) (tip : PoolBlock)
    (shares : List MinerShare)
    (hU : cfg.m_unclePenalty ≤ 100)
    (hs : ∀ b ∈ s, b.m_difficulty.lo < 2 ^ 64) (htip : tip.m_difficulty.lo < 2 ^ 64)
    (h : get_shares cfg s tip = some shares) :
    (∀ sh ∈ shares, sh.m_weight = spec_weight cfg s tip sh.m_wallet % 2 ^ 64 ∧
      spec_contributes cfg s tip sh.m_wallet = true) ∧
    (∀ w, spec_contributes cfg s tip w = true → ∃ sh ∈ shares, sh.m_wallet = w) := by
  obtain ⟨raw, first, rest, hwalk, hsort, rfl⟩ := get_shares_eq cfg s tip shares h
  obtain ⟨w1, w2, w3, _⟩ := get_shares_walk_spec cfg s tip hU hs _ tip raw htip hwalk
  have hperm : (first :: rest).Perm raw := by rw [← hsort]; exact sort_shares_perm raw
  have hsorted : (first :: rest).Sorted (fun a b => a.m_wallet ≤ b.m_wallet) := by
    rw [← hsort]; exact sort_shares_sorted raw
  obtain ⟨_, _, c3, c4⟩ := combine_shares_spec rest first hsorted
    (fun sh hsh => w3 sh (hperm.mem_iff.1 hsh))
  have hmem : ∀ w, (∃ sh ∈ combine_shares first rest, sh.m_wallet = w) ↔
      spec_contributes cfg s tip w = true := by
    intro w
    rw [c4 w, spec_contributes_iff, ← w2 w]
    constructor
    · rintro ⟨sh, hsh, hw⟩; exact ⟨sh, hperm.mem_iff.1 hsh, hw⟩
    · rintro ⟨sh, hsh, hw⟩; exact ⟨sh, hperm.mem_iff.2 hsh, hw⟩
  refine ⟨?_, fun w hw => (hmem w).2 hw⟩
  intro sh hsh
  refine ⟨?_, (hmem sh.m_wallet).1 ⟨sh, hsh, rfl⟩⟩
  rw [c3 sh hsh, wallet_sum_perm _ hperm, w1]
  rfl

/-- C35: with an uncle penalty of at most 100 percent and 64-bit difficulty words, when
`get_shares(tip)` succeeds and no 64-bit sum wraps (the full weight of every wallet fits in
64 bits), the weights it returns add up to the sum of `difficulty.lo` over the visited
blocks plus the sum of `difficulty.lo` over their in-window uncles: merging by wallet keeps
the total of the pushed shares, and the penalties only move weight between them. -/
theorem get_shares_total (cfg : Config) (s : Store) (tip : PoolBlock)
    (shares : List MinerShare)
    (hU : cfg.m_unclePenalty ≤ 100)
    (hs : ∀ b ∈ s, b.m_difficulty.lo < 2 ^ 64) (htip : tip.m_difficulty.lo < 2 ^ 64)
    (hfit : ∀ w, spec_weight cfg s tip w < 2 ^ 64)
    (h : get_shares cfg s tip = some shares) :
    (shares.map MinerShare.m_weight).sum = spec_total_weight cfg s tip ∧
    ∃ raw, get_shares_walk cfg s tip (cfg.m_chainWindowSize - 1) tip = some raw ∧
      (shares.map MinerShare.m_weight).sum = (raw.map MinerShare.m_weight).sum := by
  obtain ⟨raw, h1, h2, h3⟩ := get_shares_total_eq cfg s tip shares hU hs htip hfit h
  exact ⟨by rw [h2, h3], raw, h1, h2⟩

theorem get_shares_total_witness :
    get_shares default_config [genesis_block, block_1a, block_1b, block_2] block_2 =
      some [⟨1000, 11⟩, ⟨1000, 12⟩, ⟨800, 13⟩, ⟨1200, 14⟩] ∧
    spec_total_weight default_config [genesis_block, block_1a, block_1b, block_2] block_2 =
      4000 ∧
    (([⟨1000, 11⟩, ⟨1000, 12⟩, ⟨800, 13⟩, ⟨1200, 14⟩] : List MinerShare).map
        MinerShare.m_weight).sum =
      spec_total_weight default_config [genesis_block, block_1a, block_1b, block_2] block_2 ∧
    ∃ raw, get_shares_walk default_config [genesis_block, block_1a, block_1b, block_2] block_2
        (default_config.m_chainWindowSize - 1) block_2 = some raw ∧
      (([⟨1000, 11⟩, ⟨1000, 12⟩, ⟨800, 13⟩, ⟨1200, 14⟩] : List MinerShare).map
        MinerShare.m_weight).sum = (raw.map MinerShare.m_weight).sum :=
  ⟨by decide, by decide,
    get_shares_total default_config [genesis_block, block_1a, block_1b, block_2] block_2
      [⟨1000, 11⟩, ⟨1000, 12⟩, ⟨800, 13⟩, ⟨1200, 14⟩] (by decide) (by decide) (by decide)
      (fun w => lt_of_le_of_lt
        (spec_weight_le_total default_config [genesis_block, block_1a, block_1b, block_2]
          block_2 w (by decide)) (by decide))
      (by decide)⟩

/-- C36 (as stated) fails: in the store `[heavy_genesis, heavy_block]` every block has
`difficulty.lo = 2^63 ≥ 1` and the uncle penalty is 20, yet `get_shares` returns the single
weight 0 for wallet 11 (the 64-bit sum `2^63 + 2^63` wraps), the total weight handed to
`split_reward` is 0, and `split_reward` divides by zero. -/
theorem get_shares_positive_counterexample :
    (∀ b ∈ [heavy_genesis, heavy_block], 1 ≤ b.m_difficulty.lo) ∧
    (1 ≤ default_config.m_unclePenalty ∧ default_config.m_unclePenalty ≤ 99) ∧
    get_shares default_config [heavy_genesis, heavy_block] heavy_block = some [⟨0, 11⟩] ∧
    total_weight [⟨0, 11⟩] = 0 ∧
    split_reward 1000 [⟨0, 11⟩] = none := by
  decide

/-- C36 (amended): with an uncle penalty in 1..99, 64-bit difficulty words of at least 1 on
every block and uncle in the window, and a total of these difficulties that fits in 64 bits
(so that no 64-bit sum wraps), when `get_shares(tip)` succeeds each uncle penalty
`floor(d * U / 100)` is computed without truncation and is strictly smaller than the
uncle's `d` (the subtraction does not wrap), the result is non-empty, every returned weight
is positive, and the 64-bit total weight handed to `split_reward` is the exact total and
is non-zero. -/
theorem get_shares_positive (cfg : Config) (s : Store) (tip : PoolBlock)
    (shares : List MinerShare)
    (hU1 : 1 ≤ cfg.m_unclePenalty) (hU : cfg.m_unclePenalty ≤ 99)
    (hs : ∀ b ∈ s, b.m_difficulty.lo < 2 ^ 64) (htip : tip.m_difficulty.lo < 2 ^ 64)
    (hpos : ∀ b ∈ visited s (cfg.m_chainWindowSize - 1) tip, 1 ≤ b.m_difficulty.lo ∧
      ∀ u ∈ window_uncles cfg s tip b, 1 ≤ u.m_difficulty.lo)
    (hfit : spec_total_weight cfg s tip < 2 ^ 64)
    (h : get_shares cfg s tip = some shares) :
    (∀ b ∈ visited s (cfg.m_chainWindowSize - 1) tip, ∀ u ∈ window_uncles cfg s tip b,
      uncle_penalty cfg u = u.m_difficulty.lo * cfg.m_unclePenalty / 100 ∧
      uncle_penalty cfg u < u.m_difficulty.lo ∧
      sub64 u.m_difficulty.lo (uncle_penalty cfg u) =
        u.m_difficulty.lo - uncle_penalty cfg u ∧
      0 < sub64 u.m_difficulty.lo (uncle_penalty cfg u)) ∧
    shares ≠ [] ∧
    (∀ sh ∈ shares, 0 < sh.m_weight) ∧
    total_weight shares = spec_total_weight cfg s tip ∧
    total_weight shares ≠ 0 := by
  have _ := hU1
  have hU100 : cfg.m_unclePenalty ≤ 100 := by omega
  have hw : ∀ w, spec_weight cfg s tip w < 2 ^ 64 := fun w =>
    lt_of_le_of_lt (spec_weight_le_total cfg s tip w hU100) hfit
  obtain ⟨raw, _, h2, h3⟩ := get_shares_total_eq cfg s tip shares hU100 hs htip hw h
  obtain ⟨g1, _⟩ := get_shares_weights_parts cfg s tip shares hU100 hs htip h
  have htotal : total_weight shares = spec_total_weight cfg s tip := by
    rw [total_weight_eq, h2, h3, Nat.mod_eq_of_lt hfit]
  have htip_mem : tip ∈ visited s (cfg.m_chainWindowSize - 1) tip := by
    cases cfg.m_chainWindowSize - 1 with
    | zero => simp [visited]
    | succ n =>
      unfold visited
      split
      · simp
      · split <;> simp
  refine ⟨?_, ?_, ?_, htotal, ?_⟩
  · intro b hb u hu
    have hus := hs u (window_of_mem_store cfg s tip _ u hu)
    obtain ⟨e1, _⟩ := uncle_penalty_eq cfg u hU100 hus
    have hlt := spec_penalty_lt cfg u hU ((hpos b hb).2 u hu)
    rw [e1]
    have hsub : sub64 u.m_difficulty.lo (spec_penalty cfg u) =
        u.m_difficulty.lo - spec_penalty cfg u := sub64_of_le (Nat.le_of_lt hlt) hus
    refine ⟨rfl, hlt, hsub, ?_⟩
    rw [hsub]
    omega
  · intro hnil
    subst hnil
    have h5 := map_le_sum (fun b => b.m_difficulty.lo +
      ((window_uncles cfg s tip b).map (fun u => u.m_difficulty.lo)).sum) _ tip htip_mem
    rw [← spec_total_weight_eq, ← h3, ← h2] at h5
    have := (hpos tip htip_mem).1
    simp only [List.map_nil, List.sum_nil] at h5
    omega
  · intro sh hsh
    obtain ⟨e1, e2⟩ := g1 sh hsh
    rw [e1, Nat.mod_eq_of_lt (hw sh.m_wallet)]
    rw [spec_contributes_iff] at e2
    obtain ⟨b, hb, hbw⟩ := e2
    have hle : spec_block_weight cfg s tip sh.m_wallet b ≤ spec_weight cfg s tip sh.m_wallet :=
      map_le_sum (spec_block_weight cfg s tip sh.m_wallet) _ b hb
    refine lt_of_lt_of_le ?_ hle
    unfold spec_block_weight
    rcases hbw with hbw | ⟨u, hu, huw⟩
    · rw [if_pos hbw]
      have := (hpos b hb).1
      omega
    · have hlt := spec_penalty_lt cfg u hU ((hpos b hb).2 u hu)
      have hmem : u ∈ (window_uncles cfg s tip b).filter
          (fun u => decide (u.m_minerWallet = sh.m_wallet)) :=
        List.mem_filter.2 ⟨hu, by simpa using huw⟩
      have h6 := map_le_sum (fun u => u.m_difficulty.lo - spec_penalty cfg u) _ u hmem
      simp only at h6
      omega
  · rw [htotal]
    have h5 := map_le_sum (fun b => b.m_difficulty.lo +
      ((window_uncles cfg s tip b).map (fun u => u.m_difficulty.lo)).sum) _ tip htip_mem
    rw [← spec_total_weight_eq] at h5
    simp only at h5
    have := (hpos tip htip_mem).1
    omega

theorem get_shares_positive_witness :
    get_shares default_config [genesis_block, block_1a, block_1b, block_2] block_2 =
      some [⟨1000, 11⟩, ⟨1000, 12⟩, ⟨800, 13⟩, ⟨1200, 14⟩] ∧
    (∀ b ∈ visited [genesis_block, block_1a, block_1b, block_2]
        (default_config.m_chainWindowSize - 1) block_2,
      ∀ u ∈ window_uncles default_config [genesis_block, block_1a, block_1b, block_2] block_2 b,
      uncle_penalty default_config u =
        u.m_difficulty.lo * default_config.m_unclePenalty / 100 ∧
      uncle_penalty default_config u < u.m_difficulty.lo ∧
      sub64 u.m_difficulty.lo (uncle_penalty default_config u) =
        u.m_difficulty.lo - uncle_penalty default_config u ∧
      0 < sub64 u.m_difficulty.lo (uncle_penalty default_config u)) ∧
    ([⟨1000, 11⟩, ⟨1000, 12⟩, ⟨800, 13⟩, ⟨1200, 14⟩] : List MinerShare) ≠ [] ∧
    (∀ sh ∈ ([⟨1000, 11⟩, ⟨1000, 12⟩, ⟨800, 13⟩, ⟨1200, 14⟩] : List MinerShare),
      0 < sh.m_weight) ∧
    total_weight [⟨1000, 11⟩, ⟨1000, 12⟩, ⟨800, 13⟩, ⟨1200, 14⟩] =
      spec_total_weight default_config [genesis_block, block_1a, block_1b, block_2] block_2 ∧
    total_weight [⟨1000, 11⟩, ⟨1000, 12⟩, ⟨800, 13⟩, ⟨1200, 14⟩] ≠ 0 :=
  ⟨by decide,
    get_shares_positive default_config [genesis_block, block_1a, block_1b, block_2] block_2
      [⟨1000, 11⟩, ⟨1000, 12⟩, ⟨800, 13⟩, ⟨1200, 14⟩] (by decide) (by decide) (by decide)
      (by decide) (by decide) (by decide) (by decide)⟩


/-! ## Theorems: `is_longer_chain` is asymmetric -/

theorem get_parent_mem {s : Store} {b p : PoolBlock} (h : get_parent s b = some p) : p ∈ s :=
  find_some_mem h

theorem lt_asymm_difficulty (a b : difficulty_type) (h1 : a.lt b = true) (h2 : b.lt a = true) :
    False := by
  simp only [difficulty_type.lt, Bool.or_eq_true, Bool.and_eq_true, decide_eq_true_eq] at h1 h2
  omega

theorem common_parent_walk_comm (s : Store) : ∀ (n : Nat) (x y : Option PoolBlock),
    common_parent_walk s n x y = common_parent_walk s n y x
  | n, none, none => by cases n <;> rfl
  | n, none, some _ => by cases n <;> rfl
  | n, some _, none => by cases n <;> rfl
  | 0, some _, some _ => rfl
  | n + 1, some x, some y => by
    unfold common_parent_walk
    by_cases h : x.m_parent = y.m_parent
    · rw [if_pos h, if_pos h.symm]
    · rw [if_neg h, if_neg (fun h2 => h h2.symm)]
      exact common_parent_walk_comm s n _ _

/-- Along height-consistent parent links the levelling loop stops exactly at the height it
was asked for. -/
theorem walk_to_height_exact (s : Store) (hcons : parents_consistent s) (height : Nat) :
    ∀ (fuel : Nat) (tmp x : PoolBlock), tmp ∈ s → height ≤ tmp.m_sidechainHeight →
      walk_to_height s height fuel tmp = some (some x) → x.m_sidechainHeight = height := by
  intro fuel
  induction fuel with
  | zero =>
    intro tmp x _ hle h
    unfold walk_to_height at h
    by_cases hlt : height < tmp.m_sidechainHeight
    · rw [if_pos hlt] at h; cases h
    · rw [if_neg hlt] at h
      cases h
      omega
  | succ fuel ih =>
    intro tmp x hmem hle h
    unfold walk_to_height at h
    by_cases hlt : height < tmp.m_sidechainHeight
    · rw [if_pos hlt] at h
      simp only at h
      cases hp : get_parent s tmp with
      | none => rw [hp] at h; cases h
      | some p =>
        rw [hp] at h
        simp only at h
        have hh := hcons tmp hmem p hp
        exact ih p x (get_parent_mem hp) (by omega) h
    · rw [if_neg hlt] at h
      cases h
      omega

theorem walk_to_height_stay (s : Store) (height fuel : Nat) (tmp : PoolBlock)
    (h : tmp.m_sidechainHeight ≤ height) :
    walk_to_height s height fuel tmp = some (some tmp) := by
  unfold walk_to_height
  rw [if_neg (by omega)]

/-- The search for a common ancestor gives the same answer in both directions when the
first block is at least as high as the second. -/
theorem same_chain_search_comm_of_le (s : Store) (hcons : parents_consistent s)
    (a b : PoolBlock) (ha : a ∈ s) (hle : b.m_sidechainHeight ≤ a.m_sidechainHeight) :
    same_chain_search s a b = same_chain_search s b a := by
  unfold same_chain_search
  rw [walk_to_height_stay s a.m_sidechainHeight _ b hle]
  simp only
  cases hw : walk_to_height s b.m_sidechainHeight (s.length + 1) a with
  | none => rfl
  | some r =>
    cases r with
    | none =>
      simp only
      cases hn : (s.length + 1) * (s.length + 1) <;> rfl
    | some x =>
      simp only
      have hx := walk_to_height_exact s hcons _ _ a x ha hle hw
      rw [walk_to_height_stay s x.m_sidechainHeight _ b (by omega)]
      simp only
      exact common_parent_walk_comm s _ _ _

theorem same_chain_search_comm (s : Store) (hcons : parents_consistent s)
    (a b : PoolBlock) (ha : a ∈ s) (hb : b ∈ s) :
    same_chain_search s a b = same_chain_search s b a := by
  rcases Nat.le_total b.m_sidechainHeight a.m_sidechainHeight with h | h
  · exact same_chain_search_comm_of_le s hcons a b ha h
  · exact (same_chain_search_comm_of_le s hcons b a hb h).symm

theorem chain_totals_step_diffs (pool : Pool) (s : Store) (t : ChainTotals) :
    (chain_totals_step pool s t).block_total_diff =
        t.old_chain.toList.foldl (fun acc b => acc.add b.m_difficulty) t.block_total_diff ∧
      (chain_totals_step pool s t).old_chain = t.old_chain.bind (get_parent s) ∧
      (chain_totals_step pool s t).candidate_total_diff =
        t.new_chain.toList.foldl (fun acc b => acc.add b.m_difficulty)
          t.candidate_total_diff ∧
      (chain_totals_step pool s t).new_chain = t.new_chain.bind (get_parent s) := by
  obtain ⟨bt, ct, old, new, cmh, mpid⟩ := t
  cases new with
  | none => cases old <;> simp [chain_totals_step]
  | some nb =>
    by_cases hne : nb.m_prevId = mpid
    · cases old <;> simp [chain_totals_step, hne]
    · cases hr : pool.chainmain_get_by_hash nb.m_prevId with
      | none => cases old <;> simp [chain_totals_step, hne, hr]
      | some h => cases old <;> simp [chain_totals_step, hne, hr]

/-- The two totals of the `for` loop of `is_longer_chain`: each is the 128-bit sum of
`difficulty` over the first `n` blocks of its own chain. -/
theorem chain_totals_loop_diffs (pool : Pool) (s : Store) : ∀ (n : Nat) (t : ChainTotals),
    (chain_totals_loop pool s n t).block_total_diff =
        (chain_window s n t.old_chain).foldl (fun acc b => acc.add b.m_difficulty)
          t.block_total_diff ∧
      (chain_totals_loop pool s n t).candidate_total_diff =
        (chain_window s n t.new_chain).foldl (fun acc b => acc.add b.m_difficulty)
          t.candidate_total_diff
  | 0, t => by simp [chain_totals_loop, chain_window]
  | n + 1, t => by
    unfold chain_totals_loop
    by_cases hc : (t.old_chain.isSome || t.new_chain.isSome) = true
    · rw [if_pos hc]
      obtain ⟨h1, h2, h3, h4⟩ := chain_totals_step_diffs pool s t
      obtain ⟨g1, g2⟩ := chain_totals_loop_diffs pool s n (chain_totals_step pool s t)
      rw [g1, g2, h1, h2, h3, h4, chain_window_succ, chain_window_succ,
        List.foldl_append, List.foldl_append]
      exact ⟨rfl, rfl⟩
    · rw [if_neg hc]
      have ho : t.old_chain = none := by
        cases h : t.old_chain with
        | none => rfl
        | some b => rw [h] at hc; simp at hc
      have hn : t.new_chain = none := by
        cases h : t.new_chain with
        | none => rfl
        | some b => rw [h] at hc; simp at hc
      rw [ho, hn]
      simp [chain_window]

theorem longer_by_total_lt (cfg : Config) (pool : Pool) (s : Store) (a b : PoolBlock)
    (h : longer_by_total cfg pool s a b = true) :
    (chain_difficulty (chain_window s cfg.m_chainWindowSize (some a))).lt
      (chain_difficulty (chain_window s cfg.m_chainWindowSize (some b))) = true := by
  unfold longer_by_total at h
  obtain ⟨g1, g2⟩ := chain_totals_loop_diffs pool s cfg.m_chainWindowSize
    { block_total_diff := { lo := 0, hi := 0 }
      candidate_total_diff := { lo := 0, hi := 0 }
      old_chain := some a
      new_chain := some b
      candidate_mainchain_height := 0
      mainchain_prev_id := 0 }
  simp only [g1, g2] at h
  unfold chain_difficulty
  by_contra hn
  rw [if_pos (by simpa using hn)] at h
  cases h

theorem is_longer_chain_true_cases (cfg : Config) (pool : Pool) (s : Store) (a b : PoolBlock)
    (h : is_longer_chain cfg pool s (some a) (some b) = some true) :
    (same_chain_search s a b = some true ∧
      a.m_cumulativeDifficulty.lt b.m_cumulativeDifficulty = true) ∨
    (same_chain_search s a b = some false ∧ longer_by_total cfg pool s a b = true) := by
  unfold is_longer_chain at h
  simp only at h
  split at h
  · cases h
  · cases hs : same_chain_search s a b with
    | none => rw [hs] at h; cases h
    | some r =>
      rw [hs] at h
      cases r with
      | true =>
        simp only [Option.some.injEq] at h
        exact Or.inl ⟨rfl, h⟩
      | false =>
        simp only [Option.some.injEq] at h
        exact Or.inr ⟨rfl, h⟩

/-- C38: in a store whose parent links are height-consistent, for stored blocks `a` and
`b` (verified and valid or not) and one base-chain view `pool`, `is_longer_chain(a, b)` and
`is_longer_chain(b, a)` are not both true, and `is_longer_chain(a, a)` returns false. -/
theorem is_longer_chain_asymm (cfg : Config) (pool : Pool) (s : Store) (a b : PoolBlock)
    (hcons : parents_consistent s) (ha : a ∈ s) (hb : b ∈ s) :
    ¬ (is_longer_chain cfg pool s (some a) (some b) = some true ∧
        is_longer_chain cfg pool s (some b) (some a) = some true) ∧
    is_longer_chain cfg pool s (some a) (some a) = some false := by
  constructor
  · rintro ⟨h1, h2⟩
    have hcomm := same_chain_search_comm s hcons a b ha hb
    rcases is_longer_chain_true_cases cfg pool s a b h1 with ⟨e1, l1⟩ | ⟨e1, l1⟩ <;>
      rcases is_longer_chain_true_cases cfg pool s b a h2 with ⟨e2, l2⟩ | ⟨e2, l2⟩
    · exact lt_asymm_difficulty _ _ l1 l2
    · rw [hcomm, e2] at e1; cases e1
    · rw [hcomm, e2] at e1; cases e1
    · exact lt_asymm_difficulty _ _ (longer_by_total_lt cfg pool s a b l1)
        (longer_by_total_lt cfg pool s b a l2)
  · have hsearch : same_chain_search s a a = some true := by
      have hfuel : (s.length + 1) * (s.length + 1) =
          ((s.length + 1) * s.length + s.length) + 1 := by ring
      have hwalk : common_parent_walk s ((s.length + 1) * (s.length + 1)) (some a) (some a) =
          some true := by
        rw [hfuel]
        unfold common_parent_walk
        rw [if_pos rfl]
      unfold same_chain_search
      rw [walk_to_height_stay s a.m_sidechainHeight _ a (Nat.le_refl _)]
      simp only
      rw [walk_to_height_stay s a.m_sidechainHeight _ a (Nat.le_refl _)]
      exact hwalk
    unfold is_longer_chain
    simp only [hsearch]
    split
    · rfl
    · have : a.m_cumulativeDifficulty.lt a.m_cumulativeDifficulty = false := by
        simp [difficulty_type.lt]
      rw [this]

theorem is_longer_chain_asymm_witness :
    (is_longer_chain default_config idle_pool [genesis_block, block_1a, block_1b, block_2]
        (some genesis_block) (some block_1a) = some true ∧
      is_longer_chain default_config idle_pool [genesis_block, block_1a, block_1b, block_2]
        (some block_1a) (some genesis_block) = some false) ∧
    ¬ (is_longer_chain default_config idle_pool [genesis_block, block_1a, block_1b, block_2]
          (some genesis_block) (some block_1a) = some true ∧
        is_longer_chain default_config idle_pool [genesis_block, block_1a, block_1b, block_2]
          (some block_1a) (some genesis_block) = some true) ∧
    is_longer_chain default_config idle_pool [genesis_block, block_1a, block_1b, block_2]
      (some genesis_block) (some genesis_block) = some false :=
  ⟨⟨by decide, by decide⟩,
    is_longer_chain_asymm default_config idle_pool [genesis_block, block_1a, block_1b, block_2]
      genesis_block block_1a (by decide) (by decide) (by decide)⟩


/-! ## Theorems: the chain below a tip at height 200 is reachable -/

theorem update_depths_loop_body (fuel : Nat) (s : Store) (block_id : hash)
    (stack : List hash) :
    update_depths_loop (fuel + 1) s (block_id :: stack) =
      (update_depths_body s block_id stack).bind (fun r => update_depths_loop fuel r.1 r.2) := by
  unfold update_depths_body
  rw [update_depths_loop]
  cases find s block_id with
  | none => rfl
  | some block =>
    dsimp only
    cases update_depths_uncles (update_depths_parent s block stack).1 block_id block.m_uncles
      (update_depths_parent s block stack).2 <;> rfl

set_option maxRecDepth 100000 in
theorem ladder_base :
    add_block small_config idle_pool 2 (empty_sidechain small_config) deep_uncle =
      some { ladder 0 with
        m_blocksById := [deep_uncle]
        m_blocksByHeight := [(1, [9])] } ∧
    add_block small_config idle_pool 2
      { ladder 0 with m_blocksById := [deep_uncle], m_blocksByHeight := [(1, [9])] }
      shallow_child = some (ladder 0) := by
  decide

set_option maxRecDepth 100000 in
set_option maxHeartbeats 4000000 in
theorem ladder_steps : ∀ k < 58,
    add_block small_config idle_pool 2 (ladder k) (chain_block (199 - k)) =
      some (ladder (k + 1)) := by
  decide

set_option maxRecDepth 100000 in
set_option maxHeartbeats 4000000 in
theorem ladder_step_58 :
    add_block small_config idle_pool 3 (ladder 58) (chain_block 141) = some (ladder 59) := by
  decide

set_option maxRecDepth 100000 in
set_option maxHeartbeats 4000000 in
theorem climb_init :
    find (ladder 59).m_blocksById 1200 = none ∧
    bucket_push (ladder 59).m_blocksByHeight 200 1200 = ladder_heights ∧
    update_depths_init ladder_heights ((ladder 59).m_blocksById ++ [ladder_top]) 1200 =
      some (climb 0) := by
  decide

set_option maxRecDepth 100000 in
set_option maxHeartbeats 4000000 in
theorem climb_steps : ∀ j < 59,
    update_depths_body (climb j) (1200 - j) [] = some (climb (j + 1), [1199 - j]) := by
  decide

set_option maxRecDepth 100000 in
set_option maxHeartbeats 4000000 in
theorem climb_last :
    update_depths_body (climb 59) 1141 [] = some (climb 60, [9]) ∧
    update_depths_body (climb 60) 9 [] = some (climb 60, []) := by
  decide

theorem climb_loop : ∀ d, d ≤ 59 →
    update_depths_loop (d + 2) (climb (59 - d)) [1141 + d] = some (climb 60)
  | 0, _ => by
    rw [update_depths_loop_body, climb_last.1]
    show update_depths_loop 1 (climb 60) [9] = some (climb 60)
    rw [update_depths_loop_body, climb_last.2]
    rfl
  | d + 1, h => by
    have hstep := climb_steps (58 - d) (by omega)
    have e1 : 1200 - (58 - d) = 1141 + (d + 1) := by omega
    have e2 : 1199 - (58 - d) = 1141 + d := by omega
    have e3 : 58 - d + 1 = 59 - d := by omega
    have e4 : 59 - (d + 1) = 58 - d := by omega
    rw [e1, e2, e3] at hstep
    rw [e4, update_depths_loop_body, hstep]
    exact climb_loop d (by omega)

set_option maxRecDepth 100000 in
set_option maxHeartbeats 4000000 in
theorem climb_tip :
    update_chain_tip small_config idle_pool
      { ladder 59 with m_blocksById := climb 60, m_blocksByHeight := ladder_heights } 1200 =
      some ladder_pruned := by
  decide

theorem add_block_verified (cfg : Config) (pool : Pool) (fuel : Nat) (sc : SideChain)
    (block : PoolBlock) (m : List (Nat × List hash)) (s1 : Store)
    (hnew : find sc.m_blocksById block.m_sidechainId = none)
    (hm : bucket_push sc.m_blocksByHeight block.m_sidechainHeight block.m_sidechainId = m)
    (hd : update_depths fuel m (sc.m_blocksById ++ [block]) block.m_sidechainId = some s1)
    (hv : block.m_verified = true) (hi : block.m_invalid = false) :
    add_block cfg pool fuel sc block =
      update_chain_tip cfg pool { sc with m_blocksById := s1, m_blocksByHeight := m }
        block.m_sidechainId := by
  unfold add_block
  rw [hnew]
  simp only [hm, hd, hv, hi]
  rfl

set_option maxRecDepth 100000 in
theorem ladder_step_top :
    add_block small_config idle_pool 61 (ladder 59) ladder_top = some ladder_pruned := by
  obtain ⟨h1, h2, h3⟩ := climb_init
  have hloop : update_depths_loop 61 (climb 0) [1200] = some (climb 60) :=
    climb_loop 59 (Nat.le_refl _)
  have hdepths : update_depths 61 ladder_heights ((ladder 59).m_blocksById ++ [ladder_top])
      1200 = some (climb 60) := by
    unfold update_depths
    rw [h3]
    exact hloop
  rw [add_block_verified small_config idle_pool 61 (ladder 59) ladder_top ladder_heights
    (climb 60) h1 h2 hdepths rfl rfl]
  exact climb_tip

theorem fresh_reachable_reachable (cfg : Config) (pool : Pool) (sc : SideChain)
    (h : FreshReachable cfg pool sc) : Reachable cfg pool sc := by
  induction h with
  | refl => exact Relation.ReflTransGen.refl
  | tail _ hstep ih =>
    obtain ⟨fuel, block, _, hadd⟩ := hstep
    exact ih.tail (Or.inl ⟨fuel, block, hadd⟩)

theorem ladder_reachable : ∀ k, k ≤ 58 → FreshReachable small_config idle_pool (ladder k)
  | 0, _ => by
    have h1 : FreshStep small_config idle_pool (empty_sidechain small_config)
        { ladder 0 with m_blocksById := [deep_uncle], m_blocksByHeight := [(1, [9])] } :=
      ⟨2, deep_uncle, rfl, ladder_base.1⟩
    have h2 : FreshStep small_config idle_pool
        { ladder 0 with m_blocksById := [deep_uncle], m_blocksByHeight := [(1, [9])] }
        (ladder 0) :=
      ⟨2, shallow_child, rfl, ladder_base.2⟩
    exact (Relation.ReflTransGen.single h1).tail h2
  | k + 1, h => by
    have hstep : FreshStep small_config idle_pool (ladder k) (ladder (k + 1)) :=
      ⟨2, chain_block (199 - k), rfl, ladder_steps k (by omega)⟩
    exact (ladder_reachable k (by omega)).tail hstep

/-- The state `ladder_pruned` is reached through 62 calls of `add_block` with blocks of
depth 0. -/
theorem ladder_pruned_fresh : FreshReachable small_config idle_pool ladder_pruned := by
  have h1 : FreshStep small_config idle_pool (ladder 58) (ladder 59) :=
    ⟨3, chain_block 141, rfl, ladder_step_58⟩
  have h2 : FreshStep small_config idle_pool (ladder 59) ladder_pruned :=
    ⟨61, ladder_top, rfl, ladder_step_top⟩
  exact ((ladder_reachable 58 (Nat.le_refl _)).tail h1).tail h2

theorem ladder_pruned_reachable : Reachable small_config idle_pool ladder_pruned :=
  fresh_reachable_reachable _ _ _ ladder_pruned_fresh

set_option maxRecDepth 100000 in
set_option maxHeartbeats 4000000 in
theorem ladder_step_final :
    add_block small_config idle_pool 2 ladder_pruned late_parent = some ladder_final := by
  decide

theorem ladder_final_fresh : FreshReachable small_config idle_pool ladder_final :=
  ladder_pruned_fresh.tail ⟨2, late_parent, rfl, ladder_step_final⟩



/-! ## Theorems: a block template under `verify` -/

theorem reachable_tip_ok (cfg : Config) (pool : Pool) (sc : SideChain)
    (h : Reachable cfg pool sc) : tip_ok sc := by
  induction h with
  | refl => intro id hid; cases hid
  | tail _ hstep ih => exact step_tip_ok cfg pool _ _ ih hstep

theorem fill_candidate_inv (s : Store) (block_height : Nat) (tip : PoolBlock)
    (mined uncles uncles1 : List hash) (id : hash)
    (h : fill_candidate s block_height tip mined uncles id = some uncles1) :
    ∀ u ∈ uncles1, u ∈ uncles ∨ (u = id ∧ fill_pick s block_height tip mined u) := by
  unfold fill_candidate at h
  cases hf : find s id with
  | none => rw [hf] at h; cases h
  | some uncle =>
    rw [hf] at h
    dsimp only at h
    have hid := find_some_id hf
    split at h
    · cases h; exact fun u hu => Or.inl hu
    rename_i hflags
    split at h
    · cases h; exact fun u hu => Or.inl hu
    rename_i hmined
    cases hsame : fill_same_chain s block_height tip uncle with
    | none => rw [hsame] at h; cases h
    | some r =>
      rw [hsame] at h
      cases r with
      | false => cases h; exact fun u hu => Or.inl hu
      | true =>
        simp only [Option.some.injEq] at h
        subst h
        intro u hu
        rcases List.mem_append.mp hu with hu | hu
        · exact Or.inl hu
        · right
          rw [List.mem_singleton.mp hu, hid]
          simp only [Bool.or_eq_true, Bool.not_eq_true', not_or, Bool.not_eq_false,
            Bool.not_eq_true] at hflags
          rw [hid] at hmined
          exact ⟨rfl, uncle, hf, hflags.1, hflags.2, hmined, hsame⟩

theorem fill_bucket_inv (s : Store) (block_height : Nat) (tip : PoolBlock)
    (mined : List hash) :
    ∀ (ids uncles uncles1 : List hash),
      fill_bucket s block_height tip mined ids uncles = some uncles1 →
      ∀ u ∈ uncles1, u ∈ uncles ∨ (u ∈ ids ∧ fill_pick s block_height tip mined u)
  | [], uncles, uncles1, h => by
    simp only [fill_bucket, Option.some.injEq] at h
    subst h
    exact fun u hu => Or.inl hu
  | id :: rest, uncles, uncles1, h => by
    rw [fill_bucket] at h
    cases hc : fill_candidate s block_height tip mined uncles id with
    | none => rw [hc] at h; cases h
    | some mid =>
      rw [hc] at h
      dsimp only at h
      intro u hu
      rcases fill_bucket_inv s block_height tip mined rest mid uncles1 h u hu with h1 | ⟨h1, h2⟩
      · rcases fill_candidate_inv s block_height tip mined uncles mid id hc u h1 with
          g | ⟨g1, g2⟩
        · exact Or.inl g
        · exact Or.inr ⟨by rw [g1]; exact List.mem_cons_self _ _, g2⟩
      · exact Or.inr ⟨List.mem_cons_of_mem _ h1, h2⟩

theorem fill_heights_inv (m : List (Nat × List hash)) (s : Store) (block_height : Nat)
    (tip : PoolBlock) (mined : List hash) :
    ∀ (is : List Nat) (uncles uncles1 : List hash),
      fill_heights m s block_height tip mined is uncles = some uncles1 →
      ∀ u ∈ uncles1, u ∈ uncles ∨
        ((∃ i ∈ is, u ∈ bucket m (sub64 tip.m_sidechainHeight i)) ∧
          fill_pick s block_height tip mined u)
  | [], uncles, uncles1, h => by
    simp only [fill_heights, Option.some.injEq] at h
    subst h
    exact fun u hu => Or.inl hu
  | i :: rest, uncles, uncles1, h => by
    rw [fill_heights] at h
    cases hc : fill_bucket s block_height tip mined
        (bucket m (sub64 tip.m_sidechainHeight i)) uncles with
    | none => rw [hc] at h; cases h
    | some mid =>
      rw [hc] at h
      dsimp only at h
      intro u hu
      rcases fill_heights_inv m s block_height tip mined rest mid uncles1 h u hu with
        h1 | ⟨⟨j, hj, hb⟩, h2⟩
      · rcases fill_bucket_inv s block_height tip mined _ uncles mid hc u h1 with
          g | ⟨g1, g2⟩
        · exact Or.inl g
        · exact Or.inr ⟨⟨i, List.mem_cons_self _ _, g1⟩, g2⟩
      · exact Or.inr ⟨⟨j, List.mem_cons_of_mem _ hj, hb⟩, h2⟩

theorem mined_blocks_walk_none (s : Store) (n : Nat) : mined_blocks_walk s n none = [] := by
  cases n <;> rfl

/-- Along height-consistent parent links the walk that collects the mined blocks ends at
the block of height 0: more iterations than the height of the start plus one add nothing. -/
theorem mined_blocks_walk_saturate (s : Store) (hcons : parents_consistent s) :
    ∀ (h : Nat) (b : PoolBlock) (n : Nat), b.m_sidechainHeight = h → b ∈ s → h + 1 ≤ n →
      mined_blocks_walk s n (some b) = mined_blocks_walk s (h + 1) (some b) := by
  intro h
  induction h with
  | zero =>
    intro b n hb hmem hn
    obtain ⟨n1, rfl⟩ : ∃ n1, n = n1 + 1 := ⟨n - 1, by omega⟩
    have hp : get_parent s b = none := by
      cases hp : get_parent s b with
      | none => rfl
      | some p =>
        have := hcons b hmem p hp
        omega
    simp only [mined_blocks_walk, hp, mined_blocks_walk_none]
  | succ h ih =>
    intro b n hb hmem hn
    obtain ⟨n1, rfl⟩ : ∃ n1, n = n1 + 1 := ⟨n - 1, by omega⟩
    have e : ∀ k, mined_blocks_walk s (k + 1) (some b) =
        b.m_sidechainId :: b.m_uncles ++ mined_blocks_walk s k (get_parent s b) :=
      fun k => rfl
    rw [e n1, e (h + 1)]
    cases hp : get_parent s b with
    | none => rw [mined_blocks_walk_none, mined_blocks_walk_none]
    | some p =>
      have hh := hcons b hmem p hp
      rw [ih p n1 (by omega) (find_some_mem hp) (by omega)]

theorem mined_blocks_template (s : Store) (hcons : parents_consistent s) (tip : PoolBlock)
    (hmem : tip ∈ s) (h64 : tip.m_sidechainHeight + 3 < 2 ^ 64) :
    mined_blocks_walk s (min UNCLE_BLOCK_DEPTH (add64 (add64 tip.m_sidechainHeight 1) 1))
        (some tip) =
      mined_blocks_walk s (min UNCLE_BLOCK_DEPTH (add64 tip.m_sidechainHeight 1)) (some tip) := by
  have e1 : add64 tip.m_sidechainHeight 1 = tip.m_sidechainHeight + 1 :=
    add64_of_lt (by omega)
  have e2 : add64 (tip.m_sidechainHeight + 1) 1 = tip.m_sidechainHeight + 2 :=
    add64_of_lt (by omega)
  rw [e1, e2]
  unfold UNCLE_BLOCK_DEPTH
  by_cases h3 : 3 ≤ tip.m_sidechainHeight + 1
  · rw [Nat.min_eq_left h3, Nat.min_eq_left (by omega)]
  · rw [Nat.min_eq_right (by omega : tip.m_sidechainHeight + 1 ≤ 3)]
    exact mined_blocks_walk_saturate s hcons _ tip _ rfl hmem (by omega)

theorem uncles_ascending_of_sorted : ∀ (l : List hash), l.Sorted (fun a b => a < b) →
    uncles_ascending l = true
  | [], _ => rfl
  | [_], _ => rfl
  | a :: b :: rest, h => by
    rw [uncles_ascending]
    have hab : a < b := List.rel_of_sorted_cons h b (List.mem_cons_self _ _)
    rw [uncles_ascending_of_sorted (b :: rest) h.of_cons]
    simp [hab]

/-- An uncle that has passed the tests of `fill_sidechain_data` passes those of `verify`. -/
theorem verify_uncle_of_pick (s : Store) (block tip : PoolBlock) (mined : List hash)
    (u : hash) (uncle : PoolBlock)
    (hf : find s u = some uncle) (hv : uncle.m_verified = true)
    (hi : uncle.m_invalid = false) (hm : u ∉ mined) (hu0 : u ≠ 0)
    (hsame : fill_same_chain s block.m_sidechainHeight tip uncle = some true)
    (hlow : uncle.m_sidechainHeight < block.m_sidechainHeight)
    (hhigh : block.m_sidechainHeight ≤ uncle.m_sidechainHeight + 3)
    (h64 : uncle.m_sidechainHeight + 3 < 2 ^ 64) :
    verify_uncle s block tip mined u = some (.ok uncle.m_difficulty) := by
  have hadd : add64 uncle.m_sidechainHeight UNCLE_BLOCK_DEPTH = uncle.m_sidechainHeight + 3 :=
    add64_of_lt h64
  unfold verify_uncle
  have he : hash.empty u = false := by
    unfold hash.empty
    simpa using hu0
  rw [he]
  simp only [Bool.false_eq_true, if_false, if_neg hm, hf, hv, hi, Bool.not_true, hadd]
  rw [if_neg (by omega)]
  unfold fill_same_chain at hsame
  cases hw : walk_to_height s uncle.m_sidechainHeight s.length tip with
  | none => rw [hw] at hsame; cases hsame
  | some r =>
    rw [hw] at hsame
    cases r with
    | none => cases hsame
    | some tmp =>
      dsimp only at hsame ⊢
      by_cases hlt : tmp.m_sidechainHeight < uncle.m_sidechainHeight
      · rw [if_pos hlt] at hsame; cases hsame
      · rw [if_neg hlt] at hsame ⊢
        simp only [Option.some.injEq] at hsame
        rw [hsame]
        rfl

theorem verify_uncles_of_picks (s : Store) (block tip : PoolBlock) (mined : List hash) :
    ∀ (us : List hash) (acc : difficulty_type),
      (∀ u ∈ us, ∃ uncle, find s u = some uncle ∧
        verify_uncle s block tip mined u = some (.ok uncle.m_difficulty)) →
      verify_uncles s block tip mined us acc = some (.ok (fill_cumulative s us acc))
  | [], acc, _ => rfl
  | u :: rest, acc, h => by
    obtain ⟨uncle, hf, hv⟩ := h u (List.mem_cons_self _ _)
    rw [verify_uncles, hv, fill_cumulative, hf]
    exact verify_uncles_of_picks s block tip mined rest _
      (fun x hx => h x (List.mem_cons_of_mem _ hx))

theorem get_shares_outputs (cfg : Config) (s : Store) (b : PoolBlock) (o : List TxOutput) :
    get_shares cfg s { b with m_outputs := o } = get_shares cfg s b := by
  unfold get_shares
  have h1 : get_shares_walk cfg s { b with m_outputs := o } (cfg.m_chainWindowSize - 1)
      { b with m_outputs := o } =
      get_shares_walk cfg s b (cfg.m_chainWindowSize - 1) { b with m_outputs := o } :=
    @get_shares_walk_agree cfg s s (fun _ => rfl) { b with m_outputs := o } b rfl _
      { b with m_outputs := o } { b with m_outputs := o } rfl
  have h2 : get_shares_walk cfg s b (cfg.m_chainWindowSize - 1) { b with m_outputs := o } =
      get_shares_walk cfg s b (cfg.m_chainWindowSize - 1) b := by
    cases cfg.m_chainWindowSize - 1 <;> (unfold get_shares_walk; rfl)
  rw [h1, h2]

theorem check_outputs_spec (cfg : Config) (txkeySec : hash) :
    ∀ (rewards : List Nat) (shares : List MinerShare) (i : Nat),
      check_outputs cfg txkeySec i rewards shares
        (spec_outputs cfg txkeySec i rewards shares) = true
  | [], _, _ => by simp [check_outputs, spec_outputs]
  | _ :: _, [], _ => by simp [check_outputs, spec_outputs]
  | r :: rewards, sh :: shares, i => by
    simp only [spec_outputs, check_outputs, ne_eq, not_true_eq_false, if_false]
    exact check_outputs_spec cfg txkeySec rewards shares (i + 1)

theorem spec_outputs_length (cfg : Config) (txkeySec : hash) :
    ∀ (rewards : List Nat) (shares : List MinerShare) (i : Nat),
      rewards.length = shares.length →
      (spec_outputs cfg txkeySec i rewards shares).length = shares.length
  | [], [], _, _ => rfl
  | [], _ :: _, _, h => by simp at h
  | _ :: _, [], _, h => by simp at h
  | r :: rewards, sh :: shares, i, h => by
    simp only [spec_outputs, List.length_cons]
    rw [spec_outputs_length cfg txkeySec rewards shares (i + 1) (by simpa using h)]

theorem split_reward_ok (reward : Nat) (shares : List MinerShare) (ok : Bool)
    (rewards : List Nat) (h : split_reward reward shares = some (ok, rewards)) :
    ok = decide (accumulate64 rewards = reward) := by
  unfold split_reward at h
  split at h
  · cases h
  · simp only [Option.some.injEq, Prod.mk.injEq] at h
    obtain ⟨h1, h2⟩ := h
    rw [← h1, ← h2]

/-- A block whose height, parent, uncles, cumulative difficulty, difficulty and outputs are
what `verify` computes for it on top of a verified, valid `tip` is marked verified and not
invalid. -/
theorem verify_template (cfg : Config) (s : Store) (b tip : PoolBlock)
    (shares : List MinerShare) (rewards : List Nat) (R : Nat)
    (hh : b.m_sidechainHeight = tip.m_sidechainHeight + 1)
    (h64 : tip.m_sidechainHeight + 1 < 2 ^ 64)
    (hp : b.m_parent = tip.m_sidechainId) (hp0 : tip.m_sidechainId ≠ 0)
    (hft : find s tip.m_sidechainId = some tip)
    (htv : tip.m_verified = true) (hti : tip.m_invalid = false)
    (hasc : uncles_ascending b.m_uncles = true)
    (hunc : ∀ u ∈ b.m_uncles, ∃ uncle, find s u = some uncle ∧
      verify_uncle s b tip (mined_blocks s b tip) u = some (.ok uncle.m_difficulty))
    (hcum : b.m_cumulativeDifficulty =
      fill_cumulative s b.m_uncles (tip.m_cumulativeDifficulty.add b.m_difficulty))
    (hdiff : get_difficulty cfg s tip = some b.m_difficulty)
    (hshares : get_shares cfg s b = some shares)
    (hsplit : split_reward R shares = some (true, rewards))
    (hlen : rewards.length = shares.length)
    (hout : b.m_outputs = spec_outputs cfg b.m_txkeySec 0 rewards shares) :
    verify cfg s b = some { b with m_verified := true, m_invalid := false } := by
  have hadd : add64 tip.m_sidechainHeight 1 = tip.m_sidechainHeight + 1 := add64_of_lt h64
  have hempty : hash.empty b.m_parent = false := by
    unfold hash.empty
    rw [hp]
    simpa using hp0
  have hacc : accumulate64 (b.m_outputs.map TxOutput.m_reward) = R := by
    rw [hout, (spec_outputs_rewards cfg b.m_txkeySec rewards shares 0 hlen).1]
    have := split_reward_ok R shares true rewards hsplit
    simpa using this.symm
  have holen : b.m_outputs.length = shares.length := by
    rw [hout]; exact spec_outputs_length cfg b.m_txkeySec rewards shares 0 hlen
  unfold verify verify_writes
  rw [if_neg (by omega)]
  by_cases hdeep : (cfg.m_chainWindowSize * 2) % 2 ^ 64 ≤ b.m_depth
  · rw [if_pos hdeep]
    rfl
  rw [if_neg hdeep, hempty]
  simp only [Bool.false_eq_true, if_false]
  have hfp : find s b.m_parent = some tip := by rw [hp]; exact hft
  rw [hfp]
  dsimp only
  unfold verify_with_parent
  rw [htv, hti, hasc, hadd]
  simp only [Bool.not_true, Bool.false_eq_true, if_false]
  rw [if_neg (by rw [hh]; exact fun h => h rfl)]
  rw [verify_uncles_of_picks s b tip (mined_blocks s b tip) b.m_uncles _ hunc]
  dsimp only
  unfold verify_rewards
  rw [if_neg (by rw [← hcum]; exact fun h => h rfl)]
  by_cases hW : cfg.m_chainWindowSize ≤ b.m_depth
  · rw [if_pos hW]
    rfl
  rw [if_neg hW, hdiff]
  dsimp only
  rw [if_neg (fun h => h rfl), hshares]
  dsimp only
  rw [if_neg (by rw [holen]; exact fun h => h rfl), hacc, hsplit]
  dsimp only
  rw [if_neg (by rw [holen, hlen]; exact fun h => h rfl)]
  have hcheck : check_outputs cfg b.m_txkeySec 0 rewards shares b.m_outputs = true := by
    rw [hout]; exact check_outputs_spec cfg b.m_txkeySec rewards shares 0
  rw [hcheck, if_pos rfl]
  rfl

/-- The block `fill_sidechain_data` builds on a verified, valid tip and
`get_outputs_blob` completes passes `verify` against the same store when
`get_difficulty(tip)` gives `m_curDifficulty` there. -/
theorem template_passes (cfg : Config) (writeVarint : Nat → List Nat)
    (hash_bytes : hash → List Nat) (sc : SideChain) (block : PoolBlock) (w : Wallet)
    (txkeySec : hash) (R : Nat) (blob : List Nat) (tip_id : hash) (tip : PoolBlock)
    (b1 : PoolBlock) (shares0 : Option (List MinerShare)) (b2 : PoolBlock) (blob2 : List Nat)
    (htip : sc.m_chainTip = some tip_id)
    (hfind : find sc.m_blocksById tip_id = some tip)
    (htv : tip.m_verified = true) (hti : tip.m_invalid = false)
    (hlisted : listed_stored sc)
    (hcons : parents_consistent sc.m_blocksById)
    (hids : ∀ b ∈ sc.m_blocksById, b.m_sidechainId ≠ 0)
    (h64 : tip.m_sidechainHeight + 3 < 2 ^ 64)
    (hcur : get_difficulty cfg sc.m_blocksById tip = some sc.m_curDifficulty)
    (hfill : fill_sidechain_data cfg sc block w txkeySec = some (b1, shares0))
    (hblob : get_outputs_blob cfg writeVarint hash_bytes sc.m_blocksById b1 R blob =
      some (true, b2, blob2)) :
    verify cfg sc.m_blocksById b2 = some { b2 with m_verified := true, m_invalid := false } := by
  have hpow : (2 : Nat) ^ 64 = 18446744073709551616 := by norm_num
  have hmem : tip ∈ sc.m_blocksById := find_some_mem hfind
  have htid : tip.m_sidechainId = tip_id := find_some_id hfind
  have hadd : add64 tip.m_sidechainHeight 1 = tip.m_sidechainHeight + 1 :=
    add64_of_lt (by omega)
  -- what `fill_sidechain_data` has written
  unfold fill_sidechain_data at hfill
  rw [htip] at hfill
  dsimp only at hfill
  rw [hfind] at hfill
  dsimp only at hfill
  cases hu : fill_heights sc.m_blocksByHeight sc.m_blocksById (add64 tip.m_sidechainHeight 1)
      tip (mined_blocks_walk sc.m_blocksById
        (min UNCLE_BLOCK_DEPTH (add64 tip.m_sidechainHeight 1)) (some tip))
      (List.range (min UNCLE_BLOCK_DEPTH (add64 tip.m_sidechainHeight 1))) [] with
  | none => rw [hu] at hfill; cases hfill
  | some uncles =>
    rw [hu] at hfill
    simp only [Option.some.injEq, Prod.mk.injEq] at hfill
    obtain ⟨hb1, _⟩ := hfill
    have f1 : b1.m_parent = tip.m_sidechainId := by rw [← hb1]
    have f2 : b1.m_sidechainHeight = add64 tip.m_sidechainHeight 1 := by rw [← hb1]
    have f3 : b1.m_uncles = sort_unique uncles := by rw [← hb1]
    have f4 : b1.m_difficulty = sc.m_curDifficulty := by rw [← hb1]
    have f5 : b1.m_cumulativeDifficulty = fill_cumulative sc.m_blocksById (sort_unique uncles)
        (tip.m_cumulativeDifficulty.add sc.m_curDifficulty) := by rw [← hb1]
    clear hb1
    -- what `get_outputs_blob` has written
    unfold get_outputs_blob at hblob
    cases hs : get_shares cfg sc.m_blocksById b1 with
    | none => rw [hs] at hblob; simp at hblob
    | some shares =>
      rw [hs] at hblob
      dsimp only at hblob
      cases hr : split_reward R shares with
      | none => rw [hr] at hblob; cases hblob
      | some p =>
        obtain ⟨ok, rewards⟩ := p
        rw [hr] at hblob
        dsimp only at hblob
        by_cases hbad : (!ok || decide (rewards.length ≠ shares.length)) = true
        · rw [if_pos hbad] at hblob; simp at hblob
        rw [if_neg hbad] at hblob
        simp only [Bool.or_eq_true, Bool.not_eq_true', decide_eq_true_eq, not_or,
          Bool.not_eq_false, not_not] at hbad
        obtain ⟨hok, hlen⟩ := hbad
        subst hok
        simp only [Option.some.injEq, Prod.mk.injEq, true_and] at hblob
        obtain ⟨hb2, _⟩ := hblob
        rw [outputs_loop_eq] at hb2
        simp only [List.nil_append] at hb2
        have g1 : b2.m_parent = tip.m_sidechainId := by rw [← hb2]; exact f1
        have g2 : b2.m_sidechainHeight = tip.m_sidechainHeight + 1 := by
          rw [← hb2, ← hadd]; exact f2
        have g3 : b2.m_uncles = sort_unique uncles := by rw [← hb2]; exact f3
        have g4 : b2.m_difficulty = sc.m_curDifficulty := by rw [← hb2]; exact f4
        have g5 : b2.m_cumulativeDifficulty = fill_cumulative sc.m_blocksById
            (sort_unique uncles) (tip.m_cumulativeDifficulty.add sc.m_curDifficulty) := by
          rw [← hb2]; exact f5
        have g6 : b2.m_outputs = spec_outputs cfg b2.m_txkeySec 0 rewards shares := by
          rw [← hb2]
        have g7 : get_shares cfg sc.m_blocksById b2 = some shares := by
          rw [← hb2, get_shares_outputs]; exact hs
        obtain ⟨hsorted, hsubset⟩ := sort_unique_spec uncles
        have hmined : mined_blocks sc.m_blocksById b2 tip = [] ∨
            mined_blocks sc.m_blocksById b2 tip = mined_blocks_walk sc.m_blocksById
              (min UNCLE_BLOCK_DEPTH (add64 tip.m_sidechainHeight 1)) (some tip) := by
          unfold mined_blocks
          split
          · exact Or.inl rfl
          · right
            rw [g2, ← hadd]
            exact mined_blocks_template sc.m_blocksById hcons tip hmem h64
        apply verify_template cfg sc.m_blocksById b2 tip shares rewards R g2 (by omega) g1
          (hids tip hmem) (by rw [htid]; exact hfind) htv hti
        · rw [g3]; exact uncles_ascending_of_sorted _ hsorted
        · intro u hu2
          rw [g3] at hu2
          rcases fill_heights_inv _ _ _ _ _ _ _ _ hu u (hsubset u hu2) with h0 | ⟨⟨i, hi, hb⟩, hpick⟩
          · cases h0
          obtain ⟨uncle, hf, hv, hinv, hnm, hsame⟩ := hpick
          refine ⟨uncle, hf, ?_⟩
          rw [List.mem_range, hadd] at hi
          unfold UNCLE_BLOCK_DEPTH at hi
          obtain ⟨e, he, hkey, hide⟩ := mem_bucket _ _ _ hb
          have hl := hlisted e he u hide
          rw [hf] at hl
          simp only [Option.map_some', Option.some.injEq] at hl
          have hsub : sub64 tip.m_sidechainHeight i = tip.m_sidechainHeight - i := by
            unfold sub64
            rw [hpow] at h64 ⊢
            omega
          have hheight : uncle.m_sidechainHeight = tip.m_sidechainHeight - i := by
            rw [hl, hkey, hsub]
          have huid : uncle.m_sidechainId = u := find_some_id hf
          apply verify_uncle_of_pick _ _ _ _ _ _ hf hv hinv
          · rcases hmined with hm | hm
            · rw [hm]; exact fun h => by cases h
            · rw [hm]; exact hnm
          · rw [← huid]; exact hids uncle (find_some_mem hf)
          · rw [g2, ← hadd]; exact hsame
          · rw [g2, hheight]; omega
          · rw [g2, hheight]; omega
          · rw [hheight]; omega
        · rw [g5, g3, g4]
        · rw [g4]; exact hcur
        · exact g7
        · exact hr
        · exact hlen
        · exact g6

set_option maxRecDepth 100000 in
set_option maxHeartbeats 4000000 in
/-- C40 (as stated) fails.  The state `ladder_pruned` is reached through 62 calls of
`add_block` under `small_config` (the last block, the tip at height 200, is handed over as
verified); its parent links are height-consistent and no stored id is empty.  When the tip
was set, `get_difficulty(tip)` read 60 blocks down to height 141 and found the uncle that
the block of height 141 lists; `prune_old_blocks` then erased that uncle.
`fill_sidechain_data` and `get_outputs_blob` (total reward 6000) succeed for the fresh id
2000, since `get_shares` of the template reads down to height 142 only, but `verify` marks
the completed template invalid: `get_difficulty(tip)` now fails. -/
theorem template_rejected_counterexample :
    Reachable small_config idle_pool ladder_pruned ∧
    (ladder_pruned.m_chainTip = some 1200 ∧ parents_consistent ladder_pruned.m_blocksById ∧
      (∀ b ∈ ladder_pruned.m_blocksById, b.m_sidechainId ≠ 0) ∧
      find ladder_pruned.m_blocksById 2000 = none) ∧
    fill_sidechain_data small_config ladder_pruned template_block 16 5 =
      some (ladder_template, some [⟨58000, 12⟩, ⟨1000, 15⟩, ⟨1000, 16⟩]) ∧
    get_outputs_blob small_config toy_varint toy_hash_bytes ladder_pruned.m_blocksById
        ladder_template 6000 [] =
      some (true, ladder_template_paid, [3, 168, 45, 2, 18, 100, 2, 22, 100, 2, 24]) ∧
    verify small_config ladder_pruned.m_blocksById ladder_template_paid =
      some { ladder_template_paid with m_verified := true, m_invalid := true } ∧
    (find ladder_pruned.m_blocksById 1200).bind
      (get_difficulty small_config ladder_pruned.m_blocksById) = none :=
  ⟨ladder_pruned_reachable, by decide, by decide, by decide, by decide, by decide⟩

/-- C40 (amended): in every reachable state with a tip whose parent links are
height-consistent, in which no stored block has an empty id, the tip is three below `2^64`
and `get_difficulty(tip)` still gives `m_curDifficulty` on the current store, the block
that `fill_sidechain_data` produces and a successful `get_outputs_blob(block, R)` completes
is, whatever its sidechain id, marked verified and not invalid when `verify` runs on it
against the same store. -/
theorem template_accepted (cfg : Config) (pool : Pool) (writeVarint : Nat → List Nat)
    (hash_bytes : hash → List Nat) (sc : SideChain) (block : PoolBlock) (w : Wallet)
    (txkeySec : hash) (R : Nat) (blob : List Nat) (tip_id : hash) (tip : PoolBlock)
    (b1 : PoolBlock) (shares0 : Option (List MinerShare)) (b2 : PoolBlock) (blob2 : List Nat)
    (hreach : Reachable cfg pool sc)
    (htip : sc.m_chainTip = some tip_id)
    (hfind : find sc.m_blocksById tip_id = some tip)
    (hcons : parents_consistent sc.m_blocksById)
    (hids : ∀ b ∈ sc.m_blocksById, b.m_sidechainId ≠ 0)
    (h64 : tip.m_sidechainHeight + 3 < 2 ^ 64)
    (hcur : get_difficulty cfg sc.m_blocksById tip = some sc.m_curDifficulty)
    (hfill : fill_sidechain_data cfg sc block w txkeySec = some (b1, shares0))
    (hblob : get_outputs_blob cfg writeVarint hash_bytes sc.m_blocksById b1 R blob =
      some (true, b2, blob2)) :
    ∃ b3, verify cfg sc.m_blocksById b2 = some b3 ∧ b3.m_verified = true ∧
      b3.m_invalid = false := by
  obtain ⟨t, ht, htv, hti⟩ := reachable_tip_ok cfg pool sc hreach tip_id htip
  rw [hfind] at ht
  cases ht
  exact ⟨_, template_passes cfg writeVarint hash_bytes sc block w txkeySec R blob tip_id tip
    b1 shares0 b2 blob2 htip hfind htv hti (listed_stored_reachable cfg pool sc hreach) hcons
    hids h64 hcur hfill hblob, rfl, rfl⟩

theorem template_accepted_witness :
    (Reachable default_config idle_pool
        (first_tip { new_genesis with m_verified := true } { lo := 1000, hi := 0 }) ∧
      fill_sidechain_data default_config
        (first_tip { new_genesis with m_verified := true } { lo := 1000, hi := 0 })
        paid_block 12 7 = some (paid_block, some [⟨1000, 11⟩, ⟨1000, 12⟩]) ∧
      get_outputs_blob default_config toy_varint toy_hash_bytes
        (first_tip { new_genesis with m_verified := true }
          { lo := 1000, hi := 0 }).m_blocksById paid_block 100 [] =
        some (true, paid_block, [2, 50, 2, 19, 50, 2, 21])) ∧
    ∃ b3, verify default_config
        (first_tip { new_genesis with m_verified := true }
          { lo := 1000, hi := 0 }).m_blocksById paid_block = some b3 ∧
      b3.m_verified = true ∧ b3.m_invalid = false :=
  have hreach : Reachable default_config idle_pool
      (first_tip { new_genesis with m_verified := true } { lo := 1000, hi := 0 }) :=
    Relation.ReflTransGen.single (Or.inl ⟨1, new_genesis, by decide⟩)
  ⟨⟨hreach, by decide, by decide⟩,
    template_accepted default_config idle_pool toy_varint toy_hash_bytes
      (first_tip { new_genesis with m_verified := true } { lo := 1000, hi := 0 })
      paid_block 12 7 100 [] 1
      { new_genesis with m_verified := true, m_wantBroadcast := true, m_broadcasted := true }
      paid_block (some [⟨1000, 11⟩, ⟨1000, 12⟩]) paid_block [2, 50, 2, 19, 50, 2, 21]
      hreach (by decide) (by decide) (by decide) (by decide) (by decide) (by decide)
      (by decide) (by decide)⟩



/-! ## Theorems: depth and descendants -/

set_option maxRecDepth 100000 in
set_option maxHeartbeats 4000000 in
/-- C33 (failing input): the state `ladder_final` is reached through 63 calls of
`add_block` with blocks of depth 0 under `small_config`; in its store every parent and
uncle reference between stored blocks is height-consistent.  `prune_old_blocks` had erased
the vector of height 5 while the block of id 7 at that height stayed in `m_blocksById`, so
when the block of id 50 at height 4 arrived, the first loop of `update_depths` did not see
its stored child: its depth is 0, while the longest distance to a descendant is 1. -/
theorem depth_counterexample :
    FreshReachable small_config idle_pool ladder_final ∧
    (parents_consistent ladder_final.m_blocksById ∧
      uncles_consistent ladder_final.m_blocksById) ∧
    (find ladder_final.m_blocksById 50 = some late_parent ∧ late_parent.m_depth = 0 ∧
      find ladder_final.m_blocksById 7 = some shallow_child ∧
      shallow_child.m_parent = late_parent.m_sidechainId ∧
      shallow_child.m_sidechainHeight = late_parent.m_sidechainHeight + 1) ∧
    ¬ depth_exact ladder_final.m_blocksById late_parent := by
  refine ⟨ladder_final_fresh, by decide, by decide, ?_⟩
  intro h
  have hchild : child_of ladder_final.m_blocksById late_parent shallow_child :=
    ⟨by decide, Or.inl rfl⟩
  have := h.1 shallow_child (Relation.ReflTransGen.single hchild)
  revert this
  decide



/-! ## Theorems: a call of `add_block` that does not return -/

theorem update_depths_loop_nil (fuel : Nat) (s : Store) :
    update_depths_loop fuel s [] = some s := by
  cases fuel <;> rfl

set_option maxRecDepth 100000 in
/-- C39 (as stated) fails.  The state `zero_state` is reached by one call of `add_block`;
with `zero_block` appended every parent reference of the store goes one height down and
there are no uncles.  `add_block(zero_block)` runs `update_depths`, whose work list empties
after two iterations, and then `verify`: the shares of the block are `2^64 - 1000` for
wallet 11 and 1000 for wallet 12, their 64-bit total is 0, and `split_reward` divides by
it.  For no number of iterations allowed does the call return. -/
theorem add_block_fault_counterexample :
    add_block default_config idle_pool 1 (empty_sidechain default_config) zero_genesis =
      some zero_state ∧
    (parents_consistent (zero_state.m_blocksById ++ [zero_block]) ∧
      (∀ b ∈ zero_state.m_blocksById ++ [zero_block], b.m_uncles = [])) ∧
    (get_shares default_config (zero_state.m_blocksById ++ [zero_block]) zero_block =
        some [⟨2 ^ 64 - 1000, 11⟩, ⟨1000, 12⟩] ∧
      total_weight [⟨2 ^ 64 - 1000, 11⟩, ⟨1000, 12⟩] = 0 ∧
      split_reward 100 [⟨2 ^ 64 - 1000, 11⟩, ⟨1000, 12⟩] = none) ∧
    ∀ fuel, add_block default_config idle_pool fuel zero_state zero_block = none := by
  refine ⟨by decide, by decide, by decide, ?_⟩
  intro fuel
  have hnew : find zero_state.m_blocksById zero_block.m_sidechainId = none := by decide
  have hinit : update_depths_init
      (bucket_push zero_state.m_blocksByHeight zero_block.m_sidechainHeight
        zero_block.m_sidechainId)
      (zero_state.m_blocksById ++ [zero_block]) zero_block.m_sidechainId =
      some (zero_state.m_blocksById ++ [zero_block]) := by decide
  have hb1 : update_depths_body (zero_state.m_blocksById ++ [zero_block]) 2 [] =
      some (set_depth (zero_state.m_blocksById ++ [zero_block]) 1 1, [1]) := by decide
  have hb2 : update_depths_body (set_depth (zero_state.m_blocksById ++ [zero_block]) 1 1) 1 [] =
      some (set_depth (zero_state.m_blocksById ++ [zero_block]) 1 1, []) := by decide
  have hfind : find (set_depth (zero_state.m_blocksById ++ [zero_block]) 1 1) 2 =
      some zero_block := by decide
  have hver : verify default_config (set_depth (zero_state.m_blocksById ++ [zero_block]) 1 1)
      zero_block = none := by decide
  have hv : zero_block.m_verified = false := rfl
  match fuel with
  | 0 => decide
  | 1 => decide
  | n + 2 =>
    have hdepths : update_depths (n + 2)
        (bucket_push zero_state.m_blocksByHeight zero_block.m_sidechainHeight
          zero_block.m_sidechainId)
        (zero_state.m_blocksById ++ [zero_block]) zero_block.m_sidechainId =
        some (set_depth (zero_state.m_blocksById ++ [zero_block]) 1 1) := by
      unfold update_depths
      rw [hinit]
      show update_depths_loop (n + 1 + 1) _ [2] = _
      rw [update_depths_loop_body, hb1, Option.some_bind]
      dsimp only
      rw [update_depths_loop_body, hb2, Option.some_bind]
      exact update_depths_loop_nil n _
    unfold add_block
    rw [hnew]
    simp only [hdepths, hv]
    unfold verify_loop
    have hgo : verify_loop_go default_config idle_pool (n + 2)
        { zero_state with
          m_blocksById := set_depth (zero_state.m_blocksById ++ [zero_block]) 1 1
          m_blocksByHeight := bucket_push zero_state.m_blocksByHeight
            zero_block.m_sidechainHeight zero_block.m_sidechainId }
        [zero_block.m_sidechainId] none = none := by
      rw [verify_loop_go]
      dsimp only
      have e : zero_block.m_sidechainId = 2 := rfl
      rw [e, hfind]
      dsimp only
      rw [hv, hver]
      rfl
    simp only [Bool.false_eq_true, if_false]
    rw [hgo]


/-! ## Theorems: `add_block` returns -/

theorem sum_map_lt_sum_map {α : Type} (f g : α → Nat) : ∀ (l : List α),
    (∀ x ∈ l, f x ≤ g x) → (∃ x ∈ l, f x < g x) → (l.map f).sum < (l.map g).sum
  | [], _, h => by obtain ⟨x, hx, _⟩ := h; cases hx
  | y :: ys, hle, hlt => by
    rw [List.map_cons, List.sum_cons, List.map_cons, List.sum_cons]
    have hy := hle y (List.mem_cons_self _ _)
    have hrest := sum_map_le_sum_map f g ys (fun x hx => hle x (List.mem_cons_of_mem _ hx))
    obtain ⟨x, hx, hxlt⟩ := hlt
    rcases List.mem_cons.1 hx with rfl | hx
    · omega
    · have := sum_map_lt_sum_map f g ys (fun x hx => hle x (List.mem_cons_of_mem _ hx))
        ⟨x, hx, hxlt⟩
      omega

theorem map_id_map (s : Store) (g : PoolBlock → PoolBlock)
    (hid : ∀ b, (g b).m_sidechainId = b.m_sidechainId) :
    (s.map g).map PoolBlock.m_sidechainId = s.map PoolBlock.m_sidechainId := by
  rw [List.map_map]
  apply List.map_congr_left
  intro b _
  exact hid b

/-- A change of the stored blocks that keeps the ids and raises `f` nowhere does not raise
the measure. -/
theorem store_measure_map_le (f : PoolBlock → Nat) (g : PoolBlock → PoolBlock)
    (hid : ∀ b, (g b).m_sidechainId = b.m_sidechainId) (s : Store)
    (hle : ∀ x b, find s x = some b → f (g b) ≤ f b) :
    store_measure f (s.map g) ≤ store_measure f s := by
  unfold store_measure
  rw [map_id_map s g hid]
  apply sum_map_le_sum_map
  intro x _
  rw [find_map_keep_id s g hid]
  cases hf : find s x with
  | none => exact Nat.le_refl _
  | some b => exact hle x b hf

/-- If it lowers `f` on one stored block, it lowers the measure. -/
theorem store_measure_map_lt (f : PoolBlock → Nat) (g : PoolBlock → PoolBlock)
    (hid : ∀ b, (g b).m_sidechainId = b.m_sidechainId) (s : Store)
    (hle : ∀ x b, find s x = some b → f (g b) ≤ f b)
    (x0 : hash) (b0 : PoolBlock) (h0 : find s x0 = some b0) (hlt : f (g b0) < f b0) :
    store_measure f (s.map g) < store_measure f s := by
  unfold store_measure
  rw [map_id_map s g hid]
  apply sum_map_lt_sum_map
  · intro x _
    rw [find_map_keep_id s g hid]
    cases hf : find s x with
    | none => exact Nat.le_refl _
    | some b => exact hle x b hf
  · refine ⟨x0, ?_, ?_⟩
    · rw [← find_some_id h0]
      exact List.mem_map_of_mem _ (find_some_mem h0)
    · rw [find_map_keep_id s g hid, h0]
      exact hlt

theorem set_depth_shape (s : Store) (id : hash) (d : Nat) :
    (set_depth s id d).map PoolBlock.immutable = s.map PoolBlock.immutable := by
  unfold set_depth
  rw [List.map_map]
  apply List.map_congr_left
  intro b _
  simp only [Function.comp]
  split <;> rfl

theorem set_depth_found (s : Store) (id : hash) (d : Nat) (x : hash) :
    (find (set_depth s id d) x).isSome = (find s x).isSome := by
  rw [find_set_depth]
  cases find s x <;> rfl

/-- Raising the depth of a stored block lowers the room that is left. -/
theorem set_depth_room (s : Store) (id : hash) (d : Nat) (p : PoolBlock)
    (hp : find s id = some p) (hlt : p.m_depth < d) (hd : d < 2 ^ 64) :
    store_measure depth_room (set_depth s id d) < store_measure depth_room s := by
  unfold set_depth
  apply store_measure_map_lt depth_room _ (fun b => by split <;> rfl) s _ id p hp
  · rw [if_pos (find_some_id hp)]
    unfold depth_room
    simp only
    omega
  · intro x b hb
    split
    · rename_i hbid
      have hx : x = id := by rw [← find_some_id hb]; exact hbid
      subst hx
      rw [hp] at hb
      cases hb
      unfold depth_room
      simp only
      omega
    · exact Nat.le_refl _

/-- The parent part of the body of the work-list loop: the store keeps its shape, every id
on the work list is one that was there or is stored, and the length of the work list plus
twice the room does not grow. -/
theorem update_depths_parent_measure (s : Store) (block : PoolBlock) (stack : List hash) :
    (update_depths_parent s block stack).1.map PoolBlock.immutable = s.map PoolBlock.immutable ∧
    (∀ x, (find (update_depths_parent s block stack).1 x).isSome = (find s x).isSome) ∧
    (∀ x ∈ (update_depths_parent s block stack).2, x ∈ stack ∨ (find s x).isSome = true) ∧
    (update_depths_parent s block stack).2.length +
        2 * store_measure depth_room (update_depths_parent s block stack).1 ≤
      stack.length + 2 * store_measure depth_room s := by
  unfold update_depths_parent
  cases hp : find s block.m_parent with
  | none => exact ⟨rfl, fun _ => rfl, fun x hx => Or.inl hx, Nat.le_refl _⟩
  | some parent =>
    dsimp only
    split
    · rename_i hlt
      refine ⟨set_depth_shape _ _ _, set_depth_found _ _ _, ?_, ?_⟩
      · intro x hx
        rcases List.mem_cons.1 hx with rfl | hx
        · right; rw [hp]; rfl
        · exact Or.inl hx
      · have := set_depth_room s block.m_parent _ parent hp hlt (add64_lt _ _)
        simp only [List.length_cons]
        omega
    · exact ⟨rfl, fun _ => rfl, fun x hx => Or.inl hx, Nat.le_refl _⟩

theorem update_depths_uncles_measure (block_id : hash) :
    ∀ (uncles : List hash) (s : Store) (stack : List hash),
      (find s block_id).isSome = true →
      ∃ r, update_depths_uncles s block_id uncles stack = some r ∧
        r.1.map PoolBlock.immutable = s.map PoolBlock.immutable ∧
        (∀ x, (find r.1 x).isSome = (find s x).isSome) ∧
        (∀ x ∈ r.2, x ∈ stack ∨ (find s x).isSome = true) ∧
        r.2.length + 2 * store_measure depth_room r.1 ≤
          stack.length + 2 * store_measure depth_room s
  | [], s, stack, _ =>
    ⟨(s, stack), rfl, rfl, fun _ => rfl, fun x hx => Or.inl hx, Nat.le_refl _⟩
  | uncle_id :: rest, s, stack, hb => by
    rw [update_depths_uncles]
    cases hf : find s block_id with
    | none => rw [hf] at hb; cases hb
    | some block =>
      dsimp only
      cases hu : find s uncle_id with
      | none => exact update_depths_uncles_measure block_id rest s stack hb
      | some uncle =>
        dsimp only
        split
        · rename_i hlt
          obtain ⟨r, hr, h1, h2, h3, h4⟩ := update_depths_uncles_measure block_id rest
            (set_depth s uncle_id
              (add64 block.m_depth (sub64 block.m_sidechainHeight uncle.m_sidechainHeight)))
            (uncle_id :: stack) (by rw [set_depth_found]; exact hb)
          refine ⟨r, hr, h1.trans (set_depth_shape _ _ _),
            fun x => (h2 x).trans (set_depth_found _ _ _ _), ?_, ?_⟩
          · intro x hx
            rcases h3 x hx with h | h
            · rcases List.mem_cons.1 h with rfl | h
              · right; rw [hu]; rfl
              · exact Or.inl h
            · right; rw [← set_depth_found]; exact h
          · have := set_depth_room s uncle_id _ uncle hu hlt (add64_lt _ _)
            simp only [List.length_cons] at h4
            omega
        · exact update_depths_uncles_measure block_id rest s stack hb

/-- The work-list loop of `update_depths` empties: with a bound of at least the length of the
work list plus twice the room that is left it returns, and the store keeps its shape. -/
theorem update_depths_loop_returns : ∀ (fuel : Nat) (s : Store) (stack : List hash),
    (∀ x ∈ stack, (find s x).isSome = true) →
    stack.length + 2 * store_measure depth_room s ≤ fuel →
    ∃ s1, update_depths_loop fuel s stack = some s1 ∧
      s1.map PoolBlock.immutable = s.map PoolBlock.immutable
  | fuel, s, [], _, _ => ⟨s, update_depths_loop_nil fuel s, rfl⟩
  | 0, s, _ :: _, _, h => by simp at h
  | fuel + 1, s, block_id :: stack, hst, hfuel => by
    rw [update_depths_loop]
    have hb := hst block_id (List.mem_cons_self _ _)
    cases hf : find s block_id with
    | none => rw [hf] at hb; cases hb
    | some block =>
      dsimp only
      obtain ⟨p1, p2, p3, p4⟩ := update_depths_parent_measure s block stack
      obtain ⟨r, hr, u1, u2, u3, u4⟩ := update_depths_uncles_measure block_id block.m_uncles
        (update_depths_parent s block stack).1 (update_depths_parent s block stack).2
        (by rw [p2]; exact hb)
      rw [hr]
      dsimp only
      obtain ⟨s1, hs1, hshape⟩ := update_depths_loop_returns fuel r.1 r.2
        (by
          intro x hx
          rw [u2, p2]
          rcases u3 x hx with h | h
          · rcases p3 x h with h | h
            · exact hst x (List.mem_cons_of_mem _ h)
            · exact h
          · rw [← p2]; exact h)
        (by
          simp only [List.length_cons] at hfuel
          omega)
      exact ⟨s1, hs1, hshape.trans (u1.trans p1)⟩

theorem touches_found (cfg : Config) {s s1 : Store} (h : Touches cfg s s1) (x : hash)
    (hx : (find s x).isSome = true) : (find s1 x).isSome = true := by
  cases hf : find s x with
  | none => rw [hf] at hx; cases hx
  | some b =>
    obtain ⟨y, hy, _⟩ := touches_keeps cfg h x b hf
    rw [hy]; rfl

theorem update_depths_child_returns (s : Store) (block_id : hash) (i : Nat) (child_id : hash)
    (hb : (find s block_id).isSome = true) (hc : (find s child_id).isSome = true) :
    ∃ s1, update_depths_child s block_id i child_id = some s1 := by
  unfold update_depths_child
  cases hfb : find s block_id with
  | none => rw [hfb] at hb; cases hb
  | some block =>
    cases hfc : find s child_id with
    | none => rw [hfc] at hc; cases hc
    | some child =>
      dsimp only
      have hfound : ∀ x, (find (if child.m_parent = block.m_sidechainId ∧ i = 1 then
            set_depth s block_id (max block.m_depth (add64 child.m_depth 1)) else s) x).isSome =
          (find s x).isSome := by
        intro x
        split
        · exact set_depth_found _ _ _ _
        · rfl
      generalize (if child.m_parent = block.m_sidechainId ∧ i = 1 then
            set_depth s block_id (max block.m_depth (add64 child.m_depth 1)) else s) = s2
        at hfound
      have h1 := hfound block_id
      have h2 := hfound child_id
      rw [hfb] at h1
      rw [hfc] at h2
      cases hb2 : find s2 block_id with
      | none => rw [hb2] at h1; cases h1
      | some block1 =>
        cases hc2 : find s2 child_id with
        | none => rw [hc2] at h2; cases h2
        | some child1 =>
          dsimp only
          split
          · exact ⟨_, rfl⟩
          · exact ⟨_, rfl⟩

theorem update_depths_children_returns (cfg : Config) (block_id : hash) (i : Nat) :
    ∀ (ids : List hash) (s : Store), (find s block_id).isSome = true →
      (∀ x ∈ ids, (find s x).isSome = true) →
      ∃ s1, update_depths_children s block_id i ids = some s1 ∧ Touches cfg s s1
  | [], s, _, _ => ⟨s, rfl, Relation.ReflTransGen.refl⟩
  | child_id :: rest, s, hb, hids => by
    rw [update_depths_children]
    obtain ⟨s2, hs2⟩ := update_depths_child_returns s block_id i child_id hb
      (hids child_id (List.mem_cons_self _ _))
    rw [hs2]
    dsimp only
    have ht := update_depths_child_touches cfg s s2 block_id i child_id hs2
    obtain ⟨s1, hs1, ht1⟩ := update_depths_children_returns cfg block_id i rest s2
      (touches_found cfg ht block_id hb)
      (fun x hx => touches_found cfg ht x (hids x (List.mem_cons_of_mem _ hx)))
    exact ⟨s1, hs1, ht.trans ht1⟩

/-- The first loop of `update_depths` returns when the block and every listed id are
stored. -/
theorem update_depths_init_returns (cfg : Config) (m : List (Nat × List hash)) (s : Store)
    (block_id : hash) (hb : (find s block_id).isSome = true)
    (hm : ∀ e ∈ m, ∀ x ∈ e.2, (find s x).isSome = true) :
    ∃ s1, update_depths_init m s block_id = some s1 ∧ Touches cfg s s1 := by
  have hbucket : ∀ k, ∀ x ∈ bucket m k, (find s x).isSome = true := by
    intro k x hx
    obtain ⟨e, he, _, hxe⟩ := mem_bucket m k x hx
    exact hm e he x hxe
  unfold update_depths_init
  cases hfb : find s block_id with
  | none => rw [hfb] at hb; cases hb
  | some block =>
    dsimp only
    obtain ⟨s1, hs1, ht1⟩ := update_depths_children_returns cfg block_id 1
      (bucket m (add64 block.m_sidechainHeight 1)) s hb (hbucket _)
    rw [hs1]
    dsimp only
    obtain ⟨s2, hs2, ht2⟩ := update_depths_children_returns cfg block_id 2
      (bucket m (add64 block.m_sidechainHeight 2)) s1 (touches_found cfg ht1 _ hb)
      (fun x hx => touches_found cfg ht1 x (hbucket _ x hx))
    rw [hs2]
    dsimp only
    obtain ⟨s3, hs3, ht3⟩ := update_depths_children_returns cfg block_id 3
      (bucket m (add64 block.m_sidechainHeight 3)) s2
      (touches_found cfg (ht1.trans ht2) _ hb)
      (fun x hx => touches_found cfg (ht1.trans ht2) x (hbucket _ x hx))
    exact ⟨s3, hs3, (ht1.trans ht2).trans ht3⟩

theorem sum_map_le_mul {α : Type} (g : α → Nat) (c : Nat) (hg : ∀ x, g x ≤ c) :
    ∀ (l : List α), (l.map g).sum ≤ c * l.length
  | [] => by simp
  | x :: xs => by
    rw [List.map_cons, List.sum_cons, List.length_cons, Nat.mul_succ]
    have := sum_map_le_mul g c hg xs
    have := hg x
    omega

theorem store_measure_le_mul (f : PoolBlock → Nat) (c : Nat) (hf : ∀ b, f b ≤ c) (s : Store) :
    store_measure f s ≤ c * s.length := by
  unfold store_measure
  have := sum_map_le_mul (fun x => ((find s x).map f).getD 0) c
    (fun x => by
      show ((find s x).map f).getD 0 ≤ c
      cases find s x with
      | none => exact Nat.zero_le _
      | some b => exact hf b)
    (s.map PoolBlock.m_sidechainId)
  rw [List.length_map] at this
  exact this

theorem shape_length {s s1 : Store}
    (h : s1.map PoolBlock.immutable = s.map PoolBlock.immutable) : s1.length = s.length := by
  have := congrArg List.length h
  rw [List.length_map, List.length_map] at this
  exact this

/-- `update_depths` returns on a store that holds the block and every listed id, once the
bound on the iterations is large enough; the store keeps its shape. -/
theorem update_depths_returns (cfg : Config) (fuel : Nat) (m : List (Nat × List hash))
    (s : Store) (block_id : hash) (hb : (find s block_id).isSome = true)
    (hm : ∀ e ∈ m, ∀ x ∈ e.2, (find s x).isSome = true)
    (hfuel : 1 + 2 * (2 ^ 64 * s.length) ≤ fuel) :
    ∃ s1, update_depths fuel m s block_id = some s1 ∧ Touches cfg s s1 := by
  unfold update_depths
  obtain ⟨s2, hs2, ht2⟩ := update_depths_init_returns cfg m s block_id hb hm
  rw [hs2]
  dsimp only
  have hroom := store_measure_le_mul depth_room (2 ^ 64)
    (fun b => by unfold depth_room; omega) s2
  rw [shape_length (touches_shape cfg ht2).1] at hroom
  obtain ⟨s1, hs1, _⟩ := update_depths_loop_returns fuel s2 [block_id]
    (fun x hx => by
      rw [List.mem_singleton.mp hx]
      exact touches_found cfg ht2 _ hb)
    (by simp only [List.length_singleton]; omega)
  exact ⟨s1, hs1, ht2.trans (update_depths_loop_touches cfg fuel s2 [block_id] s1 hs1)⟩


theorem split_reward_loop_returns (reward tw : Nat) (htw : tw ≠ 0) :
    ∀ (shares : List MinerShare) (w rg : Nat),
      ∃ r, split_reward_loop reward tw shares w rg = some r
  | [], _, _ => ⟨[], rfl⟩
  | sh :: rest, w, rg => by
    rw [split_reward_loop]
    dsimp only
    rw [if_neg htw]
    obtain ⟨r, hr⟩ := split_reward_loop_returns reward tw htw rest (add64 w sh.m_weight)
      (udiv128 (umul128 (add64 w sh.m_weight) reward).2 (umul128 (add64 w sh.m_weight) reward).1
        tw)
    rw [hr]
    exact ⟨_, rfl⟩

/-- `split_reward` returns when the 64-bit total weight is not zero. -/
theorem split_reward_returns (reward : Nat) (shares : List MinerShare)
    (htw : total_weight shares ≠ 0) : ∃ r, split_reward reward shares = some r := by
  unfold split_reward
  obtain ⟨r, hr⟩ := split_reward_loop_returns reward (total_weight shares) htw shares 0 0
  rw [hr]
  exact ⟨_, rfl⟩

theorem verify_uncle_returns (s : Store) (hdesc : parents_descending s)
    (block parent : PoolBlock) (hp : parent ∈ s) (mined : List hash) (uncle_id : hash) :
    ∃ v, verify_uncle s block parent mined uncle_id = some v := by
  unfold verify_uncle
  by_cases h1 : uncle_id.empty
  · rw [if_pos h1]; exact ⟨_, rfl⟩
  rw [if_neg h1]
  by_cases h2 : uncle_id ∈ mined
  · rw [if_pos h2]; exact ⟨_, rfl⟩
  rw [if_neg h2]
  cases hf : find s uncle_id with
  | none => exact ⟨_, rfl⟩
  | some uncle =>
    dsimp only
    by_cases h3 : (!uncle.m_verified) = true
    · rw [if_pos h3]; exact ⟨_, rfl⟩
    rw [if_neg h3]
    by_cases h4 : uncle.m_invalid = true
    · rw [if_pos h4]; exact ⟨_, rfl⟩
    rw [if_neg h4]
    by_cases h5 : block.m_sidechainHeight ≤ uncle.m_sidechainHeight ∨
        add64 uncle.m_sidechainHeight UNCLE_BLOCK_DEPTH < block.m_sidechainHeight
    · rw [if_pos h5]; exact ⟨_, rfl⟩
    rw [if_neg h5]
    obtain ⟨r, hr⟩ := walk_from_stored s uncle.m_sidechainHeight parent hp
      (chain_descending_of_store s parent hp hdesc)
    rw [hr]
    cases r with
    | none => exact ⟨_, rfl⟩
    | some tmp =>
      dsimp only
      split
      · exact ⟨_, rfl⟩
      · split
        · exact ⟨_, rfl⟩
        · exact ⟨_, rfl⟩

theorem verify_uncles_returns (s : Store) (hdesc : parents_descending s)
    (block parent : PoolBlock) (hp : parent ∈ s) (mined : List hash) :
    ∀ (uncles : List hash) (expected : difficulty_type),
      ∃ v, verify_uncles s block parent mined uncles expected = some v
  | [], expected => ⟨_, rfl⟩
  | uncle_id :: rest, expected => by
    rw [verify_uncles]
    obtain ⟨v, hv⟩ := verify_uncle_returns s hdesc block parent hp mined uncle_id
    rw [hv]
    cases v with
    | invalid => exact ⟨_, rfl⟩
    | pending => exact ⟨_, rfl⟩
    | ok d => exact verify_uncles_returns s hdesc block parent hp mined rest _

theorem verify_rewards_returns (cfg : Config) (s : Store) (block parent : PoolBlock)
    (expected : difficulty_type)
    (hw : ∀ shares ∈ get_shares cfg s block, total_weight shares ≠ 0) :
    ∃ w, verify_rewards cfg s block parent expected = some w := by
  unfold verify_rewards
  split
  · exact ⟨_, rfl⟩
  split
  · exact ⟨_, rfl⟩
  cases hd : get_difficulty cfg s parent with
  | none => exact ⟨_, rfl⟩
  | some diff =>
    dsimp only
    split
    · exact ⟨_, rfl⟩
    cases hs : get_shares cfg s block with
    | none => exact ⟨_, rfl⟩
    | some shares =>
      dsimp only
      split
      · exact ⟨_, rfl⟩
      obtain ⟨r, hr⟩ := split_reward_returns
        (accumulate64 (block.m_outputs.map TxOutput.m_reward)) shares
        (hw shares (by rw [hs]; rfl))
      rw [hr]
      dsimp only
      split
      · exact ⟨_, rfl⟩
      split
      · exact ⟨_, rfl⟩
      · exact ⟨_, rfl⟩

/-- `verify` returns on a store whose parent references go down in height, for a block
whose shares do not have total weight zero. -/
theorem verify_returns (cfg : Config) (s : Store) (hdesc : parents_descending s)
    (block : PoolBlock)
    (hw : ∀ shares ∈ get_shares cfg s block, total_weight shares ≠ 0) :
    ∃ b1, verify cfg s block = some b1 := by
  have hwr : ∃ w, verify_writes cfg s block = some w := by
    unfold verify_writes
    split
    · split
      · exact ⟨_, rfl⟩
      · exact ⟨_, rfl⟩
    split
    · exact ⟨_, rfl⟩
    split
    · exact ⟨_, rfl⟩
    cases hp : find s block.m_parent with
    | none => exact ⟨_, rfl⟩
    | some parent =>
      dsimp only
      unfold verify_with_parent
      split
      · exact ⟨_, rfl⟩
      split
      · exact ⟨_, rfl⟩
      split
      · exact ⟨_, rfl⟩
      split
      · exact ⟨_, rfl⟩
      obtain ⟨v, hv⟩ := verify_uncles_returns s hdesc block parent (find_some_mem hp)
        (mined_blocks s block parent) block.m_uncles
        (parent.m_cumulativeDifficulty.add block.m_difficulty)
      rw [hv]
      cases v with
      | invalid => exact ⟨_, rfl⟩
      | pending => exact ⟨_, rfl⟩
      | ok d => exact verify_rewards_returns cfg s block parent d hw
  obtain ⟨w, hw1⟩ := hwr
  unfold verify
  rw [hw1]
  exact ⟨_, rfl⟩

/-! ### `is_longer_chain` returns -/

theorem walk_to_height_mem (s : Store) (height fuel : Nat) (B tmp : PoolBlock) (hB : B ∈ s)
    (h : walk_to_height s height fuel B = some (some tmp)) : tmp ∈ s := by
  obtain ⟨k, hk, _⟩ := walk_to_height_some s height fuel B tmp h
  cases k with
  | zero =>
    simp only [nth_parent, Option.some.injEq] at hk
    rw [← hk]; exact hB
  | succ k => exact find_some_mem (nth_parent_stored s k B tmp hk)

theorem lower_blocks_le (s : Store) (B : PoolBlock) :
    (s.filter (fun b => decide (b.m_sidechainHeight < B.m_sidechainHeight))).length ≤
      s.length := List.length_filter_le _ _

theorem common_parent_walk_returns (s : Store) (hdesc : parents_descending s) :
    ∀ (fuel : Nat) (x y : Option PoolBlock),
      (∀ b, x = some b → b ∈ s ∧
        (s.filter (fun c => decide (c.m_sidechainHeight < b.m_sidechainHeight))).length < fuel) →
      ∃ r, common_parent_walk s fuel x y = some r
  | fuel, none, y, _ => by
    cases fuel <;> exact ⟨_, rfl⟩
  | fuel, some b, none, _ => by
    cases fuel <;> exact ⟨_, rfl⟩
  | 0, some b, some c, h => by
    have := (h b rfl).2
    omega
  | fuel + 1, some b, some c, h => by
    rw [common_parent_walk]
    split
    · exact ⟨_, rfl⟩
    · apply common_parent_walk_returns s hdesc fuel
      intro p hp
      have hmem : p ∈ s := find_some_mem hp
      have hlt := hdesc b (h b rfl).1 p hp
      have := lower_blocks_lt s b p hmem hlt
      have := (h b rfl).2
      exact ⟨hmem, by omega⟩

theorem same_chain_search_returns (s : Store) (hdesc : parents_descending s)
    (block candidate : PoolBlock) (hb : block ∈ s) (hc : candidate ∈ s) :
    ∃ r, same_chain_search s block candidate = some r := by
  unfold same_chain_search
  obtain ⟨r1, hr1⟩ := walk_to_height_total s candidate.m_sidechainHeight (s.length + 1) block
    (chain_descending_of_store s block hb hdesc)
    (Nat.lt_succ_of_le (lower_blocks_le s block))
  rw [hr1]
  cases r1 with
  | none => exact ⟨_, rfl⟩
  | some block_ancestor =>
    dsimp only
    obtain ⟨r2, hr2⟩ := walk_to_height_total s block_ancestor.m_sidechainHeight (s.length + 1)
      candidate (chain_descending_of_store s candidate hc hdesc)
      (Nat.lt_succ_of_le (lower_blocks_le s candidate))
    rw [hr2]
    dsimp only
    apply common_parent_walk_returns s hdesc
    intro b hbe
    cases hbe
    refine ⟨walk_to_height_mem s _ _ block block_ancestor hb hr1, ?_⟩
    have := lower_blocks_le s block_ancestor
    have : s.length + 1 ≤ (s.length + 1) * (s.length + 1) := Nat.le_mul_self _
    omega

/-- `is_longer_chain` returns when both blocks are stored and parent references go down in
height. -/
theorem is_longer_chain_returns (cfg : Config) (pool : Pool) (s : Store)
    (hdesc : parents_descending s) (block candidate : Option PoolBlock)
    (hb : ∀ b, block = some b → b ∈ s) (hc : ∀ c, candidate = some c → c ∈ s) :
    ∃ r, is_longer_chain cfg pool s block candidate = some r := by
  unfold is_longer_chain
  cases candidate with
  | none => exact ⟨_, rfl⟩
  | some c =>
    dsimp only
    split
    · exact ⟨_, rfl⟩
    cases block with
    | none => exact ⟨_, rfl⟩
    | some b =>
      dsimp only
      obtain ⟨r, hr⟩ := same_chain_search_returns s hdesc b c (hb b rfl) (hc c rfl)
      rw [hr]
      cases r <;> exact ⟨_, rfl⟩


/-! ### Stores of the same shape -/

theorem shape_agree {s s1 : Store}
    (h : s1.map PoolBlock.immutable = s.map PoolBlock.immutable) : store_agree s1 s := by
  intro id
  rw [← find_map_immutable, ← find_map_immutable, h]

theorem shape_found {s s1 : Store}
    (h : s1.map PoolBlock.immutable = s.map PoolBlock.immutable) (x : hash) :
    (find s1 x).isSome = (find s x).isSome := by
  have := shape_agree h x
  cases h1 : find s1 x <;> cases h2 : find s x <;> rw [h1, h2] at this <;> simp at this ⊢

theorem shape_mem {s s1 : Store}
    (h : s1.map PoolBlock.immutable = s.map PoolBlock.immutable) (b1 : PoolBlock)
    (hb : b1 ∈ s1) : ∃ b ∈ s, b.immutable = b1.immutable := by
  have hmem : b1.immutable ∈ s1.map PoolBlock.immutable := List.mem_map_of_mem _ hb
  rw [h] at hmem
  exact List.mem_map.mp hmem

theorem parents_descending_shape {s s1 : Store}
    (h : s1.map PoolBlock.immutable = s.map PoolBlock.immutable)
    (hdesc : parents_descending s) : parents_descending s1 := by
  intro b1 hb1 p1 hp1
  obtain ⟨b, hb, hbe⟩ := shape_mem h b1 hb1
  have hpar := get_parent_agree (shape_agree h) b1 b hbe.symm
  rw [Option.mem_def] at hp1
  rw [hp1] at hpar
  cases hp : get_parent s b with
  | none => rw [hp] at hpar; simp at hpar
  | some p =>
    rw [hp] at hpar
    simp only [Option.map_some', Option.some.injEq] at hpar
    have h1 := hdesc b hb p hp
    have h2 := (immutable_fields hpar).2.2.2.1
    have h3 := (immutable_fields hbe).2.2.2.1
    omega

theorem weights_nonzero_shape (cfg : Config) {s s1 : Store}
    (h : s1.map PoolBlock.immutable = s.map PoolBlock.immutable)
    (hw : weights_nonzero cfg s) : weights_nonzero cfg s1 := by
  intro b1 hb1 shares hs
  obtain ⟨b, hb, hbe⟩ := shape_mem h b1 hb1
  rw [get_shares_agree cfg (shape_agree h) b1 b hbe.symm] at hs
  exact hw b hb shares hs

theorem set_flags_shape (s : Store) (id : hash) (v i : Bool) :
    (set_flags s id v i).map PoolBlock.immutable = s.map PoolBlock.immutable := by
  unfold set_flags
  rw [List.map_map]
  apply List.map_congr_left
  intro b _
  exact set_flags_of_immutable id v i b

theorem set_broadcasted_shape (s : Store) (id : hash) :
    (set_broadcasted s id).map PoolBlock.immutable = s.map PoolBlock.immutable := by
  unfold set_broadcasted
  rw [List.map_map]
  apply List.map_congr_left
  intro b _
  simp only [Function.comp]
  split <;> rfl

theorem set_want_broadcast_shape (s : Store) (id : hash) :
    (set_want_broadcast s id).map PoolBlock.immutable = s.map PoolBlock.immutable := by
  unfold set_want_broadcast
  rw [List.map_map]
  apply List.map_congr_left
  intro b _
  simp only [Function.comp]
  split <;> rfl

/-! ### `update_chain_tip` returns -/

theorem listed_stored_shape (sc : SideChain) (s1 : Store)
    (h : s1.map PoolBlock.immutable = sc.m_blocksById.map PoolBlock.immutable)
    (hl : listed_stored sc) : listed_stored { sc with m_blocksById := s1 } := by
  intro e he id hid
  have h0 := hl e he id hid
  have ha := shape_agree h id
  show (find s1 id).map PoolBlock.m_sidechainHeight = some e.1
  cases h1 : find s1 id with
  | none =>
    rw [h1] at ha
    cases h2 : find sc.m_blocksById id with
    | none => rw [h2] at h0; cases h0
    | some b => rw [h2] at ha; simp at ha
  | some b1 =>
    rw [h1] at ha
    cases h2 : find sc.m_blocksById id with
    | none => rw [h2] at h0; cases h0
    | some b =>
      rw [h2] at ha h0
      simp only [Option.map_some', Option.some.injEq] at ha h0 ⊢
      rw [(immutable_fields ha).2.2.2.1]
      exact h0

/-- The pruning returns and leaves the tip stored when the vectors list stored blocks at
their heights and the prune distance is not zero. -/
theorem prune_old_blocks_keeps_tip (cfg : Config) (sc : SideChain)
    (hT : cfg.m_targetBlockTime ≠ 0) (hpd : 1 ≤ prune_distance cfg) (hl : listed_stored sc)
    (tip_id : hash) (ht : sc.m_chainTip = some tip_id)
    (hf : (find sc.m_blocksById tip_id).isSome = true) :
    ∃ sc2, prune_old_blocks cfg sc = some sc2 ∧
      (find sc2.m_blocksById tip_id).isSome = true := by
  unfold prune_old_blocks
  rw [if_neg hT, ht]
  dsimp only
  cases hft : find sc.m_blocksById tip_id with
  | none => rw [hft] at hf; cases hf
  | some tip =>
    dsimp only
    split
    · exact ⟨sc, rfl, hf⟩
    · rename_i hge
      refine ⟨_, rfl, ?_⟩
      dsimp only
      rcases find_prune_fold
          (add64 ((cfg.m_chainWindowSize * 2) % 2 ^ 64) (120 / cfg.m_targetBlockTime)) tip_id
          ((sc.m_blocksByHeight.filter (fun e => decide (e.1 ≤ tip.m_sidechainHeight -
            add64 ((cfg.m_chainWindowSize * 2) % 2 ^ 64) (120 / cfg.m_targetBlockTime)))).flatMap
            (fun e => e.2))
          sc.m_blocksById with h | ⟨_, hmem, _⟩
      · rw [h]; exact hf
      · exfalso
        rw [List.mem_flatMap] at hmem
        obtain ⟨e, he, hid⟩ := hmem
        rw [List.mem_filter] at he
        have hkey := hl e he.1 tip_id hid
        rw [hft] at hkey
        simp only [Option.map_some', Option.some.injEq] at hkey
        have hle : e.1 ≤ tip.m_sidechainHeight -
            add64 ((cfg.m_chainWindowSize * 2) % 2 ^ 64) (120 / cfg.m_targetBlockTime) := by
          simpa using he.2
        unfold prune_distance at hpd
        omega

/-- `update_chain_tip` returns on a state whose vectors list stored blocks, whose tip is
stored and whose parent references go down in height. -/
theorem update_chain_tip_returns (cfg : Config) (pool : Pool) (sc : SideChain) (id : hash)
    (hT : cfg.m_targetBlockTime ≠ 0) (hpd : 1 ≤ prune_distance cfg) (hl : listed_stored sc)
    (htip : ∀ t, sc.m_chainTip = some t → (find sc.m_blocksById t).isSome = true)
    (hid : (find sc.m_blocksById id).isSome = true)
    (hdesc : parents_descending sc.m_blocksById) :
    ∃ sc1, update_chain_tip cfg pool sc id = some sc1 := by
  unfold update_chain_tip
  cases hf : find sc.m_blocksById id with
  | none => rw [hf] at hid; cases hid
  | some block =>
    dsimp only
    split
    · exact ⟨_, rfl⟩
    split
    · exact ⟨_, rfl⟩
    split
    · rename_i heq
      exfalso
      split at heq
      · cases heq
      · rename_i tip_id ht
        have := htip tip_id ht
        split at heq
        · rename_i hft
          rw [hft] at this
          cases this
        · cases heq
    · rename_i tip heq
      have htipmem : ∀ b, tip = some b → b ∈ sc.m_blocksById := by
        intro b hb
        split at heq
        · rw [hb] at heq; cases heq
        · split at heq
          · cases heq
          · rename_i t hft
            rw [hb] at heq
            cases heq
            exact find_some_mem hft
      obtain ⟨longer, hlonger⟩ := is_longer_chain_returns cfg pool sc.m_blocksById hdesc tip
        (some block) htipmem (fun c hc => by cases hc; exact find_some_mem hf)
      rw [hlonger]
      dsimp only
      cases longer with
      | false =>
        simp only [Bool.false_eq_true, if_false]
        rw [hf]
        dsimp only
        split <;> exact ⟨_, rfl⟩
      | true =>
        simp only [if_true]
        cases hd : get_difficulty cfg sc.m_blocksById block with
        | none =>
          dsimp only
          rw [hf]
          dsimp only
          split <;> exact ⟨_, rfl⟩
        | some diff =>
          dsimp only
          obtain ⟨sc2, hsc2, hfound⟩ := prune_old_blocks_keeps_tip cfg
            { sc with
              m_chainTip := some id
              m_curDifficulty := diff
              m_blocksById := set_want_broadcast sc.m_blocksById id }
            hT hpd
            (listed_stored_shape { sc with m_chainTip := some id, m_curDifficulty := diff }
              (set_want_broadcast sc.m_blocksById id) (set_want_broadcast_shape _ _) hl)
            id rfl
            (by
              show (find (set_want_broadcast sc.m_blocksById id) id).isSome = true
              rw [shape_found (set_want_broadcast_shape _ _)]
              exact hid)
          rw [hsc2]
          dsimp only
          cases hf2 : find sc2.m_blocksById id with
          | none => rw [hf2] at hfound; cases hfound
          | some block1 =>
            dsimp only
            split <;> exact ⟨_, rfl⟩


/-! ### The loop of `verify_loop` returns -/

theorem bucket_length_le (m : List (Nat × List hash)) (k : Nat) :
    (bucket m k).length ≤ (m.map (fun e => e.2.length)).sum := by
  unfold bucket
  cases hf : m.find? (fun e => decide (e.1 = k)) with
  | none => exact Nat.zero_le _
  | some e => exact map_le_sum (fun e => e.2.length) m e (List.mem_of_find?_eq_some hf)

theorem next_blocks_length_le (m : List (Nat × List hash)) (height : Nat) :
    (next_blocks m height).length ≤ listed_bound m := by
  unfold next_blocks listed_bound
  rw [List.length_append, List.length_append]
  have h1 := bucket_length_le m (add64 height 1)
  have h2 := bucket_length_le m (add64 height 2)
  have h3 := bucket_length_le m (add64 height 3)
  omega

theorem mem_next_blocks (m : List (Nat × List hash)) (height : Nat) (x : hash)
    (hx : x ∈ next_blocks m height) : ∃ e ∈ m, x ∈ e.2 := by
  unfold next_blocks at hx
  rw [List.mem_append, List.mem_append] at hx
  rcases hx with (hx | hx) | hx
  · obtain ⟨e, he, _, hxe⟩ := mem_bucket m _ x hx
    exact ⟨e, he, hxe⟩
  · obtain ⟨e, he, _, hxe⟩ := mem_bucket m _ x hx
    exact ⟨e, he, hxe⟩
  · obtain ⟨e, he, _, hxe⟩ := mem_bucket m _ x hx
    exact ⟨e, he, hxe⟩

theorem unverified_le_one (b : PoolBlock) : unverified b ≤ 1 := by
  unfold unverified
  split <;> omega

theorem set_flags_unverified_le (s : Store) (id : hash) (v i : Bool) (block : PoolBlock)
    (hf : find s id = some block) (hu : block.m_verified = false) :
    store_measure unverified (set_flags s id v i) ≤ store_measure unverified s := by
  unfold set_flags
  apply store_measure_map_le unverified _ (set_flags_of_id id v i) s
  intro x b hb
  unfold set_flags_of
  split
  · rename_i hbid
    have hx : x = id := by rw [← find_some_id hb]; exact hbid
    subst hx
    rw [hf] at hb
    cases hb
    have : unverified block = 1 := by unfold unverified; rw [hu]; rfl
    rw [this]
    exact unverified_le_one _
  · exact Nat.le_refl _

theorem set_flags_unverified_lt (s : Store) (id : hash) (i : Bool) (block : PoolBlock)
    (hf : find s id = some block) (hu : block.m_verified = false) :
    store_measure unverified (set_flags s id true i) < store_measure unverified s := by
  have h1 : unverified block = 1 := by unfold unverified; rw [hu]; rfl
  unfold set_flags
  apply store_measure_map_lt unverified _ (set_flags_of_id id true i) s _ id block hf
  · unfold set_flags_of
    rw [if_pos (find_some_id hf), h1]
    unfold unverified
    simp
  · intro x b hb
    unfold set_flags_of
    split
    · rename_i hbid
      have hx : x = id := by rw [← find_some_id hb]; exact hbid
      subst hx
      rw [hf] at hb
      cases hb
      rw [h1]
      exact unverified_le_one _
    · exact Nat.le_refl _

theorem set_broadcasted_unverified (s : Store) (id : hash) :
    store_measure unverified (set_broadcasted s id) ≤ store_measure unverified s := by
  unfold set_broadcasted
  apply store_measure_map_le unverified _ (fun b => by split <;> rfl) s
  intro x b _
  split
  · exact Nat.le_refl _
  · exact Nat.le_refl _

theorem deref_returns (s : Store) (highest : Option hash)
    (h : ∀ x, highest = some x → (find s x).isSome = true) :
    ∃ r, deref s highest = some r ∧ ∀ b, r = some b → b ∈ s := by
  cases highest with
  | none => exact ⟨none, rfl, fun b hb => by cases hb⟩
  | some x =>
    have := h x rfl
    cases hf : find s x with
    | none => rw [hf] at this; cases this
    | some b =>
      refine ⟨some b, ?_, fun c hc => by cases hc; exact find_some_mem hf⟩
      show (match find s x with
        | none => none
        | some b => some (some b)) = some (some b)
      rw [hf]

theorem verify_stored_self (cfg : Config) (s : Store) (id : hash) (block block1 : PoolBlock)
    (hf : find s id = some block) (hv : verify cfg s block = some block1) :
    find (set_flags s id block1.m_verified block1.m_invalid) id = some block1 := by
  rw [find_set_flags_self s id _ _ block hf]
  unfold verify at hv
  cases hw : verify_writes cfg s block with
  | none => rw [hw] at hv; cases hv
  | some w =>
    rw [hw] at hv
    simp only [Option.map_some', Option.some.injEq] at hv
    rw [← hv]
    rfl

theorem measure_step (len next u u1 k fuel : Nat) (hnext : next ≤ k) (hu : u1 + 1 ≤ u)
    (h : len + 1 + u * (k + 1) ≤ fuel + 1) : next + len + u1 * (k + 1) ≤ fuel := by
  have h1 : (u1 + 1) * (k + 1) ≤ u * (k + 1) := Nat.mul_le_mul_right _ hu
  rw [Nat.succ_mul] at h1
  generalize u1 * (k + 1) = a at h1 ⊢
  generalize u * (k + 1) = b at h1 h
  omega

theorem measure_stay (len u u1 k fuel : Nat) (hu : u1 ≤ u)
    (h : len + 1 + u * (k + 1) ≤ fuel + 1) : len + u1 * (k + 1) ≤ fuel := by
  have h1 : u1 * (k + 1) ≤ u * (k + 1) := Nat.mul_le_mul_right _ hu
  generalize u1 * (k + 1) = a at h1 ⊢
  generalize u * (k + 1) = b at h1 h
  omega

/-- The work-list loop of `verify_loop` empties: a block is found verified at most once, and
only then are ids pushed, at most `listed_bound` of them.  With a bound of at least the
length of the work list plus `listed_bound + 1` for every unverified block it returns. -/
theorem verify_loop_go_returns (cfg : Config) (pool : Pool) (s0 : Store)
    (hdesc : parents_descending s0) (hw : weights_nonzero cfg s0)
    (m : List (Nat × List hash)) (hm : ∀ e ∈ m, ∀ x ∈ e.2, (find s0 x).isSome = true) :
    ∀ (fuel : Nat) (sc : SideChain) (stack : List hash) (highest : Option hash),
      sc.m_blocksById.map PoolBlock.immutable = s0.map PoolBlock.immutable →
      sc.m_blocksByHeight = m →
      (∀ x ∈ stack, (find s0 x).isSome = true) →
      (∀ x, highest = some x → (find s0 x).isSome = true) →
      stack.length + store_measure unverified sc.m_blocksById * (listed_bound m + 1) ≤ fuel →
      ∃ r, verify_loop_go cfg pool fuel sc stack highest = some r ∧
        ∀ x, r.2 = some x → (find s0 x).isSome = true
  | fuel, sc, [], highest, _, _, _, hh, _ =>
    ⟨(sc, highest), verify_loop_go_nil cfg pool fuel sc highest, hh⟩
  | 0, sc, _ :: _, _, _, _, _, _, h => by simp at h
  | fuel + 1, sc, id :: stack, highest, hshape, hbh, hst, hh, hfuel => by
    rw [verify_loop_go]
    have hid := hst id (List.mem_cons_self _ _)
    rw [← shape_found hshape] at hid
    have hrest : ∀ x ∈ stack, (find s0 x).isSome = true :=
      fun x hx => hst x (List.mem_cons_of_mem _ hx)
    simp only [List.length_cons] at hfuel
    cases hf : find sc.m_blocksById id with
    | none => rw [hf] at hid; cases hid
    | some block =>
      dsimp only
      by_cases hver : block.m_verified = true
      · rw [if_pos hver]
        exact verify_loop_go_returns cfg pool s0 hdesc hw m hm fuel sc stack highest hshape hbh
          hrest hh (by omega)
      · rw [if_neg hver]
        have hu : block.m_verified = false := by
          cases hb : block.m_verified with
          | true => exact absurd hb hver
          | false => rfl
        obtain ⟨block1, hv⟩ := verify_returns cfg sc.m_blocksById
          (parents_descending_shape hshape hdesc) block
          (weights_nonzero_shape cfg hshape hw block (find_some_mem hf))
        rw [hv]
        dsimp only
        have hshape1 : (set_flags sc.m_blocksById id block1.m_verified
            block1.m_invalid).map PoolBlock.immutable = s0.map PoolBlock.immutable :=
          (set_flags_shape _ _ _ _).trans hshape
        have hle := set_flags_unverified_le sc.m_blocksById id block1.m_verified
          block1.m_invalid block hf hu
        by_cases hv1 : (!block1.m_verified) = true
        · rw [if_pos hv1]
          exact verify_loop_go_returns cfg pool s0 hdesc hw m hm fuel
            { sc with m_blocksById :=
              set_flags sc.m_blocksById id block1.m_verified block1.m_invalid }
            stack highest hshape1 hbh hrest hh
            (measure_stay _ _ _ _ _ hle hfuel)
        rw [if_neg hv1]
        by_cases hi1 : block1.m_invalid = true
        · rw [if_pos hi1]
          exact verify_loop_go_returns cfg pool s0 hdesc hw m hm fuel
            { sc with m_blocksById :=
              set_flags sc.m_blocksById id block1.m_verified block1.m_invalid }
            stack highest hshape1 hbh hrest hh
            (measure_stay _ _ _ _ _ hle hfuel)
        rw [if_neg hi1]
        have hvt : block1.m_verified = true := by
          cases hb : block1.m_verified with
          | true => rfl
          | false => rw [hb] at hv1; exact absurd rfl hv1
        obtain ⟨hi, hhi, hhimem⟩ := deref_returns
          (set_flags sc.m_blocksById id block1.m_verified block1.m_invalid) highest
          (fun x hx => by rw [shape_found hshape1]; exact hh x hx)
        rw [hhi]
        dsimp only
        obtain ⟨longer, hlonger⟩ := is_longer_chain_returns cfg pool
          (set_flags sc.m_blocksById id block1.m_verified block1.m_invalid)
          (parents_descending_shape hshape1 hdesc) hi (some block1) hhimem
          (fun c hc => by
            cases hc
            exact find_some_mem (verify_stored_self cfg sc.m_blocksById id block block1 hf hv))
        rw [hlonger]
        dsimp only
        have hlt : store_measure unverified
            (set_flags sc.m_blocksById id block1.m_verified block1.m_invalid) + 1 ≤
            store_measure unverified sc.m_blocksById := by
          rw [hvt]
          exact set_flags_unverified_lt sc.m_blocksById id block1.m_invalid block hf hu
        apply verify_loop_go_returns cfg pool s0 hdesc hw m hm fuel
        · show (if (block1.m_wantBroadcast && !block1.m_broadcasted) = true then
              set_broadcasted (set_flags sc.m_blocksById id block1.m_verified block1.m_invalid)
                id
            else set_flags sc.m_blocksById id block1.m_verified
              block1.m_invalid).map PoolBlock.immutable = s0.map PoolBlock.immutable
          split
          · exact (set_broadcasted_shape _ _).trans hshape1
          · exact hshape1
        · exact hbh
        · intro x hx
          rcases List.mem_append.mp hx with hx | hx
          · rw [List.mem_reverse, hbh] at hx
            obtain ⟨e, he, hxe⟩ := mem_next_blocks m _ x hx
            exact hm e he x hxe
          · exact hrest x hx
        · intro x hx
          split at hx
          · cases hx
            rw [← shape_found hshape, hf]; rfl
          · exact hh x hx
        · rw [List.length_append, List.length_reverse, hbh]
          have hs2 : store_measure unverified
              (if (block1.m_wantBroadcast && !block1.m_broadcasted) = true then
                set_broadcasted
                  (set_flags sc.m_blocksById id block1.m_verified block1.m_invalid) id
              else set_flags sc.m_blocksById id block1.m_verified block1.m_invalid) + 1 ≤
              store_measure unverified sc.m_blocksById := by
            split
            · have := set_broadcasted_unverified
                (set_flags sc.m_blocksById id block1.m_verified block1.m_invalid) id
              omega
            · exact hlt
          exact measure_step _ _ _ _ _ _ (next_blocks_length_le m _) hs2 hfuel


/-- C39 (amended): `add_block` returns.  On a state whose height vectors list stored blocks
at their heights and whose tip is stored, with a target block time and a prune distance
that are not zero, `add_block` of a block returns a state for every bound of at least
`add_block_fuel` on the iterations of its two work-list loops, provided that with the new
block every parent reference goes down in height and no stored block has shares whose
64-bit total weight is zero. -/
theorem add_block_returns (cfg : Config) (pool : Pool) (sc : SideChain) (block : PoolBlock)
    (hT : cfg.m_targetBlockTime ≠ 0) (hpd : 1 ≤ prune_distance cfg)
    (hl : listed_stored sc)
    (htip : ∀ t, sc.m_chainTip = some t → (find sc.m_blocksById t).isSome = true)
    (hdesc : parents_descending (sc.m_blocksById ++ [block]))
    (hw : weights_nonzero cfg (sc.m_blocksById ++ [block]))
    (fuel : Nat) (hfuel : add_block_fuel sc block ≤ fuel) :
    ∃ sc1, add_block cfg pool fuel sc block = some sc1 := by
  unfold add_block
  cases hf : find sc.m_blocksById block.m_sidechainId with
  | some _ => exact ⟨sc, rfl⟩
  | none =>
    dsimp only
    have hl0 := listed_stored_push sc block hf hl
    have hm0 : ∀ e ∈ bucket_push sc.m_blocksByHeight block.m_sidechainHeight
        block.m_sidechainId, ∀ x ∈ e.2,
        (find (sc.m_blocksById ++ [block]) x).isSome = true := by
      intro e he x hx
      have := hl0 e he x hx
      cases hfx : find (sc.m_blocksById ++ [block]) x with
      | none =>
        have h2 : (find (sc.m_blocksById ++ [block]) x).map PoolBlock.m_sidechainHeight =
            some e.1 := this
        rw [hfx] at h2
        cases h2
      | some _ => rfl
    have hb0 : (find (sc.m_blocksById ++ [block]) block.m_sidechainId).isSome = true := by
      rw [find_append_of_none sc.m_blocksById block _ hf, if_pos rfl]
      rfl
    unfold add_block_fuel at hfuel
    obtain ⟨s1, hs1, ht⟩ := update_depths_returns cfg fuel
      (bucket_push sc.m_blocksByHeight block.m_sidechainHeight block.m_sidechainId)
      (sc.m_blocksById ++ [block]) block.m_sidechainId hb0 hm0
      (by
        rw [List.length_append, List.length_singleton]
        omega)
    rw [hs1]
    dsimp only
    have hshape := (touches_shape cfg ht).1
    have hl1 : listed_stored
        { sc with
          m_blocksById := s1
          m_blocksByHeight :=
            bucket_push sc.m_blocksByHeight block.m_sidechainHeight block.m_sidechainId } :=
      listed_stored_shape
        { sc with
          m_blocksById := sc.m_blocksById ++ [block]
          m_blocksByHeight :=
            bucket_push sc.m_blocksByHeight block.m_sidechainHeight block.m_sidechainId }
        s1 hshape hl0
    have htip1 : ∀ t, sc.m_chainTip = some t → (find s1 t).isSome = true := by
      intro t h
      rw [shape_found hshape]
      have := htip t h
      cases hft : find sc.m_blocksById t with
      | none => rw [hft] at this; cases this
      | some b => rw [find_append_of_some sc.m_blocksById block b t hft]; rfl
    have hdesc1 := parents_descending_shape hshape hdesc
    have hw1 := weights_nonzero_shape cfg hshape hw
    have hb1 : (find s1 block.m_sidechainId).isSome = true := by
      rw [shape_found hshape]; exact hb0
    have hm1 : ∀ e ∈ bucket_push sc.m_blocksByHeight block.m_sidechainHeight
        block.m_sidechainId, ∀ x ∈ e.2, (find s1 x).isSome = true := by
      intro e he x hx
      rw [shape_found hshape]
      exact hm0 e he x hx
    by_cases hver : block.m_verified = true
    · rw [if_pos hver]
      by_cases hinv : (!block.m_invalid) = true
      · rw [if_pos hinv]
        exact update_chain_tip_returns cfg pool _ block.m_sidechainId hT hpd hl1 htip1 hb1
          hdesc1
      · rw [if_neg hinv]
        exact ⟨_, rfl⟩
    · rw [if_neg hver]
      unfold verify_loop
      have hlen : s1.length = sc.m_blocksById.length + 1 := by
        rw [shape_length hshape, List.length_append, List.length_singleton]
      have hU := store_measure_le_mul unverified 1 unverified_le_one s1
      rw [hlen, Nat.one_mul] at hU
      have hUK := Nat.mul_le_mul_right
        (listed_bound
          (bucket_push sc.m_blocksByHeight block.m_sidechainHeight block.m_sidechainId) + 1) hU
      obtain ⟨r, hr, hrh⟩ := verify_loop_go_returns cfg pool s1 hdesc1 hw1
        (bucket_push sc.m_blocksByHeight block.m_sidechainHeight block.m_sidechainId) hm1 fuel
        { sc with
          m_blocksById := s1
          m_blocksByHeight :=
            bucket_push sc.m_blocksByHeight block.m_sidechainHeight block.m_sidechainId }
        [block.m_sidechainId] none rfl rfl
        (fun x hx => by rw [List.mem_singleton.mp hx]; exact hb1)
        (fun x hx => by cases hx)
        (by
          simp only [List.length_singleton]
          generalize store_measure unverified s1 * (listed_bound
            (bucket_push sc.m_blocksByHeight block.m_sidechainHeight block.m_sidechainId)
              + 1) = a at hUK
          generalize (sc.m_blocksById.length + 1) * (listed_bound
            (bucket_push sc.m_blocksByHeight block.m_sidechainHeight block.m_sidechainId)
              + 1) = b at hUK hfuel
          omega)
      obtain ⟨s2, ht2, hr1⟩ := verify_loop_go_touches cfg pool fuel _ _ _ r hr
      rw [hr]
      obtain ⟨sc2, highest⟩ := r
      cases highest with
      | none => exact ⟨_, rfl⟩
      | some hb =>
        dsimp only
        dsimp only at hr1
        rw [hr1]
        have hshape2 := (touches_shape cfg ht2).1
        dsimp only at hshape2
        apply update_chain_tip_returns cfg pool _ hb hT hpd
        · exact listed_stored_shape
            { sc with
              m_blocksById := s1
              m_blocksByHeight :=
                bucket_push sc.m_blocksByHeight block.m_sidechainHeight block.m_sidechainId }
            s2 hshape2 hl1
        · intro t h
          show (find s2 t).isSome = true
          rw [shape_found hshape2]
          exact htip1 t h
        · show (find s2 hb).isSome = true
          rw [shape_found hshape2]
          exact hrh hb rfl
        · exact parents_descending_shape hshape2 hdesc1

set_option maxRecDepth 100000 in
theorem add_block_returns_witness :
    ∃ sc1, add_block default_config idle_pool
      (add_block_fuel (first_tip genesis_block { lo := 1000, hi := 0 }) paid_block)
      (first_tip genesis_block { lo := 1000, hi := 0 }) paid_block = some sc1 :=
  add_block_returns default_config idle_pool (first_tip genesis_block { lo := 1000, hi := 0 })
    paid_block (by decide) (by decide) (by decide) (by decide) (by decide) (by decide) _
    (Nat.le_refl _)


/-! ## Theorems: depth in states from which nothing was pruned -/

theorem refers_immutable {a a1 c c1 : PoolBlock} (ha : a1.immutable = a.immutable)
    (hc : c1.immutable = c.immutable) (h : refers c a) : refers c1 a1 := by
  unfold refers at h ⊢
  have fa := immutable_fields ha
  have fc := immutable_fields hc
  rw [fa.1, fc.2.1, fc.2.2.1]
  exact h

theorem names_agree {s s1 : Store} (h : store_agree s1 s) (x y : hash)
    (he : names s x y) : names s1 x y := by
  obtain ⟨a, c, ha, hc, hr⟩ := he
  rcases store_agree_cases h x with ⟨_, h2⟩ | ⟨a1, a2, h1, h2, hae⟩
  · rw [ha] at h2; cases h2
  rcases store_agree_cases h y with ⟨_, h4⟩ | ⟨c1, c2, h3, h4, hce⟩
  · rw [hc] at h4; cases h4
  rw [ha] at h2
  rw [hc] at h4
  cases h2
  cases h4
  exact ⟨a1, c1, h1, h3, refers_immutable hae hce hr⟩

theorem reaches_agree {s s1 : Store} (h : store_agree s1 s) (x y : hash)
    (hr : reaches s x y) : reaches s1 x y :=
  Relation.ReflTransGen.mono (names_agree h) hr

theorem store_agree_symm {s s1 : Store} (h : store_agree s1 s) : store_agree s s1 :=
  fun id => (h id).symm

/-- What a found block of one store looks like in a store that agrees with it. -/
theorem agree_found {s s1 : Store} (h : store_agree s1 s) (x : hash) (a : PoolBlock)
    (ha : find s x = some a) : ∃ a1, find s1 x = some a1 ∧ a1.immutable = a.immutable := by
  rcases store_agree_cases h x with ⟨_, h2⟩ | ⟨a1, a2, h1, h2, hae⟩
  · rw [ha] at h2; cases h2
  · rw [ha] at h2
    cases h2
    exact ⟨a1, h1, hae⟩

theorem parents_consistent_shape {s s1 : Store}
    (h : s1.map PoolBlock.immutable = s.map PoolBlock.immutable)
    (hc : parents_consistent s) : parents_consistent s1 := by
  intro b1 hb1 p1 hp1
  obtain ⟨b, hb, hbe⟩ := shape_mem h b1 hb1
  have hpar := get_parent_agree (shape_agree h) b1 b hbe.symm
  rw [Option.mem_def] at hp1
  rw [hp1] at hpar
  cases hp : get_parent s b with
  | none => rw [hp] at hpar; simp at hpar
  | some p =>
    rw [hp] at hpar
    simp only [Option.map_some', Option.some.injEq] at hpar
    have h1 := hc b hb p hp
    have h2 := (immutable_fields hpar).2.2.2.1
    have h3 := (immutable_fields hbe).2.2.2.1
    omega

theorem uncles_consistent_shape {s s1 : Store}
    (h : s1.map PoolBlock.immutable = s.map PoolBlock.immutable)
    (hc : uncles_consistent s) : uncles_consistent s1 := by
  intro b1 hb1 u hu ub1 hub1
  obtain ⟨b, hb, hbe⟩ := shape_mem h b1 hb1
  rw [Option.mem_def] at hub1
  obtain ⟨ub, hub, hube⟩ := agree_found (store_agree_symm (shape_agree h)) u ub1 hub1
  have hu2 : u ∈ b.m_uncles := by
    rw [(immutable_fields hbe).2.2.1]; exact hu
  have := hc b hb u hu2 ub hub
  have h2 := (immutable_fields hube).2.2.2.1
  have h3 := (immutable_fields hbe).2.2.2.1
  omega

/-- Height-consistent references: the block that is named lies one to three heights below the
block that names it, and exactly one below when it is named as the parent. -/
theorem names_heights (s : Store) (hpc : parents_consistent s) (huc : uncles_consistent s)
    (x y : hash) (a c : PoolBlock) (ha : find s x = some a) (hc : find s y = some c)
    (hr : refers c a) :
    a.m_sidechainHeight < c.m_sidechainHeight ∧
    c.m_sidechainHeight ≤ a.m_sidechainHeight + 3 ∧
    (c.m_parent = x → c.m_sidechainHeight = a.m_sidechainHeight + 1) := by
  have hax := find_some_id ha
  have hpar : c.m_parent = x → c.m_sidechainHeight = a.m_sidechainHeight + 1 := by
    intro hp
    have : get_parent s c = some a := by unfold get_parent; rw [hp]; exact ha
    have := hpc c (find_some_mem hc) a this
    omega
  rcases hr with hp | hu
  · have := hpar (by rw [hp, hax])
    omega
  · have hfa : find s a.m_sidechainId = some a := by rw [hax]; exact ha
    have := huc c (find_some_mem hc) a.m_sidechainId hu a hfa
    unfold UNCLE_BLOCK_DEPTH at this
    exact ⟨this.1, this.2, hpar⟩

theorem find_set_depth_ne (s : Store) (id : hash) (d : Nat) (x : hash) (hx : x ≠ id) :
    find (set_depth s id d) x = find s x := by
  rw [find_set_depth]
  cases hf : find s x with
  | none => rfl
  | some b =>
    have := find_some_id hf
    simp only [Option.map_some', Option.some.injEq]
    rw [if_neg (by rw [this]; exact hx)]

theorem find_set_depth_self (s : Store) (id : hash) (d : Nat) (a : PoolBlock)
    (ha : find s id = some a) :
    find (set_depth s id d) id = some { a with m_depth := d } := by
  rw [find_set_depth, ha]
  simp only [Option.map_some', Option.some.injEq]
  rw [if_pos (find_some_id ha)]

theorem set_depth_agree (s : Store) (id : hash) (d : Nat) :
    store_agree (set_depth s id d) s := shape_agree (set_depth_shape s id d)

/-- Raising (or setting) the depth of one block keeps the depths attained, if the new depth
of that block is attained. -/
theorem sound_set_depth (s : Store) (id : hash) (d : Nat) (hs : sound_depths s)
    (hnew : ∀ a, find s id = some a →
      ∃ y e, reaches s id y ∧ find s y = some e ∧
        e.m_sidechainHeight = a.m_sidechainHeight + d) :
    sound_depths (set_depth s id d) := by
  intro x a1 ha1
  have lift : ∀ (top : Nat), (∃ y e, reaches s x y ∧ find s y = some e ∧
      e.m_sidechainHeight = top) →
      ∃ y e, reaches (set_depth s id d) x y ∧ find (set_depth s id d) y = some e ∧
        e.m_sidechainHeight = top := by
    rintro top ⟨y, e, hr, he, hh⟩
    obtain ⟨e1, he1, hee⟩ := agree_found (set_depth_agree s id d) y e he
    refine ⟨y, e1, reaches_agree (set_depth_agree s id d) x y hr, he1, ?_⟩
    rw [(immutable_fields hee).2.2.2.1]
    exact hh
  by_cases hx : x = id
  · subst hx
    cases ha : find s x with
    | none =>
      rw [find_set_depth, ha] at ha1
      cases ha1
    | some a =>
      rw [find_set_depth_self s x d a ha] at ha1
      cases ha1
      exact lift _ (hnew a ha)
  · rw [find_set_depth_ne s id d x hx] at ha1
    exact lift _ (hs x a1 ha1)

/-- Closed references bound every descendant, attained depths give one at the bound: the
depth of a stored block is then the longest distance to a descendant. -/
theorem depth_exact_of_closed (s : Store) (hcl : closed_edges s []) (hs : sound_depths s)
    (x : hash) (b : PoolBlock) (hb : find s x = some b) : depth_exact s b := by
  have hbid : find s b.m_sidechainId = some b := by rw [find_some_id hb]; exact hb
  constructor
  · intro d hd
    have key : find s d.m_sidechainId = some d ∧ reach d ≤ reach b := by
      induction hd with
      | refl => exact ⟨hbid, Nat.le_refl _⟩
      | @tail c e _ hce ih =>
        obtain ⟨hfe, hr⟩ := hce
        rcases hcl c.m_sidechainId e.m_sidechainId c e ih.1 hfe hr with h | h
        · exact ⟨hfe, Nat.le_trans h ih.2⟩
        · cases h
    have := key.2
    unfold reach at this
    omega
  · obtain ⟨y, d, hr, hd, hh⟩ := hs x b hb
    refine ⟨d, ?_, hh⟩
    have key : ∀ y, reaches s x y → ∀ d, find s y = some d → Descends s b d := by
      intro y hr
      induction hr with
      | refl =>
        intro d hd
        rw [hb] at hd
        cases hd
        exact Relation.ReflTransGen.refl
      | @tail z w _ hzw ih =>
        intro d hd
        obtain ⟨a, c, ha, hc, hrf⟩ := hzw
        rw [hd] at hc
        cases hc
        have hdid : find s d.m_sidechainId = some d := by rw [find_some_id hd]; exact hd
        exact (ih a ha).tail ⟨hdid, hrf⟩
    exact key y hr d hd


theorem settled_set_depth (s : Store) (id : hash) (d : Nat) (hs : settled s)
    (hnew : ∀ a, find s id = some a →
      ∃ y e, reaches s id y ∧ find s y = some e ∧
        e.m_sidechainHeight = a.m_sidechainHeight + d) :
    settled (set_depth s id d) := by
  obtain ⟨hpc, huc, hh, hsd⟩ := hs
  refine ⟨parents_consistent_shape (set_depth_shape s id d) hpc,
    uncles_consistent_shape (set_depth_shape s id d) huc, ?_, sound_set_depth s id d hsd hnew⟩
  intro x b hb
  obtain ⟨b0, hb0, hbe⟩ := agree_found (store_agree_symm (set_depth_agree s id d)) x b hb
  rw [← (immutable_fields hbe).2.2.2.1]
  exact hh x b0 hb0

/-- A depth that is attained stays below `2^64` with the heights. -/
theorem reach_lt (s : Store) (hs : settled s) (x : hash) (a : PoolBlock)
    (ha : find s x = some a) : reach a < 2 ^ 64 := by
  obtain ⟨y, d, _, hd, hh⟩ := hs.2.2.2 x a ha
  rw [← hh]
  exact hs.2.2.1 y d hd

/-- The block `b` of id `block_id` hands its reach down to a block it names. -/
theorem attained_through (s : Store) (hs : settled s) (block_id x : hash) (b a : PoolBlock)
    (hb : find s block_id = some b) (ha : find s x = some a) (hr : refers b a) :
    ∃ y e, reaches s x y ∧ find s y = some e ∧ e.m_sidechainHeight = reach b := by
  obtain ⟨y, e, hre, he, hh⟩ := hs.2.2.2 block_id b hb
  exact ⟨y, e, Relation.ReflTransGen.head ⟨a, b, ha, hb, hr⟩ hre, he, hh⟩

/-- The parent part of the body of the work-list loop: afterwards the reference of the block
to its parent is settled; its references to uncles may still be open. -/
theorem update_depths_parent_closed (s : Store) (block_id : hash) (b : PoolBlock)
    (stack : List hash) (hs : settled s) (hb : find s block_id = some b)
    (hcl : closed_edges s (block_id :: stack)) :
    settled (update_depths_parent s b stack).1 ∧
    find (update_depths_parent s b stack).1 block_id = some b ∧
    ∀ x y a c, find (update_depths_parent s b stack).1 x = some a →
      find (update_depths_parent s b stack).1 y = some c → refers c a →
      reach c ≤ reach a ∨ y ∈ (update_depths_parent s b stack).2 ∨
        (y = block_id ∧ x ∈ b.m_uncles) := by
  have hbid := find_some_id hb
  have hold : ∀ x y a c, find s x = some a → find s y = some c → refers c a →
      x ≠ b.m_parent → reach c ≤ reach a ∨ y ∈ stack ∨ (y = block_id ∧ x ∈ b.m_uncles) := by
    intro x y a c ha hc hr hx
    rcases hcl x y a c ha hc hr with h | h
    · exact Or.inl h
    · rcases List.mem_cons.1 h with h | h
      · subst h
        rw [hb] at hc
        cases hc
        rcases hr with hp | hu
        · exact absurd (by rw [hp]; exact (find_some_id ha).symm) hx
        · rw [find_some_id ha] at hu
          exact Or.inr (Or.inr ⟨rfl, hu⟩)
      · exact Or.inr (Or.inl h)
  unfold update_depths_parent
  cases hp : find s b.m_parent with
  | none =>
    dsimp only
    refine ⟨hs, hb, ?_⟩
    intro x y a c ha hc hr
    exact hold x y a c ha hc hr (by intro hx; rw [hx, hp] at ha; cases ha)
  | some p =>
    dsimp only
    have hrp : refers b p := Or.inl (find_some_id hp).symm
    have hh := names_heights s hs.1 hs.2.1 b.m_parent block_id p b hp hb hrp
    have hph := hh.2.2 rfl
    have hreach := reach_lt s hs block_id b hb
    have hadd : add64 b.m_depth 1 = b.m_depth + 1 := by
      apply add64_of_lt
      unfold reach at hreach
      omega
    rw [hadd]
    have hne : block_id ≠ b.m_parent := by
      intro h
      rw [← h, hb] at hp
      cases hp
      omega
    split
    · rename_i hlt
      dsimp only
      refine ⟨settled_set_depth s b.m_parent _ hs ?_, ?_, ?_⟩
      · intro a ha
        rw [hp] at ha
        cases ha
        obtain ⟨y, e, hre, he, hhe⟩ := attained_through s hs block_id b.m_parent b p hb hp hrp
        refine ⟨y, e, hre, he, ?_⟩
        rw [hhe]
        unfold reach
        omega
      · rw [find_set_depth_ne s b.m_parent _ block_id hne]
        exact hb
      · intro x y a c ha hc hr
        by_cases hy : y = b.m_parent
        · exact Or.inr (Or.inl (by rw [hy]; exact List.mem_cons_self _ _))
        rw [find_set_depth_ne s b.m_parent _ y hy] at hc
        by_cases hx : x = b.m_parent
        · subst hx
          rw [find_set_depth_self s b.m_parent _ p hp] at ha
          cases ha
          have hr0 : refers c p := hr
          rcases hcl b.m_parent y p c hp hc hr0 with h | h
          · left
            unfold reach at h ⊢
            dsimp only
            omega
          · rcases List.mem_cons.1 h with h | h
            · subst h
              rw [hb] at hc
              cases hc
              left
              unfold reach
              dsimp only
              omega
            · exact Or.inr (Or.inl (List.mem_cons_of_mem _ h))
        · rw [find_set_depth_ne s b.m_parent _ x hx] at ha
          rcases hold x y a c ha hc hr hx with h | h | h
          · exact Or.inl h
          · exact Or.inr (Or.inl (List.mem_cons_of_mem _ h))
          · exact Or.inr (Or.inr h)
    · rename_i hge
      dsimp only
      refine ⟨hs, hb, ?_⟩
      intro x y a c ha hc hr
      by_cases hx : x = b.m_parent
      · subst hx
        rw [hp] at ha
        cases ha
        rcases hcl b.m_parent y p c hp hc hr with h | h
        · exact Or.inl h
        · rcases List.mem_cons.1 h with h | h
          · subst h
            rw [hb] at hc
            cases hc
            left
            unfold reach
            omega
          · exact Or.inr (Or.inl h)
      · exact hold x y a c ha hc hr hx

/-- The uncle part of the body of the work-list loop settles the references of the block to
the uncles it runs over. -/
theorem update_depths_uncles_closed (block_id : hash) (b : PoolBlock) :
    ∀ (us : List hash) (s : Store) (stack : List hash) (r : Store × List hash),
      settled s → find s block_id = some b → (∀ u ∈ us, u ∈ b.m_uncles) →
      (∀ x y a c, find s x = some a → find s y = some c → refers c a →
        reach c ≤ reach a ∨ y ∈ stack ∨ (y = block_id ∧ x ∈ us)) →
      update_depths_uncles s block_id us stack = some r →
      settled r.1 ∧ closed_edges r.1 r.2
  | [], s, stack, r, hs, _, _, hcl, h => by
    simp only [update_depths_uncles, Option.some.injEq] at h
    subst h
    refine ⟨hs, ?_⟩
    intro x y a c ha hc hr
    rcases hcl x y a c ha hc hr with h | h | ⟨_, h⟩
    · exact Or.inl h
    · exact Or.inr h
    · cases h
  | u :: rest, s, stack, r, hs, hb, hus, hcl, h => by
    rw [update_depths_uncles, hb] at h
    dsimp only at h
    have hrest : ∀ v ∈ rest, v ∈ b.m_uncles := fun v hv => hus v (List.mem_cons_of_mem _ hv)
    cases hu : find s u with
    | none =>
      rw [hu] at h
      dsimp only at h
      apply update_depths_uncles_closed block_id b rest s stack r hs hb hrest _ h
      intro x y a c ha hc hr
      rcases hcl x y a c ha hc hr with h1 | h1 | ⟨h1, h2⟩
      · exact Or.inl h1
      · exact Or.inr (Or.inl h1)
      · rcases List.mem_cons.1 h2 with h2 | h2
        · rw [h2, hu] at ha; cases ha
        · exact Or.inr (Or.inr ⟨h1, h2⟩)
    | some uncle =>
      rw [hu] at h
      dsimp only at h
      have hru : refers b uncle := by
        right
        rw [find_some_id hu]
        exact hus u (List.mem_cons_self _ _)
      have hh := names_heights s hs.1 hs.2.1 u block_id uncle b hu hb hru
      have hbh := hs.2.2.1 block_id b hb
      have hsub : sub64 b.m_sidechainHeight uncle.m_sidechainHeight =
          b.m_sidechainHeight - uncle.m_sidechainHeight := by
        have huh := hs.2.2.1 u uncle hu
        unfold sub64
        omega
      have hreach := reach_lt s hs block_id b hb
      have hadd : add64 b.m_depth (b.m_sidechainHeight - uncle.m_sidechainHeight) =
          b.m_depth + (b.m_sidechainHeight - uncle.m_sidechainHeight) := by
        apply add64_of_lt
        unfold reach at hreach
        omega
      rw [hsub, hadd] at h
      have hne : block_id ≠ u := by
        intro e
        rw [← e, hb] at hu
        cases hu
        omega
      by_cases hlt : uncle.m_depth <
          b.m_depth + (b.m_sidechainHeight - uncle.m_sidechainHeight)
      · rw [if_pos hlt] at h
        apply update_depths_uncles_closed block_id b rest _ _ r _ _ hrest _ h
        · apply settled_set_depth s u _ hs
          intro a ha
          rw [hu] at ha
          cases ha
          obtain ⟨y, e, hre, he, hhe⟩ := attained_through s hs block_id u b uncle hb hu hru
          refine ⟨y, e, hre, he, ?_⟩
          rw [hhe]
          unfold reach
          omega
        · rw [find_set_depth_ne s u _ block_id hne]
          exact hb
        · intro x y a c ha hc hr
          by_cases hy : y = u
          · exact Or.inr (Or.inl (by rw [hy]; exact List.mem_cons_self _ _))
          rw [find_set_depth_ne s u _ y hy] at hc
          by_cases hx : x = u
          · subst hx
            rw [find_set_depth_self s x _ uncle hu] at ha
            cases ha
            have hr0 : refers c uncle := hr
            rcases hcl x y uncle c hu hc hr0 with h1 | h1 | ⟨h1, _⟩
            · left
              unfold reach at h1 ⊢
              dsimp only
              omega
            · exact Or.inr (Or.inl (List.mem_cons_of_mem _ h1))
            · subst h1
              rw [hb] at hc
              cases hc
              left
              unfold reach
              dsimp only
              omega
          · rw [find_set_depth_ne s u _ x hx] at ha
            rcases hcl x y a c ha hc hr with h1 | h1 | ⟨h1, h2⟩
            · exact Or.inl h1
            · exact Or.inr (Or.inl (List.mem_cons_of_mem _ h1))
            · rcases List.mem_cons.1 h2 with h2 | h2
              · exact absurd h2 hx
              · exact Or.inr (Or.inr ⟨h1, h2⟩)
      · rw [if_neg hlt] at h
        apply update_depths_uncles_closed block_id b rest s stack r hs hb hrest _ h
        intro x y a c ha hc hr
        rcases hcl x y a c ha hc hr with h1 | h1 | ⟨h1, h2⟩
        · exact Or.inl h1
        · exact Or.inr (Or.inl h1)
        · rcases List.mem_cons.1 h2 with h2 | h2
          · subst h1
            subst h2
            rw [hb] at hc
            rw [hu] at ha
            cases hc
            cases ha
            left
            unfold reach
            omega
          · exact Or.inr (Or.inr ⟨h1, h2⟩)

/-- The work-list loop of `update_depths` settles every reference: when it returns, no
reference is open any more and every depth is attained. -/
theorem update_depths_loop_closed : ∀ (fuel : Nat) (s : Store) (stack : List hash)
    (s1 : Store), settled s → closed_edges s stack →
    update_depths_loop fuel s stack = some s1 → settled s1 ∧ closed_edges s1 []
  | fuel, s, [], s1, hs, hcl, h => by
    rw [update_depths_loop_nil] at h
    cases h
    exact ⟨hs, hcl⟩
  | 0, s, _ :: _, s1, _, _, h => by simp [update_depths_loop] at h
  | fuel + 1, s, block_id :: stack, s1, hs, hcl, h => by
    rw [update_depths_loop] at h
    cases hb : find s block_id with
    | none => rw [hb] at h; cases h
    | some b =>
      rw [hb] at h
      dsimp only at h
      obtain ⟨hs1, hb1, hcl1⟩ := update_depths_parent_closed s block_id b stack hs hb hcl
      cases hu : update_depths_uncles (update_depths_parent s b stack).1 block_id
          b.m_uncles (update_depths_parent s b stack).2 with
      | none => rw [hu] at h; cases h
      | some r2 =>
        rw [hu] at h
        obtain ⟨hs2, hcl2⟩ := update_depths_uncles_closed block_id b b.m_uncles _ _ r2 hs1 hb1
          (fun u hu => hu) hcl1 hu
        exact update_depths_loop_closed fuel r2.1 r2.2 s1 hs2 hcl2 h


/-- Raising the depth of a block to what one of the blocks that name it asks for keeps the
store settled. -/
theorem settled_raise (s : Store) (block_id y : hash) (b c : PoolBlock) (hs : settled s)
    (hb : find s block_id = some b) (hc : find s y = some c) (hr : refers c b) :
    settled (set_depth s block_id
      (max b.m_depth (c.m_depth + (c.m_sidechainHeight - b.m_sidechainHeight)))) := by
  apply settled_set_depth s block_id _ hs
  intro a ha
  rw [hb] at ha
  cases ha
  have hh := names_heights s hs.1 hs.2.1 block_id y b c hb hc hr
  by_cases hle : c.m_depth + (c.m_sidechainHeight - b.m_sidechainHeight) ≤ b.m_depth
  · rw [Nat.max_eq_left hle]
    exact hs.2.2.2 block_id b hb
  · rw [Nat.max_eq_right (by omega)]
    obtain ⟨z, e, hre, he, hhe⟩ := attained_through s hs y block_id c b hc hb hr
    refine ⟨z, e, hre, he, ?_⟩
    rw [hhe]
    unfold reach
    omega

/-- The body of the first loop of `update_depths` for one child at the height `i` above the
block: only the block changes, its depth does not fall, and if the child names the block,
the block reaches as high as the child afterwards. -/
theorem update_depths_child_closed (s s1 : Store) (block_id : hash) (i : Nat) (child_id : hash)
    (b c : PoolBlock) (hs : settled s) (hb : find s block_id = some b)
    (hc : find s child_id = some c) (hi : 1 ≤ i ∧ i ≤ 3)
    (hch : c.m_sidechainHeight = add64 b.m_sidechainHeight i)
    (h : update_depths_child s block_id i child_id = some s1) :
    settled s1 ∧ (∀ x, x ≠ block_id → find s1 x = find s x) ∧
    ∃ b1, find s1 block_id = some b1 ∧ b1.immutable = b.immutable ∧
      b.m_depth ≤ b1.m_depth ∧ (refers c b → reach c ≤ reach b1) := by
  have hbh := hs.2.2.1 block_id b hb
  have hbid := find_some_id hb
  have hne : child_id ≠ block_id := by
    intro e
    rw [e, hb] at hc
    cases hc
    unfold add64 at hch
    omega
  have hfacts : refers c b →
      c.m_sidechainHeight = b.m_sidechainHeight + i ∧ add64 c.m_depth i = c.m_depth + i ∧
      (c.m_parent = b.m_sidechainId → i = 1) := by
    intro hr
    have hh := names_heights s hs.1 hs.2.1 block_id child_id b c hb hc hr
    have hci : c.m_sidechainHeight = b.m_sidechainHeight + i := by
      unfold add64 at hch
      omega
    have hreach := reach_lt s hs child_id c hc
    refine ⟨hci, ?_, ?_⟩
    · apply add64_of_lt
      unfold reach at hreach
      omega
    · intro hp
      have := hh.2.2 (by rw [hp, hbid])
      omega
  unfold update_depths_child at h
  rw [hb, hc] at h
  dsimp only at h
  by_cases hA : c.m_parent = b.m_sidechainId ∧ i = 1
  · have hrA : refers c b := Or.inl hA.1
    obtain ⟨f1, f2, _⟩ := hfacts hrA
    have hd : add64 c.m_depth 1 =
        c.m_depth + (c.m_sidechainHeight - b.m_sidechainHeight) := by
      rw [← hA.2, f2, f1]
      omega
    rw [if_pos hA, hd, find_set_depth_self s block_id _ b hb,
      find_set_depth_ne s block_id _ child_id hne, hc] at h
    dsimp only at h
    have hs1 := settled_raise s block_id child_id b c hs hb hc hrA
    by_cases hB : b.m_sidechainId ∈ c.m_uncles
    · rw [if_pos hB] at h
      cases h
      have hd2 : add64 c.m_depth i =
          c.m_depth + (c.m_sidechainHeight - b.m_sidechainHeight) := by
        rw [f2, f1]
        omega
      rw [hd2]
      have hb1 := find_set_depth_self s block_id
        (max b.m_depth (c.m_depth + (c.m_sidechainHeight - b.m_sidechainHeight))) b hb
      have hc1 : find (set_depth s block_id
          (max b.m_depth (c.m_depth + (c.m_sidechainHeight - b.m_sidechainHeight))))
          child_id = some c := by
        rw [find_set_depth_ne s block_id _ child_id hne]; exact hc
      have hs2 := settled_raise _ block_id child_id _ c hs1 hb1 hc1 hrA
      refine ⟨hs2, ?_, _, find_set_depth_self _ block_id _ _ hb1, rfl, ?_, ?_⟩
      · intro x hx
        rw [find_set_depth_ne _ block_id _ x hx, find_set_depth_ne _ block_id _ x hx]
      · dsimp only
        omega
      · intro _
        unfold reach
        dsimp only
        omega
    · rw [if_neg hB] at h
      cases h
      refine ⟨hs1, ?_, _, find_set_depth_self s block_id _ b hb, rfl, ?_, ?_⟩
      · intro x hx
        rw [find_set_depth_ne _ block_id _ x hx]
      · dsimp only
        omega
      · intro _
        unfold reach
        dsimp only
        omega
  · rw [if_neg hA, hb, hc] at h
    dsimp only at h
    by_cases hB : b.m_sidechainId ∈ c.m_uncles
    · have hrB : refers c b := Or.inr hB
      obtain ⟨f1, f2, _⟩ := hfacts hrB
      have hd2 : add64 c.m_depth i =
          c.m_depth + (c.m_sidechainHeight - b.m_sidechainHeight) := by
        rw [f2, f1]
        omega
      rw [if_pos hB, hd2] at h
      cases h
      refine ⟨settled_raise s block_id child_id b c hs hb hc hrB, ?_, _,
        find_set_depth_self s block_id _ b hb, rfl, ?_, ?_⟩
      · intro x hx
        rw [find_set_depth_ne _ block_id _ x hx]
      · dsimp only
        omega
      · intro _
        unfold reach
        dsimp only
        omega
    · rw [if_neg hB] at h
      cases h
      refine ⟨hs, fun _ _ => rfl, b, hb, rfl, Nat.le_refl _, ?_⟩
      intro hr
      rcases hr with hp | hu
      · exact absurd ⟨hp, (hfacts (Or.inl hp)).2.2 hp⟩ hA
      · exact absurd hu hB

/-- One inner loop of the first loop of `update_depths`: afterwards the block reaches as high
as every child of the vector that names it. -/
theorem update_depths_children_closed (block_id : hash) (i : Nat) (hi : 1 ≤ i ∧ i ≤ 3) :
    ∀ (ids : List hash) (s s1 : Store) (b : PoolBlock), settled s →
      find s block_id = some b →
      (∀ y ∈ ids, ∃ c, find s y = some c ∧
        c.m_sidechainHeight = add64 b.m_sidechainHeight i) →
      update_depths_children s block_id i ids = some s1 →
      settled s1 ∧ (∀ x, x ≠ block_id → find s1 x = find s x) ∧
      ∃ b1, find s1 block_id = some b1 ∧ b1.immutable = b.immutable ∧
        b.m_depth ≤ b1.m_depth ∧
        ∀ y ∈ ids, ∀ c, find s y = some c → refers c b → reach c ≤ reach b1
  | [], s, s1, b, hs, hb, _, h => by
    simp only [update_depths_children, Option.some.injEq] at h
    subst h
    exact ⟨hs, fun _ _ => rfl, b, hb, rfl, Nat.le_refl _, fun y hy => by cases hy⟩
  | child_id :: rest, s, s1, b, hs, hb, hids, h => by
    rw [update_depths_children] at h
    cases hch : update_depths_child s block_id i child_id with
    | none => rw [hch] at h; cases h
    | some s2 =>
      rw [hch] at h
      dsimp only at h
      obtain ⟨c, hc, hcheight⟩ := hids child_id (List.mem_cons_self _ _)
      obtain ⟨hs2, hkeep2, b2, hb2, hbe2, hd2, hcl2⟩ :=
        update_depths_child_closed s s2 block_id i child_id b c hs hb hc hi hcheight hch
      have hbh := hs.2.2.1 block_id b hb
      have hh2 : b2.m_sidechainHeight = b.m_sidechainHeight := (immutable_fields hbe2).2.2.2.1
      have hne : ∀ y ∈ child_id :: rest, y ≠ block_id := by
        intro y hy e
        obtain ⟨c1, hc1, hc1h⟩ := hids y hy
        rw [e, hb] at hc1
        cases hc1
        unfold add64 at hc1h
        omega
      obtain ⟨hs3, hkeep3, b3, hb3, hbe3, hd3, hcl3⟩ :=
        update_depths_children_closed block_id i hi rest s2 s1 b2 hs2 hb2
          (by
            intro y hy
            obtain ⟨c1, hc1, hc1h⟩ := hids y (List.mem_cons_of_mem _ hy)
            refine ⟨c1, ?_, ?_⟩
            · rw [hkeep2 y (hne y (List.mem_cons_of_mem _ hy))]; exact hc1
            · rw [hh2]; exact hc1h)
          h
      refine ⟨hs3, ?_, b3, hb3, hbe3.trans hbe2, Nat.le_trans hd2 hd3, ?_⟩
      · intro x hx
        rw [hkeep3 x hx, hkeep2 x hx]
      · intro y hy c1 hc1 hr
        have hh3 : b3.m_sidechainHeight = b2.m_sidechainHeight :=
          (immutable_fields hbe3).2.2.2.1
        rcases List.mem_cons.1 hy with e | hy1
        · subst e
          rw [hc] at hc1
          cases hc1
          have := hcl2 hr
          unfold reach at this ⊢
          omega
        · apply hcl3 y hy1 c1
          · rw [hkeep2 y (hne y hy)]; exact hc1
          · exact refers_immutable hbe2 rfl hr

/-- The first loop of `update_depths` settles the references to the new block: afterwards
only the references the block itself makes may be open. -/
theorem update_depths_init_closed (m : List (Nat × List hash)) (s s1 : Store)
    (block_id : hash) (b : PoolBlock) (hs : settled s) (hb : find s block_id = some b)
    (hl : ∀ e ∈ m, ∀ id ∈ e.2, (find s id).map PoolBlock.m_sidechainHeight = some e.1)
    (hcomp : ∀ x c, find s x = some c → x ∈ bucket m c.m_sidechainHeight)
    (hcl : ∀ x y a c, find s x = some a → find s y = some c → refers c a →
      x ≠ block_id → reach c ≤ reach a ∨ y = block_id)
    (h : update_depths_init m s block_id = some s1) :
    settled s1 ∧ closed_edges s1 [block_id] := by
  have hbucket : ∀ (s2 : Store) (b2 : PoolBlock) (k : Nat),
      (∀ x, x ≠ block_id → find s2 x = find s x) →
      b2.m_sidechainHeight = b.m_sidechainHeight → k ≠ b.m_sidechainHeight →
      ∀ y ∈ bucket m k, ∃ c, find s2 y = some c ∧ c.m_sidechainHeight = k := by
    intro s2 b2 k hkeep _ hk y hy
    obtain ⟨e, he, hek, hye⟩ := mem_bucket m k y hy
    have := hl e he y hye
    cases hf : find s y with
    | none => rw [hf] at this; cases this
    | some c =>
      rw [hf] at this
      simp only [Option.map_some', Option.some.injEq] at this
      have hyne : y ≠ block_id := by
        intro e1
        rw [e1, hb] at hf
        cases hf
        omega
      exact ⟨c, by rw [hkeep y hyne]; exact hf, by omega⟩
  have hbh := hs.2.2.1 block_id b hb
  have hk : ∀ i, 1 ≤ i ∧ i ≤ 3 → add64 b.m_sidechainHeight i ≠ b.m_sidechainHeight := by
    intro i hi
    unfold add64
    omega
  unfold update_depths_init at h
  rw [hb] at h
  dsimp only at h
  cases h1 : update_depths_children s block_id 1
      (bucket m (add64 b.m_sidechainHeight 1)) with
  | none => rw [h1] at h; cases h
  | some s2 =>
    rw [h1] at h
    dsimp only at h
    obtain ⟨hs2, hkeep2, b2, hb2, hbe2, hd2, hcl2⟩ :=
      update_depths_children_closed block_id 1 ⟨by omega, by omega⟩ _ s s2 b hs hb
        (hbucket s b _ (fun _ _ => rfl) rfl (hk 1 ⟨by omega, by omega⟩)) h1
    have hh2 : b2.m_sidechainHeight = b.m_sidechainHeight := (immutable_fields hbe2).2.2.2.1
    cases h2 : update_depths_children s2 block_id 2
        (bucket m (add64 b.m_sidechainHeight 2)) with
    | none => rw [h2] at h; cases h
    | some s3 =>
      rw [h2] at h
      dsimp only at h
      obtain ⟨hs3, hkeep3, b3, hb3, hbe3, hd3, hcl3⟩ :=
        update_depths_children_closed block_id 2 ⟨by omega, by omega⟩ _ s2 s3 b2 hs2 hb2
          (by
            rw [hh2]
            exact hbucket s2 b2 _ hkeep2 hh2 (hk 2 ⟨by omega, by omega⟩)) h2
      have hh3 : b3.m_sidechainHeight = b2.m_sidechainHeight :=
        (immutable_fields hbe3).2.2.2.1
      have hkeep23 : ∀ x, x ≠ block_id → find s3 x = find s x := by
        intro x hx
        rw [hkeep3 x hx, hkeep2 x hx]
      obtain ⟨hs4, hkeep4, b4, hb4, hbe4, hd4, hcl4⟩ :=
        update_depths_children_closed block_id 3 ⟨by omega, by omega⟩ _ s3 s1 b3 hs3 hb3
          (by
            rw [hh3, hh2]
            exact hbucket s3 b3 _ hkeep23 (by rw [hh3, hh2])
              (hk 3 ⟨by omega, by omega⟩)) h
      have hh4 : b4.m_sidechainHeight = b3.m_sidechainHeight :=
        (immutable_fields hbe4).2.2.2.1
      have hkeep : ∀ x, x ≠ block_id → find s1 x = find s x := by
        intro x hx
        rw [hkeep4 x hx, hkeep23 x hx]
      refine ⟨hs4, ?_⟩
      intro x y a c ha hc hr
      by_cases hy : y = block_id
      · exact Or.inr (by rw [hy]; exact List.mem_singleton_self _)
      left
      rw [hkeep y hy] at hc
      by_cases hx : x = block_id
      · subst hx
        rw [hb4] at ha
        cases ha
        have hbe : b4.immutable = b.immutable := hbe4.trans (hbe3.trans hbe2)
        have hr0 : refers c b := refers_immutable hbe.symm rfl hr
        have hh := names_heights s hs.1 hs.2.1 x y b c hb hc hr0
        have hch := hs.2.2.1 y c hc
        have hyb := hcomp y c hc
        have hj : c.m_sidechainHeight = add64 b.m_sidechainHeight 1 ∨
            c.m_sidechainHeight = add64 b.m_sidechainHeight 2 ∨
            c.m_sidechainHeight = add64 b.m_sidechainHeight 3 := by
          unfold add64
          omega
        rcases hj with hj | hj | hj
        · rw [hj] at hyb
          have := hcl2 y hyb c hc hr0
          unfold reach at this ⊢
          omega
        · rw [hj] at hyb
          have := hcl3 y hyb c (by rw [hkeep2 y hy]; exact hc)
            (refers_immutable hbe2 rfl hr0)
          unfold reach at this ⊢
          omega
        · rw [hj] at hyb
          have := hcl4 y hyb c (by rw [hkeep23 y hy]; exact hc)
            (refers_immutable (hbe3.trans hbe2) rfl hr0)
          unfold reach at this ⊢
          omega
      · rw [hkeep x hx] at ha
        rcases hcl x y a c ha hc hr hx with h5 | h5
        · exact h5
        · exact absurd h5 hy


/-! ### Changes of flags leave the depth bookkeeping alone -/

theorem find_map_core (s : Store) (id : hash) :
    find (s.map PoolBlock.core) id = (find s id).map PoolBlock.core := by
  unfold find
  rw [List.find?_map]
  rfl

theorem core_fields {a a1 : PoolBlock} (h : a.core = a1.core) :
    a.immutable = a1.immutable ∧ a.m_depth = a1.m_depth := by
  have h1 : a.core.immutable = a1.core.immutable := by rw [h]
  have h2 : a.core.m_depth = a1.core.m_depth := by rw [h]
  exact ⟨h1, h2⟩

theorem core_shape {s s1 : Store} (h : s1.map PoolBlock.core = s.map PoolBlock.core) :
    s1.map PoolBlock.immutable = s.map PoolBlock.immutable := by
  have := congrArg (List.map PoolBlock.immutable) h
  simp only [List.map_map] at this
  exact this

theorem core_found {s s1 : Store} (h : s1.map PoolBlock.core = s.map PoolBlock.core)
    (x : hash) (a1 : PoolBlock) (ha : find s1 x = some a1) :
    ∃ a, find s x = some a ∧ a.immutable = a1.immutable ∧ a.m_depth = a1.m_depth := by
  have h1 := find_map_core s1 x
  rw [h, find_map_core, ha] at h1
  cases hf : find s x with
  | none => rw [hf] at h1; simp at h1
  | some a =>
    rw [hf] at h1
    simp only [Option.map_some', Option.some.injEq] at h1
    exact ⟨a, rfl, core_fields h1⟩

theorem closed_edges_core {s s1 : Store} (h : s1.map PoolBlock.core = s.map PoolBlock.core)
    (stack : List hash) (hcl : closed_edges s stack) : closed_edges s1 stack := by
  intro x y a1 c1 ha1 hc1 hr
  obtain ⟨a, ha, hae, had⟩ := core_found h x a1 ha1
  obtain ⟨c, hc, hce, hcd⟩ := core_found h y c1 hc1
  rcases hcl x y a c ha hc (refers_immutable hae hce hr) with h1 | h1
  · left
    unfold reach at h1 ⊢
    rw [← (immutable_fields hae).2.2.2.1, ← (immutable_fields hce).2.2.2.1, ← had, ← hcd]
    exact h1
  · exact Or.inr h1

theorem sound_depths_core {s s1 : Store} (h : s1.map PoolBlock.core = s.map PoolBlock.core)
    (hs : sound_depths s) : sound_depths s1 := by
  intro x a1 ha1
  obtain ⟨a, ha, hae, had⟩ := core_found h x a1 ha1
  obtain ⟨y, d, hr, hd, hh⟩ := hs x a ha
  have hag := shape_agree (core_shape h)
  obtain ⟨d1, hd1, hde⟩ := agree_found hag y d hd
  refine ⟨y, d1, reaches_agree hag x y hr, hd1, ?_⟩
  rw [(immutable_fields hde).2.2.2.1, hh]
  unfold reach
  rw [(immutable_fields hae).2.2.2.1, had]

theorem heights_listed_shape (sc sc1 : SideChain)
    (h : sc1.m_blocksById.map PoolBlock.immutable = sc.m_blocksById.map PoolBlock.immutable)
    (hm : sc1.m_blocksByHeight = sc.m_blocksByHeight) (hl : heights_listed sc) :
    heights_listed sc1 := by
  intro x b1 hb1
  obtain ⟨b, hb, hbe⟩ := agree_found (store_agree_symm (shape_agree h)) x b1 hb1
  rw [hm, ← (immutable_fields hbe).2.2.2.1]
  exact hl x b hb

theorem set_flags_core (s : Store) (id : hash) (v i : Bool) :
    (set_flags s id v i).map PoolBlock.core = s.map PoolBlock.core := by
  unfold set_flags
  rw [List.map_map]
  apply List.map_congr_left
  intro b _
  simp only [Function.comp]
  unfold set_flags_of
  split <;> rfl

theorem set_broadcasted_core (s : Store) (id : hash) :
    (set_broadcasted s id).map PoolBlock.core = s.map PoolBlock.core := by
  unfold set_broadcasted
  rw [List.map_map]
  apply List.map_congr_left
  intro b _
  simp only [Function.comp]
  split <;> rfl

theorem set_want_broadcast_core (s : Store) (id : hash) :
    (set_want_broadcast s id).map PoolBlock.core = s.map PoolBlock.core := by
  unfold set_want_broadcast
  rw [List.map_map]
  apply List.map_congr_left
  intro b _
  simp only [Function.comp]
  split <;> rfl

/-- The loop of `verify_loop` changes flags only. -/
theorem verify_loop_go_core (cfg : Config) (pool : Pool) :
    ∀ (fuel : Nat) (sc : SideChain) (stack : List hash) (highest : Option hash)
      (r : SideChain × Option hash),
      verify_loop_go cfg pool fuel sc stack highest = some r →
      r.1.m_blocksById.map PoolBlock.core = sc.m_blocksById.map PoolBlock.core ∧
      r.1.m_blocksByHeight = sc.m_blocksByHeight
  | fuel, sc, [], highest, r, h => by
    rw [verify_loop_go_nil] at h
    cases h
    exact ⟨rfl, rfl⟩
  | 0, sc, _ :: _, highest, r, h => by simp [verify_loop_go] at h
  | fuel + 1, sc, id :: stack, highest, r, h => by
    rw [verify_loop_go] at h
    cases hf : find sc.m_blocksById id with
    | none => rw [hf] at h; cases h
    | some block =>
      rw [hf] at h
      dsimp only at h
      split at h
      · exact verify_loop_go_core cfg pool fuel sc stack highest r h
      · cases hver : verify cfg sc.m_blocksById block with
        | none => rw [hver] at h; cases h
        | some block1 =>
          rw [hver] at h
          dsimp only at h
          have hstep := set_flags_core sc.m_blocksById id block1.m_verified block1.m_invalid
          split at h
          · obtain ⟨h1, h2⟩ := verify_loop_go_core cfg pool fuel _ stack highest r h
            exact ⟨h1.trans hstep, h2⟩
          · split at h
            · obtain ⟨h1, h2⟩ := verify_loop_go_core cfg pool fuel _ stack highest r h
              exact ⟨h1.trans hstep, h2⟩
            · split at h
              · cases h
              · split at h
                · cases h
                · obtain ⟨h1, h2⟩ := verify_loop_go_core cfg pool fuel _ _ _ r h
                  refine ⟨h1.trans (Eq.trans ?_ hstep), h2⟩
                  dsimp only
                  split
                  · exact set_broadcasted_core _ _
                  · rfl

/-- A call of `update_chain_tip` that leaves no block as high as the prune distance has
changed flags only. -/
theorem update_chain_tip_core (cfg : Config) (pool : Pool) (sc sc1 : SideChain) (id : hash)
    (h : update_chain_tip cfg pool sc id = some sc1) (hlow : unpruned cfg sc1.m_blocksById) :
    sc1.m_blocksById.map PoolBlock.core = sc.m_blocksById.map PoolBlock.core ∧
    sc1.m_blocksByHeight = sc.m_blocksByHeight := by
  have hfin : ∀ (sc2 : SideChain) (block1 : PoolBlock),
      sc2.m_blocksById.map PoolBlock.core = sc.m_blocksById.map PoolBlock.core →
      sc2.m_blocksByHeight = sc.m_blocksByHeight →
      (if (block1.m_wantBroadcast && !block1.m_broadcasted) = true then
          some { sc2 with m_blocksById := set_broadcasted sc2.m_blocksById id }
        else some sc2) = some sc1 →
      sc1.m_blocksById.map PoolBlock.core = sc.m_blocksById.map PoolBlock.core ∧
        sc1.m_blocksByHeight = sc.m_blocksByHeight := by
    intro sc2 block1 h1 h2 h3
    split at h3
    · cases h3
      exact ⟨(set_broadcasted_core _ _).trans h1, h2⟩
    · cases h3
      exact ⟨h1, h2⟩
  unfold update_chain_tip at h
  cases hf : find sc.m_blocksById id with
  | none => rw [hf] at h; cases h
  | some block =>
    rw [hf] at h
    dsimp only at h
    split at h
    · cases h; exact ⟨rfl, rfl⟩
    split at h
    · cases h; exact ⟨rfl, rfl⟩
    split at h
    · cases h
    rename_i tip _
    cases hl : is_longer_chain cfg pool sc.m_blocksById tip (some block) with
    | none => rw [hl] at h; cases h
    | some longer =>
      rw [hl] at h
      dsimp only at h
      cases longer with
      | false =>
        simp only [Bool.false_eq_true, if_false] at h
        rw [hf] at h
        dsimp only at h
        exact hfin sc block rfl rfl h
      | true =>
        simp only [if_true] at h
        cases hd : get_difficulty cfg sc.m_blocksById block with
        | none =>
          rw [hd] at h
          dsimp only at h
          rw [hf] at h
          dsimp only at h
          exact hfin sc block rfl rfl h
        | some diff =>
          rw [hd] at h
          dsimp only at h
          cases hp : prune_old_blocks cfg
              { sc with
                m_chainTip := some id
                m_curDifficulty := diff
                m_blocksById := set_want_broadcast sc.m_blocksById id } with
          | none => rw [hp] at h; cases h
          | some sc2 =>
            rw [hp] at h
            dsimp only at h
            cases hf2 : find sc2.m_blocksById id with
            | none => rw [hf2] at h; cases h
            | some block1 =>
              rw [hf2] at h
              dsimp only at h
              obtain ⟨_, hkeep, hsame⟩ := prune_old_blocks_cases cfg _ sc2 hp
              have hfw : find (set_want_broadcast sc.m_blocksById id) id = some block1 := by
                rcases hkeep id with h1 | h1
                · rw [← h1]; exact hf2
                · rw [hf2] at h1; cases h1
              have hheight : block1.m_sidechainHeight < prune_distance cfg := by
                split at h
                · cases h
                  have hfb : find (set_broadcasted sc2.m_blocksById id) id =
                      some { block1 with m_broadcasted := true } := by
                    rw [find_set_broadcasted, hf2]
                    simp only [Option.map_some']
                    rw [if_pos (find_some_id hf2)]
                  exact hlow { block1 with m_broadcasted := true } (find_some_mem hfb)
                · cases h
                  exact hlow _ (find_some_mem hf2)
              have hsc2 := hsame id block1 rfl hfw hheight
              rw [hsc2] at h
              exact hfin
                { sc with
                  m_chainTip := some id
                  m_curDifficulty := diff
                  m_blocksById := set_want_broadcast sc.m_blocksById id }
                block1 (set_want_broadcast_core _ _) rfl h


/-! ### One call of `add_block` -/

/-- The vectors after `push_back`: the id is appended to the vector of its height. -/
theorem bucket_push_eq (m : List (Nat × List hash)) (h : Nat) (id : hash) (k : Nat) :
    bucket (bucket_push m h id) k = if k = h then bucket m h ++ [id] else bucket m k := by
  unfold bucket_push
  by_cases hany : m.any (fun e => decide (e.1 = h)) = true
  · rw [if_pos hany]
    unfold bucket
    rw [List.find?_map]
    have hcomp : ((fun e : Nat × List hash => decide (e.1 = k)) ∘
        fun e : Nat × List hash => if e.1 = h then (e.1, e.2 ++ [id]) else e) =
        fun e : Nat × List hash => decide (e.1 = k) := by
      funext e
      simp only [Function.comp]
      split <;> rfl
    rw [hcomp]
    by_cases hk : k = h
    · subst hk
      rw [if_pos rfl]
      cases hf : m.find? (fun e => decide (e.1 = k)) with
      | none =>
        exfalso
        rw [List.find?_eq_none] at hf
        rw [List.any_eq_true] at hany
        obtain ⟨e, he, hek⟩ := hany
        exact hf e he hek
      | some e =>
        have := List.find?_some hf
        simp only [decide_eq_true_eq] at this
        simp only [Option.map_some']
        rw [if_pos this]
    · rw [if_neg hk]
      cases hf : m.find? (fun e => decide (e.1 = k)) with
      | none => rfl
      | some e =>
        have := List.find?_some hf
        simp only [decide_eq_true_eq] at this
        simp only [Option.map_some']
        rw [if_neg (by omega)]
  · rw [if_neg hany]
    unfold bucket
    rw [List.find?_append]
    cases hf : m.find? (fun e => decide (e.1 = k)) with
    | some e =>
      have hek := List.find?_some hf
      simp only [decide_eq_true_eq] at hek
      have hmem := List.mem_of_find?_eq_some hf
      have hk : k ≠ h := by
        intro e1
        apply hany
        rw [List.any_eq_true]
        exact ⟨e, hmem, by simp only [decide_eq_true_eq]; omega⟩
      rw [if_neg hk]
      rfl
    | none =>
      simp only [Option.none_or, List.find?_cons, List.find?_nil]
      by_cases hk : k = h
      · subst hk
        simp [hf]
      · have : ¬ h = k := fun e => hk e.symm
        simp [hk, this]

theorem find_append_cases (s : Store) (block : PoolBlock) (x : hash) (b : PoolBlock)
    (h : find (s ++ [block]) x = some b) :
    find s x = some b ∨ (x = block.m_sidechainId ∧ b = block) := by
  cases hx : find s x with
  | some b0 =>
    rw [find_append_of_some s block b0 x hx] at h
    exact Or.inl h
  | none =>
    rw [find_append_of_none s block x hx] at h
    split at h
    · rename_i hid
      cases h
      exact Or.inr ⟨hid.symm, rfl⟩
    · cases h

theorem find_append_old (s : Store) (block : PoolBlock) (x : hash) (b : PoolBlock)
    (h : find (s ++ [block]) x = some b)
    (hx : x ≠ block.m_sidechainId) : find s x = some b := by
  rcases find_append_cases s block x b h with h1 | ⟨h1, _⟩
  · exact h1
  · exact absurd h1 hx

theorem names_append (s : Store) (block : PoolBlock) (x y : hash) (h : names s x y) :
    names (s ++ [block]) x y := by
  obtain ⟨a, c, ha, hc, hr⟩ := h
  exact ⟨a, c, find_append_of_some s block a x ha, find_append_of_some s block c y hc, hr⟩

/-- What a call of `add_block` with a new block does to the depths, when it leaves no block
as high as the prune distance: `update_depths` on the store with the block appended, then
changes of flags only. -/
theorem add_block_depth_cases (cfg : Config) (pool : Pool) (fuel : Nat) (sc sc1 : SideChain)
    (block : PoolBlock) (h : add_block cfg pool fuel sc block = some sc1)
    (hf : find sc.m_blocksById block.m_sidechainId = none)
    (hlow : unpruned cfg sc1.m_blocksById) :
    ∃ s1, update_depths fuel
        (bucket_push sc.m_blocksByHeight block.m_sidechainHeight block.m_sidechainId)
        (sc.m_blocksById ++ [block]) block.m_sidechainId = some s1 ∧
      sc1.m_blocksById.map PoolBlock.core = s1.map PoolBlock.core ∧
      sc1.m_blocksByHeight =
        bucket_push sc.m_blocksByHeight block.m_sidechainHeight block.m_sidechainId := by
  unfold add_block at h
  rw [hf] at h
  dsimp only at h
  cases hu : update_depths fuel
      (bucket_push sc.m_blocksByHeight block.m_sidechainHeight block.m_sidechainId)
      (sc.m_blocksById ++ [block]) block.m_sidechainId with
  | none => rw [hu] at h; cases h
  | some s1 =>
    rw [hu] at h
    dsimp only at h
    refine ⟨s1, rfl, ?_⟩
    split at h
    · split at h
      · exact update_chain_tip_core cfg pool _ sc1 _ h hlow
      · cases h
        exact ⟨rfl, rfl⟩
    · unfold verify_loop at h
      cases hg : verify_loop_go cfg pool fuel
          { sc with
            m_blocksById := s1
            m_blocksByHeight :=
              bucket_push sc.m_blocksByHeight block.m_sidechainHeight block.m_sidechainId }
          [block.m_sidechainId] none with
      | none => rw [hg] at h; cases h
      | some r =>
        rw [hg] at h
        obtain ⟨h1, h2⟩ := verify_loop_go_core cfg pool fuel _ _ _ r hg
        obtain ⟨sc2, highest⟩ := r
        cases highest with
        | none =>
          dsimp only at h
          cases h
          exact ⟨h1, h2⟩
        | some hb =>
          dsimp only at h
          obtain ⟨h3, h4⟩ := update_chain_tip_core cfg pool sc2 sc1 hb h hlow
          exact ⟨h3.trans h1, h4.trans h2⟩

/-- The depth bookkeeping of a state: every stored block is listed under its height, every
reference is settled and every depth is attained. -/
theorem fresh_step_settled (cfg : Config) (pool : Pool) (sc sc1 : SideChain)
    (hstep : FreshStep cfg pool sc sc1) (hl : listed_stored sc)
    (hlow1 : unpruned cfg sc1.m_blocksById) (hpc1 : parents_consistent sc1.m_blocksById)
    (huc1 : uncles_consistent sc1.m_blocksById)
    (ih : unpruned cfg sc.m_blocksById → parents_consistent sc.m_blocksById →
      uncles_consistent sc.m_blocksById →
      heights_listed sc ∧ closed_edges sc.m_blocksById [] ∧ sound_depths sc.m_blocksById) :
    heights_listed sc1 ∧ closed_edges sc1.m_blocksById [] ∧
      sound_depths sc1.m_blocksById := by
  obtain ⟨fuel, block, hd0, hadd⟩ := hstep
  cases hf : find sc.m_blocksById block.m_sidechainId with
  | some b0 =>
    unfold add_block at hadd
    rw [hf] at hadd
    cases hadd
    exact ih hlow1 hpc1 huc1
  | none =>
    obtain ⟨s1, hu, hcore, hbh⟩ := add_block_depth_cases cfg pool fuel sc sc1 block hadd hf hlow1
    have ht := update_depths_touches cfg fuel _ _ s1 _ hu
    have hshape : sc1.m_blocksById.map PoolBlock.immutable =
        (sc.m_blocksById ++ [block]).map PoolBlock.immutable :=
      (core_shape hcore).trans (touches_shape cfg ht).1
    have hlow0 : unpruned cfg (sc.m_blocksById ++ [block]) :=
      shape_low (prune_distance cfg) hshape.symm hlow1
    have hpc0 := parents_consistent_shape hshape.symm hpc1
    have huc0 := uncles_consistent_shape hshape.symm huc1
    have hlow : unpruned cfg sc.m_blocksById :=
      fun b hb => hlow0 b (List.mem_append_left _ hb)
    have hpc : parents_consistent sc.m_blocksById := by
      intro b hb p hp
      apply hpc0 b (List.mem_append_left _ hb) p
      rw [Option.mem_def] at hp ⊢
      unfold get_parent at hp ⊢
      exact find_append_of_some _ block p _ hp
    have huc : uncles_consistent sc.m_blocksById := by
      intro b hb u hu1 ub hub
      apply huc0 b (List.mem_append_left _ hb) u hu1 ub
      rw [Option.mem_def] at hub ⊢
      exact find_append_of_some _ block ub _ hub
    obtain ⟨hhl, hcl, hsd⟩ := ih hlow hpc huc
    have hpd : prune_distance cfg < 2 ^ 64 := by
      unfold prune_distance
      exact add64_lt _ _
    have hs0 : settled (sc.m_blocksById ++ [block]) := by
      refine ⟨hpc0, huc0, ?_, ?_⟩
      · intro x b hb
        have := hlow0 b (find_some_mem hb)
        omega
      · intro x a ha
        rcases find_append_cases _ block x a ha with h1 | ⟨h1, h2⟩
        · obtain ⟨y, d, hr, hd, hh⟩ := hsd x a h1
          exact ⟨y, d, Relation.ReflTransGen.mono (names_append _ block) hr,
            find_append_of_some _ block d y hd, hh⟩
        · subst h2
          refine ⟨x, a, Relation.ReflTransGen.refl, ha, ?_⟩
          unfold reach
          rw [hd0]
          rfl
    have hl0 := listed_stored_push sc block hf hl
    have hcomp : ∀ x c, find (sc.m_blocksById ++ [block]) x = some c →
        x ∈ bucket (bucket_push sc.m_blocksByHeight block.m_sidechainHeight
          block.m_sidechainId) c.m_sidechainHeight := by
      intro x c hc
      rw [bucket_push_eq]
      rcases find_append_cases _ block x c hc with h1 | ⟨h1, h2⟩
      · have := hhl x c h1
        split
        · rename_i hk
          rw [← hk]
          exact List.mem_append_left _ this
        · exact this
      · subst h2
        rw [if_pos rfl, h1]
        exact List.mem_append_right _ (List.mem_singleton_self _)
    have hcl0 : ∀ x y a c, find (sc.m_blocksById ++ [block]) x = some a →
        find (sc.m_blocksById ++ [block]) y = some c → refers c a →
        x ≠ block.m_sidechainId → reach c ≤ reach a ∨ y = block.m_sidechainId := by
      intro x y a c ha hc hr hx
      by_cases hy : y = block.m_sidechainId
      · exact Or.inr hy
      · rcases hcl x y a c (find_append_old _ block x a ha hx)
          (find_append_old _ block y c hc hy) hr with h1 | h1
        · exact Or.inl h1
        · cases h1
    have hb0 : find (sc.m_blocksById ++ [block]) block.m_sidechainId = some block := by
      rw [find_append_of_none _ block _ hf, if_pos rfl]
    unfold update_depths at hu
    cases hi : update_depths_init
        (bucket_push sc.m_blocksByHeight block.m_sidechainHeight block.m_sidechainId)
        (sc.m_blocksById ++ [block]) block.m_sidechainId with
    | none => rw [hi] at hu; cases hu
    | some s2 =>
      rw [hi] at hu
      dsimp only at hu
      obtain ⟨hs2, hcl2⟩ := update_depths_init_closed _ _ s2 block.m_sidechainId block hs0 hb0
        hl0 hcomp hcl0 hi
      obtain ⟨hs3, hcl3⟩ := update_depths_loop_closed fuel s2 [block.m_sidechainId] s1 hs2
        hcl2 hu
      refine ⟨?_, closed_edges_core hcore [] hcl3, sound_depths_core hcore hs3.2.2.2⟩
      exact heights_listed_shape
        { sc with
          m_blocksById := sc.m_blocksById ++ [block]
          m_blocksByHeight :=
            bucket_push sc.m_blocksByHeight block.m_sidechainHeight block.m_sidechainId }
        sc1 hshape hbh hcomp

/-- Depth is the longest distance while nothing was pruned.  In every state reached through
calls of `add_block` with blocks of depth 0 in whose store no block is as high as the prune
distance and all parent and uncle references are height-consistent, the depth of every
stored block is the longest distance from it to a descendant in the store: no descendant
is more than `m_depth` heights above the block, and one (the block itself when the depth is
0) is exactly `m_depth` heights above it. -/
theorem depth_exact_unpruned (cfg : Config) (pool : Pool) (sc : SideChain)
    (hreach : FreshReachable cfg pool sc) (hlow : unpruned cfg sc.m_blocksById)
    (hpc : parents_consistent sc.m_blocksById) (huc : uncles_consistent sc.m_blocksById) :
    ∀ id b, find sc.m_blocksById id = some b → depth_exact sc.m_blocksById b := by
  have key : heights_listed sc ∧ closed_edges sc.m_blocksById [] ∧
      sound_depths sc.m_blocksById := by
    induction hreach with
    | refl =>
      refine ⟨?_, ?_, ?_⟩
      · intro x b hb
        cases hb
      · intro x y a c ha
        cases ha
      · intro x a ha
        cases ha
    | @tail sc0 sc2 hprev hstep ih =>
      exact fresh_step_settled cfg pool sc0 sc2 hstep
        (listed_stored_reachable cfg pool sc0 (fresh_reachable_reachable cfg pool sc0 hprev))
        hlow hpc huc ih
  intro id b hb
  exact depth_exact_of_closed sc.m_blocksById key.2.1 key.2.2 id b hb

theorem paid_state_fresh : FreshReachable default_config idle_pool paid_state :=
  have h1 : FreshStep default_config idle_pool (empty_sidechain default_config)
      (first_tip { new_genesis with m_verified := true } { lo := 1000, hi := 0 }) :=
    ⟨1, new_genesis, rfl, by decide⟩
  have h2 : FreshStep default_config idle_pool
      (first_tip { new_genesis with m_verified := true } { lo := 1000, hi := 0 })
      paid_state :=
    ⟨2, paid_block, rfl, by decide⟩
  (Relation.ReflTransGen.single h1).tail h2

theorem depth_exact_unpruned_witness :
    (find paid_state.m_blocksById 1).map PoolBlock.m_depth = some 1 ∧
    ∀ id b, find paid_state.m_blocksById id = some b →
      depth_exact paid_state.m_blocksById b :=
  ⟨by decide,
    depth_exact_unpruned default_config idle_pool paid_state paid_state_fresh (by decide)
      (by decide) (by decide)⟩


/-! ## Theorems: `verify` when `get_shares` fails -/

/-- C30 (amended): in a store whose parent references go down in height, `verify` returns on
a block of non-zero height and depth below `W` for which `get_shares` fails, and it leaves
the block marked invalid, or else unverified with a parent or uncle of the block itself
missing from the store or not yet verified; when the parent and the uncles of the block are
all stored and verified, the block is marked invalid. -/
theorem verify_get_shares_failure (cfg : Config) (s : Store) (block : PoolBlock)
    (hdesc : parents_descending s)
    (hh : block.m_sidechainHeight ≠ 0)
    (hd : block.m_depth < cfg.m_chainWindowSize)
    (hw : cfg.m_chainWindowSize < 2 ^ 63)
    (hshares : get_shares cfg s block = none) :
    ∃ b1, verify cfg s block = some b1 ∧
      (b1.m_invalid = true ∨
        (b1.m_verified = false ∧
          ∃ id ∈ block.m_parent :: block.m_uncles,
            find s id = none ∨ ∃ b, find s id = some b ∧ b.m_verified = false)) ∧
      ((∀ id ∈ block.m_parent :: block.m_uncles,
          ∃ b, find s id = some b ∧ b.m_verified = true) → b1.m_invalid = true) := by
  obtain ⟨b1, hver⟩ := verify_returns cfg s hdesc block
    (fun shares hs => by rw [hshares] at hs; cases hs)
  have hcases : b1.m_invalid = true ∨
      (b1.m_verified = false ∧
        ∃ id ∈ block.m_parent :: block.m_uncles,
          find s id = none ∨ ∃ b, find s id = some b ∧ b.m_verified = false) := by
    have hpow : (2 : Nat) ^ 64 = 2 * 2 ^ 63 := by norm_num
    unfold verify at hver
    cases hwr : verify_writes cfg s block with
    | none => rw [hwr] at hver; cases hver
    | some w =>
      rw [hwr] at hver
      simp only [Option.map_some', Option.some.injEq] at hver
      subst hver
      have hinv : ∀ w1 : FlagWrite, w1.invalid = some true →
          (w1.apply block).m_invalid = true := by
        intro w1 h1
        simp [FlagWrite.apply, h1]
      have hpend : (write_pending.apply block).m_verified = false := rfl
      unfold verify_writes at hwr
      rw [if_neg hh, if_neg (by rw [Nat.mod_eq_of_lt (by omega)]; omega)] at hwr
      split at hwr
      · cases hwr; exact Or.inl rfl
      cases hp : find s block.m_parent with
      | none =>
        rw [hp] at hwr
        cases hwr
        exact Or.inr ⟨hpend, block.m_parent, List.mem_cons_self _ _, Or.inl hp⟩
      | some parent =>
        rw [hp] at hwr
        dsimp only at hwr
        unfold verify_with_parent at hwr
        split at hwr
        · rename_i hpv
          cases hwr
          refine Or.inr ⟨hpend, block.m_parent, List.mem_cons_self _ _,
            Or.inr ⟨parent, hp, ?_⟩⟩
          cases hv : parent.m_verified with
          | true => rw [hv] at hpv; cases hpv
          | false => rfl
        split at hwr
        · cases hwr; exact Or.inl rfl
        split at hwr
        · cases hwr; exact Or.inl rfl
        split at hwr
        · cases hwr; exact Or.inl rfl
        cases hu : verify_uncles s block parent (mined_blocks s block parent) block.m_uncles
            (parent.m_cumulativeDifficulty.add block.m_difficulty) with
        | none => rw [hu] at hwr; cases hwr
        | some verdict =>
          rw [hu] at hwr
          cases verdict with
          | invalid => cases hwr; exact Or.inl rfl
          | pending =>
            cases hwr
            obtain ⟨u, hmem, hcase⟩ := verify_uncles_pending_cause s block parent _ _ _ hu
            exact Or.inr ⟨hpend, u, List.mem_cons_of_mem _ hmem, hcase⟩
          | ok expected =>
            dsimp only at hwr
            left
            apply hinv
            unfold verify_rewards at hwr
            split at hwr
            · cases hwr; rfl
            rw [if_neg (by omega)] at hwr
            cases hdiff : get_difficulty cfg s parent with
            | none => rw [hdiff] at hwr; cases hwr; rfl
            | some diff =>
              rw [hdiff] at hwr
              dsimp only at hwr
              split at hwr
              · cases hwr; rfl
              rw [hshares] at hwr
              cases hwr; rfl
  refine ⟨b1, hver, hcases, ?_⟩
  intro hdeps
  rcases hcases with h | ⟨_, id, hid, hcase⟩
  · exact h
  · obtain ⟨b, hb, hbv⟩ := hdeps id hid
    rcases hcase with hnone | ⟨b2, hb2, hb2v⟩
    · rw [hnone] at hb; cases hb
    · rw [hb2] at hb
      cases hb
      rw [hbv] at hb2v
      cases hb2v

theorem verify_get_shares_failure_witness :
    get_shares default_config [block_1a, block_1b, block_2] block_2 = none ∧
    verify default_config [block_1a, block_1b, block_2] block_2 =
      some { block_2 with m_verified := true, m_invalid := true } ∧
    ∃ b1, verify default_config [block_1a, block_1b, block_2] block_2 = some b1 ∧
      (b1.m_invalid = true ∨
        (b1.m_verified = false ∧
          ∃ id ∈ block_2.m_parent :: block_2.m_uncles,
            find [block_1a, block_1b, block_2] id = none ∨
              ∃ b, find [block_1a, block_1b, block_2] id = some b ∧ b.m_verified = false)) ∧
      ((∀ id ∈ block_2.m_parent :: block_2.m_uncles,
          ∃ b, find [block_1a, block_1b, block_2] id = some b ∧ b.m_verified = true) →
        b1.m_invalid = true) :=
  ⟨by decide, by decide,
    verify_get_shares_failure default_config [block_1a, block_1b, block_2] block_2
      (by decide) (by decide) (by decide) (by decide) (by decide)⟩


end P2Pool
